import Mathlib

/-!
NaviServer connection I/O (`nsd/connio.c`), list utilities (`nsd/lisp.c`)
and socket address masks (`nsd/sockaddr.c`).

A shallow embedding of the per-connection I/O engine of `nsd/connio.c`, of
the sorting and duplicate-removing functions of `nsd/lisp.c` and of the mask
functions of `nsd/sockaddr.c`, together with theorems about them.

Modelling conventions.

* C `int`/`size_t` values are unbounded (`Int`/`Nat`), except for the
  explicit narrowing casts `(int) tocopy` of `ConnCopy` and
  `Ns_ConnCopyToDString`, which are modelled by `intOfSize`, and for the
  statement `reqPtr->avail -= ncopy` of `Ns_ConnCopyToDString`, whose result
  can leave the range of `int` after such a cast and is modelled by
  `wrapInt`; no other claim below depends on wrap-around.
* A byte is a `Nat` (its character code), a byte string is a `List Nat`.
* A non-NULL data pointer is the list of bytes stored from the pointer
  onwards (`some mem`); `NULL` is `none`.  Advancing a pointer by `k` drops
  `k` bytes.
* The collaborators the file calls but does not define (`NsSockSend`,
  `NsSockClose`, `NsTclRunAtClose`, `NsQueueWriter`, `Tcl_UtfToExternal`,
  `Ns_ParseHeader`, the read and write primitives behind a channel, `FILE`
  or descriptor) are arbitrary functions over an abstract world state `ω`,
  collected in `Ext`.  Every call of a collaborator is recorded in a trace.
* Loops that the C code does not bound take a `fuel` argument; `none` means
  that the fuel ran out before the loop ended.
-/

namespace NaviServer

/-! ## Constants -/

/-- Modelled from the spec: the headers that define the status codes are
not among the sources; `NS_OK` and `NS_ERROR` are two distinct integers,
here the customary 0 and -1. -/
def NS_OK : Int := 0
/-- Modelled from the spec: see `NS_OK`. -/
def NS_ERROR : Int := -1
/-- Modelled from the spec: the converter statuses `ok` and
`destination_full` of §6 are two distinct integers, here the values of the
Tcl header. -/
def TCL_OK : Int := 0
/-- Modelled from the spec: see `TCL_OK`. -/
def TCL_CONVERT_NOSPACE : Int := -4

/-- The size of the merged send vector, `NS_CONN_MAXBUFS` (16, as the comment
in `Ns_ConnSend` states). -/
def NS_CONN_MAXBUFS : Nat := 16

/-- The block size `IOBUFSZ` of `connio.c`. -/
def IOBUFSZ : Nat := 2048

/-- Modelled from the spec: the header defining the connection flag bits is
not among the sources; the four flags the engine tests are distinct
single-bit masks. -/
def NS_CONN_CLOSED : Nat := 0x1
/-- Modelled from the spec: see `NS_CONN_CLOSED`. -/
def NS_CONN_KEEPALIVE : Nat := 0x20
/-- Modelled from the spec: see `NS_CONN_CLOSED`. -/
def NS_CONN_WRITE_CHUNKED : Nat := 0x80
/-- Modelled from the spec: see `NS_CONN_CLOSED`. -/
def NS_CONN_SENT_LAST_CHUNK : Nat := 0x100

/-- The C test `flags & mask` (true when the result is non-zero). -/
def flagSet (flags mask : Nat) : Bool := flags &&& mask != 0

/-! ## Data model -/

/-- A `struct iovec`: `iov_base` is `none` for `NULL`, otherwise the memory
from the pointer onwards. -/
structure IoVec where
  iov_base : Option (List Nat)
  iov_len : Nat
deriving DecidableEq, Repr

/-- The `Request` fields the engine uses: the upstream buffer, the offset
`next` of the cursor in it and the count `avail` of unread bytes. -/
structure Request where
  content : List Nat
  next : Int
  avail : Int
deriving DecidableEq, Repr

/-- The `Conn` fields the engine uses.  Pointer fields that are only tested
against `NULL` are booleans (`true` for non-NULL); `maxline` and `maxheaders`
are the driver limits `drvPtr->maxline` and `drvPtr->maxheaders`, `hdrcase`
is `servPtr->opts.hdrcase`. -/
structure Conn where
  sockPtr : Bool
  itPtr : Bool
  encoding : Bool
  flags : Nat
  queued : List Nat
  nContentSent : Int
  reqPtr : Request
  maxline : Int
  maxheaders : Int
  hdrcase : Int
deriving DecidableEq, Repr

/-- One call of a collaborator, with its arguments and its result. -/
inductive Event where
  | sockSend (bufs : List IoVec) (n : Int)
  | sockClose (keep : Int)
  | runAtClose
  | queueWriter (nsend : Int) (status : Int)
  | utfToExternal (src : List Nat) (status : Int) (consumed : Nat) (encoded : List Nat)
  | parseHeader (line : List Nat) (status : Int)
  | srcRead (toread : Nat) (result : Option (List Nat))
  | sinkWrite (data : List Nat) (nwrote : Int)
deriving DecidableEq, Repr

/-- The collaborators, as functions over the world state `ω`.

* `NsSockSend w bufs` is the result of `NsSockSend(sockPtr, bufs, nbufs)`
  (negative for an error) and the new world;
* `NsQueueWriter w nsend` is the status of the writer-queue submission;
* `Tcl_UtfToExternal w src dstLen` is `(status, srcRead, encoded)`;
* `Ns_ParseHeader w line hdrcase` is the parser status;
* `Tcl_Read`, `read` give `none` for `-1` and otherwise the bytes read;
  `fread` gives the bytes read and `ferror` the stream error indicator;
* `Tcl_Write`, `write` give the count written (negative for an error);
  `fwrite` gives the count written. -/
structure Ext (ω : Type) where
  NsSockSend : ω → List IoVec → Int × ω
  NsSockClose : ω → Int → ω
  NsTclRunAtClose : ω → ω
  NsQueueWriter : ω → Int → Int × ω
  Tcl_UtfToExternal : ω → List Nat → Nat → (Int × Nat × List Nat) × ω
  Ns_ParseHeader : ω → List Nat → Int → Int × ω
  Tcl_Read : ω → Nat → Option (List Nat) × ω
  fread : ω → Nat → List Nat × ω
  read : ω → Nat → Option (List Nat) × ω
  Tcl_Write : ω → List Nat → Int × ω
  fwrite : ω → List Nat → Nat × ω
  write : ω → List Nat → Int × ω
  ferror : ω → Bool

/-- A connection, the world of its collaborators and the trace of the
collaborator calls made so far. -/
structure Sys (ω : Type) where
  conn : Conn
  world : ω
  trace : List Event

/-! ## `Ns_ConnSend` -/

/-- The first `for` loop of `Ns_ConnSend`: copy the caller's usable buffers
into `sbufs` while fewer than `NS_CONN_MAXBUFS` slots are used; `n` is the
number of slots already filled. -/
def mergeBufs : List IoVec → Nat → List IoVec
  | [], _ => []
  | b :: bs, n =>
    if n < NS_CONN_MAXBUFS then
      if 0 < b.iov_len ∧ b.iov_base ≠ none then b :: mergeBufs bs (n + 1)
      else mergeBufs bs n
    else []

/-- The value of `towrite` after the vector is built: the sum of the
`iov_len` of its entries. -/
def iovTotal : List IoVec → Int
  | [] => 0
  | b :: bs => (b.iov_len : Int) + iovTotal bs

/-- The inner `for` loop of `Ns_ConnSend`, run after a send of `n` bytes
that left something to write: fully sent entries are nulled, the entry the
send stopped in is advanced.  Returns the vector and the final `n`. -/
def advanceBufs : List IoVec → Int → List IoVec × Int
  | [], n => ([], n)
  | b :: bs, n =>
    if 0 < n then
      if n > (b.iov_len : Int) then
        let r := advanceBufs bs (n - (b.iov_len : Int))
        ({ iov_base := none, iov_len := 0 } :: r.1, r.2)
      else
        ({ iov_base := b.iov_base.map (fun m => m.drop n.toNat),
           iov_len := b.iov_len - n.toNat } :: bs, 0)
    else (b :: bs, n)

/-- The local variables of the send loop, with the world and the trace. -/
structure SendState (ω : Type) where
  world : ω
  trace : List Event
  bufs : List IoVec
  towrite : Int
  nwrote : Int
  n : Int

/-- The loop `while (towrite > 0)` of `Ns_ConnSend`. -/
def sendLoop {ω : Type} (E : Ext ω) : Nat → SendState ω → Option (SendState ω)
  | 0, st => if 0 < st.towrite then none else some st
  | fuel + 1, st =>
    if 0 < st.towrite then
      let r := E.NsSockSend st.world st.bufs
      let tr := st.trace ++ [Event.sockSend st.bufs r.1]
      if r.1 < 0 then
        some { st with world := r.2, trace := tr, n := r.1 }
      else
        if 0 < st.towrite - r.1 then
          let a := advanceBufs st.bufs r.1
          sendLoop E fuel
            { world := r.2, trace := tr, bufs := a.1,
              towrite := st.towrite - r.1, nwrote := st.nwrote + r.1, n := a.2 }
        else
          some { world := r.2, trace := tr, bufs := st.bufs,
                 towrite := st.towrite - r.1, nwrote := st.nwrote + r.1, n := r.1 }
    else some st

/-- The vector `sbufs` that `Ns_ConnSend` builds: the queued output, if any,
then the caller's usable buffers. -/
def sendVector (queued : List Nat) (bufs : List IoVec) : List IoVec :=
  if 0 < queued.length then
    { iov_base := some queued, iov_len := queued.length } :: mergeBufs bufs 1
  else mergeBufs bufs 0

/-- The local variables of `Ns_ConnSend` when it enters its loop. -/
def sendInit {ω : Type} (s : Sys ω) (bufs : List IoVec) : SendState ω :=
  { world := s.world, trace := s.trace, bufs := sendVector s.conn.queued bufs,
    towrite := iovTotal (sendVector s.conn.queued bufs), nwrote := 0, n := 0 }

/-- The part of `Ns_ConnSend` after the loop: account for the bytes written,
trim the queue, and compute the result. -/
def sendFinish {ω : Type} (s : Sys ω) (st : SendState ω) : Int × Sys ω :=
  if 0 < st.nwrote then
    let c := { s.conn with nContentSent := s.conn.nContentSent + st.nwrote }
    if 0 < s.conn.queued.length then
      let n := (s.conn.queued.length : Int) - st.nwrote
      if n ≤ 0 then
        (st.nwrote - (s.conn.queued.length : Int),
          { conn := { c with queued := [] }, world := st.world, trace := st.trace })
      else
        (0,
          { conn := { c with queued := (s.conn.queued.drop st.nwrote.toNat).take n.toNat },
            world := st.world, trace := st.trace })
    else (st.nwrote, { conn := c, world := st.world, trace := st.trace })
  else (st.n, { conn := s.conn, world := st.world, trace := st.trace })

/-- The function `Ns_ConnSend(conn, bufs, nbufs)`; `bufs` holds the `nbufs`
entries of the caller's array.  Returns the C result and the new state. -/
def Ns_ConnSend {ω : Type} (E : Ext ω) (fuel : Nat) (s : Sys ω) (bufs : List IoVec) :
    Option (Int × Sys ω) :=
  if s.conn.sockPtr = false then some (-1, s)
  else
    match sendLoop E fuel (sendInit s bufs) with
    | none => none
    | some st => some (sendFinish s st)

/-! ## `Ns_ConnWrite`, `Ns_WriteConn` and their wrappers -/

/-- The text `sprintf` produces for the conversion `%x`: the lowercase
hexadecimal digits of the argument. -/
def sprintf_x (n : Nat) : List Nat := (Nat.toDigits 16 n).map Char.toNat

/-- The two bytes of the string literal written as CR LF in the source. -/
def CRLF : List Nat := [13, 10]

/-- The function `Ns_ConnWrite(conn, vbuf, towrite)` for a non-negative
`towrite`. -/
def Ns_ConnWrite {ω : Type} (E : Ext ω) (fuel : Nat) (s : Sys ω)
    (vbuf : Option (List Nat)) (towrite : Nat) : Option (Int × Sys ω) :=
  if flagSet s.conn.flags NS_CONN_WRITE_CHUNKED = false then
    Ns_ConnSend E fuel s [{ iov_base := vbuf, iov_len := towrite }]
  else
    let hdr := sprintf_x towrite ++ CRLF
    let buf : List IoVec :=
      [ { iov_base := some hdr, iov_len := hdr.length },
        { iov_base := vbuf, iov_len := towrite },
        { iov_base := some CRLF, iov_len := 2 } ]
    match Ns_ConnSend E fuel s buf with
    | none => none
    | some (nsend, s1) =>
      let nsend1 : Int :=
        if nsend = ((hdr.length + towrite + 2 : Nat) : Int) then (towrite : Int) else nsend
      if towrite = 0 ∧ flagSet s1.conn.flags NS_CONN_WRITE_CHUNKED = true then
        some (nsend1,
          { s1 with conn := { s1.conn with
              flags := s1.conn.flags ||| NS_CONN_SENT_LAST_CHUNK } })
      else some (nsend1, s1)

/-- The function `Ns_WriteConn(conn, buf, len)` for a non-negative `len`. -/
def Ns_WriteConn {ω : Type} (E : Ext ω) (fuel : Nat) (s : Sys ω)
    (buf : Option (List Nat)) (len : Nat) : Option (Int × Sys ω) :=
  match Ns_ConnWrite E fuel s buf len with
  | none => none
  | some (n, s1) => if n ≠ (len : Int) then some (NS_ERROR, s1) else some (NS_OK, s1)

/-- The C function `strlen`: the number of bytes before the first NUL. -/
def strlen (str : List Nat) : Nat := (str.takeWhile (fun b => b != 0)).length

/-- The function `Ns_ConnPuts(conn, string)`. -/
def Ns_ConnPuts {ω : Type} (E : Ext ω) (fuel : Nat) (s : Sys ω) (str : List Nat) :
    Option (Int × Sys ω) :=
  Ns_WriteConn E fuel s (some str) (strlen str)

/-- The function `Ns_ConnSendDString(conn, dsPtr)`. -/
def Ns_ConnSendDString {ω : Type} (E : Ext ω) (fuel : Nat) (s : Sys ω) (ds : List Nat) :
    Option (Int × Sys ω) :=
  Ns_WriteConn E fuel s (some ds) ds.length

/-! ## `Ns_WriteCharConn` -/

/-- The loop `while (utfCount > 0 && status == NS_OK)` of `Ns_WriteCharConn`;
`wfuel` is the fuel of each write. -/
def writeCharLoop {ω : Type} (E : Ext ω) (wfuel : Nat) :
    Nat → Sys ω → Int → Option (List Nat) → Int → Option (Int × Sys ω)
  | 0, s, status, _, utfCount =>
    if 0 < utfCount ∧ status = NS_OK then none else some (status, s)
  | fuel + 1, s, status, utfBytes, utfCount =>
    if 0 < utfCount ∧ status = NS_OK then
      let src := (utfBytes.getD []).take utfCount.toNat
      let r := E.Tcl_UtfToExternal s.world src IOBUFSZ
      let s1 : Sys ω :=
        { s with world := r.2,
                 trace := s.trace ++ [Event.utfToExternal src r.1.1 r.1.2.1 r.1.2.2] }
      if r.1.1 ≠ TCL_OK ∧ r.1.1 ≠ TCL_CONVERT_NOSPACE then some (NS_ERROR, s1)
      else
        match Ns_WriteConn E wfuel s1 (some r.1.2.2) r.1.2.2.length with
        | none => none
        | some (st, s2) =>
          writeCharLoop E wfuel fuel s2 st
            (utfBytes.map (fun m => m.drop r.1.2.1)) (utfCount - (r.1.2.1 : Int))
    else some (status, s)

/-- The function `Ns_WriteCharConn(conn, buf, len)` for a non-negative
`len`.  The call of `Ns_GetConnInterp`, which only supplies the interpreter
argument of the converter, is not modelled. -/
def Ns_WriteCharConn {ω : Type} (E : Ext ω) (fuel : Nat) (s : Sys ω)
    (buf : Option (List Nat)) (len : Nat) : Option (Int × Sys ω) :=
  if s.conn.encoding = false then Ns_WriteConn E fuel s buf len
  else writeCharLoop E fuel fuel s NS_OK buf (len : Int)

/-! ## `Ns_ConnClose` -/

/-- The body of `if (connPtr->sockPtr != NULL)` in `Ns_ConnClose`. -/
def closeSock {ω : Type} (E : Ext ω) (fuel : Nat) (s : Sys ω) : Option (Sys ω) :=
  let keep : Int := if flagSet s.conn.flags NS_CONN_KEEPALIVE = true then 1 else 0
  let w : Option (Int × Sys ω) :=
    if flagSet s.conn.flags NS_CONN_WRITE_CHUNKED = true
        ∧ flagSet s.conn.flags NS_CONN_SENT_LAST_CHUNK = false then
      match Ns_WriteConn E fuel s none 0 with
      | none => none
      | some (st, s1) => some (if st ≠ NS_OK then 0 else keep, s1)
    else some (keep, s)
  match w with
  | none => none
  | some (keep1, s1) =>
    some { conn := { s1.conn with sockPtr := false,
                                  flags := s1.conn.flags ||| NS_CONN_CLOSED },
           world := E.NsSockClose s1.world keep1,
           trace := s1.trace ++ [Event.sockClose keep1] }

/-- The function `Ns_ConnClose(conn)`. -/
def Ns_ConnClose {ω : Type} (E : Ext ω) (fuel : Nat) (s : Sys ω) : Option (Int × Sys ω) :=
  match (if s.conn.sockPtr = true then closeSock E fuel s else some s) with
  | none => none
  | some s1 =>
    if s1.conn.itPtr = true then
      some (NS_OK, { s1 with world := E.NsTclRunAtClose s1.world,
                             trace := s1.trace ++ [Event.runAtClose] })
    else some (NS_OK, s1)

/-- The function `Ns_ConnInit(conn)`. -/
def Ns_ConnInit {ω : Type} (_s : Sys ω) : Int := NS_OK

/-! ## `ConnSend` and the `Ns_ConnSend{Channel,Fp,Fd}` wrappers -/

/-- The read of the `ConnSend` loop: `Tcl_Read` for a channel, else `fread`
followed by the `ferror` test for a `FILE`, else `read`; `none` stands for
`nread == -1`. -/
def srcRead {ω : Type} (E : Ext ω) (w : ω) (chan fp : Bool) (toread : Nat) :
    Option (List Nat) × ω :=
  if chan = true then E.Tcl_Read w toread
  else if fp = true then
    let r := E.fread w toread
    if E.ferror r.2 = true then (none, r.2) else (some r.1, r.2)
  else E.read w toread

/-- The loop `while (status == NS_OK && nsend > 0)` of `ConnSend`; `wfuel` is
the fuel of each write. -/
def connSendLoop {ω : Type} (E : Ext ω) (wfuel : Nat) (chan fp : Bool) :
    Nat → Sys ω → Int → Int → Option (Int × Sys ω)
  | 0, s, status, nsend =>
    if status = NS_OK ∧ 0 < nsend then none else some (status, s)
  | fuel + 1, s, status, nsend =>
    if status = NS_OK ∧ 0 < nsend then
      let toread : Int := if nsend > (IOBUFSZ : Int) then (IOBUFSZ : Int) else nsend
      let r := srcRead E s.world chan fp toread.toNat
      let s1 : Sys ω :=
        { s with world := r.2, trace := s.trace ++ [Event.srcRead toread.toNat r.1] }
      match r.1 with
      | none => connSendLoop E wfuel chan fp fuel s1 NS_ERROR nsend
      | some data =>
        if data.length = 0 then connSendLoop E wfuel chan fp fuel s1 status 0
        else
          match Ns_WriteConn E wfuel s1 (some data) data.length with
          | none => none
          | some (st, s2) =>
            if st = NS_OK then
              connSendLoop E wfuel chan fp fuel s2 st (nsend - (data.length : Int))
            else connSendLoop E wfuel chan fp fuel s2 st nsend
    else some (status, s)

/-- The function `ConnSend(conn, nsend, chan, fp, fd)`; `chan` and `fp` tell
whether the pointer is non-NULL. -/
def ConnSend {ω : Type} (E : Ext ω) (fuel : Nat) (s : Sys ω) (nsend : Int)
    (chan fp : Bool) : Option (Int × Sys ω) :=
  let flushed : Option (Sys ω) :=
    if nsend = 0 then
      match Ns_WriteConn E fuel s none 0 with
      | none => none
      | some (_, s1) => some s1
    else some s
  match flushed with
  | none => none
  | some s1 =>
    let q := E.NsQueueWriter s1.world nsend
    let s2 : Sys ω :=
      { s1 with world := q.2, trace := s1.trace ++ [Event.queueWriter nsend q.1] }
    if q.1 = NS_OK then some (NS_OK, s2)
    else connSendLoop E fuel chan fp fuel s2 NS_OK nsend

/-- The function `Ns_ConnSendChannel(conn, chan, nsend)`. -/
def Ns_ConnSendChannel {ω : Type} (E : Ext ω) (fuel : Nat) (s : Sys ω) (chan : Bool)
    (nsend : Int) : Option (Int × Sys ω) :=
  ConnSend E fuel s nsend chan false

/-- The function `Ns_ConnSendFp(conn, fp, nsend)`. -/
def Ns_ConnSendFp {ω : Type} (E : Ext ω) (fuel : Nat) (s : Sys ω) (fp : Bool)
    (nsend : Int) : Option (Int × Sys ω) :=
  ConnSend E fuel s nsend false fp

/-- The function `Ns_ConnSendFd(conn, fd, nsend)`. -/
def Ns_ConnSendFd {ω : Type} (E : Ext ω) (fuel : Nat) (s : Sys ω)
    (nsend : Int) : Option (Int × Sys ω) :=
  ConnSend E fuel s nsend false false

/-! ## Reading from the request buffer -/

/-- The memory at `reqPtr->next`. -/
def Request.mem (r : Request) : List Nat := r.content.drop r.next.toNat

/-- The statements `next += k; avail -= k`. -/
def Request.advance (r : Request) (k : Int) : Request :=
  { r with next := r.next + k, avail := r.avail - k }

/-- Replace the request of a connection. -/
def Sys.setReq {ω : Type} (s : Sys ω) (r : Request) : Sys ω :=
  { s with conn := { s.conn with reqPtr := r } }

/-- The function `Ns_ConnFlushContent(conn)`. -/
def Ns_ConnFlushContent {ω : Type} (s : Sys ω) : Int × Sys ω :=
  if s.conn.sockPtr = false then (-1, s)
  else
    (NS_OK, s.setReq { s.conn.reqPtr with next := s.conn.reqPtr.next + s.conn.reqPtr.avail,
                                          avail := 0 })

/-- The function `Ns_ConnRead(conn, vbuf, toread)`: the result, the bytes
copied to `vbuf` and the new state. -/
def Ns_ConnRead {ω : Type} (s : Sys ω) (toread : Int) : Int × List Nat × Sys ω :=
  if s.conn.sockPtr = false then (-1, [], s)
  else
    let toread1 : Int := if toread > s.conn.reqPtr.avail then s.conn.reqPtr.avail else toread
    (toread1, s.conn.reqPtr.mem.take toread1.toNat, s.setReq (s.conn.reqPtr.advance toread1))

/-- The function `Ns_ConnGets(buf, bufsize, conn)`; `acc` is the part of
`buf` before `p`.  The result is `none` for `NULL`, otherwise the bytes of
`buf` up to and including the terminating NUL. -/
def Ns_ConnGets_loop {ω : Type} : Nat → Sys ω → List Nat → Option (List Nat) × Sys ω
  | 0, s, acc => (some (acc ++ [0]), s)
  | 1, s, acc => (some (acc ++ [0]), s)
  | bufsize + 2, s, acc =>
    let r := Ns_ConnRead s 1
    if r.1 ≠ 1 then (none, r.2.2)
    else if r.2.1.headD 0 = 10 then (some (acc ++ [r.2.1.headD 0] ++ [0]), r.2.2)
    else Ns_ConnGets_loop (bufsize + 1) r.2.2 (acc ++ [r.2.1.headD 0])

/-- The function `Ns_ConnGets(buf, bufsize, conn)`. -/
def Ns_ConnGets {ω : Type} (bufsize : Nat) (s : Sys ω) : Option (List Nat) × Sys ω :=
  Ns_ConnGets_loop bufsize s []

/-- The C function `strchr`, as the offset of the first `c` in the string
at the pointer; the scan ends at a NUL (or at the end of the modelled
memory). -/
def strchr : List Nat → Nat → Option Nat
  | [], _ => none
  | b :: bs, c =>
    if b = c then some 0
    else if b = 0 then none
    else (strchr bs c).map (fun k => k + 1)

/-- The function `Ns_ConnReadLine(conn, dsPtr, nreadPtr)`: the status, the
dynamic string, the value stored through `nreadPtr` (if any) and the new
state. -/
def Ns_ConnReadLine {ω : Type} (s : Sys ω) (ds : List Nat) :
    Int × List Nat × Option Int × Sys ω :=
  if s.conn.sockPtr = false then (NS_ERROR, ds, none, s)
  else
    match strchr s.conn.reqPtr.mem 10 with
    | none => (NS_ERROR, ds, none, s)
    | some eol =>
      if (eol : Int) > s.conn.maxline then (NS_ERROR, ds, none, s)
      else
        let nread : Int := (eol : Int) + 1
        let ncopy : Nat :=
          if 0 < eol ∧ s.conn.reqPtr.mem.getD (eol - 1) 0 = 13 then eol - 1 else eol
        (NS_OK, ds ++ s.conn.reqPtr.mem.take ncopy, some nread,
          s.setReq (s.conn.reqPtr.advance nread))

/-- The string a `char *` argument denotes: the bytes before the first
NUL. -/
def cstring (str : List Nat) : List Nat := str.takeWhile (fun b => b != 0)

/-- The loop `while (nread < maxhdr && status == NS_OK)` of
`Ns_ConnReadHeaders`; the result is the status, `nread` and the state. -/
def readHeadersLoop {ω : Type} (E : Ext ω) :
    Nat → Sys ω → Int → Int → Option (Int × Int × Sys ω)
  | 0, s, status, nread =>
    if nread < s.conn.maxheaders ∧ status = NS_OK then none else some (status, nread, s)
  | fuel + 1, s, status, nread =>
    if nread < s.conn.maxheaders ∧ status = NS_OK then
      let r := Ns_ConnReadLine s []
      if r.1 = NS_OK then
        let nread1 := nread + r.2.2.1.getD 0
        if nread1 > s.conn.maxheaders then readHeadersLoop E fuel r.2.2.2 NS_ERROR nread1
        else if r.2.1.headD 0 = 0 then some (r.1, nread1, r.2.2.2)
        else
          let p := E.Ns_ParseHeader r.2.2.2.world (cstring r.2.1) s.conn.hdrcase
          readHeadersLoop E fuel
            { r.2.2.2 with world := p.2,
                           trace := r.2.2.2.trace ++ [Event.parseHeader (cstring r.2.1) p.1] }
            p.1 nread1
      else readHeadersLoop E fuel r.2.2.2 r.1 nread
    else some (status, nread, s)

/-- The function `Ns_ConnReadHeaders(conn, set, nreadPtr)`: the status, the
value stored through `nreadPtr` and the new state. -/
def Ns_ConnReadHeaders {ω : Type} (E : Ext ω) (fuel : Nat) (s : Sys ω) :
    Option (Int × Int × Sys ω) :=
  readHeadersLoop E fuel s NS_OK 0

/-- The conversion `(int) tocopy` of a `size_t` to the 32-bit `int`: the
value modulo `2 ^ 32`, read as a two's complement number. -/
def intOfSize (n : Nat) : Int :=
  (((n + 2147483648) % 4294967296 : Nat) : Int) - 2147483648

/-- Modelled from the spec: `Ns_DStringNAppend` is not among the sources; it
appends the first `n` bytes at the pointer to the dynamic string (§4.5), and
for a negative `n`, as the Tcl routine it stands for, the bytes up to the
first NUL. -/
def Ns_DStringNAppend (ds mem : List Nat) (n : Int) : List Nat :=
  if n < 0 then ds ++ cstring mem else ds ++ mem.take n.toNat

/-- The value a 32-bit `int` holds after an arithmetic operation whose
mathematical result is `x`: `x` reduced modulo `2 ^ 32` into the range of
`int` (two's complement wrap-around, which is what the compiled code does
when the result does not fit). -/
def wrapInt (x : Int) : Int := (x + 2147483648) % 4294967296 - 2147483648

/-- The function `Ns_ConnCopyToDString(conn, tocopy, dsPtr)`: the status,
the dynamic string and the new state.  The pointer `next` moves by `ncopy`;
the `int` field `avail` is updated in 32-bit arithmetic. -/
def Ns_ConnCopyToDString {ω : Type} (s : Sys ω) (tocopy : Nat) (ds : List Nat) :
    Int × List Nat × Sys ω :=
  if s.conn.sockPtr = false ∨ s.conn.reqPtr.avail < intOfSize tocopy then (NS_ERROR, ds, s)
  else
    (NS_OK, Ns_DStringNAppend ds s.conn.reqPtr.mem (intOfSize tocopy),
      s.setReq
        { s.conn.reqPtr with
          next := s.conn.reqPtr.next + intOfSize tocopy,
          avail := wrapInt (s.conn.reqPtr.avail - intOfSize tocopy) })

/-- The write of the `ConnCopy` loop: `Tcl_Write` for a channel, else
`fwrite` followed by the `ferror` test for a `FILE`, else `write`. -/
def sinkWrite {ω : Type} (E : Ext ω) (w : ω) (chan fp : Bool) (data : List Nat) : Int × ω :=
  if chan = true then E.Tcl_Write w data
  else if fp = true then
    let r := E.fwrite w data
    if E.ferror r.2 = true then (-1, r.2) else ((r.1 : Int), r.2)
  else E.write w data

/-- The loop `while (ncopy > 0)` of `ConnCopy`. -/
def connCopyLoop {ω : Type} (E : Ext ω) (chan fp : Bool) :
    Nat → Sys ω → Int → Option (Int × Sys ω)
  | 0, s, ncopy => if 0 < ncopy then none else some (NS_OK, s)
  | fuel + 1, s, ncopy =>
    if 0 < ncopy then
      let data := s.conn.reqPtr.mem.take ncopy.toNat
      let r := sinkWrite E s.world chan fp data
      let s1 : Sys ω := { s with world := r.2, trace := s.trace ++ [Event.sinkWrite data r.1] }
      if r.1 < 0 then some (NS_ERROR, s1)
      else connCopyLoop E chan fp fuel (s1.setReq (s1.conn.reqPtr.advance r.1)) (ncopy - r.1)
    else some (NS_OK, s)

/-- The function `ConnCopy(conn, tocopy, chan, fp, fd)`. -/
def ConnCopy {ω : Type} (E : Ext ω) (fuel : Nat) (s : Sys ω) (tocopy : Nat)
    (chan fp : Bool) : Option (Int × Sys ω) :=
  if s.conn.sockPtr = false ∨ s.conn.reqPtr.avail < intOfSize tocopy then some (NS_ERROR, s)
  else connCopyLoop E chan fp fuel s (intOfSize tocopy)

/-- The function `Ns_ConnCopyToChannel(conn, ncopy, chan)`. -/
def Ns_ConnCopyToChannel {ω : Type} (E : Ext ω) (fuel : Nat) (s : Sys ω) (ncopy : Nat)
    (chan : Bool) : Option (Int × Sys ω) :=
  ConnCopy E fuel s ncopy chan false

/-- The function `Ns_ConnCopyToFile(conn, ncopy, fp)`. -/
def Ns_ConnCopyToFile {ω : Type} (E : Ext ω) (fuel : Nat) (s : Sys ω) (ncopy : Nat)
    (fp : Bool) : Option (Int × Sys ω) :=
  ConnCopy E fuel s ncopy false fp

/-- The function `Ns_ConnCopyToFd(conn, ncopy, fd)`. -/
def Ns_ConnCopyToFd {ω : Type} (E : Ext ω) (fuel : Nat) (s : Sys ω) (ncopy : Nat) :
    Option (Int × Sys ω) :=
  ConnCopy E fuel s ncopy false false

/-! ## Vocabulary of the statements -/

/-- The bytes an entry of a send vector denotes: the first `iov_len` bytes
at `iov_base`, nothing for a `NULL` base. -/
def IoVec.bytes (b : IoVec) : List Nat :=
  match b.iov_base with
  | some m => m.take b.iov_len
  | none => []

/-- An entry denotes exactly `iov_len` bytes. -/
def IoVec.exact (b : IoVec) : Prop := b.bytes.length = b.iov_len

/-- The bytes a send vector denotes: those of its entries, in order. -/
def gather : List IoVec → List Nat
  | [] => []
  | b :: bs => b.bytes ++ gather bs

/-- The test `iov_len > 0 && iov_base != NULL` of `Ns_ConnSend`. -/
def IoVec.usable (b : IoVec) : Bool := decide (0 < b.iov_len) && b.iov_base.isSome

/-- A caller's buffer is readable: a non-NULL base points to at least
`iov_len` bytes. -/
def IoVec.readable (b : IoVec) : Prop :=
  match b.iov_base with
  | some m => b.iov_len ≤ m.length
  | none => True

instance (b : IoVec) : Decidable b.readable := by
  unfold IoVec.readable
  split <;> infer_instance

/-- The bytes the transport took, in call order: a send that returned
`n ≥ 0` on the vector `v` took the first `n` bytes of `gather v`. -/
def accepted : List Event → List Nat
  | [] => []
  | Event.sockSend v n :: es => (gather v).take n.toNat ++ accepted es
  | _ :: es => accepted es

/-- The number of bytes the transport reported as sent: the sum of the
non-negative results of the `NsSockSend` calls. -/
def sentCount : List Event → Int
  | [] => 0
  | Event.sockSend _ n :: es => (if 0 ≤ n then n else 0) + sentCount es
  | _ :: es => sentCount es

/-- The event is a call of `NsSockSend`. -/
def Event.isSend : Event → Bool
  | Event.sockSend _ _ => true
  | _ => false

/-- The event is a call of `NsSockSend` that reported an error. -/
def Event.isSendError : Event → Bool
  | Event.sockSend _ n => decide (n < 0)
  | _ => false

/-- The event is a call of `NsSockClose`. -/
def Event.isSockClose : Event → Bool
  | Event.sockClose _ => true
  | _ => false

/-- The vector of §4.1 in the words of the specification: slot 0 is the
output queue if it is non-empty, the remaining slots are the caller's spans
in order, empty ones skipped, until 16 slots are used. -/
def specVector (queued : List Nat) (bufs : List IoVec) : List IoVec :=
  ((if queued = [] then [] else [IoVec.mk (some queued) queued.length])
    ++ bufs.filter IoVec.usable).take 16

/-- The invariant of §3: `SENT_LAST_CHUNK` is set only if `WRITE_CHUNKED`
is. -/
def chunkInv (flags : Nat) : Prop :=
  flagSet flags NS_CONN_SENT_LAST_CHUNK = true → flagSet flags NS_CONN_WRITE_CHUNKED = true

instance (flags : Nat) : Decidable (chunkInv flags) := by
  unfold chunkInv
  infer_instance

/-- The bytes a write of the payload `p` puts on the wire: the payload
itself, or in chunked mode the chunk `<hex-size>\r\n<payload>\r\n`. -/
def frame (flags : Nat) (p : List Nat) : List Nat :=
  if flagSet flags NS_CONN_WRITE_CHUNKED = true then sprintf_x p.length ++ CRLF ++ p ++ CRLF
  else p

/-- The flags after a write of a payload of length `len`: in chunked mode a
zero-length write sets `NS_CONN_SENT_LAST_CHUNK`. -/
def flagsAfterWrite (flags : Nat) (len : Nat) : Nat :=
  if len = 0 ∧ flagSet flags NS_CONN_WRITE_CHUNKED = true then
    flags ||| NS_CONN_SENT_LAST_CHUNK
  else flags

/-- The value of a lowercase hexadecimal digit given by its character
code. -/
def hexDigitValue (c : Nat) : Nat :=
  if 48 ≤ c ∧ c ≤ 57 then c - 48 else c - 87

/-- The character code is one of `0`..`9`, `a`..`f`. -/
def isLowerHexDigit (c : Nat) : Bool :=
  (decide (48 ≤ c) && decide (c ≤ 57)) || (decide (97 ≤ c) && decide (c ≤ 102))

/-- The number a string of hexadecimal digits denotes. -/
def hexValue (l : List Nat) : Nat :=
  l.foldl (fun a c => 16 * a + hexDigitValue c) 0

/-- Write the payloads in turn with `Ns_WriteConn`: the statuses and the
final state. -/
def writeAll {ω : Type} (E : Ext ω) (fuel : Nat) :
    Sys ω → List (List Nat) → Option (List Int × Sys ω)
  | s, [] => some ([], s)
  | s, p :: ps =>
    match Ns_WriteConn E fuel s (some p) p.length with
    | none => none
    | some (st, s1) =>
      match writeAll E fuel s1 ps with
      | none => none
      | some (sts, s2) => some (st :: sts, s2)

/-- The total length of the payloads. -/
def payloadTotal : List (List Nat) → Nat
  | [] => 0
  | p :: ps => p.length + payloadTotal ps

/-- The total length of the payloads as framed on the wire. -/
def frameTotal (flags : Nat) : List (List Nat) → Nat
  | [] => 0
  | p :: ps => (frame flags p).length + frameTotal flags ps

/-- Every `NsSockSend` call reports all bytes of the vector as sent. -/
def AcceptsAll {ω : Type} (E : Ext ω) : Prop :=
  ∀ w v, (E.NsSockSend w v).1 = iovTotal v

/-- The buffers of the zero-length chunked write `Ns_WriteConn(conn, 0, 0)`:
the header `0\r\n`, the empty payload and the closing CR LF. -/
def zeroChunkBufs : List IoVec :=
  [ IoVec.mk (some (sprintf_x 0 ++ CRLF)) (sprintf_x 0 ++ CRLF).length,
    IoVec.mk none 0,
    IoVec.mk (some CRLF) 2 ]

/-- The value of `keep` that `Ns_ConnClose` starts with. -/
def keepOf (flags : Nat) : Int := if flagSet flags NS_CONN_KEEPALIVE = true then 1 else 0

/-- The call of `NsTclRunAtClose` at the end of `Ns_ConnClose`, made when
`itPtr` is not NULL. -/
def atCloseEvents (itPtr : Bool) : List Event := if itPtr = true then [Event.runAtClose] else []

/-! ## Sample collaborators and connections -/

/-- Collaborators of which only the transport `send` matters: the writer
queue declines, the converter copies, the parser accepts, sources are empty
and sinks take everything. -/
def transportOnly {ω : Type} (send : ω → List IoVec → Int × ω) : Ext ω :=
  { NsSockSend := send
    NsSockClose := fun w _ => w
    NsTclRunAtClose := fun w => w
    NsQueueWriter := fun w _ => (NS_ERROR, w)
    Tcl_UtfToExternal := fun w src _ => ((TCL_OK, src.length, src), w)
    Ns_ParseHeader := fun w _ _ => (NS_OK, w)
    Tcl_Read := fun w _ => (some [], w)
    fread := fun w _ => ([], w)
    read := fun w _ => (some [], w)
    Tcl_Write := fun w d => ((d.length : Int), w)
    fwrite := fun w d => (d.length, w)
    write := fun w d => ((d.length : Int), w)
    ferror := fun _ => false }

/-- A transport that takes all the bytes offered. -/
def acceptAll : Ext Unit := transportOnly (fun w v => (iovTotal v, w))

/-- A transport that takes one byte per call. -/
def oneByte : Ext Unit := transportOnly (fun w v => (if 0 < iovTotal v then 1 else 0, w))

/-- A transport whose world is the list of the results it still has to give;
once the list is used up every call fails with `-1`. -/
def scripted : Ext (List Int) :=
  transportOnly (fun w _ =>
    match w with
    | [] => (-1, [])
    | n :: rest => (n, rest))

/-- An open connection with the given flags and output queue. -/
def sampleConn (flags : Nat) (queued : List Nat) : Conn :=
  { sockPtr := true, itPtr := false, encoding := false, flags := flags, queued := queued,
    nContentSent := 0, reqPtr := { content := [], next := 0, avail := 0 },
    maxline := 8192, maxheaders := 131072, hdrcase := 0 }

/-- The system of `sampleConn` with an empty trace. -/
def sampleSys {ω : Type} (flags : Nat) (queued : List Nat) (w : ω) : Sys ω :=
  { conn := sampleConn flags queued, world := w, trace := [] }

/-- Four caller buffers: two bytes of `[3, 4, 5]`, a NULL base, a zero
length and one byte `[6]`. -/
def sampleBufs : List IoVec :=
  [IoVec.mk (some [3, 4, 5]) 2, IoVec.mk none 7, IoVec.mk (some [9]) 0, IoVec.mk (some [6]) 1]

/-! ## Vocabulary of the statements on reading and copying -/

/-- The event is a call of `NsTclRunAtClose`. -/
def Event.isRunAtClose : Event → Bool
  | Event.runAtClose => true
  | _ => false

/-- The line without one final CR, if it ends in CR. -/
def stripCR (line : List Nat) : List Nat :=
  if line.getLast? = some 13 then line.dropLast else line

/-- The byte following the buffered span is a NUL, or the modelled memory
ends there: the buffer is terminated where the span ends. -/
def spanTerminated (r : Request) : Prop := r.mem.getD r.avail.toNat 0 = 0

/-- The buffered span: the first `avail` bytes at the cursor. -/
def Request.span (r : Request) : List Nat := r.mem.take r.avail.toNat

/-- An open connection, with an attached interpreter if `itPtr` is set,
whose request buffer holds `content` with the cursor at its start. -/
def inputConn (itPtr : Bool) (content : List Nat) (avail maxline maxheaders : Int) : Conn :=
  { sockPtr := true, itPtr := itPtr, encoding := false, flags := 0, queued := [],
    nContentSent := 0, reqPtr := { content := content, next := 0, avail := avail },
    maxline := maxline, maxheaders := maxheaders, hdrcase := 0 }

/-- The system of `inputConn` with an empty trace. -/
def inputSys {ω : Type} (itPtr : Bool) (content : List Nat) (avail maxline maxheaders : Int)
    (w : ω) : Sys ω :=
  { conn := inputConn itPtr content avail maxline maxheaders, world := w, trace := [] }

/-- The bytes of the request `GET / HTTP/1.1\r\nHost: x\r\n\r\n`. -/
def sampleRequest : List Nat :=
  [71, 69, 84, 32, 47, 32, 72, 84, 84, 80, 47, 49, 46, 49, 13, 10,
   72, 111, 115, 116, 58, 32, 120, 13, 10, 13, 10]

/-- The bytes of the text `GET / HTTP/1.1`. -/
def sampleRequestLine : List Nat :=
  [71, 69, 84, 32, 47, 32, 72, 84, 84, 80, 47, 49, 46, 49]

/-- The bytes of the header block `A: b\r\n\r\n`: one header line of six
bytes and the empty line of two bytes. -/
def sampleHeaders : List Nat := [65, 58, 32, 98, 13, 10, 13, 10]

/-- The bytes the sink took, in call order: a write that returned `n ≥ 0`
on the bytes `d` took the first `n` of them. -/
def sunk : List Event → List Nat
  | [] => []
  | Event.sinkWrite d n :: es => d.take n.toNat ++ sunk es
  | _ :: es => sunk es

/-- The number of bytes the sink reported as written: the sum of the
non-negative results of its writes. -/
def sunkCount : List Event → Int
  | [] => 0
  | Event.sinkWrite _ n :: es => (if 0 ≤ n then n else 0) + sunkCount es
  | _ :: es => sunkCount es

/-- The event is a write to the sink that reported an error. -/
def Event.isSinkError : Event → Bool
  | Event.sinkWrite _ n => decide (n < 0)
  | _ => false

/-- Collaborators whose sink takes one byte per write. -/
def slowSink : Ext Unit :=
  { acceptAll with
    Tcl_Write := fun w d => ((if d = [] then 0 else 1 : Int), w)
    fwrite := fun w d => ((if d = [] then 0 else 1 : Nat), w)
    write := fun w d => ((if d = [] then 0 else 1 : Int), w) }

/-- Collaborators whose sink takes the number of bytes its world lists next
and fails with `-1` once the list is used up. -/
def scriptedSink : Ext (List Int) :=
  { scripted with
    write := fun w _ =>
      match w with
      | [] => (-1, [])
      | n :: rest => (n, rest) }

/-- Collaborators with a source: the world is the rest of the source, a read
gives at most three bytes of it; the transport takes everything and the
writer queue declines. -/
def fileSource : Ext (List Nat) :=
  { (transportOnly (fun w v => (iovTotal v, w)) : Ext (List Nat)) with
    Tcl_Read := fun w k => (some (w.take (min k 3)), w.drop (min k 3))
    fread := fun w k => (w.take (min k 3), w.drop (min k 3))
    read := fun w k => (some (w.take (min k 3)), w.drop (min k 3)) }

/-- The reads of the source succeed and deliver the bytes of the source in
order: `src w` is the rest of the source in the world `w`; a read of `k > 0`
bytes gives at most `k` bytes, the next ones of the source, and gives none
only at its end; the transport leaves the source alone. -/
def ReadsFrom {ω : Type} (E : Ext ω) (chan fp : Bool) (src : ω → List Nat) : Prop :=
  (∀ w k, 0 < k → ∃ data, (srcRead E w chan fp k).1 = some data ∧ data.length ≤ k
      ∧ src w = data ++ src (srcRead E w chan fp k).2 ∧ (data = [] → src w = []))
    ∧ (∀ w v, src (E.NsSockSend w v).2 = src w)

/-! ## Vocabulary of the statements on failures, streaming and transcoding -/

/-- A connection without a transport (`sockPtr == NULL`) with the given flags
and output queue, three bytes buffered and `nContentSent = 9`. -/
def closedSys {ω : Type} (flags : Nat) (queued : List Nat) (w : ω) : Sys ω :=
  { conn := { sockPtr := false, itPtr := false, encoding := false, flags := flags,
              queued := queued, nContentSent := 9,
              reqPtr := { content := [65, 10, 66], next := 0, avail := 3 },
              maxline := 8192, maxheaders := 131072, hdrcase := 0 },
    world := w, trace := [] }

/-- From the state `s` to the state `s1` the trace has been extended and
`nContentSent` has grown by the byte counts the transport reported in the new
part of the trace. -/
def countsSent {ω : Type} (s s1 : Sys ω) : Prop :=
  ∃ evs, s1.trace = s.trace ++ evs
    ∧ s1.conn.nContentSent = s.conn.nContentSent + sentCount evs

/-- The operations of the engine, with their arguments. -/
inductive Op where
  | send (bufs : List IoVec)
  | write (vbuf : Option (List Nat)) (towrite : Nat)
  | writeConn (buf : Option (List Nat)) (len : Nat)
  | puts (str : List Nat)
  | sendDString (ds : List Nat)
  | writeCharConn (buf : Option (List Nat)) (len : Nat)
  | connSend (nsend : Int) (chan fp : Bool)
  | close
  | read (toread : Int)
  | gets (bufsize : Nat)
  | readLine (ds : List Nat)
  | readHeaders
  | copyToDString (tocopy : Nat) (ds : List Nat)
  | connCopy (tocopy : Nat) (chan fp : Bool)
  | flushContent

/-- The state an operation of the engine leaves; `none` when the fuel runs
out. -/
def Op.exec {ω : Type} (E : Ext ω) (fuel : Nat) : Op → Sys ω → Option (Sys ω)
  | Op.send bufs, s => (Ns_ConnSend E fuel s bufs).map (fun r => r.2)
  | Op.write vbuf towrite, s => (Ns_ConnWrite E fuel s vbuf towrite).map (fun r => r.2)
  | Op.writeConn buf len, s => (Ns_WriteConn E fuel s buf len).map (fun r => r.2)
  | Op.puts str, s => (Ns_ConnPuts E fuel s str).map (fun r => r.2)
  | Op.sendDString ds, s => (Ns_ConnSendDString E fuel s ds).map (fun r => r.2)
  | Op.writeCharConn buf len, s => (Ns_WriteCharConn E fuel s buf len).map (fun r => r.2)
  | Op.connSend nsend chan fp, s => (ConnSend E fuel s nsend chan fp).map (fun r => r.2)
  | Op.close, s => (Ns_ConnClose E fuel s).map (fun r => r.2)
  | Op.read toread, s => some (Ns_ConnRead s toread).2.2
  | Op.gets bufsize, s => some (Ns_ConnGets bufsize s).2
  | Op.readLine ds, s => some (Ns_ConnReadLine s ds).2.2.2
  | Op.readHeaders, s => (Ns_ConnReadHeaders E fuel s).map (fun r => r.2.2)
  | Op.copyToDString tocopy ds, s => some (Ns_ConnCopyToDString s tocopy ds).2.2
  | Op.connCopy tocopy chan fp, s => (ConnCopy E fuel s tocopy chan fp).map (fun r => r.2)
  | Op.flushContent, s => some (Ns_ConnFlushContent s).2

/-- The state a sequence of operations of the engine leaves. -/
def runOps {ω : Type} (E : Ext ω) (fuel : Nat) : List Op → Sys ω → Option (Sys ω)
  | [], s => some s
  | op :: ops, s =>
    match op.exec E fuel s with
    | none => none
    | some s1 => runOps E fuel ops s1

/-- The lines handed to `Ns_ParseHeader`, in call order. -/
def parsedLines : List Event → List (List Nat)
  | [] => []
  | Event.parseHeader line _ :: es => line :: parsedLines es
  | _ :: es => parsedLines es

/-- The bytes of the lines, each followed by an LF. -/
def joinLines : List (List Nat) → List Nat
  | [] => []
  | l :: ls => l ++ 10 :: joinLines ls

/-- A header line as it stands in the buffer before its LF, a final CR
included: it holds no LF and no NUL, is not empty once the CR is stripped,
and is no longer than `maxline`. -/
def IsHeaderLine (maxline : Int) (l : List Nat) : Prop :=
  10 ∉ l ∧ 0 ∉ l ∧ stripCR l ≠ [] ∧ (l.length : Int) ≤ maxline

/-- The empty line that ends a header block, as it stands in the buffer
before its LF: nothing, or a single CR. -/
def IsEmptyLine (l : List Nat) : Prop := l = [] ∨ l = [13]

/-- A parser that rejects the lines that start with a blank and accepts the
others; the transport takes everything. -/
def strictParser : Ext Unit :=
  { acceptAll with
    Ns_ParseHeader := fun w line _ => (if line.headD 0 = 32 then NS_ERROR else NS_OK, w) }

/-- The event is a call of the converter. -/
def Event.isConvert : Event → Bool
  | Event.utfToExternal _ _ _ _ => true
  | _ => false

/-- A converter that takes at most two source bytes per call and produces
each of them twice; the transport takes everything. -/
def doubling : Ext Unit :=
  { acceptAll with
    Tcl_UtfToExternal := fun w src _ =>
      ((if src.length ≤ 2 then TCL_OK else TCL_CONVERT_NOSPACE, min src.length 2,
        (src.take 2).flatMap (fun b => [b, b])), w) }

/-- An open connection with a configured encoding, the given flags and
output queue. -/
def encodingSys {ω : Type} (flags : Nat) (queued : List Nat) (w : ω) : Sys ω :=
  { conn := { sampleConn flags queued with encoding := true }, world := w, trace := [] }

/-- The event is a read of the source that failed (`nread == -1`). -/
def Event.isReadError : Event → Bool
  | Event.srcRead _ none => true
  | _ => false

/-- The event is a read of the source that gave no byte (`nread == 0`). -/
def Event.isEmptyRead : Event → Bool
  | Event.srcRead _ (some []) => true
  | _ => false

/-- The event is a read of the source. -/
def Event.isRead : Event → Bool
  | Event.srcRead _ _ => true
  | _ => false

/-- The event is a converter call that reported a status other than `TCL_OK`
and `TCL_CONVERT_NOSPACE`. -/
def Event.isConvertError : Event → Bool
  | Event.utfToExternal _ status _ _ =>
    decide (status ≠ TCL_OK ∧ status ≠ TCL_CONVERT_NOSPACE)
  | _ => false

/-- Only the last event of the list can be a failed read or an empty read of
the source; if the last event is a failed read the result `r` is `NS_ERROR`,
if it is an empty read the result is `NS_OK`. -/
def endsStream (r : Int) : List Event → Prop
  | [] => True
  | [e] => (e.isReadError = true → r = NS_ERROR) ∧ (e.isEmptyRead = true → r = NS_OK)
  | e :: e1 :: es => e.isReadError = false ∧ e.isEmptyRead = false ∧ endsStream r (e1 :: es)

/-- Only the last event of the list can be a converter call that reported a
hard failure, and then the result `r` is `NS_ERROR`. -/
def endsConversion (r : Int) : List Event → Prop
  | [] => True
  | [e] => e.isConvertError = true → r = NS_ERROR
  | e :: e1 :: es => e.isConvertError = false ∧ endsConversion r (e1 :: es)

/-- The state after a read of the source: the new world and the read
recorded in the trace. -/
def afterRead {ω : Type} (s : Sys ω) (w : ω) (toread : Nat) (res : Option (List Nat)) :
    Sys ω :=
  { s with world := w, trace := s.trace ++ [Event.srcRead toread res] }

/-- The state after a converter call: the new world and the call recorded in
the trace. -/
def afterConvert {ω : Type} (s : Sys ω) (src : List Nat) (r : (Int × Nat × List Nat) × ω) :
    Sys ω :=
  { s with world := r.2, trace := s.trace ++ [Event.utfToExternal src r.1.1 r.1.2.1 r.1.2.2] }

/-- A source whose every read fails; the transport takes everything and the
writer queue declines. -/
def brokenSource : Ext Unit :=
  { acceptAll with
    Tcl_Read := fun w _ => (none, w)
    fread := fun w _ => ([], w)
    ferror := fun _ => true
    read := fun w _ => (none, w) }

/-- The source of `fileSource` with a transport whose every send fails. -/
def brokenPipe : Ext (List Nat) :=
  { fileSource with NsSockSend := fun w _ => (-1, w) }

/-- A converter that fails hard on a source that starts with the byte 255 and
otherwise copies one byte; the transport takes everything. -/
def pickyConverter : Ext Unit :=
  { acceptAll with
    Tcl_UtfToExternal := fun w src _ =>
      (if src.headD 0 = 255 then (-2, 0, [9, 9]) else (TCL_CONVERT_NOSPACE, 1, src.take 1), w) }

/-! ## The list utilities of `nsd/lisp.c` -/

/-- A node of an `Ns_List`, with the fields `first` and `weight` that
`lisp.c` uses; the field `rest` is the tail of the Lean list that holds the
node.  A list `Ns_List *` is the Lean list of its nodes, `NULL` the empty
list.  The weights, `float` in C, are the elements of a linear order: a
`float` that is not a NaN. -/
structure Ns_List (α W : Type) where
  first : α
  weight : W
deriving DecidableEq, Repr

/-- The function `Ns_ListNconc(l1Ptr, l2Ptr)`: for a non-empty `l1` the last
node of `l1` is linked to `l2`. -/
def Ns_ListNconc {β : Type} (l1 l2 : List β) : List β :=
  match l1 with
  | [] => l2
  | x :: rest => (x :: rest) ++ l2

/-- The loop of `Ns_ListWeightSort` that builds the two sublists: the nodes
with `weight >= axis` go to the first (`mPtr`), the others to the second
(`nPtr`), each in the order of the list. -/
def weightSplit {α W : Type} [LinearOrder W] (axis : W) :
    List (Ns_List α W) → List (Ns_List α W) × List (Ns_List α W)
  | [] => ([], [])
  | cur :: rest =>
    if cur.weight ≥ axis then (cur :: (weightSplit axis rest).1, (weightSplit axis rest).2)
    else ((weightSplit axis rest).1, cur :: (weightSplit axis rest).2)

/-- The function `Ns_ListWeightSort(wPtr)`; the fuel bounds the depth of the
recursion, `none` means that it ran out. -/
def Ns_ListWeightSort {α W : Type} [LinearOrder W] :
    Nat → List (Ns_List α W) → Option (List (Ns_List α W))
  | _, [] => some []
  | _, [w] => some [w]
  | 0, _ :: _ :: _ => none
  | fuel + 1, w :: c :: rest =>
    match Ns_ListWeightSort fuel (weightSplit w.weight (c :: rest)).2 with
    | none => none
    | some sn =>
      match Ns_ListWeightSort fuel (weightSplit w.weight (c :: rest)).1 with
      | none => none
      | some sm => some (Ns_ListNconc sm (Ns_ListNconc [w] sn))

/-- The loop of `Ns_ListSort` that builds the two sublists: the nodes with
`sortProc(cur->first, axisPtr) <= 0` go to the first (`mPtr`), the others to
the second (`nPtr`), each in the order of the list. -/
def sortSplit {α W : Type} (sortProc : α → α → Int) (axis : α) :
    List (Ns_List α W) → List (Ns_List α W) × List (Ns_List α W)
  | [] => ([], [])
  | cur :: rest =>
    if sortProc cur.first axis ≤ 0 then
      (cur :: (sortSplit sortProc axis rest).1, (sortSplit sortProc axis rest).2)
    else ((sortSplit sortProc axis rest).1, cur :: (sortSplit sortProc axis rest).2)

/-- The function `Ns_ListSort(wPtr, sortProc)`; the fuel bounds the depth of
the recursion, `none` means that it ran out. -/
def Ns_ListSort {α W : Type} (sortProc : α → α → Int) :
    Nat → List (Ns_List α W) → Option (List (Ns_List α W))
  | _, [] => some []
  | _, [w] => some [w]
  | 0, _ :: _ :: _ => none
  | fuel + 1, w :: c :: rest =>
    match Ns_ListSort sortProc fuel (sortSplit sortProc w.first (c :: rest)).2 with
    | none => none
    | some sn =>
      match Ns_ListSort sortProc fuel (sortSplit sortProc w.first (c :: rest)).1 with
      | none => none
      | some sm => some (Ns_ListNconc sm (Ns_ListNconc [w] sn))

/-- The function `Ns_ListDeleteWithTest(elem, lPtr, equalProc)`: the nodes
`m` with `equalProc(elem, m->first)` true are unlinked (and freed). -/
def Ns_ListDeleteWithTest {α W : Type} (elem : α) (equalProc : α → α → Bool) :
    List (Ns_List α W) → List (Ns_List α W)
  | [] => []
  | m :: rest =>
    if equalProc elem m.first = true then Ns_ListDeleteWithTest elem equalProc rest
    else m :: Ns_ListDeleteWithTest elem equalProc rest

/-- The function `Ns_ListDeleteDuplicates(lPtr, equalProc)`; the fuel bounds
the rounds of its loop, `none` means that it ran out. -/
def Ns_ListDeleteDuplicates {α W : Type} (equalProc : α → α → Bool) :
    Nat → List (Ns_List α W) → Option (List (Ns_List α W))
  | _, [] => some []
  | 0, _ :: _ => none
  | fuel + 1, l :: rest =>
    match Ns_ListDeleteDuplicates equalProc fuel
        (Ns_ListDeleteWithTest l.first equalProc rest) with
    | none => none
    | some r => some (l :: r)

/-- The node `x` stands before the node `y` in the list: the two occur in
the list in this order. -/
def Before {β : Type} (x y : β) (l : List β) : Prop := [x, y].Sublist l

/-- A node with the given weight whose element is the weight. -/
def weighted (w : Int) : Ns_List Int Int := { first := w, weight := w }

/-- The comparison callback on integers: the sign of `x - y`. -/
def compareInt (x y : Int) : Int := if x < y then -1 else if x = y then 0 else 1

/-! ## The mask functions of `nsd/sockaddr.c` -/

/-- The address family `AF_INET`, with the value of the Linux headers; of the
two family constants only their being different matters. -/
def AF_INET : Nat := 2
/-- The address family `AF_INET6`, see `AF_INET`. -/
def AF_INET6 : Nat := 10

/-- The array `s6_addr32[4]` of a `struct in6_addr`: four 32-bit words, each
held as the `unsigned int` value the host reads from it. -/
structure In6Addr where
  w0 : Nat
  w1 : Nat
  w2 : Nat
  w3 : Nat
deriving DecidableEq, Repr

/-- The read `s6_addr32[i]` for `i < 4`. -/
def In6Addr.get (a : In6Addr) (i : Nat) : Nat :=
  match i with
  | 0 => a.w0
  | 1 => a.w1
  | 2 => a.w2
  | _ => a.w3

/-- The assignment `s6_addr32[i] = v` for `i < 4`. -/
def In6Addr.set (a : In6Addr) (i : Nat) (v : Nat) : In6Addr :=
  match i with
  | 0 => { a with w0 := v }
  | 1 => { a with w1 := v }
  | 2 => { a with w2 := v }
  | 3 => { a with w3 := v }
  | _ => a

/-- The fields of a socket address storage that the mask functions use: the
family, the port, the address `sin_addr.s_addr` of the view
`struct sockaddr_in` and the address `sin6_addr` of the view
`struct sockaddr_in6`, which lie at different offsets of the storage.  The
32-bit fields are held as the `unsigned int` values the host reads. -/
structure Sockaddr where
  sa_family : Nat
  port : Nat
  s_addr : Nat
  sin6_addr : In6Addr
deriving DecidableEq, Repr

/-- The value of a 32-bit word with its four bytes in the opposite order. -/
def bswap32 (x : Nat) : Nat :=
  (x % 256) * 16777216 + (x / 256 % 256) * 65536 + (x / 65536 % 256) * 256
    + x / 16777216 % 256

/-- The C library function `htonl` on a host that is little-endian (`le`) or
big-endian: the host value whose bytes in memory are those of `x` in network
(big-endian) order. -/
def htonl (le : Bool) (x : Nat) : Nat := if le = true then bswap32 x else x

/-- The C library function `ntohl`: the number the bytes of a 32-bit field
denote in network (big-endian) order, given the value the host reads. -/
def ntohl (le : Bool) (x : Nat) : Nat := if le = true then bswap32 x else x

/-- The C expression `x << k` on `unsigned int`; `none` stands for the
undefined behaviour of a shift count that is not smaller than the width of
the type. -/
def shl32 (x k : Nat) : Option Nat :=
  if k < 32 then some ((x <<< k) % 4294967296) else none

/-- The socket address objects in memory, by their addresses: a pointer to a
socket address is the address of its object, and two pointers are equal
exactly when they point to the same object. -/
def SockMem := Nat → Sockaddr

/-- The memory after the object at `p` was overwritten with `v`. -/
def SockMem.store (mem : SockMem) (p : Nat) (v : Sockaddr) : SockMem :=
  fun q => if q = p then v else mem q

/-- The loop `for (i = 0; i < 4 && nrBits >= 32; i++, nrBits -= 32)` of
`Ns_SockaddrMaskBits`, which makes at most four rounds: the address, `i` and
`nrBits` after it. -/
def maskOnesLoop : Nat → In6Addr → Nat → Nat → In6Addr × Nat × Nat
  | 0, addr, i, nrBits => (addr, i, nrBits)
  | rounds + 1, addr, i, nrBits =>
    if i < 4 ∧ nrBits ≥ 32 then maskOnesLoop rounds (addr.set i 4294967295) (i + 1) (nrBits - 32)
    else (addr, i, nrBits)

/-- The loop `for (; i < 4; i++)` of `Ns_SockaddrMaskBits`, which makes at
most four rounds. -/
def maskClearLoop : Nat → In6Addr → Nat → In6Addr
  | 0, addr, _ => addr
  | rounds + 1, addr, i =>
    if i < 4 then maskClearLoop rounds (addr.set i 0) (i + 1) else addr

/-- The function `Ns_SockaddrMaskBits(mask, nrBits)` on a little-endian
(`le`) or big-endian host: the new content of `mask`, or `none` when the
behaviour is undefined.  The calls of `Ns_Log` are not modelled. -/
def Ns_SockaddrMaskBits (le : Bool) (mask : Sockaddr) (nrBits : Nat) : Option Sockaddr :=
  if mask.sa_family = AF_INET6 then
    let nrBits1 := if nrBits > 128 then 128 else nrBits
    let r := maskOnesLoop 4 mask.sin6_addr 0 nrBits1
    let partialMask : Option (In6Addr × Nat) :=
      if r.2.1 < 4 ∧ r.2.2 > 0 then
        match shl32 4294967295 (32 - r.2.2) with
        | none => none
        | some v => some (r.1.set r.2.1 (htonl le v), r.2.1 + 1)
      else some (r.1, r.2.1)
    match partialMask with
    | none => none
    | some (addr, i) => some { mask with sin6_addr := maskClearLoop 4 addr i }
  else if mask.sa_family = AF_INET then
    let nrBits1 := if nrBits > 32 then 32 else nrBits
    match shl32 4294967295 (32 - nrBits1) with
    | none => none
    | some v => some { mask with s_addr := htonl le v }
  else some mask

/-- The number with `w` bits whose top `n` bits are one and whose other bits
are zero. -/
def topBits (w n : Nat) : Nat := 2 ^ w - 2 ^ (w - n)

/-- The 128-bit number the sixteen bytes of an IPv6 address denote in
network (big-endian) order. -/
def be128 (le : Bool) (a : In6Addr) : Nat :=
  ((ntohl le a.w0 * 4294967296 + ntohl le a.w1) * 4294967296 + ntohl le a.w2) * 4294967296
    + ntohl le a.w3

/-- An IPv4 socket address with the given port and address. -/
def inet (port s_addr : Nat) : Sockaddr :=
  { sa_family := AF_INET, port := port, s_addr := s_addr, sin6_addr := In6Addr.mk 0 0 0 0 }

/-- An IPv6 socket address with the given port and address words. -/
def inet6 (port w0 w1 w2 w3 : Nat) : Sockaddr :=
  { sa_family := AF_INET6, port := port, s_addr := 0, sin6_addr := In6Addr.mk w0 w1 w2 w3 }

/-- The relation between the request before and after an inbound operation:
the end `next + avail` of the buffered span is where it was, that is `next`
went forward by what `avail` went down, and `avail` is not negative. -/
def keepsSpan (r r1 : Request) : Prop :=
  r1.next + r1.avail = r.next + r.avail ∧ 0 ≤ r1.avail

/-- The cursor is inside the buffer, the count of buffered bytes is not
negative and the buffer is terminated where the span ends. -/
def Request.terminated (r : Request) : Prop :=
  0 ≤ r.next ∧ 0 ≤ r.avail ∧ spanTerminated r

/-! ## Vocabulary of the statements on transcoded writes and on termination -/

/-- Every converter call on a non-empty source that reports `TCL_OK` or
`TCL_CONVERT_NOSPACE` produces at least one byte. -/
def ConverterProduces {ω : Type} (E : Ext ω) : Prop :=
  ∀ w src, src ≠ [] →
    ((E.Tcl_UtfToExternal w src IOBUFSZ).1.1 = TCL_OK
        ∨ (E.Tcl_UtfToExternal w src IOBUFSZ).1.1 = TCL_CONVERT_NOSPACE) →
      (E.Tcl_UtfToExternal w src IOBUFSZ).1.2.2 ≠ []

/-- The payloads the loop of `Ns_WriteCharConn` hands to `Ns_WriteConn`: the
pieces of the converter calls of the trace that reported `TCL_OK` or
`TCL_CONVERT_NOSPACE`, in call order. -/
def writtenPieces : List Event → List (List Nat)
  | [] => []
  | Event.utfToExternal _ status _ encoded :: es =>
    if status = TCL_OK ∨ status = TCL_CONVERT_NOSPACE then encoded :: writtenPieces es
    else writtenPieces es
  | _ :: es => writtenPieces es

/-- A converter that takes one source byte per call and produces it, except
for a blank, for which it produces nothing; the transport takes
everything. -/
def blankDropper : Ext Unit :=
  { acceptAll with
    Tcl_UtfToExternal := fun w src _ =>
      ((if src.length ≤ 1 then TCL_OK else TCL_CONVERT_NOSPACE, min src.length 1,
        (src.take 1).filter (fun b => b != 32)), w) }

/-- A transport that never takes a byte and never fails. -/
def stalled : Ext Unit := transportOnly (fun w _ => (0, w))

/-! ## Vocabulary of the statements on writes that succeed -/

/-- Every `NsSockSend` call on a vector that holds bytes takes at least one
and at most all of them: no call fails and none stalls, so that every write
succeeds, in one transport call or through partial sends. -/
def AcceptsSome {ω : Type} (E : Ext ω) : Prop :=
  ∀ w v, 0 < iovTotal v → 1 ≤ (E.NsSockSend w v).1 ∧ (E.NsSockSend w v).1 ≤ iovTotal v

theorem sentCount_append (a b : List Event) :
    sentCount (a ++ b) = sentCount a + sentCount b := by
  induction a with
  | nil => simp [sentCount]
  | cons e es ih => cases e <;> simp [sentCount, ih, add_assoc]

theorem gather_append (a b : List IoVec) : gather (a ++ b) = gather a ++ gather b := by
  induction a with
  | nil => rfl
  | cons e es ih => simp [gather, ih]

theorem iovTotal_nonneg (v : List IoVec) : 0 ≤ iovTotal v := by
  induction v with
  | nil => simp [iovTotal]
  | cons b bs ih => simp only [iovTotal]; omega

theorem gather_length (v : List IoVec) (h : ∀ b ∈ v, b.exact) :
    ((gather v).length : Int) = iovTotal v := by
  induction v with
  | nil => simp [gather, iovTotal]
  | cons b bs ih =>
    have hb : b.bytes.length = b.iov_len := h b (List.mem_cons_self _ _)
    have := ih (fun x hx => h x (List.mem_cons_of_mem _ hx))
    simp only [gather, iovTotal, List.length_append, Nat.cast_add, hb, this]

theorem advanceBufs_spec (v : List IoVec) : ∀ (n : Int), (∀ b ∈ v, b.exact) → 0 ≤ n →
    n < iovTotal v →
    gather (advanceBufs v n).1 = (gather v).drop n.toNat
      ∧ iovTotal (advanceBufs v n).1 = iovTotal v - n
      ∧ (∀ b ∈ (advanceBufs v n).1, b.exact) := by
  induction v with
  | nil => intro n _ h0 h1; simp [iovTotal] at h1; omega
  | cons b bs ih =>
    intro n hex h0 h1
    have hb : b.bytes.length = b.iov_len := hex b (List.mem_cons_self _ _)
    have hbs : ∀ x ∈ bs, x.exact := fun x hx => hex x (List.mem_cons_of_mem _ hx)
    simp only [iovTotal] at h1
    by_cases hn : 0 < n
    · by_cases hgt : n > (b.iov_len : Int)
      · have hrec := ih (n - (b.iov_len : Int)) hbs (by omega) (by omega)
        obtain ⟨h1', h2', h3'⟩ := hrec
        simp only [advanceBufs, hn, hgt, if_true]
        refine ⟨?_, ?_, ?_⟩
        · have hnull : IoVec.bytes (IoVec.mk none 0) = [] := rfl
          simp only [gather, hnull, List.nil_append, h1']
          have hlen : n.toNat = b.bytes.length + (n - (b.iov_len : Int)).toNat := by
            rw [hb]; omega
          rw [hlen, List.drop_append]
        · simp only [iovTotal, h2']; omega
        · intro x hx
          rcases List.mem_cons.1 hx with rfl | hx
          · simp [IoVec.exact, IoVec.bytes]
          · exact h3' x hx
      · have hle : n.toNat ≤ b.iov_len := by omega
        simp only [advanceBufs, hn, hgt, if_true, if_false]
        have hbytes : IoVec.bytes (IoVec.mk (b.iov_base.map (fun m => m.drop n.toNat))
            (b.iov_len - n.toNat)) = b.bytes.drop n.toNat := by
          cases hbase : b.iov_base with
          | none => simp [IoVec.bytes, hbase]
          | some m => simp [IoVec.bytes, hbase, List.drop_take]
        refine ⟨?_, ?_, ?_⟩
        · simp only [gather, hbytes]
          rw [List.drop_append_of_le_length (by rw [hb]; exact hle)]
        · simp only [iovTotal]; omega
        · intro x hx
          rcases List.mem_cons.1 hx with rfl | hx
          · simp only [IoVec.exact, hbytes, List.length_drop, hb]
          · exact hbs x hx
    · have : n = 0 := by omega
      subst this
      have hadv : advanceBufs (b :: bs) 0 = (b :: bs, 0) := by simp [advanceBufs]
      rw [hadv]
      exact ⟨by simp, by simp, hex⟩

theorem mergeBufs_eq (bufs : List IoVec) : ∀ n : Nat,
    mergeBufs bufs n = (bufs.filter IoVec.usable).take (NS_CONN_MAXBUFS - n) := by
  induction bufs with
  | nil => intro n; simp [mergeBufs]
  | cons b bs ih =>
    intro n
    by_cases hn : n < NS_CONN_MAXBUFS
    · by_cases hu : 0 < b.iov_len ∧ b.iov_base ≠ none
      · have hu' : b.usable = true := by
          simp only [IoVec.usable, Bool.and_eq_true, decide_eq_true_eq]
          exact ⟨hu.1, Option.isSome_iff_ne_none.2 hu.2⟩
        have : NS_CONN_MAXBUFS - n = (NS_CONN_MAXBUFS - (n + 1)) + 1 := by omega
        rw [mergeBufs, if_pos hn, if_pos hu, List.filter_cons, if_pos hu', ih, this,
          List.take_succ_cons]
      · have hu' : b.usable = false := by
          simp only [IoVec.usable, Bool.and_eq_false_iff, decide_eq_false_iff_not]
          by_cases h0 : 0 < b.iov_len
          · right
            have : b.iov_base = none := by
              by_contra hne; exact hu ⟨h0, hne⟩
            simp [this]
          · left; exact h0
        rw [mergeBufs, if_pos hn, if_neg hu, List.filter_cons, ih]
        simp [hu']
    · have : NS_CONN_MAXBUFS - n = 0 := by omega
      simp [mergeBufs, hn, this]

/-! ## Lemmas on the send loop -/

theorem sentCount_nonneg (evs : List Event) : 0 ≤ sentCount evs := by
  induction evs with
  | nil => simp [sentCount]
  | cons e es ih =>
    cases e <;> simp only [sentCount] <;> try exact ih
    split <;> omega

/-- Every run of the send loop that ends appends to the trace a list of
successful sends, followed by at most one failed send, which is then the
last value of `n`. -/
theorem sendLoop_some {ω : Type} (E : Ext ω) : ∀ (fuel : Nat) (st st1 : SendState ω),
    sendLoop E fuel st = some st1 →
    ∃ oks errs, st1.trace = st.trace ++ oks ++ errs
      ∧ (∀ e ∈ oks, e.isSend = true ∧ e.isSendError = false)
      ∧ st1.nwrote = st.nwrote + sentCount oks
      ∧ ((errs = [] ∧ st1.towrite ≤ 0 ∧ st1.towrite = st.towrite - sentCount oks
            ∧ (oks = [] → st1.n = st.n))
          ∨ (∃ v, errs = [Event.sockSend v st1.n] ∧ st1.n < 0)) := by
  intro fuel
  induction fuel with
  | zero =>
    intro st st1 h
    simp only [sendLoop] at h
    split at h
    · cases h
    · cases h
      exact ⟨[], [], by simp, by simp, by simp [sentCount],
        Or.inl ⟨rfl, by omega, by simp [sentCount], fun _ => rfl⟩⟩
  | succ fuel ih =>
    intro st st1 h
    simp only [sendLoop] at h
    split at h
    · split at h
      · cases h
        rename_i hneg
        exact ⟨[], [Event.sockSend st.bufs (E.NsSockSend st.world st.bufs).1], by simp,
          by simp, by simp [sentCount], Or.inr ⟨st.bufs, rfl, hneg⟩⟩
      · rename_i hnn
        split at h
        · obtain ⟨oks, errs, h1, h2, h3, h4⟩ := ih _ _ h
          refine ⟨Event.sockSend st.bufs (E.NsSockSend st.world st.bufs).1 :: oks, errs,
            ?_, ?_, ?_, ?_⟩
          · simp [h1]
          · intro e he
            rcases List.mem_cons.1 he with rfl | he
            · simp only [Event.isSend, Event.isSendError, decide_eq_false_iff_not, true_and]
              exact hnn
            · exact h2 e he
          · rw [h3]
            simp only [sentCount]
            rw [if_pos (by omega)]
            omega
          · rcases h4 with ⟨he, ht, ht2, _⟩ | h4
            · refine Or.inl ⟨he, ht, ?_, by simp⟩
              rw [ht2]
              simp only [sentCount]
              rw [if_pos (by omega)]
              omega
            · exact Or.inr h4
        · cases h
          rename_i hdone
          refine ⟨[Event.sockSend st.bufs (E.NsSockSend st.world st.bufs).1], [], by simp,
            ?_, ?_, Or.inl ⟨rfl, by simpa using hdone, ?_, by simp⟩⟩
          · intro e he
            rcases List.mem_singleton.1 he with rfl
            simp only [Event.isSend, Event.isSendError, decide_eq_false_iff_not, true_and]
            exact hnn
          · simp only [sentCount]
            rw [if_pos (by omega)]
            omega
          · simp only [sentCount]
            rw [if_pos (by omega)]
            omega
    · cases h
      exact ⟨[], [], by simp, by simp, by simp [sentCount],
        Or.inl ⟨rfl, by omega, by simp [sentCount], fun _ => rfl⟩⟩

/-- The first call of the send loop submits the current vector. -/
theorem sendLoop_first {ω : Type} (E : Ext ω) (fuel : Nat) (st st1 : SendState ω)
    (h : sendLoop E fuel st = some st1) (hpos : 0 < st.towrite) :
    ∃ rest, st1.trace
      = st.trace ++ Event.sockSend st.bufs (E.NsSockSend st.world st.bufs).1 :: rest := by
  cases fuel with
  | zero => simp [sendLoop, hpos] at h
  | succ fuel =>
    simp only [sendLoop, if_pos hpos] at h
    split at h
    · cases h
      exact ⟨[], by simp⟩
    · split at h
      · obtain ⟨oks, errs, h1, _⟩ := sendLoop_some E _ _ _ h
        exact ⟨oks ++ errs, by simp [h1]⟩
      · cases h
        exact ⟨[], by simp⟩

/-- With a transport that takes at least one and at most all of the bytes
offered, the send loop ends within `towrite` iterations, and the transport
takes exactly the bytes of the vector, in order. -/
theorem sendLoop_progress {ω : Type} (E : Ext ω)
    (hsend : ∀ w v, 0 < iovTotal v →
      1 ≤ (E.NsSockSend w v).1 ∧ (E.NsSockSend w v).1 ≤ iovTotal v) :
    ∀ (fuel : Nat) (st : SendState ω), (∀ b ∈ st.bufs, b.exact) →
      st.towrite = iovTotal st.bufs → st.towrite.toNat ≤ fuel →
      ∃ st1 evs, sendLoop E fuel st = some st1 ∧ st1.trace = st.trace ++ evs
        ∧ (∀ e ∈ evs, e.isSend = true ∧ e.isSendError = false)
        ∧ accepted evs = gather st.bufs
        ∧ sentCount evs = st.towrite
        ∧ st1.nwrote = st.nwrote + st.towrite
        ∧ (st.towrite = 0 → st1.n = st.n) := by
  intro fuel
  induction fuel with
  | zero =>
    intro st hex htw hfuel
    have h0 : st.towrite = 0 := by
      have := iovTotal_nonneg st.bufs
      omega
    have hlen := gather_length st.bufs hex
    have hnil : gather st.bufs = [] := by
      apply List.eq_nil_of_length_eq_zero
      omega
    refine ⟨st, [], ?_, by simp, by simp, by simp [accepted, hnil], by simp [sentCount, h0],
      by simp [h0], fun _ => rfl⟩
    simp [sendLoop, h0]
  | succ fuel ih =>
    intro st hex htw hfuel
    have hlen := gather_length st.bufs hex
    by_cases hpos : 0 < st.towrite
    · obtain ⟨hge, hle⟩ := hsend st.world st.bufs (by omega)
      have hnn : ¬ (E.NsSockSend st.world st.bufs).1 < 0 := by omega
      by_cases hmore : 0 < st.towrite - (E.NsSockSend st.world st.bufs).1
      · obtain ⟨ha1, ha2, ha3⟩ := advanceBufs_spec st.bufs (E.NsSockSend st.world st.bufs).1
          hex (by omega) (by omega)
        obtain ⟨st1, evs, h1, h2, h3, h4, h5, h6, _⟩ := ih
          { world := (E.NsSockSend st.world st.bufs).2,
            trace := st.trace ++ [Event.sockSend st.bufs (E.NsSockSend st.world st.bufs).1],
            bufs := (advanceBufs st.bufs (E.NsSockSend st.world st.bufs).1).1,
            towrite := st.towrite - (E.NsSockSend st.world st.bufs).1,
            nwrote := st.nwrote + (E.NsSockSend st.world st.bufs).1,
            n := (advanceBufs st.bufs (E.NsSockSend st.world st.bufs).1).2 }
          ha3 (by simp only; omega) (by simp only; omega)
        refine ⟨st1, Event.sockSend st.bufs (E.NsSockSend st.world st.bufs).1 :: evs,
          ?_, ?_, ?_, ?_, ?_, ?_, ?_⟩
        · simp only [sendLoop, if_pos hpos, if_neg hnn, if_pos hmore]
          exact h1
        · simp [h2]
        · intro e he
          rcases List.mem_cons.1 he with rfl | he
          · simp only [Event.isSend, Event.isSendError, decide_eq_false_iff_not, true_and]
            exact hnn
          · exact h3 e he
        · simp only [accepted, h4, ha1]
          exact List.take_append_drop _ _
        · simp only [sentCount, h5]
          rw [if_pos (by omega)]
          omega
        · rw [h6]; simp only; omega
        · intro h; omega
      · have heq : (E.NsSockSend st.world st.bufs).1 = st.towrite := by omega
        refine ⟨{ world := (E.NsSockSend st.world st.bufs).2,
                  trace := st.trace
                    ++ [Event.sockSend st.bufs (E.NsSockSend st.world st.bufs).1],
                  bufs := st.bufs,
                  towrite := st.towrite - (E.NsSockSend st.world st.bufs).1,
                  nwrote := st.nwrote + (E.NsSockSend st.world st.bufs).1,
                  n := (E.NsSockSend st.world st.bufs).1 },
          [Event.sockSend st.bufs (E.NsSockSend st.world st.bufs).1],
          ?_, rfl, ?_, ?_, ?_, ?_, ?_⟩
        · simp only [sendLoop, if_pos hpos, if_neg hnn, if_neg hmore]
        · intro e he
          rcases List.mem_singleton.1 he with rfl
          simp only [Event.isSend, Event.isSendError, decide_eq_false_iff_not, true_and]
          exact hnn
        · simp only [accepted, List.append_nil]
          apply List.take_of_length_le
          omega
        · simp only [sentCount]
          rw [if_pos (by omega)]
          omega
        · simp only; omega
        · intro h; omega
    · have h0 : st.towrite = 0 := by
        have := iovTotal_nonneg st.bufs
        omega
      have hnil : gather st.bufs = [] := by
        apply List.eq_nil_of_length_eq_zero
        omega
      refine ⟨st, [], ?_, by simp, by simp, by simp [accepted, hnil], by simp [sentCount, h0],
        by simp [h0], fun _ => rfl⟩
      simp [sendLoop, h0]

/-! ## Lemmas on the merged vector -/

theorem usable_exact (b : IoVec) (hu : b.usable = true) (hr : b.readable) : b.exact := by
  simp only [IoVec.usable, Bool.and_eq_true, decide_eq_true_eq] at hu
  obtain ⟨m, hm⟩ := Option.isSome_iff_exists.1 hu.2
  simp only [IoVec.readable, hm] at hr
  simp only [IoVec.exact, IoVec.bytes, hm, List.length_take]
  omega

theorem bytes_of_not_usable (b : IoVec) (hu : b.usable = false) : b.bytes = [] := by
  simp only [IoVec.usable, Bool.and_eq_false_iff, decide_eq_false_iff_not] at hu
  cases hb : b.iov_base with
  | none => simp [IoVec.bytes, hb]
  | some m =>
    rcases hu with h | h
    · have : b.iov_len = 0 := by omega
      simp [IoVec.bytes, hb, this]
    · simp [hb] at h

theorem gather_filter_usable (bufs : List IoVec) :
    gather (bufs.filter IoVec.usable) = gather bufs := by
  induction bufs with
  | nil => rfl
  | cons b bs ih =>
    by_cases hu : b.usable = true
    · simp [List.filter_cons, hu, gather, ih]
    · have hu' : b.usable = false := by simpa using hu
      simp [List.filter_cons, hu', gather, ih, bytes_of_not_usable b hu']

/-- The vector built by the code is the vector the specification
describes. -/
theorem sendVector_eq_specVector (queued : List Nat) (bufs : List IoVec) :
    sendVector queued bufs = specVector queued bufs := by
  unfold sendVector specVector
  by_cases hq : queued = []
  · subst hq
    simp [mergeBufs_eq, NS_CONN_MAXBUFS]
  · have hpos : 0 < queued.length := List.length_pos.2 hq
    simp [hq, hpos, mergeBufs_eq, NS_CONN_MAXBUFS]

theorem specVector_of_fit (queued : List Nat) (bufs : List IoVec)
    (hfit : (bufs.filter IoVec.usable).length + (if queued = [] then 0 else 1)
      ≤ NS_CONN_MAXBUFS) :
    specVector queued bufs
      = (if queued = [] then [] else [IoVec.mk (some queued) queued.length])
          ++ bufs.filter IoVec.usable := by
  unfold specVector
  apply List.take_of_length_le
  simp only [NS_CONN_MAXBUFS] at hfit
  split <;> simp_all

theorem specVector_facts (queued : List Nat) (bufs : List IoVec)
    (hread : ∀ b ∈ bufs, b.readable)
    (hfit : (bufs.filter IoVec.usable).length + (if queued = [] then 0 else 1)
      ≤ NS_CONN_MAXBUFS) :
    (∀ b ∈ specVector queued bufs, b.exact)
      ∧ gather (specVector queued bufs) = queued ++ gather bufs := by
  rw [specVector_of_fit queued bufs hfit]
  constructor
  · intro b hb
    rcases List.mem_append.1 hb with hb | hb
    · split at hb
      · simp at hb
      · rcases List.mem_singleton.1 hb with rfl
        simp [IoVec.exact, IoVec.bytes]
    · have hb' := List.mem_filter.1 hb
      exact usable_exact b hb'.2 (hread b hb'.1)
  · rw [gather_append, gather_filter_usable]
    split
    · simp_all [gather]
    · simp [gather, IoVec.bytes]

/-! ## Claims on `Ns_ConnSend` -/

/-- C1. On a connection with a transport, for every output queue and every
list of readable caller buffers that fits the merged vector (at most 16
usable buffers, one less when the queue is non-empty), if every
`NsSockSend` call takes at least one and at most all of the bytes offered,
then `Ns_ConnSend` returns for every fuel of at least the number of bytes to
send; the calls it makes are successful sends only; the bytes the transport
took, concatenated in call order, are the queue followed by the buffers in
their order; and the result is the total length of the caller's buffers (in
particular when the queue is empty). -/
theorem C1_send_delivers_queue_then_spans {ω : Type} (E : Ext ω) (s : Sys ω)
    (bufs : List IoVec)
    (hsock : s.conn.sockPtr = true)
    (hread : ∀ b ∈ bufs, b.readable)
    (hfit : (bufs.filter IoVec.usable).length + (if s.conn.queued = [] then 0 else 1)
      ≤ NS_CONN_MAXBUFS)
    (hsend : ∀ w v, 0 < iovTotal v →
      1 ≤ (E.NsSockSend w v).1 ∧ (E.NsSockSend w v).1 ≤ iovTotal v)
    (fuel : Nat) (hfuel : s.conn.queued.length + (gather bufs).length ≤ fuel) :
    ∃ r s1 evs, Ns_ConnSend E fuel s bufs = some (r, s1)
      ∧ s1.trace = s.trace ++ evs
      ∧ (∀ e ∈ evs, e.isSend = true ∧ e.isSendError = false)
      ∧ accepted evs = s.conn.queued ++ gather bufs
      ∧ r = ((gather bufs).length : Int) := by
  obtain ⟨hex, hg⟩ := specVector_facts s.conn.queued bufs hread hfit
  have hlen := gather_length _ hex
  rw [hg, List.length_append] at hlen
  rw [← sendVector_eq_specVector] at hex hg hlen
  obtain ⟨st1, evs, h1, h2, h3, h4, _, h6, h7⟩ := sendLoop_progress E hsend fuel
    (sendInit s bufs) hex rfl (by simp only [sendInit]; omega)
  simp only [sendInit] at h2 h4 h6 h7
  have hsock' : ¬ (s.conn.sockPtr = false) := by simp [hsock]
  simp only [Ns_ConnSend, if_neg hsock', h1, sendFinish]
  by_cases hpos : 0 < st1.nwrote
  · rw [if_pos hpos]
    by_cases hq : 0 < s.conn.queued.length
    · rw [if_pos hq]
      have hn : (s.conn.queued.length : Int) - st1.nwrote ≤ 0 := by omega
      rw [if_pos hn]
      exact ⟨_, _, evs, rfl, h2, h3, by rw [h4, hg], by push_cast at hlen; omega⟩
    · rw [if_neg hq]
      exact ⟨_, _, evs, rfl, h2, h3, by rw [h4, hg], by push_cast at hlen; omega⟩
  · rw [if_neg hpos]
    have h0 : iovTotal (sendVector s.conn.queued bufs) = 0 := by
      have := iovTotal_nonneg (sendVector s.conn.queued bufs)
      omega
    exact ⟨_, _, evs, rfl, h2, h3, by rw [h4, hg], by rw [h7 h0]; push_cast at hlen; omega⟩

theorem sendLoop_done {ω : Type} (E : Ext ω) (fuel : Nat) (st : SendState ω)
    (h : st.towrite ≤ 0) : sendLoop E fuel st = some st := by
  have h' : ¬ 0 < st.towrite := by omega
  cases fuel <;> simp [sendLoop, h']

theorem Ns_ConnSend_nosock {ω : Type} (E : Ext ω) (fuel : Nat) (s : Sys ω)
    (bufs : List IoVec) (h : s.conn.sockPtr = false) :
    Ns_ConnSend E fuel s bufs = some (-1, s) := by
  simp [Ns_ConnSend, h]

theorem Ns_ConnSend_some {ω : Type} (E : Ext ω) (fuel : Nat) (s s1 : Sys ω)
    (bufs : List IoVec) (r : Int) (h : Ns_ConnSend E fuel s bufs = some (r, s1))
    (hsock : s.conn.sockPtr = true) :
    ∃ st1, sendLoop E fuel (sendInit s bufs) = some st1 ∧ (r, s1) = sendFinish s st1 := by
  have hsock' : ¬ (s.conn.sockPtr = false) := by simp [hsock]
  simp only [Ns_ConnSend, if_neg hsock'] at h
  cases hl : sendLoop E fuel (sendInit s bufs) with
  | none => simp [hl] at h
  | some st1 =>
    simp only [hl, Option.some.injEq] at h
    exact ⟨st1, rfl, h.symm⟩

/-- What a call of `Ns_ConnSend` on a connection with a transport does, in
terms of the sends it makes: successful sends `oks`, then at most one failed
send; `k` is the number of bytes reported sent. -/
theorem Ns_ConnSend_run {ω : Type} (E : Ext ω) (fuel : Nat) (s s1 : Sys ω)
    (bufs : List IoVec) (r : Int) (h : Ns_ConnSend E fuel s bufs = some (r, s1))
    (hsock : s.conn.sockPtr = true) :
    ∃ oks errs, s1.trace = s.trace ++ (oks ++ errs)
      ∧ (∀ e ∈ oks, e.isSend = true ∧ e.isSendError = false)
      ∧ (errs = [] ∨ ∃ v e, errs = [Event.sockSend v e] ∧ e < 0)
      ∧ sentCount (oks ++ errs) = sentCount oks
      ∧ (0 < sentCount oks →
          s1.conn = { s.conn with
              nContentSent := s.conn.nContentSent + sentCount oks,
              queued := s.conn.queued.drop (sentCount oks).toNat }
          ∧ r = max (sentCount oks - (s.conn.queued.length : Int)) 0)
      ∧ (sentCount oks ≤ 0 →
          s1.conn = s.conn ∧ (errs = [] → r = 0)
            ∧ (∀ v e, errs = [Event.sockSend v e] → r = e)) := by
  obtain ⟨st1, hl, hfin⟩ := Ns_ConnSend_some E fuel s s1 bufs r h hsock
  obtain ⟨oks, errs, h1, h2, h3, h4⟩ := sendLoop_some E fuel _ _ hl
  simp only [sendInit, zero_add] at h1 h3 h4
  have herrs : errs = [] ∨ ∃ v e, errs = [Event.sockSend v e] ∧ e < 0 := by
    rcases h4 with h4 | ⟨v, h4, h5⟩
    · exact Or.inl h4.1
    · exact Or.inr ⟨v, _, h4, h5⟩
  have hcount : sentCount (oks ++ errs) = sentCount oks := by
    rw [sentCount_append]
    rcases herrs with he | ⟨v, e, he, hneg⟩
    · simp [he, sentCount]
    · have : ¬ 0 ≤ e := by omega
      simp [he, sentCount, this]
  refine ⟨oks, errs, ?_, h2, herrs, hcount, ?_, ?_⟩
  · have : s1 = (sendFinish s st1).2 := by rw [← hfin]
    rw [this]
    simp only [sendFinish]
    split
    · split
      · split <;> simp [h1]
      · simp [h1]
    · simp [h1]
  · intro hk
    have hpos : 0 < st1.nwrote := by omega
    simp only [sendFinish, if_pos hpos] at hfin
    by_cases hq : 0 < s.conn.queued.length
    · rw [if_pos hq] at hfin
      by_cases hn : (s.conn.queued.length : Int) - st1.nwrote ≤ 0
      · rw [if_pos hn] at hfin
        simp only [Prod.mk.injEq] at hfin
        obtain ⟨hr, hs⟩ := hfin
        subst hs
        refine ⟨?_, by omega⟩
        have : s.conn.queued.drop (sentCount oks).toNat = [] :=
          List.drop_eq_nil_of_le (by omega)
        simp [this, h3]
      · rw [if_neg hn] at hfin
        simp only [Prod.mk.injEq] at hfin
        obtain ⟨hr, hs⟩ := hfin
        subst hs
        refine ⟨?_, by omega⟩
        have : (s.conn.queued.drop st1.nwrote.toNat).take
            ((s.conn.queued.length : Int) - st1.nwrote).toNat
            = s.conn.queued.drop st1.nwrote.toNat := by
          apply List.take_of_length_le
          simp only [List.length_drop]
          omega
        simp only [this]
        rw [h3]
    · rw [if_neg hq] at hfin
      simp only [Prod.mk.injEq] at hfin
      obtain ⟨hr, hs⟩ := hfin
      subst hs
      have hnil : s.conn.queued = [] := List.length_eq_zero.1 (by omega)
      refine ⟨?_, by rw [hnil]; simp; omega⟩
      simp [hnil, h3]
  · intro hk
    have hpos : ¬ 0 < st1.nwrote := by omega
    simp only [sendFinish, if_neg hpos, Prod.mk.injEq] at hfin
    obtain ⟨hr, hs⟩ := hfin
    subst hs
    refine ⟨rfl, ?_, ?_⟩
    · intro he
      rcases h4 with ⟨_, ht1, ht2, hn⟩ | ⟨v, h4, _⟩
      · have hk0 : sentCount oks = 0 := by
          have := sentCount_nonneg oks
          omega
        have hdone : (sendInit s bufs).towrite ≤ 0 := by
          simp only [sendInit]
          omega
        rw [sendLoop_done E fuel _ hdone] at hl
        cases hl
        rw [hr]
        rfl
      · rw [he] at h4
        cases h4
    · intro v e he
      rcases h4 with ⟨h4, _⟩ | ⟨v', h4, _⟩
      · rw [he] at h4
        cases h4
      · rw [he] at h4
        cases h4
        exact hr

/-! ## Termination of the send loop -/

theorem iovTotal_advanceBufs (v : List IoVec) : ∀ (n : Int), 0 ≤ n → n ≤ iovTotal v →
    iovTotal (advanceBufs v n).1 = iovTotal v - n := by
  induction v with
  | nil =>
    intro n h0 h1
    simp only [iovTotal] at h1
    have : n = 0 := by omega
    subst this
    simp [advanceBufs, iovTotal]
  | cons b bs ih =>
    intro n h0 h1
    simp only [iovTotal] at h1
    by_cases hn : 0 < n
    · by_cases hgt : n > (b.iov_len : Int)
      · have := ih (n - (b.iov_len : Int)) (by omega) (by omega)
        simp only [advanceBufs, if_pos hn, if_pos hgt, iovTotal, this]
        omega
      · simp only [advanceBufs, if_pos hn, if_neg hgt, iovTotal]
        omega
    · have : n = 0 := by omega
      subst this
      simp [advanceBufs, iovTotal]

/-- If no `NsSockSend` call on a non-empty vector returns 0, the send loop
ends within `towrite` iterations. -/
theorem sendLoop_terminates {ω : Type} (E : Ext ω)
    (hprog : ∀ w v, 0 < iovTotal v → (E.NsSockSend w v).1 ≠ 0) :
    ∀ (fuel : Nat) (st : SendState ω), st.towrite = iovTotal st.bufs →
      st.towrite.toNat ≤ fuel → ∃ st1, sendLoop E fuel st = some st1 := by
  intro fuel
  induction fuel with
  | zero =>
    intro st _ hfuel
    exact ⟨st, sendLoop_done E 0 st (by omega)⟩
  | succ fuel ih =>
    intro st htw hfuel
    by_cases hpos : 0 < st.towrite
    · have hne := hprog st.world st.bufs (by omega)
      simp only [sendLoop, if_pos hpos]
      by_cases hneg : (E.NsSockSend st.world st.bufs).1 < 0
      · rw [if_pos hneg]
        exact ⟨_, rfl⟩
      · rw [if_neg hneg]
        by_cases hmore : 0 < st.towrite - (E.NsSockSend st.world st.bufs).1
        · rw [if_pos hmore]
          apply ih
          · simp only
            rw [iovTotal_advanceBufs st.bufs _ (by omega) (by omega), htw]
          · simp only
            omega
        · rw [if_neg hmore]
          exact ⟨_, rfl⟩
    · exact ⟨st, sendLoop_done E _ st (by omega)⟩

theorem iovTotal_mergeBufs_le (bufs : List IoVec) : ∀ n : Nat,
    iovTotal (mergeBufs bufs n) ≤ iovTotal bufs := by
  induction bufs with
  | nil => intro n; simp [mergeBufs]
  | cons b bs ih =>
    intro n
    simp only [mergeBufs, iovTotal]
    split
    · split
      · have := ih (n + 1)
        simp only [iovTotal]
        omega
      · have := ih n
        omega
    · have := iovTotal_nonneg bs
      simp only [iovTotal]
      omega

theorem iovTotal_sendVector_le (q : List Nat) (bufs : List IoVec) :
    iovTotal (sendVector q bufs) ≤ (q.length : Int) + iovTotal bufs := by
  unfold sendVector
  split
  · have := iovTotal_mergeBufs_le bufs 1
    simp only [iovTotal]
    omega
  · have := iovTotal_mergeBufs_le bufs 0
    omega

theorem Ns_ConnSend_terminates {ω : Type} (E : Ext ω)
    (hprog : ∀ w v, 0 < iovTotal v → (E.NsSockSend w v).1 ≠ 0)
    (fuel : Nat) (s : Sys ω) (bufs : List IoVec)
    (hfuel : (s.conn.queued.length : Int) + iovTotal bufs ≤ (fuel : Int)) :
    ∃ r s1, Ns_ConnSend E fuel s bufs = some (r, s1) := by
  cases hsock : s.conn.sockPtr with
  | false => exact ⟨_, _, Ns_ConnSend_nosock E fuel s bufs hsock⟩
  | true =>
    have hle := iovTotal_sendVector_le s.conn.queued bufs
    obtain ⟨st1, h⟩ := sendLoop_terminates E hprog fuel (sendInit s bufs) rfl
      (by simp only [sendInit]; omega)
    exact ⟨(sendFinish s st1).1, (sendFinish s st1).2, by simp [Ns_ConnSend, hsock, h]⟩

theorem append_singleton_split {α : Type} (P : α → Prop) (x y : α) :
    ∀ (oks pre post : List α), oks ++ [x] = pre ++ y :: post → (∀ e ∈ oks, P e) → ¬ P y →
      post = [] ∧ pre = oks ∧ x = y := by
  intro oks
  induction oks with
  | nil =>
    intro pre post h _ _
    cases pre with
    | nil =>
      simp only [List.nil_append, List.cons.injEq] at h
      exact ⟨h.2.symm, rfl, h.1⟩
    | cons p ps =>
      simp only [List.nil_append, List.cons_append, List.cons.injEq] at h
      have := h.2
      cases ps <;> simp at this
  | cons o os ih =>
    intro pre post h hall hy
    cases pre with
    | nil =>
      simp only [List.nil_append, List.cons_append, List.cons.injEq] at h
      exact absurd (h.1 ▸ hall o (List.mem_cons_self _ _)) hy
    | cons p ps =>
      simp only [List.cons_append, List.cons.injEq] at h
      obtain ⟨h1, h2, h3⟩ := ih ps post h.2 (fun e he => hall e (List.mem_cons_of_mem _ he)) hy
      exact ⟨h1, by rw [h.1, h2], h3⟩

/-- C2. If during a call of `Ns_ConnSend` the transport reported `k > 0`
bytes sent while the output queue held `q` bytes (`q > 0` in particular),
then: if `k ≥ q` the queue is empty afterwards and the call returns `k - q`;
if `k < q` the queue afterwards is the old queue without its first `k` bytes
(its last `q - k` bytes, in order) and the call returns 0. -/
theorem C2_queue_trimmed_by_bytes_sent {ω : Type} (E : Ext ω) (fuel : Nat) (s s1 : Sys ω)
    (bufs : List IoVec) (r : Int) (evs : List Event)
    (h : Ns_ConnSend E fuel s bufs = some (r, s1))
    (htr : s1.trace = s.trace ++ evs)
    (hk : 0 < sentCount evs) :
    ((s.conn.queued.length : Int) ≤ sentCount evs →
        s1.conn.queued = [] ∧ r = sentCount evs - (s.conn.queued.length : Int))
      ∧ (sentCount evs < (s.conn.queued.length : Int) →
          s1.conn.queued = s.conn.queued.drop (sentCount evs).toNat
          ∧ (s1.conn.queued.length : Int) = (s.conn.queued.length : Int) - sentCount evs
          ∧ r = 0) := by
  cases hsock : s.conn.sockPtr with
  | false =>
    rw [Ns_ConnSend_nosock E fuel s bufs hsock] at h
    simp only [Option.some.injEq, Prod.mk.injEq] at h
    rw [← h.2] at htr
    have : evs = [] := by simpa using htr
    simp [this, sentCount] at hk
  | true =>
    obtain ⟨oks, errs, h1, _, _, h4, h5, _⟩ := Ns_ConnSend_run E fuel s s1 bufs r h hsock
    have hevs : evs = oks ++ errs := by
      rw [htr] at h1
      exact List.append_cancel_left h1
    rw [hevs, h4] at hk ⊢
    obtain ⟨hc, hr⟩ := h5 hk
    constructor
    · intro hle
      rw [hc]
      exact ⟨List.drop_eq_nil_of_le (by omega), by rw [hr]; omega⟩
    · intro hlt
      rw [hc]
      refine ⟨rfl, ?_, by rw [hr]; omega⟩
      simp only [List.length_drop]
      omega

/-- C3. On a connection with a transport: (a) if there is something to send
and the first `NsSockSend` call fails with `e < 0`, `Ns_ConnSend` returns `e`
and leaves the connection (output queue and `nContentSent` included)
unchanged; (b) if an `NsSockSend` call fails after the earlier calls of the
same `Ns_ConnSend` reported `k > 0` bytes sent, it is the last call made, and
the result is not the error but the non-negative count `max (k - q) 0`, `q`
being the length of the output queue; (c) the call returns, for every fuel
of at least the number of bytes offered, when no transport call on a
non-empty vector returns 0. -/
theorem C3_send_error_reporting {ω : Type} (E : Ext ω) (s : Sys ω) (bufs : List IoVec)
    (hsock : s.conn.sockPtr = true) :
    (∀ (fuel : Nat) (e : Int), 0 < iovTotal (sendVector s.conn.queued bufs) →
        (E.NsSockSend s.world (sendVector s.conn.queued bufs)).1 = e → e < 0 →
        Ns_ConnSend E (fuel + 1) s bufs
          = some (e, { conn := s.conn,
                       world := (E.NsSockSend s.world (sendVector s.conn.queued bufs)).2,
                       trace := s.trace
                         ++ [Event.sockSend (sendVector s.conn.queued bufs) e] }))
      ∧ (∀ (fuel : Nat) (r : Int) (s1 : Sys ω) (pre post : List Event) (v : List IoVec)
          (e : Int), Ns_ConnSend E fuel s bufs = some (r, s1) →
          s1.trace = s.trace ++ (pre ++ Event.sockSend v e :: post) → e < 0 →
          0 < sentCount pre →
          post = [] ∧ 0 ≤ r ∧ r ≠ e
            ∧ r = max (sentCount pre - (s.conn.queued.length : Int)) 0)
      ∧ ((∀ w v, 0 < iovTotal v → (E.NsSockSend w v).1 ≠ 0) →
          ∀ (fuel : Nat), (s.conn.queued.length : Int) + iovTotal bufs ≤ (fuel : Int) →
          ∃ r s1, Ns_ConnSend E fuel s bufs = some (r, s1)) := by
  have hsock' : ¬ (s.conn.sockPtr = false) := by simp [hsock]
  refine ⟨?_, ?_, fun hprog fuel hfuel => Ns_ConnSend_terminates E hprog fuel s bufs hfuel⟩
  · intro fuel e hpos he hneg
    have hpos' : 0 < (sendInit s bufs).towrite := hpos
    have hb : (sendInit s bufs).bufs = sendVector s.conn.queued bufs := rfl
    have hw : (sendInit s bufs).world = s.world := rfl
    simp only [Ns_ConnSend, if_neg hsock', sendLoop, if_pos hpos', hb, hw, he, if_pos hneg,
      sendFinish]
    simp [sendInit]
  · intro fuel r s1 pre post v e h htr hneg hk
    obtain ⟨oks, errs, h1, h2, h3, h4, h5, _⟩ := Ns_ConnSend_run E fuel s s1 bufs r h hsock
    have hevs : pre ++ Event.sockSend v e :: post = oks ++ errs := by
      rw [htr] at h1
      exact List.append_cancel_left h1
    have hny : ¬ ((Event.sockSend v e).isSend = true
        ∧ (Event.sockSend v e).isSendError = false) := by
      simp [Event.isSend, Event.isSendError, hneg]
    rcases h3 with he | ⟨v1, e1, he, _⟩
    · rw [he, List.append_nil] at hevs
      have hmem : Event.sockSend v e ∈ oks := by
        rw [← hevs]
        simp
      exact absurd (h2 _ hmem) hny
    · rw [he] at hevs
      obtain ⟨hpost, hpre, hx⟩ := append_singleton_split
        (fun ev => ev.isSend = true ∧ ev.isSendError = false) _ _ oks pre post hevs.symm h2 hny
      rw [hpre] at hk ⊢
      obtain ⟨_, hr⟩ := h5 hk
      refine ⟨hpost, by rw [hr]; omega, by rw [hr]; omega, hr⟩

/-- C4. The vector `Ns_ConnSend` builds is the output queue as first entry
exactly when it is non-empty, followed by the caller's usable buffers
(non-zero length and non-NULL base) in order, cut to 16 entries; it is the
vector passed to the first `NsSockSend` call; and the call is the same as the
call on the retained buffers alone, so that buffers beyond the capacity
influence neither what is sent nor the result. -/
theorem C4_merged_vector {ω : Type} (E : Ext ω) (fuel : Nat) (s : Sys ω)
    (bufs : List IoVec) :
    sendVector s.conn.queued bufs = specVector s.conn.queued bufs
      ∧ (specVector s.conn.queued bufs).length ≤ 16
      ∧ (∀ (r : Int) (s1 : Sys ω), s.conn.sockPtr = true →
          0 < iovTotal (specVector s.conn.queued bufs) →
          Ns_ConnSend E fuel s bufs = some (r, s1) →
          ∃ rest, s1.trace = s.trace
            ++ Event.sockSend (specVector s.conn.queued bufs)
                (E.NsSockSend s.world (specVector s.conn.queued bufs)).1 :: rest)
      ∧ Ns_ConnSend E fuel s bufs
          = Ns_ConnSend E fuel s
              ((bufs.filter IoVec.usable).take (16 - (if s.conn.queued = [] then 0 else 1))) := by
  refine ⟨sendVector_eq_specVector _ _, ?_, ?_, ?_⟩
  · simp [specVector, List.length_take]
  · intro r s1 hsock hpos h
    obtain ⟨st1, hl, hfin⟩ := Ns_ConnSend_some E fuel s s1 bufs r h hsock
    rw [← sendVector_eq_specVector] at hpos ⊢
    obtain ⟨rest, hrest⟩ := sendLoop_first E fuel _ _ hl hpos
    refine ⟨rest, ?_⟩
    have : s1 = (sendFinish s st1).2 := by rw [← hfin]
    rw [this]
    have htr : (sendFinish s st1).2.trace = st1.trace := by
      simp only [sendFinish]
      split
      · split
        · split <;> rfl
        · rfl
      · rfl
    rw [htr, hrest]
    rfl
  · have hvec : sendVector s.conn.queued
        ((bufs.filter IoVec.usable).take (16 - (if s.conn.queued = [] then 0 else 1)))
        = sendVector s.conn.queued bufs := by
      have hfilter : ∀ k, ((bufs.filter IoVec.usable).take k).filter IoVec.usable
          = (bufs.filter IoVec.usable).take k := by
        intro k
        apply List.filter_eq_self.2
        intro a ha
        exact (List.mem_filter.1 (List.mem_of_mem_take ha)).2
      unfold sendVector
      by_cases hq : s.conn.queued = []
      · simp [hq, mergeBufs_eq, hfilter, NS_CONN_MAXBUFS]
      · have hlen : 0 < s.conn.queued.length := List.length_pos.2 hq
        simp [hq, hlen, mergeBufs_eq, hfilter, NS_CONN_MAXBUFS]
    simp only [Ns_ConnSend, sendInit, hvec]

/-! ## A transport that takes everything it is offered -/

theorem Ns_ConnSend_all_pos {ω : Type} (E : Ext ω) (hall : AcceptsAll E) (fuel : Nat)
    (s : Sys ω) (bufs : List IoVec) (hsock : s.conn.sockPtr = true)
    (hpos : 0 < iovTotal (sendVector s.conn.queued bufs))
    (hq : (s.conn.queued.length : Int) ≤ iovTotal (sendVector s.conn.queued bufs)) :
    Ns_ConnSend E (fuel + 1) s bufs
      = some (iovTotal (sendVector s.conn.queued bufs) - (s.conn.queued.length : Int),
          { conn := { s.conn with
              nContentSent := s.conn.nContentSent
                + iovTotal (sendVector s.conn.queued bufs),
              queued := [] },
            world := (E.NsSockSend s.world (sendVector s.conn.queued bufs)).2,
            trace := s.trace ++ [Event.sockSend (sendVector s.conn.queued bufs)
              (iovTotal (sendVector s.conn.queued bufs))] }) := by
  have hsock' : ¬ (s.conn.sockPtr = false) := by simp [hsock]
  have hpos' : 0 < (sendInit s bufs).towrite := hpos
  have hb : (sendInit s bufs).bufs = sendVector s.conn.queued bufs := rfl
  have hw : (sendInit s bufs).world = s.world := rfl
  have ht : (sendInit s bufs).towrite = iovTotal (sendVector s.conn.queued bufs) := rfl
  have hnn : ¬ iovTotal (sendVector s.conn.queued bufs) < 0 := by omega
  simp only [Ns_ConnSend, if_neg hsock', sendLoop, if_pos hpos', hb, hw, ht,
    hall s.world (sendVector s.conn.queued bufs), if_neg hnn, sub_self, lt_self_iff_false,
    if_false, sendFinish]
  simp only [sendInit, zero_add, if_pos hpos]
  by_cases hlen : 0 < s.conn.queued.length
  · have hn : (s.conn.queued.length : Int) - iovTotal (sendVector s.conn.queued bufs) ≤ 0 := by
      omega
    simp only [if_pos hlen, if_pos hn]
  · have hnil : s.conn.queued = [] := List.length_eq_zero.1 (by omega)
    simp only [if_neg hlen]
    simp [hnil]

theorem Ns_ConnSend_all_zero {ω : Type} (E : Ext ω) (fuel : Nat)
    (s : Sys ω) (bufs : List IoVec) (hsock : s.conn.sockPtr = true)
    (hzero : iovTotal (sendVector s.conn.queued bufs) = 0) :
    Ns_ConnSend E fuel s bufs = some (0, s) := by
  have hsock' : ¬ (s.conn.sockPtr = false) := by simp [hsock]
  have hdone : (sendInit s bufs).towrite ≤ 0 := by
    simp only [sendInit]
    omega
  simp only [Ns_ConnSend, if_neg hsock', sendLoop_done E fuel _ hdone, sendFinish]
  simp [sendInit]

/-- A complete send on a transport that takes everything: one `NsSockSend`
call (none if there is nothing to send) delivers the queue and the buffers,
the queue is emptied, `nContentSent` grows by the number of bytes sent and
the result is the length of the caller's buffers. -/
theorem Ns_ConnSend_all {ω : Type} (E : Ext ω) (hall : AcceptsAll E) (fuel : Nat)
    (s : Sys ω) (bufs : List IoVec) (hsock : s.conn.sockPtr = true)
    (hread : ∀ b ∈ bufs, b.readable)
    (hfit : (bufs.filter IoVec.usable).length + (if s.conn.queued = [] then 0 else 1)
      ≤ NS_CONN_MAXBUFS) :
    ∃ s1 evs, Ns_ConnSend E (fuel + 1) s bufs = some (((gather bufs).length : Int), s1)
      ∧ s1.trace = s.trace ++ evs
      ∧ (∀ e ∈ evs, e.isSend = true ∧ e.isSendError = false)
      ∧ accepted evs = s.conn.queued ++ gather bufs
      ∧ s1.conn = { s.conn with
          nContentSent := s.conn.nContentSent
            + ((s.conn.queued.length + (gather bufs).length : Nat) : Int),
          queued := [] } := by
  obtain ⟨hex, hg⟩ := specVector_facts s.conn.queued bufs hread hfit
  have hlen := gather_length _ hex
  rw [hg, List.length_append] at hlen
  rw [← sendVector_eq_specVector] at hex hg hlen
  by_cases hpos : 0 < iovTotal (sendVector s.conn.queued bufs)
  · have hthis : iovTotal (sendVector s.conn.queued bufs) - (s.conn.queued.length : Int)
        = ((gather bufs).length : Int) := by
      rw [← hlen]; push_cast; omega
    rw [Ns_ConnSend_all_pos E hall fuel s bufs hsock hpos (by rw [← hlen]; omega), hthis]
    refine ⟨_, _, rfl, rfl, ?_, ?_, ?_⟩
    · intro e he
      rcases List.mem_singleton.1 he with rfl
      simp only [Event.isSend, Event.isSendError, decide_eq_false_iff_not, true_and]
      omega
    · simp only [accepted, List.append_nil]
      rw [← hg]
      apply List.take_of_length_le
      rw [hg, List.length_append]
      omega
    · simp only [← hlen]
  · have hzero : iovTotal (sendVector s.conn.queued bufs) = 0 := by
      have := iovTotal_nonneg (sendVector s.conn.queued bufs)
      omega
    rw [Ns_ConnSend_all_zero E (fuel + 1) s bufs hsock hzero]
    have hq0 : s.conn.queued.length = 0 := by omega
    have hg0 : (gather bufs).length = 0 := by omega
    have hqnil : s.conn.queued = [] := List.length_eq_zero.1 hq0
    have hgnil : gather bufs = [] := List.length_eq_zero.1 hg0
    refine ⟨s, [], ?_, by simp, by simp, by simp [accepted, hqnil, hgnil], ?_⟩
    · rw [hg0]; rfl
    · rw [hq0, hg0]
      simp [← hqnil]

/-! ## Flags -/

theorem lor_eq_zero_iff (x y : Nat) : x ||| y = 0 ↔ x = 0 ∧ y = 0 := by
  constructor
  · intro h
    have hbit : ∀ i, x.testBit i = false ∧ y.testBit i = false := by
      intro i
      have := congrArg (fun z => Nat.testBit z i) h
      simpa [Nat.testBit_or] using this
    constructor
    · apply Nat.eq_of_testBit_eq
      intro i
      simp [(hbit i).1]
    · apply Nat.eq_of_testBit_eq
      intro i
      simp [(hbit i).2]
  · rintro ⟨rfl, rfl⟩
    rfl

theorem flagSet_or (f m k : Nat) : flagSet (f ||| m) k = (flagSet f k || flagSet m k) := by
  unfold flagSet
  rw [Nat.and_distrib_right, Bool.eq_iff_iff]
  simp only [bne_iff_ne, ne_eq, lor_eq_zero_iff, Bool.or_eq_true]
  tauto

theorem flagSet_sent_sent (f : Nat) :
    flagSet (f ||| NS_CONN_SENT_LAST_CHUNK) NS_CONN_SENT_LAST_CHUNK = true := by
  rw [flagSet_or]
  have : flagSet NS_CONN_SENT_LAST_CHUNK NS_CONN_SENT_LAST_CHUNK = true := by decide
  simp [this]

theorem flagSet_sent_chunked (f : Nat) :
    flagSet (f ||| NS_CONN_SENT_LAST_CHUNK) NS_CONN_WRITE_CHUNKED
      = flagSet f NS_CONN_WRITE_CHUNKED := by
  rw [flagSet_or]
  have : flagSet NS_CONN_SENT_LAST_CHUNK NS_CONN_WRITE_CHUNKED = false := by decide
  simp [this]

theorem flagSet_closed_closed (f : Nat) :
    flagSet (f ||| NS_CONN_CLOSED) NS_CONN_CLOSED = true := by
  rw [flagSet_or]
  have : flagSet NS_CONN_CLOSED NS_CONN_CLOSED = true := by decide
  simp [this]

theorem flagSet_closed_chunked (f : Nat) :
    flagSet (f ||| NS_CONN_CLOSED) NS_CONN_WRITE_CHUNKED = flagSet f NS_CONN_WRITE_CHUNKED := by
  rw [flagSet_or]
  have : flagSet NS_CONN_CLOSED NS_CONN_WRITE_CHUNKED = false := by decide
  simp [this]

theorem flagSet_closed_sent (f : Nat) :
    flagSet (f ||| NS_CONN_CLOSED) NS_CONN_SENT_LAST_CHUNK
      = flagSet f NS_CONN_SENT_LAST_CHUNK := by
  rw [flagSet_or]
  have : flagSet NS_CONN_CLOSED NS_CONN_SENT_LAST_CHUNK = false := by decide
  simp [this]

theorem chunkInv_flagsAfterWrite (f len : Nat) (h : chunkInv f) :
    chunkInv (flagsAfterWrite f len) := by
  unfold flagsAfterWrite
  split
  · rename_i hc
    intro _
    rw [flagSet_sent_chunked]
    exact hc.2
  · exact h

theorem chunkInv_closed (f : Nat) (h : chunkInv f) : chunkInv (f ||| NS_CONN_CLOSED) := by
  unfold chunkInv
  rw [flagSet_closed_chunked, flagSet_closed_sent]
  exact h

theorem flagsAfterWrite_chunked (f len : Nat) :
    flagSet (flagsAfterWrite f len) NS_CONN_WRITE_CHUNKED = flagSet f NS_CONN_WRITE_CHUNKED := by
  unfold flagsAfterWrite
  split
  · exact flagSet_sent_chunked f
  · rfl

/-! ## What the send and write functions leave unchanged -/

theorem sendFinish_conn {ω : Type} (s : Sys ω) (st : SendState ω) :
    (sendFinish s st).2.conn
      = { s.conn with queued := (sendFinish s st).2.conn.queued,
                      nContentSent := (sendFinish s st).2.conn.nContentSent } := by
  simp only [sendFinish]
  split
  · split
    · split <;> rfl
    · rfl
  · rfl

theorem Ns_ConnSend_conn {ω : Type} (E : Ext ω) (fuel : Nat) (s s1 : Sys ω)
    (bufs : List IoVec) (r : Int) (h : Ns_ConnSend E fuel s bufs = some (r, s1)) :
    s1.conn = { s.conn with queued := s1.conn.queued, nContentSent := s1.conn.nContentSent } := by
  cases hsock : s.conn.sockPtr with
  | false =>
    rw [Ns_ConnSend_nosock E fuel s bufs hsock] at h
    simp only [Option.some.injEq, Prod.mk.injEq] at h
    rw [← h.2]
  | true =>
    obtain ⟨st1, _, hfin⟩ := Ns_ConnSend_some E fuel s s1 bufs r h hsock
    have : s1 = (sendFinish s st1).2 := by rw [← hfin]
    rw [this]
    exact sendFinish_conn s st1

theorem Ns_ConnWrite_conn {ω : Type} (E : Ext ω) (fuel : Nat) (s s1 : Sys ω)
    (vbuf : Option (List Nat)) (towrite : Nat) (r : Int)
    (h : Ns_ConnWrite E fuel s vbuf towrite = some (r, s1)) :
    s1.conn = { s.conn with queued := s1.conn.queued, nContentSent := s1.conn.nContentSent,
                            flags := flagsAfterWrite s.conn.flags towrite } := by
  unfold Ns_ConnWrite at h
  split at h
  · rename_i hc
    have hf : flagsAfterWrite s.conn.flags towrite = s.conn.flags := by
      simp [flagsAfterWrite, hc]
    rw [hf]
    exact Ns_ConnSend_conn E fuel s s1 _ r h
  · rename_i hc
    have hc' : flagSet s.conn.flags NS_CONN_WRITE_CHUNKED = true := by simpa using hc
    dsimp only at h
    split at h
    · cases h
    · rename_i nsend s2 hsend
      have hconn := Ns_ConnSend_conn E fuel s s2 _ nsend hsend
      have hflags : s2.conn.flags = s.conn.flags := by rw [hconn]
      split at h
      · rename_i hz
        simp only [Option.some.injEq, Prod.mk.injEq] at h
        rw [← h.2]
        simp only [hflags]
        rw [hconn]
        simp [flagsAfterWrite, hz.1, hc']
      · rename_i hz
        simp only [Option.some.injEq, Prod.mk.injEq] at h
        rw [← h.2, hconn]
        have : ¬ towrite = 0 := by
          intro h0
          exact hz ⟨h0, by rw [hflags]; exact hc'⟩
        simp [flagsAfterWrite, this]

theorem Ns_WriteConn_conn {ω : Type} (E : Ext ω) (fuel : Nat) (s s1 : Sys ω)
    (buf : Option (List Nat)) (len : Nat) (r : Int)
    (h : Ns_WriteConn E fuel s buf len = some (r, s1)) :
    s1.conn = { s.conn with queued := s1.conn.queued, nContentSent := s1.conn.nContentSent,
                            flags := flagsAfterWrite s.conn.flags len } := by
  unfold Ns_WriteConn at h
  split at h
  · cases h
  · rename_i n s2 hw
    have := Ns_ConnWrite_conn E fuel s s2 buf len n hw
    split at h <;> (simp only [Option.some.injEq, Prod.mk.injEq] at h; rw [← h.2]; exact this)

/-! ## Writes on a transport that takes everything -/

theorem fit_of_length_le (q : List Nat) (bufs : List IoVec) (h : bufs.length ≤ 3) :
    (bufs.filter IoVec.usable).length + (if q = [] then 0 else 1) ≤ NS_CONN_MAXBUFS := by
  have := List.length_filter_le IoVec.usable bufs
  simp only [NS_CONN_MAXBUFS]
  split <;> omega

/-- A complete write on a transport that takes everything. -/
theorem Ns_ConnWrite_all {ω : Type} (E : Ext ω) (hall : AcceptsAll E) (fuel : Nat)
    (s : Sys ω) (p : List Nat) (hsock : s.conn.sockPtr = true) :
    ∃ s1 evs, Ns_ConnWrite E (fuel + 1) s (some p) p.length = some ((p.length : Int), s1)
      ∧ s1.trace = s.trace ++ evs
      ∧ (∀ e ∈ evs, e.isSend = true ∧ e.isSendError = false)
      ∧ accepted evs = s.conn.queued ++ frame s.conn.flags p
      ∧ s1.conn = { s.conn with
          nContentSent := s.conn.nContentSent
            + ((s.conn.queued.length + (frame s.conn.flags p).length : Nat) : Int),
          queued := [],
          flags := flagsAfterWrite s.conn.flags p.length } := by
  cases hc : flagSet s.conn.flags NS_CONN_WRITE_CHUNKED with
  | false =>
    have hg : gather [IoVec.mk (some p) p.length] = p := by
      simp [gather, IoVec.bytes]
    obtain ⟨s1, evs, h1, h2, h3, h4, h5⟩ := Ns_ConnSend_all E hall fuel s
      [IoVec.mk (some p) p.length] hsock
      (by intro b hb; rcases List.mem_singleton.1 hb with rfl; simp [IoVec.readable])
      (fit_of_length_le _ _ (by simp))
    rw [hg] at h1 h4 h5
    refine ⟨s1, evs, ?_, h2, h3, ?_, ?_⟩
    · simp only [Ns_ConnWrite, hc, if_true]
      exact h1
    · simp only [frame, hc]
      exact h4
    · rw [h5]
      simp [frame, flagsAfterWrite, hc]
  | true =>
    have hg : gather [IoVec.mk (some (sprintf_x p.length ++ CRLF)) (sprintf_x p.length ++ CRLF).length,
        IoVec.mk (some p) p.length, IoVec.mk (some CRLF) 2]
        = sprintf_x p.length ++ CRLF ++ p ++ CRLF := by
      have h2 : List.take 2 CRLF = CRLF := rfl
      simp only [gather, IoVec.bytes, List.take_length, h2, List.append_nil,
        List.append_assoc]
    obtain ⟨s1, evs, h1, h2, h3, h4, h5⟩ := Ns_ConnSend_all E hall fuel s
      [IoVec.mk (some (sprintf_x p.length ++ CRLF)) (sprintf_x p.length ++ CRLF).length,
        IoVec.mk (some p) p.length, IoVec.mk (some CRLF) 2] hsock
      (by
        intro b hb
        simp only [List.mem_cons, List.mem_singleton, List.not_mem_nil, or_false] at hb
        rcases hb with rfl | rfl | rfl <;> simp [IoVec.readable, CRLF])
      (fit_of_length_le _ _ (by simp))
    rw [hg] at h1 h4 h5
    have hlen : (sprintf_x p.length ++ CRLF ++ p ++ CRLF).length
        = (sprintf_x p.length ++ CRLF).length + p.length + 2 := by
      simp only [List.length_append, CRLF, List.length_cons, List.length_nil]
    have hflags : s1.conn.flags = s.conn.flags := by rw [h5]
    simp only [Ns_ConnWrite, hc, h1, hlen]
    by_cases hz : p.length = 0
    · refine ⟨{ s1 with conn := { s1.conn with
          flags := s1.conn.flags ||| NS_CONN_SENT_LAST_CHUNK } }, evs, ?_, h2, h3, ?_, ?_⟩
      · simp [hz, hflags, hc]
      · simp only [frame, hc, if_true]
        exact h4
      · simp only [hflags]
        rw [h5]
        simp [frame, flagsAfterWrite, hc, hz, CRLF]
    · refine ⟨s1, evs, ?_, h2, h3, ?_, ?_⟩
      · simp [hz]
      · simp only [frame, hc, if_true]
        exact h4
      · rw [h5]
        simp [frame, flagsAfterWrite, hc, hz, CRLF]

/-- A complete `Ns_WriteConn` on a transport that takes everything. -/
theorem Ns_WriteConn_all {ω : Type} (E : Ext ω) (hall : AcceptsAll E) (fuel : Nat)
    (s : Sys ω) (p : List Nat) (hsock : s.conn.sockPtr = true) :
    ∃ s1 evs, Ns_WriteConn E (fuel + 1) s (some p) p.length = some (NS_OK, s1)
      ∧ s1.trace = s.trace ++ evs
      ∧ (∀ e ∈ evs, e.isSend = true ∧ e.isSendError = false)
      ∧ accepted evs = s.conn.queued ++ frame s.conn.flags p
      ∧ s1.conn = { s.conn with
          nContentSent := s.conn.nContentSent
            + ((s.conn.queued.length + (frame s.conn.flags p).length : Nat) : Int),
          queued := [],
          flags := flagsAfterWrite s.conn.flags p.length } := by
  obtain ⟨s1, evs, h1, h2, h3, h4, h5⟩ := Ns_ConnWrite_all E hall fuel s p hsock
  exact ⟨s1, evs, by simp [Ns_WriteConn, h1], h2, h3, h4, h5⟩

/-! ## Claims on `Ns_ConnWrite` and `Ns_WriteConn` -/

theorem frame_flagsAfterWrite (f len : Nat) (p : List Nat) :
    frame (flagsAfterWrite f len) p = frame f p := by
  simp only [frame, flagsAfterWrite_chunked]

theorem frameTotal_flagsAfterWrite (f len : Nat) (ps : List (List Nat)) :
    frameTotal (flagsAfterWrite f len) ps = frameTotal f ps := by
  induction ps with
  | nil => rfl
  | cons p ps ih => simp only [frameTotal, frame_flagsAfterWrite, ih]

theorem frameTotal_unchunked (f : Nat) (ps : List (List Nat))
    (h : flagSet f NS_CONN_WRITE_CHUNKED = false) : frameTotal f ps = payloadTotal ps := by
  induction ps with
  | nil => rfl
  | cons p ps ih => simp [frameTotal, payloadTotal, frame, h, ih]

/-- C5 (counterexample). In chunked mode, with an empty queue and a
transport that takes everything, the successful write of the three-byte
payload `abc` advances `nContentSent` from 0 to 8, not to 3. -/
theorem C5_counterexample :
    ∃ s1, Ns_WriteConn acceptAll 1 (sampleSys NS_CONN_WRITE_CHUNKED [] ())
        (some [97, 98, 99]) 3 = some (NS_OK, s1)
      ∧ s1.conn.nContentSent = 8
      ∧ s1.conn.nContentSent ≠ ((payloadTotal [[97, 98, 99]] : Nat) : Int) :=
  ⟨_, rfl, rfl, by decide⟩

/-- C5 (amended). After any sequence of `Ns_WriteConn` calls on a transport
that takes everything, every call returns `NS_OK` and `nContentSent` has
grown by the number of bytes put on the wire: the output queued before the
first call, plus for every payload its length when chunked mode is off and
the length of its whole chunk (hexadecimal size, CR LF, payload, CR LF) when
chunked mode is on.  With chunked mode off that is the queued output plus
the sum of the payload lengths. -/
theorem C5_bytes_sent_counts_wire_bytes {ω : Type} (E : Ext ω) (hall : AcceptsAll E)
    (fuel : Nat) (ps : List (List Nat)) : ∀ (s : Sys ω), s.conn.sockPtr = true →
    ∃ s1, writeAll E (fuel + 1) s ps = some (List.replicate ps.length NS_OK, s1)
      ∧ s1.conn.nContentSent
          = s.conn.nContentSent
            + (((if ps = [] then 0 else s.conn.queued.length)
                + frameTotal s.conn.flags ps : Nat) : Int)
      ∧ (flagSet s.conn.flags NS_CONN_WRITE_CHUNKED = false →
          frameTotal s.conn.flags ps = payloadTotal ps) := by
  induction ps with
  | nil =>
    intro s _
    exact ⟨s, rfl, by simp [frameTotal], fun _ => rfl⟩
  | cons p ps ih =>
    intro s hsock
    obtain ⟨s2, evs, h1, _, _, _, h5⟩ := Ns_WriteConn_all E hall fuel s p hsock
    have hsock2 : s2.conn.sockPtr = true := by rw [h5]; exact hsock
    obtain ⟨s1, h6, h7, _⟩ := ih s2 hsock2
    refine ⟨s1, ?_, ?_, frameTotal_unchunked _ _⟩
    · simp only [writeAll, h1, h6, List.length_cons, List.replicate_succ]
    · rw [h7]
      have hq : s2.conn.queued = [] := by rw [h5]
      have hf : s2.conn.flags = flagsAfterWrite s.conn.flags p.length := by rw [h5]
      have hn : s2.conn.nContentSent = s.conn.nContentSent
          + ((s.conn.queued.length + (frame s.conn.flags p).length : Nat) : Int) := by rw [h5]
      rw [hq, hf, hn, frameTotal_flagsAfterWrite]
      simp only [frameTotal, List.length_nil, ite_self, reduceCtorEq, if_false]
      push_cast
      omega

/-! ## The hexadecimal chunk size -/

theorem digitChar_hex (d : Nat) (h : d < 16) :
    hexDigitValue (Nat.digitChar d).toNat = d ∧ isLowerHexDigit (Nat.digitChar d).toNat = true
      ∧ ((Nat.digitChar d).toNat = 48 → d = 0) := by
  interval_cases d <;> decide

theorem toDigitsCore_append (fuel : Nat) : ∀ (n : Nat) (ds : List Char),
    Nat.toDigitsCore 16 fuel n ds = Nat.toDigitsCore 16 fuel n [] ++ ds := by
  induction fuel with
  | zero => intro n ds; simp [Nat.toDigitsCore]
  | succ fuel ih =>
    intro n ds
    simp only [Nat.toDigitsCore]
    split
    · simp
    · rw [ih (n / 16) (Nat.digitChar (n % 16) :: ds), ih (n / 16) [Nat.digitChar (n % 16)]]
      simp

theorem hexValue_append (a : List Nat) (c : Nat) :
    hexValue (a ++ [c]) = 16 * hexValue a + hexDigitValue c := by
  simp [hexValue, List.foldl_append]

theorem toDigitsCore_spec (fuel : Nat) : ∀ (n : Nat), n < fuel →
    hexValue ((Nat.toDigitsCore 16 fuel n []).map Char.toNat) = n
      ∧ (∀ c ∈ (Nat.toDigitsCore 16 fuel n []).map Char.toNat, isLowerHexDigit c = true)
      ∧ (((Nat.toDigitsCore 16 fuel n []).map Char.toNat).head? = some 48 → n = 0) := by
  induction fuel with
  | zero => intro n h; omega
  | succ fuel ih =>
    intro n hn
    have hd := digitChar_hex (n % 16) (Nat.mod_lt _ (by norm_num))
    simp only [Nat.toDigitsCore]
    by_cases h0 : n / 16 = 0
    · have hlt : n < 16 := by omega
      have hmod : n % 16 = n := Nat.mod_eq_of_lt hlt
      rw [if_pos h0]
      rw [hmod] at hd ⊢
      refine ⟨by simpa [hexValue] using hd.1, by simpa using hd.2.1, ?_⟩
      intro h
      simp only [List.map_cons, List.map_nil, List.head?_cons, Option.some.injEq] at h
      exact hd.2.2 h
    · rw [if_neg h0, toDigitsCore_append]
      have hlt : n / 16 < fuel := by omega
      obtain ⟨h1, h2, h3⟩ := ih (n / 16) hlt
      refine ⟨?_, ?_, ?_⟩
      · rw [List.map_append, List.map_cons, List.map_nil, hexValue_append, h1, hd.1]
        omega
      · intro c hc
        rw [List.map_append, List.mem_append] at hc
        rcases hc with hc | hc
        · exact h2 c hc
        · simp only [List.map_cons, List.map_nil, List.mem_singleton] at hc
          rw [hc]; exact hd.2.1
      · intro h
        exfalso
        rw [List.map_append] at h
        cases hl : (Nat.toDigitsCore 16 fuel (n / 16) []).map Char.toNat with
        | nil =>
          rw [hl] at h1
          simp [hexValue] at h1
          omega
        | cons x xs =>
          rw [hl] at h h3
          simp only [List.cons_append, List.head?_cons, Option.some.injEq] at h
          have := h3 (by simp [h])
          omega

theorem sprintf_x_spec (n : Nat) :
    hexValue (sprintf_x n) = n ∧ (∀ c ∈ sprintf_x n, isLowerHexDigit c = true)
      ∧ ((sprintf_x n).head? = some 48 → n = 0) ∧ sprintf_x n ≠ [] := by
  obtain ⟨h1, h2, h3⟩ := toDigitsCore_spec (n + 1) n (by omega)
  refine ⟨h1, h2, h3, ?_⟩
  intro h
  have : sprintf_x n = (Nat.toDigitsCore 16 (n + 1) n []).map Char.toNat := rfl
  rw [this] at h
  simp only [Nat.toDigitsCore] at h
  split at h
  · simp at h
  · rw [toDigitsCore_append] at h
    simp at h

theorem flagsAfterWrite_sent (f len : Nat) (hc : flagSet f NS_CONN_WRITE_CHUNKED = true) :
    flagSet (flagsAfterWrite f len) NS_CONN_SENT_LAST_CHUNK = true
      ↔ (len = 0 ∨ flagSet f NS_CONN_SENT_LAST_CHUNK = true) := by
  unfold flagsAfterWrite
  by_cases hz : len = 0
  · simp [hz, hc, flagSet_sent_sent]
  · simp [hz]

/-- The chunked write of a payload on a transport that takes everything,
with an empty output queue. -/
theorem Ns_ConnWrite_chunk {ω : Type} (E : Ext ω) (hall : AcceptsAll E) (fuel : Nat)
    (s : Sys ω) (p : List Nat) (hsock : s.conn.sockPtr = true)
    (hchunk : flagSet s.conn.flags NS_CONN_WRITE_CHUNKED = true)
    (hq : s.conn.queued = []) :
    ∃ s1 evs, Ns_ConnWrite E (fuel + 1) s (some p) p.length = some ((p.length : Int), s1)
      ∧ s1.trace = s.trace ++ evs
      ∧ accepted evs = sprintf_x p.length ++ CRLF ++ p ++ CRLF
      ∧ (flagSet s1.conn.flags NS_CONN_SENT_LAST_CHUNK = true
          ↔ (p.length = 0 ∨ flagSet s.conn.flags NS_CONN_SENT_LAST_CHUNK = true))
      ∧ s1.conn.sockPtr = true
      ∧ flagSet s1.conn.flags NS_CONN_WRITE_CHUNKED = true
      ∧ s1.conn.queued = [] := by
  obtain ⟨s1, evs, h1, h2, _, h4, h5⟩ := Ns_ConnWrite_all E hall fuel s p hsock
  have hf : s1.conn.flags = flagsAfterWrite s.conn.flags p.length := by rw [h5]
  refine ⟨s1, evs, h1, h2, ?_, ?_, by rw [h5]; exact hsock, ?_, by rw [h5]⟩
  · rw [h4, hq]
    simp [frame, hchunk]
  · rw [hf]
    exact flagsAfterWrite_sent _ _ hchunk
  · rw [hf, flagsAfterWrite_chunked]
    exact hchunk

/-- C6 (counterexample). On a connection in chunked mode on which
`NS_CONN_SENT_LAST_CHUNK` is already set, with an empty queue and a
transport that takes everything, the write of the three-byte payload `abc`
returns 3 and leaves `NS_CONN_SENT_LAST_CHUNK` set, although the length is
not zero. -/
theorem C6_counterexample :
    ∃ s1, Ns_ConnWrite acceptAll 1
        (sampleSys (NS_CONN_WRITE_CHUNKED ||| NS_CONN_SENT_LAST_CHUNK) [] ())
        (some [97, 98, 99]) 3 = some (3, s1)
      ∧ flagSet (NS_CONN_WRITE_CHUNKED ||| NS_CONN_SENT_LAST_CHUNK) NS_CONN_WRITE_CHUNKED = true
      ∧ flagSet s1.conn.flags NS_CONN_SENT_LAST_CHUNK = true
      ∧ ([97, 98, 99] : List Nat).length ≠ 0 :=
  ⟨_, rfl, by decide, by decide, by decide⟩

/-- C6 (amended). For every payload `p` of length `n ≥ 0` written with
`Ns_ConnWrite` on a connection in chunked mode with an empty output queue and
a transport that takes everything: the call returns `n`; the bytes delivered
are the `%x` text of `n`, CR LF, `p`, CR LF, where the `%x` text consists of
lowercase hexadecimal digits, denotes `n`, and starts with the digit 0 only
for `n = 0`; and `NS_CONN_SENT_LAST_CHUNK` is set afterwards exactly when
`n = 0` or it was set before the call.  In particular writing `abc` and then
the empty payload delivers `3\r\nabc\r\n` and then `0\r\n\r\n` and leaves
`NS_CONN_SENT_LAST_CHUNK` set. -/
theorem C6_chunked_write_frames_payload {ω : Type} (E : Ext ω) (hall : AcceptsAll E)
    (fuel : Nat) (s : Sys ω) (p : List Nat) (hsock : s.conn.sockPtr = true)
    (hchunk : flagSet s.conn.flags NS_CONN_WRITE_CHUNKED = true)
    (hq : s.conn.queued = []) :
    (∃ s1 evs, Ns_ConnWrite E (fuel + 1) s (some p) p.length = some ((p.length : Int), s1)
        ∧ s1.trace = s.trace ++ evs
        ∧ accepted evs = sprintf_x p.length ++ [13, 10] ++ p ++ [13, 10]
        ∧ (flagSet s1.conn.flags NS_CONN_SENT_LAST_CHUNK = true
            ↔ (p.length = 0 ∨ flagSet s.conn.flags NS_CONN_SENT_LAST_CHUNK = true)))
      ∧ (hexValue (sprintf_x p.length) = p.length
          ∧ (∀ c ∈ sprintf_x p.length, isLowerHexDigit c = true)
          ∧ ((sprintf_x p.length).head? = some 48 → p.length = 0)
          ∧ sprintf_x p.length ≠ [])
      ∧ (∃ s1 s2 evs1 evs2,
          Ns_ConnWrite E (fuel + 1) s (some [97, 98, 99]) 3 = some (3, s1)
            ∧ Ns_ConnWrite E (fuel + 1) s1 (some []) 0 = some (0, s2)
            ∧ s1.trace = s.trace ++ evs1 ∧ s2.trace = s1.trace ++ evs2
            ∧ accepted evs1 = [51, 13, 10, 97, 98, 99, 13, 10]
            ∧ accepted evs2 = [48, 13, 10, 13, 10]
            ∧ flagSet s2.conn.flags NS_CONN_SENT_LAST_CHUNK = true) := by
  refine ⟨?_, sprintf_x_spec p.length, ?_⟩
  · obtain ⟨s1, evs, h1, h2, h3, h4, _⟩ := Ns_ConnWrite_chunk E hall fuel s p hsock hchunk hq
    exact ⟨s1, evs, h1, h2, h3, h4⟩
  · obtain ⟨s1, evs1, h1, h2, h3, _, h5, h6, h7⟩ :=
      Ns_ConnWrite_chunk E hall fuel s [97, 98, 99] hsock hchunk hq
    obtain ⟨s2, evs2, k1, k2, k3, k4, _⟩ := Ns_ConnWrite_chunk E hall fuel s1 [] h5 h6 h7
    exact ⟨s1, s2, evs1, evs2, h1, k1, h2, k2, h3, k3, k4.2 (Or.inl rfl)⟩

/-- C7 (failing input). In chunked mode with an empty queue, when the
transport takes 3 bytes (the chunk header `3\r\n`) and then fails,
`Ns_WriteConn` of the three-byte payload `abc` returns `NS_OK` although
only the header of the eight-byte chunk was taken. -/
theorem C7_short_chunk_reported_ok :
    ∃ s1, Ns_WriteConn scripted 2 (sampleSys NS_CONN_WRITE_CHUNKED [] [3])
        (some [97, 98, 99]) 3 = some (NS_OK, s1)
      ∧ accepted s1.trace = [51, 13, 10]
      ∧ frame NS_CONN_WRITE_CHUNKED [97, 98, 99] = [51, 13, 10, 97, 98, 99, 13, 10]
      ∧ sentCount s1.trace = 3 :=
  ⟨_, rfl, rfl, rfl, rfl⟩

/-- The same defect outside chunked mode: with three bytes queued, when the
transport takes one byte and then fails, the zero-length `Ns_WriteConn`
returns `NS_OK` although two queued bytes were not sent. -/
theorem Ns_WriteConn_short_flush_reported_ok :
    ∃ s1, Ns_WriteConn scripted 2 (sampleSys 0 [1, 2, 3] [1]) none 0 = some (NS_OK, s1)
      ∧ accepted s1.trace = [1]
      ∧ s1.conn.queued = [2, 3] :=
  ⟨_, rfl, rfl, rfl⟩

/-! ## Flags through every operation -/

theorem Ns_WriteConn_inv {ω : Type} (E : Ext ω) (fuel : Nat) (s s1 : Sys ω)
    (buf : Option (List Nat)) (len : Nat) (r : Int)
    (h : Ns_WriteConn E fuel s buf len = some (r, s1)) (hinv : chunkInv s.conn.flags) :
    chunkInv s1.conn.flags := by
  have := Ns_WriteConn_conn E fuel s s1 buf len r h
  rw [this]
  exact chunkInv_flagsAfterWrite _ _ hinv

theorem writeCharLoop_inv {ω : Type} (E : Ext ω) (wfuel : Nat) : ∀ (fuel : Nat) (s s1 : Sys ω)
    (status : Int) (utfBytes : Option (List Nat)) (utfCount : Int) (r : Int),
    writeCharLoop E wfuel fuel s status utfBytes utfCount = some (r, s1) →
    chunkInv s.conn.flags → chunkInv s1.conn.flags := by
  intro fuel
  induction fuel with
  | zero =>
    intro s s1 status utfBytes utfCount r h hinv
    simp only [writeCharLoop] at h
    split at h
    · cases h
    · cases h; exact hinv
  | succ fuel ih =>
    intro s s1 status utfBytes utfCount r h hinv
    simp only [writeCharLoop] at h
    split at h
    · split at h
      · cases h; exact hinv
      · split at h
        · cases h
        · rename_i st s2 hw
          have h2 := Ns_WriteConn_inv E wfuel _ s2 _ _ st hw hinv
          exact ih _ _ _ _ _ _ h h2
    · cases h; exact hinv

theorem connSendLoop_inv {ω : Type} (E : Ext ω) (wfuel : Nat) (chan fp : Bool) :
    ∀ (fuel : Nat) (s s1 : Sys ω) (status nsend r : Int),
    connSendLoop E wfuel chan fp fuel s status nsend = some (r, s1) →
    chunkInv s.conn.flags → chunkInv s1.conn.flags := by
  intro fuel
  induction fuel with
  | zero =>
    intro s s1 status nsend r h hinv
    simp only [connSendLoop] at h
    split at h
    · cases h
    · cases h; exact hinv
  | succ fuel ih =>
    intro s s1 status nsend r h hinv
    simp only [connSendLoop] at h
    split at h
    · split at h
      · exact ih _ _ _ _ _ h hinv
      · split at h
        · exact ih _ _ _ _ _ h hinv
        · split at h
          · cases h
          · rename_i st s2 hw
            have h2 := Ns_WriteConn_inv E wfuel _ s2 _ _ st hw hinv
            split at h <;> exact ih _ _ _ _ _ h h2
    · cases h; exact hinv

theorem ConnSend_inv {ω : Type} (E : Ext ω) (fuel : Nat) (s s1 : Sys ω) (nsend : Int)
    (chan fp : Bool) (r : Int) (h : ConnSend E fuel s nsend chan fp = some (r, s1))
    (hinv : chunkInv s.conn.flags) : chunkInv s1.conn.flags := by
  simp only [ConnSend] at h
  split at h
  · cases h
  · rename_i s2 hflush
    have h2 : chunkInv s2.conn.flags := by
      split at hflush
      · split at hflush
        · cases hflush
        · rename_i st s3 hw
          cases hflush
          exact Ns_WriteConn_inv E fuel s _ none 0 st hw hinv
      · cases hflush; exact hinv
    split at h
    · cases h; exact h2
    · exact connSendLoop_inv E fuel chan fp fuel _ _ _ _ _ h h2

theorem closeSock_inv {ω : Type} (E : Ext ω) (fuel : Nat) (s s1 : Sys ω)
    (h : closeSock E fuel s = some s1) (hinv : chunkInv s.conn.flags) :
    chunkInv s1.conn.flags := by
  simp only [closeSock] at h
  split at h
  · cases h
  · rename_i keep1 s2 hw
    cases h
    have h2 : chunkInv s2.conn.flags := by
      split at hw
      · split at hw
        · cases hw
        · rename_i st s3 hw3
          cases hw
          exact Ns_WriteConn_inv E fuel s _ none 0 st hw3 hinv
      · cases hw; exact hinv
    exact chunkInv_closed _ h2

theorem Ns_ConnClose_inv {ω : Type} (E : Ext ω) (fuel : Nat) (s s1 : Sys ω) (r : Int)
    (h : Ns_ConnClose E fuel s = some (r, s1)) (hinv : chunkInv s.conn.flags) :
    chunkInv s1.conn.flags := by
  simp only [Ns_ConnClose] at h
  split at h
  · cases h
  · rename_i s2 hc
    have h2 : chunkInv s2.conn.flags := by
      split at hc
      · exact closeSock_inv E fuel s s2 hc hinv
      · cases hc; exact hinv
    split at h <;> (cases h; exact h2)

theorem Ns_ConnRead_flags {ω : Type} (s : Sys ω) (toread : Int) :
    (Ns_ConnRead s toread).2.2.conn.flags = s.conn.flags := by
  simp only [Ns_ConnRead]
  split <;> rfl

theorem Ns_ConnGets_loop_flags {ω : Type} : ∀ (bufsize : Nat) (s : Sys ω) (acc : List Nat),
    (Ns_ConnGets_loop bufsize s acc).2.conn.flags = s.conn.flags := by
  intro bufsize
  induction bufsize using Nat.strong_induction_on with
  | _ bufsize ih =>
    intro s acc
    match bufsize with
    | 0 => rfl
    | 1 => rfl
    | k + 2 =>
      simp only [Ns_ConnGets_loop]
      split
      · exact Ns_ConnRead_flags s 1
      · split
        · exact Ns_ConnRead_flags s 1
        · rw [ih (k + 1) (by omega)]
          exact Ns_ConnRead_flags s 1

theorem Ns_ConnReadLine_flags {ω : Type} (s : Sys ω) (ds : List Nat) :
    (Ns_ConnReadLine s ds).2.2.2.conn.flags = s.conn.flags := by
  simp only [Ns_ConnReadLine]
  split
  · rfl
  · split
    · rfl
    · split <;> rfl

theorem readHeadersLoop_flags {ω : Type} (E : Ext ω) : ∀ (fuel : Nat) (s s1 : Sys ω)
    (status nread r n : Int), readHeadersLoop E fuel s status nread = some (r, n, s1) →
    s1.conn.flags = s.conn.flags := by
  intro fuel
  induction fuel with
  | zero =>
    intro s s1 status nread r n h
    simp only [readHeadersLoop] at h
    split at h
    · cases h
    · cases h; rfl
  | succ fuel ih =>
    intro s s1 status nread r n h
    simp only [readHeadersLoop] at h
    have hl := Ns_ConnReadLine_flags s []
    split at h
    · split at h
      · split at h
        · rw [ih _ _ _ _ _ _ h]; exact hl
        · split at h
          · cases h; exact hl
          · rw [ih _ _ _ _ _ _ h]; exact hl
      · rw [ih _ _ _ _ _ _ h]; exact hl
    · cases h; rfl

theorem Ns_ConnCopyToDString_flags {ω : Type} (s : Sys ω) (tocopy : Nat) (ds : List Nat) :
    (Ns_ConnCopyToDString s tocopy ds).2.2.conn.flags = s.conn.flags := by
  simp only [Ns_ConnCopyToDString]
  split <;> rfl

theorem connCopyLoop_flags {ω : Type} (E : Ext ω) (chan fp : Bool) : ∀ (fuel : Nat)
    (s s1 : Sys ω) (ncopy r : Int), connCopyLoop E chan fp fuel s ncopy = some (r, s1) →
    s1.conn.flags = s.conn.flags := by
  intro fuel
  induction fuel with
  | zero =>
    intro s s1 ncopy r h
    simp only [connCopyLoop] at h
    split at h
    · cases h
    · cases h; rfl
  | succ fuel ih =>
    intro s s1 ncopy r h
    simp only [connCopyLoop] at h
    split at h
    · split at h
      · cases h; rfl
      · rw [ih _ _ _ _ h]; rfl
    · cases h; rfl

theorem ConnCopy_flags {ω : Type} (E : Ext ω) (fuel : Nat) (s s1 : Sys ω) (tocopy : Nat)
    (chan fp : Bool) (r : Int) (h : ConnCopy E fuel s tocopy chan fp = some (r, s1)) :
    s1.conn.flags = s.conn.flags := by
  simp only [ConnCopy] at h
  split at h
  · cases h; rfl
  · exact connCopyLoop_flags E chan fp fuel s s1 _ r h

theorem Ns_ConnFlushContent_flags {ω : Type} (s : Sys ω) :
    (Ns_ConnFlushContent s).2.conn.flags = s.conn.flags := by
  simp only [Ns_ConnFlushContent]
  split <;> rfl

/-- C8. The predicate "`NS_CONN_SENT_LAST_CHUNK` set implies
`NS_CONN_WRITE_CHUNKED` set" is preserved by every operation of the engine:
`Ns_ConnSend`, `Ns_ConnWrite`, `Ns_WriteConn`, `Ns_ConnPuts`,
`Ns_ConnSendDString`, `Ns_WriteCharConn`, `ConnSend`, `Ns_ConnClose`,
`Ns_ConnRead`, `Ns_ConnGets`, `Ns_ConnReadLine`, `Ns_ConnReadHeaders`,
`Ns_ConnCopyToDString`, `ConnCopy` and `Ns_ConnFlushContent`; and a
zero-length `Ns_ConnWrite` on a connection that is not in chunked mode leaves
the flags as they are, so does not set `NS_CONN_SENT_LAST_CHUNK`. -/
theorem C8_chunk_invariant_preserved {ω : Type} (E : Ext ω) (fuel : Nat) (s : Sys ω)
    (hinv : chunkInv s.conn.flags) :
    (∀ bufs r s1, Ns_ConnSend E fuel s bufs = some (r, s1) → chunkInv s1.conn.flags)
      ∧ (∀ vbuf n r s1, Ns_ConnWrite E fuel s vbuf n = some (r, s1) → chunkInv s1.conn.flags)
      ∧ (∀ buf n r s1, Ns_WriteConn E fuel s buf n = some (r, s1) → chunkInv s1.conn.flags)
      ∧ (∀ str r s1, Ns_ConnPuts E fuel s str = some (r, s1) → chunkInv s1.conn.flags)
      ∧ (∀ ds r s1, Ns_ConnSendDString E fuel s ds = some (r, s1) → chunkInv s1.conn.flags)
      ∧ (∀ buf n r s1, Ns_WriteCharConn E fuel s buf n = some (r, s1) → chunkInv s1.conn.flags)
      ∧ (∀ nsend chan fp r s1, ConnSend E fuel s nsend chan fp = some (r, s1) →
          chunkInv s1.conn.flags)
      ∧ (∀ r s1, Ns_ConnClose E fuel s = some (r, s1) → chunkInv s1.conn.flags)
      ∧ (∀ toread, chunkInv (Ns_ConnRead s toread).2.2.conn.flags)
      ∧ (∀ bufsize, chunkInv (Ns_ConnGets bufsize s).2.conn.flags)
      ∧ (∀ ds, chunkInv (Ns_ConnReadLine s ds).2.2.2.conn.flags)
      ∧ (∀ r n s1, Ns_ConnReadHeaders E fuel s = some (r, n, s1) → chunkInv s1.conn.flags)
      ∧ (∀ tocopy ds, chunkInv (Ns_ConnCopyToDString s tocopy ds).2.2.conn.flags)
      ∧ (∀ tocopy chan fp r s1, ConnCopy E fuel s tocopy chan fp = some (r, s1) →
          chunkInv s1.conn.flags)
      ∧ chunkInv (Ns_ConnFlushContent s).2.conn.flags
      ∧ (∀ vbuf r s1, flagSet s.conn.flags NS_CONN_WRITE_CHUNKED = false →
          Ns_ConnWrite E fuel s vbuf 0 = some (r, s1) → s1.conn.flags = s.conn.flags) := by
  refine ⟨?_, ?_, ?_, ?_, ?_, ?_, ?_, ?_, ?_, ?_, ?_, ?_, ?_, ?_, ?_, ?_⟩
  · intro bufs r s1 h
    have := Ns_ConnSend_conn E fuel s s1 bufs r h
    rw [this]
    exact hinv
  · intro vbuf n r s1 h
    have := Ns_ConnWrite_conn E fuel s s1 vbuf n r h
    rw [this]
    exact chunkInv_flagsAfterWrite _ _ hinv
  · intro buf n r s1 h
    exact Ns_WriteConn_inv E fuel s s1 buf n r h hinv
  · intro str r s1 h
    exact Ns_WriteConn_inv E fuel s s1 _ _ r h hinv
  · intro ds r s1 h
    exact Ns_WriteConn_inv E fuel s s1 _ _ r h hinv
  · intro buf n r s1 h
    simp only [Ns_WriteCharConn] at h
    split at h
    · exact Ns_WriteConn_inv E fuel s s1 buf n r h hinv
    · exact writeCharLoop_inv E fuel fuel s s1 _ _ _ r h hinv
  · intro nsend chan fp r s1 h
    exact ConnSend_inv E fuel s s1 nsend chan fp r h hinv
  · intro r s1 h
    exact Ns_ConnClose_inv E fuel s s1 r h hinv
  · intro toread
    rw [Ns_ConnRead_flags]
    exact hinv
  · intro bufsize
    rw [Ns_ConnGets, Ns_ConnGets_loop_flags]
    exact hinv
  · intro ds
    rw [Ns_ConnReadLine_flags]
    exact hinv
  · intro r n s1 h
    rw [readHeadersLoop_flags E fuel s s1 _ _ r n h]
    exact hinv
  · intro tocopy ds
    rw [Ns_ConnCopyToDString_flags]
    exact hinv
  · intro tocopy chan fp r s1 h
    rw [ConnCopy_flags E fuel s s1 tocopy chan fp r h]
    exact hinv
  · rw [Ns_ConnFlushContent_flags]
    exact hinv
  · intro vbuf r s1 hc h
    have := Ns_ConnWrite_conn E fuel s s1 vbuf 0 r h
    rw [this]
    simp [flagsAfterWrite, hc]

/-! ## Termination of writes -/

theorem Ns_WriteConn_terminates {ω : Type} (E : Ext ω)
    (hprog : ∀ w v, 0 < iovTotal v → (E.NsSockSend w v).1 ≠ 0)
    (fuel : Nat) (s : Sys ω) (buf : Option (List Nat)) (len : Nat)
    (hfuel : s.conn.queued.length + (frame s.conn.flags (List.replicate len 0)).length ≤ fuel) :
    ∃ r s1, Ns_WriteConn E fuel s buf len = some (r, s1) := by
  have hw : ∃ r s1, Ns_ConnWrite E fuel s buf len = some (r, s1) := by
    simp only [Ns_ConnWrite]
    cases hc : flagSet s.conn.flags NS_CONN_WRITE_CHUNKED with
    | false =>
      simp only [if_true]
      apply Ns_ConnSend_terminates E hprog
      simp only [frame, hc, Bool.false_eq_true, if_false, List.length_replicate] at hfuel
      simp only [iovTotal]
      omega
    | true =>
      simp only [frame, hc, if_true, List.length_append, List.length_replicate, CRLF,
        List.length_cons, List.length_nil] at hfuel
      obtain ⟨r, s1, h⟩ := Ns_ConnSend_terminates E hprog fuel s
        [IoVec.mk (some (sprintf_x len ++ CRLF)) (sprintf_x len ++ CRLF).length,
          IoVec.mk buf len, IoVec.mk (some CRLF) 2]
        (by
          simp only [iovTotal, List.length_append, CRLF, List.length_cons, List.length_nil]
          push_cast
          omega)
      simp only [Bool.true_eq_false, if_false, h]
      split <;> exact ⟨_, _, rfl⟩
  obtain ⟨r, s1, h⟩ := hw
  simp only [Ns_WriteConn, h]
  split <;> exact ⟨_, _, rfl⟩

/-! ## More fuel does not change a result -/

theorem sendLoop_mono {ω : Type} (E : Ext ω) : ∀ (fuel : Nat) (st st1 : SendState ω),
    sendLoop E fuel st = some st1 → sendLoop E (fuel + 1) st = some st1 := by
  intro fuel
  induction fuel with
  | zero =>
    intro st st1 h
    simp only [sendLoop] at h
    split at h
    · cases h
    · rename_i hpos
      cases h
      exact sendLoop_done E 1 st (by omega)
  | succ fuel ih =>
    intro st st1 h
    rw [sendLoop] at h ⊢
    split
    · rename_i hpos
      rw [if_pos hpos] at h
      dsimp only at h ⊢
      split
      · rename_i hneg
        rw [if_pos hneg] at h
        exact h
      · rename_i hneg
        rw [if_neg hneg] at h
        split
        · rename_i hmore
          rw [if_pos hmore] at h
          exact ih _ _ h
        · rename_i hmore
          rw [if_neg hmore] at h
          exact h
    · rename_i hpos
      rw [if_neg hpos] at h
      exact h

theorem sendLoop_mono_le {ω : Type} (E : Ext ω) (fuel fuel1 : Nat) (st st1 : SendState ω)
    (hle : fuel ≤ fuel1) (h : sendLoop E fuel st = some st1) :
    sendLoop E fuel1 st = some st1 := by
  induction fuel1 with
  | zero =>
    have : fuel = 0 := by omega
    subst this
    exact h
  | succ k ih =>
    by_cases hk : fuel ≤ k
    · exact sendLoop_mono E k st st1 (ih hk)
    · have : fuel = k + 1 := by omega
      subst this
      exact h

/-- A result of `Ns_ConnSend` does not depend on the fuel: more fuel gives
the same result. -/
theorem Ns_ConnSend_mono {ω : Type} (E : Ext ω) (fuel fuel1 : Nat) (s s1 : Sys ω)
    (bufs : List IoVec) (r : Int) (hle : fuel ≤ fuel1)
    (h : Ns_ConnSend E fuel s bufs = some (r, s1)) :
    Ns_ConnSend E fuel1 s bufs = some (r, s1) := by
  cases hsock : s.conn.sockPtr with
  | false =>
    rw [Ns_ConnSend_nosock E fuel s bufs hsock] at h
    rw [Ns_ConnSend_nosock E fuel1 s bufs hsock]
    exact h
  | true =>
    obtain ⟨st1, hl, hfin⟩ := Ns_ConnSend_some E fuel s s1 bufs r h hsock
    have hl1 := sendLoop_mono_le E fuel fuel1 _ _ hle hl
    simp [Ns_ConnSend, hsock, hl1, hfin]

/-- A result of `Ns_ConnWrite` does not depend on the fuel. -/
theorem Ns_ConnWrite_mono {ω : Type} (E : Ext ω) (fuel fuel1 : Nat) (s s1 : Sys ω)
    (vbuf : Option (List Nat)) (towrite : Nat) (r : Int) (hle : fuel ≤ fuel1)
    (h : Ns_ConnWrite E fuel s vbuf towrite = some (r, s1)) :
    Ns_ConnWrite E fuel1 s vbuf towrite = some (r, s1) := by
  unfold Ns_ConnWrite at h ⊢
  split
  · rename_i hc
    rw [if_pos hc] at h
    exact Ns_ConnSend_mono E fuel fuel1 s s1 _ r hle h
  · rename_i hc
    rw [if_neg hc] at h
    dsimp only at h ⊢
    split at h
    · cases h
    · rename_i nsend s2 hsend
      rw [Ns_ConnSend_mono E fuel fuel1 s s2 _ nsend hle hsend]
      exact h

/-- A result of `Ns_WriteConn` does not depend on the fuel. -/
theorem Ns_WriteConn_mono {ω : Type} (E : Ext ω) (fuel fuel1 : Nat) (s s1 : Sys ω)
    (buf : Option (List Nat)) (len : Nat) (r : Int) (hle : fuel ≤ fuel1)
    (h : Ns_WriteConn E fuel s buf len = some (r, s1)) :
    Ns_WriteConn E fuel1 s buf len = some (r, s1) := by
  unfold Ns_WriteConn at h ⊢
  split at h
  · cases h
  · rename_i n s2 hw
    rw [Ns_ConnWrite_mono E fuel fuel1 s s2 buf len n hle hw]
    exact h

/-! ## Writes on a transport that takes part of what it is offered -/

theorem AcceptsSome_of_all {ω : Type} (E : Ext ω) (hall : AcceptsAll E) : AcceptsSome E := by
  intro w v hv
  rw [hall w v]
  exact ⟨by omega, le_refl _⟩

theorem Ns_ConnSend_events {ω : Type} (E : Ext ω) (fuel : Nat) (s s1 : Sys ω)
    (bufs : List IoVec) (r : Int) (h : Ns_ConnSend E fuel s bufs = some (r, s1)) :
    ∃ evs, s1.trace = s.trace ++ evs ∧ ∀ e ∈ evs, e.isSend = true := by
  cases hsock : s.conn.sockPtr with
  | false =>
    rw [Ns_ConnSend_nosock E fuel s bufs hsock] at h
    simp only [Option.some.injEq, Prod.mk.injEq] at h
    exact ⟨[], by rw [← h.2]; simp, by simp⟩
  | true =>
    obtain ⟨oks, errs, h1, h2, h3, _⟩ := Ns_ConnSend_run E fuel s s1 bufs r h hsock
    refine ⟨oks ++ errs, h1, ?_⟩
    intro e he
    rcases List.mem_append.1 he with he | he
    · exact (h2 e he).1
    · rcases h3 with h3 | ⟨v, n, h3, _⟩
      · rw [h3] at he; cases he
      · rw [h3] at he
        rcases List.mem_singleton.1 he with rfl
        rfl

theorem Ns_ConnWrite_trace {ω : Type} (E : Ext ω) (fuel : Nat) (s s1 : Sys ω)
    (vbuf : Option (List Nat)) (towrite : Nat) (r : Int)
    (h : Ns_ConnWrite E fuel s vbuf towrite = some (r, s1)) :
    (flagSet s.conn.flags NS_CONN_WRITE_CHUNKED = false →
        ∃ r1 s2, Ns_ConnSend E fuel s [IoVec.mk vbuf towrite] = some (r1, s2)
          ∧ s1.trace = s2.trace ∧ s1.world = s2.world)
      ∧ (flagSet s.conn.flags NS_CONN_WRITE_CHUNKED = true →
        ∃ r1 s2, Ns_ConnSend E fuel s
            [IoVec.mk (some (sprintf_x towrite ++ CRLF)) (sprintf_x towrite ++ CRLF).length,
              IoVec.mk vbuf towrite, IoVec.mk (some CRLF) 2] = some (r1, s2)
          ∧ s1.trace = s2.trace ∧ s1.world = s2.world) := by
  unfold Ns_ConnWrite at h
  split at h
  · rename_i hc
    exact ⟨fun _ => ⟨r, s1, h, rfl, rfl⟩, fun hc' => by rw [hc] at hc'; cases hc'⟩
  · rename_i hc
    refine ⟨fun hc' => absurd hc' hc, fun _ => ?_⟩
    dsimp only at h
    split at h
    · cases h
    · rename_i nsend s2 hsend
      refine ⟨nsend, s2, hsend, ?_⟩
      split at h <;> (simp only [Option.some.injEq, Prod.mk.injEq] at h; rw [← h.2]; exact ⟨rfl, rfl⟩)

theorem Ns_WriteConn_trace {ω : Type} (E : Ext ω) (fuel : Nat) (s s1 : Sys ω)
    (buf : Option (List Nat)) (len : Nat) (r : Int)
    (h : Ns_WriteConn E fuel s buf len = some (r, s1)) :
    ∃ r1, Ns_ConnWrite E fuel s buf len = some (r1, s1)
      ∧ r = (if r1 ≠ (len : Int) then NS_ERROR else NS_OK) := by
  unfold Ns_WriteConn at h
  split at h
  · cases h
  · rename_i n s2 hw
    refine ⟨n, ?_, ?_⟩
    · split at h <;> (simp only [Option.some.injEq, Prod.mk.injEq] at h; rw [hw, ← h.2])
    · split at h <;> (simp only [Option.some.injEq, Prod.mk.injEq] at h; rw [← h.1])
      · rename_i hne; rw [if_pos hne]
      · rename_i hne; rw [if_neg hne]

theorem Ns_WriteConn_events {ω : Type} (E : Ext ω) (fuel : Nat) (s s1 : Sys ω)
    (buf : Option (List Nat)) (len : Nat) (r : Int)
    (h : Ns_WriteConn E fuel s buf len = some (r, s1)) :
    ∃ evs, s1.trace = s.trace ++ evs ∧ ∀ e ∈ evs, e.isSend = true := by
  obtain ⟨r1, hw, _⟩ := Ns_WriteConn_trace E fuel s s1 buf len r h
  obtain ⟨h1, h2⟩ := Ns_ConnWrite_trace E fuel s s1 buf len r1 hw
  cases hc : flagSet s.conn.flags NS_CONN_WRITE_CHUNKED with
  | false =>
    obtain ⟨r2, s2, hs, ht, _⟩ := h1 hc
    rw [ht]
    exact Ns_ConnSend_events E fuel s s2 _ r2 hs
  | true =>
    obtain ⟨r2, s2, hs, ht, _⟩ := h2 hc
    rw [ht]
    exact Ns_ConnSend_events E fuel s s2 _ r2 hs

theorem zeroChunk_gather (q : List Nat) :
    gather (specVector q zeroChunkBufs) = q ++ [48, 13, 10, 13, 10]
      ∧ 0 < iovTotal (specVector q zeroChunkBufs) := by
  have hfit := fit_of_length_le q zeroChunkBufs (by simp [zeroChunkBufs])
  obtain ⟨hex, hg⟩ := specVector_facts q zeroChunkBufs (by decide) hfit
  have hlen := gather_length _ hex
  have hz : gather zeroChunkBufs = [48, 13, 10, 13, 10] := by decide
  rw [hg, hz] at hlen
  refine ⟨by rw [hg, hz], ?_⟩
  rw [← hlen]
  simp only [List.length_append, List.length_cons, List.length_nil]
  omega

/-- The first transport call of the terminating write of `Ns_ConnClose`
offers the output queue followed by the zero-length chunk. -/
theorem Ns_WriteConn_zero_chunk {ω : Type} (E : Ext ω) (fuel : Nat) (s s2 : Sys ω) (st : Int)
    (hsock : s.conn.sockPtr = true)
    (hchunk : flagSet s.conn.flags NS_CONN_WRITE_CHUNKED = true)
    (h : Ns_WriteConn E fuel s none 0 = some (st, s2)) :
    ∃ n rest, s2.trace
      = s.trace ++ Event.sockSend (specVector s.conn.queued zeroChunkBufs) n :: rest := by
  obtain ⟨r1, hw, _⟩ := Ns_WriteConn_trace E fuel s s2 none 0 st h
  obtain ⟨r2, s3, hs, ht, _⟩ := (Ns_ConnWrite_trace E fuel s s2 none 0 r1 hw).2 hchunk
  obtain ⟨st1, hl, hfin⟩ := Ns_ConnSend_some E fuel s s3 _ r2 hs hsock
  have hpos := (zeroChunk_gather s.conn.queued).2
  rw [← sendVector_eq_specVector] at hpos ⊢
  obtain ⟨rest, hrest⟩ := sendLoop_first E fuel _ _ hl hpos
  have hs3 : s3 = (sendFinish s st1).2 := by rw [← hfin]
  have htr : (sendFinish s st1).2.trace = st1.trace := by
    simp only [sendFinish]
    split
    · split
      · split <;> rfl
      · rfl
    · rfl
  exact ⟨_, rest, by rw [ht, hs3, htr, hrest]; rfl⟩

theorem closeSock_plain {ω : Type} (E : Ext ω) (fuel : Nat) (s : Sys ω)
    (hterm : ¬ (flagSet s.conn.flags NS_CONN_WRITE_CHUNKED = true
      ∧ flagSet s.conn.flags NS_CONN_SENT_LAST_CHUNK = false)) :
    closeSock E fuel s
      = some { conn := { s.conn with sockPtr := false,
                                     flags := s.conn.flags ||| NS_CONN_CLOSED },
               world := E.NsSockClose s.world (keepOf s.conn.flags),
               trace := s.trace ++ [Event.sockClose (keepOf s.conn.flags)] } := by
  simp only [closeSock, if_neg hterm, keepOf]

theorem closeSock_term {ω : Type} (E : Ext ω) (fuel : Nat) (s : Sys ω)
    (hterm : flagSet s.conn.flags NS_CONN_WRITE_CHUNKED = true
      ∧ flagSet s.conn.flags NS_CONN_SENT_LAST_CHUNK = false) :
    (Ns_WriteConn E fuel s none 0 = none → closeSock E fuel s = none)
      ∧ (∀ st s2, Ns_WriteConn E fuel s none 0 = some (st, s2) →
          closeSock E fuel s
            = some { conn := { s2.conn with sockPtr := false,
                                            flags := s2.conn.flags ||| NS_CONN_CLOSED },
                     world := E.NsSockClose s2.world
                       (if st ≠ NS_OK then 0 else keepOf s.conn.flags),
                     trace := s2.trace ++ [Event.sockClose
                       (if st ≠ NS_OK then 0 else keepOf s.conn.flags)] }) := by
  constructor
  · intro h
    simp only [closeSock, if_pos hterm, h]
  · intro st s2 h
    simp only [closeSock, if_pos hterm, h, keepOf]

theorem Ns_ConnClose_of_closeSock {ω : Type} (E : Ext ω) (fuel : Nat) (s s3 : Sys ω)
    (hsock : s.conn.sockPtr = true) (h : closeSock E fuel s = some s3) :
    ∃ s1, Ns_ConnClose E fuel s = some (NS_OK, s1)
      ∧ s1.trace = s3.trace ++ atCloseEvents s3.conn.itPtr
      ∧ s1.conn = s3.conn := by
  simp only [Ns_ConnClose, if_pos hsock, h]
  cases hit : s3.conn.itPtr with
  | false => exact ⟨s3, by simp, by simp [atCloseEvents, hit], rfl⟩
  | true =>
    exact ⟨{ s3 with world := E.NsTclRunAtClose s3.world,
                     trace := s3.trace ++ [Event.runAtClose] },
      by simp, by simp [atCloseEvents, hit], rfl⟩

theorem filter_sockClose_sends (evs : List Event) (h : ∀ e ∈ evs, e.isSend = true) :
    evs.filter Event.isSockClose = [] := by
  apply List.filter_eq_nil_iff.2
  intro e he
  have := h e he
  cases e <;> simp_all [Event.isSend, Event.isSockClose]

theorem filter_sockClose_atClose (b : Bool) :
    (atCloseEvents b).filter Event.isSockClose = [] := by
  cases b <;> rfl

/-- C9. For a connection that has a transport, `Ns_ConnClose`
(1) when `NS_CONN_WRITE_CHUNKED` is not set or `NS_CONN_SENT_LAST_CHUNK` is
set, makes no send: it calls `NsSockClose` with `keep` the
`NS_CONN_KEEPALIVE` flag, and returns `NS_OK`;
(2) when `NS_CONN_WRITE_CHUNKED` is set and `NS_CONN_SENT_LAST_CHUNK` is not,
first writes the zero-length chunk (the first transport call offers the
queued output followed by `0\r\n\r\n`), returns exactly when that write
returns, and then calls `NsSockClose` with `keep` set exactly when
`NS_CONN_KEEPALIVE` is set and the write returned `NS_OK`;
(3) whenever it returns, the result is `NS_OK`, `sockPtr` is NULL,
`NS_CONN_CLOSED` is set and `NsSockClose` was called exactly once;
(4) it returns, for every fuel of at least the queue length plus 5, when no
transport call on a non-empty vector returns 0. -/
theorem C9_close_releases_transport {ω : Type} (E : Ext ω) (fuel : Nat) (s : Sys ω)
    (hsock : s.conn.sockPtr = true) :
    (¬ (flagSet s.conn.flags NS_CONN_WRITE_CHUNKED = true
          ∧ flagSet s.conn.flags NS_CONN_SENT_LAST_CHUNK = false) →
        ∃ s1, Ns_ConnClose E fuel s = some (NS_OK, s1)
          ∧ s1.trace = s.trace
              ++ Event.sockClose (keepOf s.conn.flags) :: atCloseEvents s.conn.itPtr
          ∧ s1.conn = { s.conn with sockPtr := false,
                                    flags := s.conn.flags ||| NS_CONN_CLOSED })
      ∧ (flagSet s.conn.flags NS_CONN_WRITE_CHUNKED = true
          ∧ flagSet s.conn.flags NS_CONN_SENT_LAST_CHUNK = false →
        (Ns_WriteConn E fuel s none 0 = none → Ns_ConnClose E fuel s = none)
          ∧ ∀ st s2, Ns_WriteConn E fuel s none 0 = some (st, s2) →
            (∃ n rest, s2.trace = s.trace
                ++ Event.sockSend (specVector s.conn.queued zeroChunkBufs) n :: rest
              ∧ ∀ e ∈ rest, e.isSend = true)
            ∧ gather (specVector s.conn.queued zeroChunkBufs)
                = s.conn.queued ++ [48, 13, 10, 13, 10]
            ∧ ∃ s1, Ns_ConnClose E fuel s = some (NS_OK, s1)
                ∧ s1.trace = s2.trace
                    ++ Event.sockClose
                        (if flagSet s.conn.flags NS_CONN_KEEPALIVE = true ∧ st = NS_OK
                          then 1 else 0) :: atCloseEvents s.conn.itPtr
                ∧ s1.conn = { s2.conn with sockPtr := false,
                                           flags := s2.conn.flags ||| NS_CONN_CLOSED })
      ∧ (∀ r s1, Ns_ConnClose E fuel s = some (r, s1) →
          r = NS_OK ∧ s1.conn.sockPtr = false ∧ flagSet s1.conn.flags NS_CONN_CLOSED = true
            ∧ ∃ evs, s1.trace = s.trace ++ evs
                ∧ (evs.filter Event.isSockClose).length = 1)
      ∧ ((∀ w v, 0 < iovTotal v → (E.NsSockSend w v).1 ≠ 0) →
          s.conn.queued.length + 5 ≤ fuel →
          ∃ s1, Ns_ConnClose E fuel s = some (NS_OK, s1)) := by
  have part1 : ¬ (flagSet s.conn.flags NS_CONN_WRITE_CHUNKED = true
          ∧ flagSet s.conn.flags NS_CONN_SENT_LAST_CHUNK = false) →
        ∃ s1, Ns_ConnClose E fuel s = some (NS_OK, s1)
          ∧ s1.trace = s.trace
              ++ Event.sockClose (keepOf s.conn.flags) :: atCloseEvents s.conn.itPtr
          ∧ s1.conn = { s.conn with sockPtr := false,
                                    flags := s.conn.flags ||| NS_CONN_CLOSED } := by
    intro hterm
    obtain ⟨s1, h1, h2, h3⟩ := Ns_ConnClose_of_closeSock E fuel s _ hsock
      (closeSock_plain E fuel s hterm)
    exact ⟨s1, h1, by rw [h2]; simp, h3⟩
  have part2 : flagSet s.conn.flags NS_CONN_WRITE_CHUNKED = true
          ∧ flagSet s.conn.flags NS_CONN_SENT_LAST_CHUNK = false →
        (Ns_WriteConn E fuel s none 0 = none → Ns_ConnClose E fuel s = none)
          ∧ ∀ st s2, Ns_WriteConn E fuel s none 0 = some (st, s2) →
            (∃ n rest, s2.trace = s.trace
                ++ Event.sockSend (specVector s.conn.queued zeroChunkBufs) n :: rest
              ∧ ∀ e ∈ rest, e.isSend = true)
            ∧ gather (specVector s.conn.queued zeroChunkBufs)
                = s.conn.queued ++ [48, 13, 10, 13, 10]
            ∧ ∃ s1, Ns_ConnClose E fuel s = some (NS_OK, s1)
                ∧ s1.trace = s2.trace
                    ++ Event.sockClose
                        (if flagSet s.conn.flags NS_CONN_KEEPALIVE = true ∧ st = NS_OK
                          then 1 else 0) :: atCloseEvents s.conn.itPtr
                ∧ s1.conn = { s2.conn with sockPtr := false,
                                           flags := s2.conn.flags ||| NS_CONN_CLOSED } := by
    intro hterm
    obtain ⟨hnone, hsome⟩ := closeSock_term E fuel s hterm
    constructor
    · intro h
      simp only [Ns_ConnClose, if_pos hsock, hnone h]
    · intro st s2 h
      obtain ⟨n, rest, hfirst⟩ := Ns_WriteConn_zero_chunk E fuel s s2 st hsock hterm.1 h
      obtain ⟨evs, hevs, hall⟩ := Ns_WriteConn_events E fuel s s2 none 0 st h
      have hrest : ∀ e ∈ rest, e.isSend = true := by
        intro e he
        have : evs = Event.sockSend (specVector s.conn.queued zeroChunkBufs) n :: rest := by
          rw [hevs] at hfirst
          exact List.append_cancel_left hfirst
        exact hall e (by rw [this]; exact List.mem_cons_of_mem _ he)
      obtain ⟨s1, h1, h2, h3⟩ := Ns_ConnClose_of_closeSock E fuel s _ hsock (hsome st s2 h)
      have hit : s2.conn.itPtr = s.conn.itPtr := by
        rw [Ns_WriteConn_conn E fuel s s2 none 0 st h]
      have hkeep : (if st ≠ NS_OK then 0 else keepOf s.conn.flags)
          = (if flagSet s.conn.flags NS_CONN_KEEPALIVE = true ∧ st = NS_OK
              then (1 : Int) else 0) := by
        by_cases hst : st = NS_OK <;> simp [hst, keepOf]
      refine ⟨⟨n, rest, hfirst, hrest⟩, (zeroChunk_gather s.conn.queued).1, s1, h1, ?_, h3⟩
      rw [h2]
      simp only [hkeep, hit, List.append_assoc, List.singleton_append]
  refine ⟨part1, part2, ?_, ?_⟩
  · intro r s1 h
    by_cases hterm : flagSet s.conn.flags NS_CONN_WRITE_CHUNKED = true
        ∧ flagSet s.conn.flags NS_CONN_SENT_LAST_CHUNK = false
    · obtain ⟨hnone, hsome⟩ := part2 hterm
      cases hw : Ns_WriteConn E fuel s none 0 with
      | none => rw [hnone hw] at h; cases h
      | some res =>
        obtain ⟨st, s2⟩ := res
        obtain ⟨_, _, s1', h1, h2, h3⟩ := hsome st s2 hw
        obtain ⟨evs, hevs, hall⟩ := Ns_WriteConn_events E fuel s s2 none 0 st hw
        rw [h1] at h
        simp only [Option.some.injEq, Prod.mk.injEq] at h
        obtain ⟨hr, hs⟩ := h
        subst hs
        refine ⟨hr.symm, by rw [h3], by rw [h3]; exact flagSet_closed_closed _, ?_⟩
        refine ⟨evs ++ Event.sockClose
            (if flagSet s.conn.flags NS_CONN_KEEPALIVE = true ∧ st = NS_OK then 1 else 0)
              :: atCloseEvents s.conn.itPtr, by rw [h2, hevs]; simp, ?_⟩
        rw [List.filter_append, filter_sockClose_sends evs hall, List.filter_cons]
        simp [Event.isSockClose, filter_sockClose_atClose]
    · obtain ⟨s1', h1, h2, h3⟩ := part1 hterm
      rw [h1] at h
      simp only [Option.some.injEq, Prod.mk.injEq] at h
      obtain ⟨hr, hs⟩ := h
      subst hs
      refine ⟨hr.symm, by rw [h3], by rw [h3]; exact flagSet_closed_closed _, ?_⟩
      refine ⟨_, h2, ?_⟩
      rw [List.filter_cons]
      simp [Event.isSockClose, filter_sockClose_atClose]
  · intro hprog hfuel
    by_cases hterm : flagSet s.conn.flags NS_CONN_WRITE_CHUNKED = true
        ∧ flagSet s.conn.flags NS_CONN_SENT_LAST_CHUNK = false
    · obtain ⟨st, s2, hw⟩ := Ns_WriteConn_terminates E hprog fuel s none 0
        (by
          have : (frame s.conn.flags (List.replicate 0 0)).length = 5 := by
            simp only [frame, hterm.1, if_true]
            rfl
          omega)
      obtain ⟨_, _, s1, h1, _⟩ := (part2 hterm).2 st s2 hw
      exact ⟨s1, h1⟩
    · obtain ⟨s1, h1, _⟩ := part1 hterm
      exact ⟨s1, h1⟩

theorem Ns_ConnClose_sockPtr {ω : Type} (E : Ext ω) (fuel : Nat) (s s1 : Sys ω) (r : Int)
    (h : Ns_ConnClose E fuel s = some (r, s1)) : s1.conn.sockPtr = false := by
  simp only [Ns_ConnClose] at h
  split at h
  · cases h
  · rename_i s3 hc
    have h3 : s3.conn.sockPtr = false := by
      split at hc
      · simp only [closeSock] at hc
        split at hc
        · cases hc
        · cases hc; rfl
      · rename_i hs
        cases hc
        simpa using hs
    split at h <;> (simp only [Option.some.injEq, Prod.mk.injEq] at h; rw [← h.2]; exact h3)

/-- C10. If a first call of `Ns_ConnClose` returned, a second call on the
resulting connection returns `NS_OK`, makes no transport call (no send, no
`NsSockClose`): the only call it can make is `NsTclRunAtClose`, when `itPtr`
is not NULL; and it leaves the connection (flags, output queue,
`nContentSent` and request cursor included) exactly as the first call left
it. -/
theorem C10_second_close_has_no_transport_effect {ω : Type} (E : Ext ω) (fuel fuel2 : Nat)
    (s s1 : Sys ω) (r : Int) (h : Ns_ConnClose E fuel s = some (r, s1)) :
    ∃ s2, Ns_ConnClose E fuel2 s1 = some (NS_OK, s2)
      ∧ s2.conn = s1.conn
      ∧ s2.trace = s1.trace ++ atCloseEvents s1.conn.itPtr
      ∧ (∀ e ∈ atCloseEvents s1.conn.itPtr, e.isSend = false ∧ e.isSockClose = false) := by
  have hclosed : s1.conn.sockPtr = false := Ns_ConnClose_sockPtr E fuel s s1 r h
  have hne : ¬ (s1.conn.sockPtr = true) := by simp [hclosed]
  simp only [Ns_ConnClose, if_neg hne]
  have hev : ∀ e ∈ atCloseEvents s1.conn.itPtr, e.isSend = false ∧ e.isSockClose = false := by
    intro e he
    cases hit : s1.conn.itPtr <;> simp [atCloseEvents, hit] at he
    subst he
    exact ⟨rfl, rfl⟩
  by_cases hit : s1.conn.itPtr = true
  · exact ⟨{ s1 with world := E.NsTclRunAtClose s1.world,
                     trace := s1.trace ++ [Event.runAtClose] },
      by simp [hit], rfl, by simp [atCloseEvents, hit], hev⟩
  · exact ⟨s1, by simp [hit], rfl, by simp [atCloseEvents, hit], hev⟩

/-! ## The claims at concrete inputs -/

theorem oneByte_progress : ∀ (w : Unit) (v : List IoVec), 0 < iovTotal v →
    1 ≤ (oneByte.NsSockSend w v).1 ∧ (oneByte.NsSockSend w v).1 ≤ iovTotal v := by
  intro w v h
  simp only [oneByte, transportOnly, if_pos h]
  omega

theorem acceptAll_acceptsAll : AcceptsAll acceptAll := fun _ _ => rfl

/-- C1 at a concrete input: two queued bytes and the buffers `sampleBufs`,
sent one byte per transport call. -/
theorem C1_witness :
    ∃ r s1 evs, Ns_ConnSend oneByte 5 (sampleSys 0 [1, 2] ()) sampleBufs = some (r, s1)
      ∧ s1.trace = evs
      ∧ accepted evs = [1, 2, 3, 4, 6]
      ∧ r = 3 := by
  obtain ⟨r, s1, evs, h1, h2, _, h4, h5⟩ := C1_send_delivers_queue_then_spans oneByte
    (sampleSys 0 [1, 2] ()) sampleBufs rfl (by decide) (by decide) oneByte_progress 5
    (by decide)
  exact ⟨r, s1, evs, h1, h2, h4, h5⟩

/-- C2 at a concrete input: three bytes queued, the transport takes two
bytes and then fails. -/
theorem C2_witness :
    ∃ r s1, Ns_ConnSend scripted 5 (sampleSys 0 [1, 2, 3] [2]) [IoVec.mk (some [7, 8]) 2]
        = some (r, s1)
      ∧ s1.conn.queued = [3] ∧ r = 0 := by
  have h := C2_queue_trimmed_by_bytes_sent scripted 5 (sampleSys 0 [1, 2, 3] [2]) _
    [IoVec.mk (some [7, 8]) 2] _ _ rfl rfl (by decide)
  exact ⟨_, _, rfl, (h.2 (by decide)).1, (h.2 (by decide)).2.2⟩

/-- C3 at concrete inputs: a transport that fails at once, and a transport
that takes two bytes of four and then fails. -/
theorem C3_witness :
    Ns_ConnSend scripted 1 (sampleSys 0 [] []) [IoVec.mk (some [1]) 1]
        = some (-1, { conn := sampleConn 0 [], world := [],
                      trace := [Event.sockSend [IoVec.mk (some [1]) 1] (-1)] })
      ∧ ∃ r s1, Ns_ConnSend scripted 3 (sampleSys 0 [] [2]) [IoVec.mk (some [1, 2, 3, 4]) 4]
          = some (r, s1) ∧ r = 2 := by
  constructor
  · exact (C3_send_error_reporting scripted (sampleSys 0 [] []) [IoVec.mk (some [1]) 1] rfl).1
      0 (-1) (by decide) rfl (by decide)
  · have h := (C3_send_error_reporting scripted (sampleSys 0 [] [2])
      [IoVec.mk (some [1, 2, 3, 4]) 4] rfl).2.1 3 _ _
      [Event.sockSend [IoVec.mk (some [1, 2, 3, 4]) 4] 2] [] _ (-1) rfl rfl (by decide)
      (by decide)
    exact ⟨_, _, rfl, h.2.2.2⟩

/-- C4 at a concrete input: of seventeen one-byte buffers the first sixteen
are sent. -/
theorem C4_witness :
    ∃ s1, Ns_ConnSend acceptAll 1 (sampleSys 0 [] ())
        ((List.range 17).map (fun i => IoVec.mk (some [i]) 1)) = some (16, s1)
      ∧ accepted s1.trace = List.range 16 := by
  rw [(C4_merged_vector acceptAll 1 (sampleSys 0 [] ())
    ((List.range 17).map (fun i => IoVec.mk (some [i]) 1))).2.2.2]
  exact ⟨_, rfl, rfl⟩

/-- C5 at a concrete input: chunked mode off, two bytes queued, payloads of
three bytes and one byte. -/
theorem C5_witness :
    ∃ s1, writeAll acceptAll 1 (sampleSys 0 [1, 2] ()) [[97, 98, 99], [100]]
        = some ([NS_OK, NS_OK], s1)
      ∧ s1.conn.nContentSent = 6 := by
  obtain ⟨s1, h1, h2, _⟩ := C5_bytes_sent_counts_wire_bytes acceptAll acceptAll_acceptsAll 0
    [[97, 98, 99], [100]] (sampleSys 0 [1, 2] ()) rfl
  exact ⟨s1, h1, h2⟩

/-- C6 at a concrete input: the 26-byte payload of 26 bytes `120` in chunked
mode. -/
theorem C6_witness :
    ∃ s1 evs, Ns_ConnWrite acceptAll 1 (sampleSys NS_CONN_WRITE_CHUNKED [] ())
        (some (List.replicate 26 120)) 26 = some (26, s1)
      ∧ s1.trace = evs
      ∧ accepted evs = [49, 97, 13, 10] ++ List.replicate 26 120 ++ [13, 10] := by
  obtain ⟨s1, evs, h1, h2, h3, _⟩ := (C6_chunked_write_frames_payload acceptAll
    acceptAll_acceptsAll 0 (sampleSys NS_CONN_WRITE_CHUNKED [] ()) (List.replicate 26 120)
    rfl (by decide) rfl).1
  exact ⟨s1, evs, h1, h2, h3⟩

/-- C8 at a concrete input: the zero-length write in chunked mode sets
`NS_CONN_SENT_LAST_CHUNK` and keeps the invariant. -/
theorem C8_witness :
    ∃ s1, Ns_ConnWrite acceptAll 1 (sampleSys NS_CONN_WRITE_CHUNKED [] ()) none 0 = some (0, s1)
      ∧ chunkInv s1.conn.flags := by
  have h := (C8_chunk_invariant_preserved acceptAll 1 (sampleSys NS_CONN_WRITE_CHUNKED [] ())
    (by decide)).2.1 none 0 0 _ rfl
  exact ⟨_, rfl, h⟩

/-- C9 at a concrete input: closing a chunked keep-alive connection with
one byte queued. -/
theorem C9_witness :
    ∃ s1, Ns_ConnClose acceptAll 6
        (sampleSys (NS_CONN_WRITE_CHUNKED ||| NS_CONN_KEEPALIVE) [7] ()) = some (NS_OK, s1)
      ∧ s1.conn.sockPtr = false
      ∧ accepted s1.trace = [7, 48, 13, 10, 13, 10]
      ∧ s1.trace.filter Event.isSockClose = [Event.sockClose 1] := by
  obtain ⟨s1, h1⟩ := (C9_close_releases_transport acceptAll 6
    (sampleSys (NS_CONN_WRITE_CHUNKED ||| NS_CONN_KEEPALIVE) [7] ()) rfl).2.2.2
    (by
      intro w v h
      simp only [acceptAll, transportOnly]
      omega)
    (by decide)
  have h2 : Ns_ConnClose acceptAll 6
      (sampleSys (NS_CONN_WRITE_CHUNKED ||| NS_CONN_KEEPALIVE) [7] ())
      = some (NS_OK, (Ns_ConnClose acceptAll 6
          (sampleSys (NS_CONN_WRITE_CHUNKED ||| NS_CONN_KEEPALIVE) [7] ())).get rfl |>.2) := rfl
  exact ⟨_, h2, rfl, rfl, rfl⟩

/-- C10 at a concrete input: closing a chunked keep-alive connection with
one byte queued, twice. -/
theorem C10_witness :
    ∃ s1 s2, Ns_ConnClose acceptAll 6
        (sampleSys (NS_CONN_WRITE_CHUNKED ||| NS_CONN_KEEPALIVE) [7] ()) = some (NS_OK, s1)
      ∧ Ns_ConnClose acceptAll 0 s1 = some (NS_OK, s2)
      ∧ s2.conn = s1.conn ∧ s2.trace = s1.trace := by
  obtain ⟨s2, h1, h2, h3, _⟩ := C10_second_close_has_no_transport_effect acceptAll 6 0
    (sampleSys (NS_CONN_WRITE_CHUNKED ||| NS_CONN_KEEPALIVE) [7] ()) _ NS_OK rfl
  exact ⟨_, s2, rfl, h1, h2, by rw [h3]; rfl⟩

/-! ## The on-close hook -/

theorem closeSock_events {ω : Type} (E : Ext ω) (fuel : Nat) (s s3 : Sys ω)
    (h : closeSock E fuel s = some s3) :
    ∃ evs, s3.trace = s.trace ++ evs ∧ (∀ e ∈ evs, e.isRunAtClose = false)
      ∧ s3.conn.itPtr = s.conn.itPtr := by
  simp only [closeSock] at h
  split at h
  · cases h
  · rename_i keep1 s2 hw
    cases h
    have h2 : ∃ evs, s2.trace = s.trace ++ evs ∧ (∀ e ∈ evs, e.isSend = true)
        ∧ s2.conn.itPtr = s.conn.itPtr := by
      split at hw
      · split at hw
        · cases hw
        · rename_i st s4 hw4
          cases hw
          obtain ⟨evs, h1, h2⟩ := Ns_WriteConn_events E fuel s _ none 0 st hw4
          exact ⟨evs, h1, h2, by rw [Ns_WriteConn_conn E fuel s _ none 0 st hw4]⟩
      · cases hw
        exact ⟨[], by simp, by simp, rfl⟩
    obtain ⟨evs, h1, h2, h3⟩ := h2
    refine ⟨evs ++ [Event.sockClose keep1], by simp [h1], ?_, h3⟩
    intro e he
    rcases List.mem_append.1 he with he | he
    · have := h2 e he
      cases e <;> simp_all [Event.isSend, Event.isRunAtClose]
    · rcases List.mem_singleton.1 he with rfl
      rfl

/-- Every returning call of `Ns_ConnClose` appends its transport calls,
none of which is the on-close hook, and then the hook call if `itPtr` is not
NULL; it leaves `itPtr` as it is. -/
theorem Ns_ConnClose_hook {ω : Type} (E : Ext ω) (fuel : Nat) (s s1 : Sys ω) (r : Int)
    (h : Ns_ConnClose E fuel s = some (r, s1)) :
    ∃ evs, s1.trace = s.trace ++ evs ++ atCloseEvents s.conn.itPtr
      ∧ (∀ e ∈ evs, e.isRunAtClose = false)
      ∧ s1.conn.itPtr = s.conn.itPtr
      ∧ (s.conn.sockPtr = false → evs = [] ∧ s1.conn = s.conn) := by
  simp only [Ns_ConnClose] at h
  split at h
  · cases h
  · rename_i s3 hc
    have h3 : ∃ evs, s3.trace = s.trace ++ evs ∧ (∀ e ∈ evs, e.isRunAtClose = false)
        ∧ s3.conn.itPtr = s.conn.itPtr ∧ (s.conn.sockPtr = false → evs = [] ∧ s3.conn = s.conn) := by
      split at hc
      · rename_i hs
        obtain ⟨evs, h1, h2, h3⟩ := closeSock_events E fuel s s3 hc
        exact ⟨evs, h1, h2, h3, fun hf => by rw [hs] at hf; cases hf⟩
      · cases hc
        exact ⟨[], by simp, by simp, rfl, fun _ => ⟨rfl, rfl⟩⟩
    obtain ⟨evs, h1, h2, h3, h4⟩ := h3
    by_cases hit : s3.conn.itPtr = true
    · rw [if_pos hit] at h
      simp only [Option.some.injEq, Prod.mk.injEq] at h
      rw [← h.2]
      refine ⟨evs, ?_, h2, h3, h4⟩
      rw [h3] at hit
      simp [h1, atCloseEvents, hit]
    · rw [if_neg hit] at h
      simp only [Option.some.injEq, Prod.mk.injEq] at h
      rw [← h.2]
      refine ⟨evs, ?_, h2, h3, h4⟩
      rw [h3] at hit
      simp [h1, atCloseEvents, hit]

/-- C11 (counterexample). On an open connection with an attached
interpreter, two calls of `Ns_ConnClose` call `NsTclRunAtClose` twice: once
in the first call and once more in the second, made on the closed
connection. -/
theorem C11_counterexample :
    ∃ s1 s2, Ns_ConnClose acceptAll 1 (inputSys true [] 0 0 0 ()) = some (NS_OK, s1)
      ∧ Ns_ConnClose acceptAll 1 s1 = some (NS_OK, s2)
      ∧ flagSet s1.conn.flags NS_CONN_CLOSED = true
      ∧ s1.trace = [Event.sockClose 0, Event.runAtClose]
      ∧ s2.trace = [Event.sockClose 0, Event.runAtClose, Event.runAtClose]
      ∧ (s2.trace.filter Event.isRunAtClose).length = 2 :=
  ⟨_, _, rfl, rfl, by decide, rfl, rfl, rfl⟩

/-- C11 (amended). For every connection with an attached interpreter,
every returning call of `Ns_ConnClose` calls the on-close hook
`NsTclRunAtClose` exactly once, as its last collaborator call: a first call
once, and a second call, made on the connection the first one closed, once
more and nothing else, so that two calls call the hook twice in total. -/
theorem C11_each_close_runs_the_hook {ω : Type} (E : Ext ω) (fuel fuel2 : Nat)
    (s s1 : Sys ω) (r : Int) (hit : s.conn.itPtr = true)
    (h : Ns_ConnClose E fuel s = some (r, s1)) :
    ∃ evs, s1.trace = s.trace ++ evs ++ [Event.runAtClose]
      ∧ (∀ e ∈ evs, e.isRunAtClose = false)
      ∧ Ns_ConnClose E fuel2 s1
          = some (NS_OK, { conn := s1.conn, world := E.NsTclRunAtClose s1.world,
                           trace := s.trace ++ evs ++ [Event.runAtClose, Event.runAtClose] })
      ∧ (((evs ++ [Event.runAtClose, Event.runAtClose]).filter Event.isRunAtClose).length
          = 2) := by
  obtain ⟨evs, h1, h2, h3, _⟩ := Ns_ConnClose_hook E fuel s s1 r h
  have hclosed : s1.conn.sockPtr = false := Ns_ConnClose_sockPtr E fuel s s1 r h
  have hit1 : s1.conn.itPtr = true := by rw [h3]; exact hit
  have hne : ¬ (s1.conn.sockPtr = true) := by simp [hclosed]
  have h1' : s1.trace = s.trace ++ evs ++ [Event.runAtClose] := by
    rw [h1]; simp [atCloseEvents, hit]
  refine ⟨evs, h1', h2, ?_, ?_⟩
  · simp only [Ns_ConnClose, if_neg hne, if_pos hit1, h1']
    simp
  · rw [List.filter_append, List.filter_eq_nil_iff.2 (fun e he => by simp [h2 e he])]
    rfl

/-! ## `strchr` and `Ns_ConnReadLine` -/

/-- The scan `strchr` finds `c` at offset `k` exactly when `c` stands at
offset `k` and neither `c` nor a NUL stands before it. -/
theorem strchr_eq_some_iff (c : Nat) : ∀ (l : List Nat) (k : Nat),
    strchr l c = some k
      ↔ ∃ pre post, l = pre ++ c :: post ∧ pre.length = k ∧ c ∉ pre ∧ 0 ∉ pre := by
  intro l
  induction l with
  | nil =>
    intro k
    simp only [strchr]
    constructor
    · intro h; cases h
    · rintro ⟨pre, post, h, _⟩
      cases pre <;> simp at h
  | cons b bs ih =>
    intro k
    simp only [strchr]
    by_cases hb : b = c
    · rw [if_pos hb]
      constructor
      · intro h
        simp only [Option.some.injEq] at h
        exact ⟨[], bs, by simp [hb], by simp [h], by simp, by simp⟩
      · rintro ⟨pre, post, h, hlen, hc, _⟩
        cases pre with
        | nil => simp at hlen; simp [hlen]
        | cons p ps =>
          simp only [List.cons_append, List.cons.injEq] at h
          exact absurd (by rw [← h.1, hb]; exact List.mem_cons_self _ _) hc
    · rw [if_neg hb]
      by_cases h0 : b = 0
      · rw [if_pos h0]
        constructor
        · intro h; cases h
        · rintro ⟨pre, post, h, _, _, hz⟩
          cases pre with
          | nil =>
            simp only [List.nil_append, List.cons.injEq] at h
            exact absurd h.1 hb
          | cons p ps =>
            simp only [List.cons_append, List.cons.injEq] at h
            exact absurd (by rw [← h.1, h0]; exact List.mem_cons_self _ _) hz
      · rw [if_neg h0]
        constructor
        · intro h
          cases hs : strchr bs c with
          | none => simp [hs] at h
          | some j =>
            simp only [hs, Option.map_some', Option.some.injEq] at h
            obtain ⟨pre, post, h1, h2, h3, h4⟩ := (ih j).1 hs
            refine ⟨b :: pre, post, by simp [h1], by simp [h2, h], ?_, ?_⟩
            · simp only [List.mem_cons, not_or]
              exact ⟨fun hcb => hb hcb.symm, h3⟩
            · simp only [List.mem_cons, not_or]
              exact ⟨fun h0b => h0 h0b.symm, h4⟩
        · rintro ⟨pre, post, h, hlen, hc, hz⟩
          cases pre with
          | nil =>
            simp only [List.nil_append, List.cons.injEq] at h
            exact absurd h.1 hb
          | cons p ps =>
            simp only [List.cons_append, List.cons.injEq] at h
            simp only [List.mem_cons, not_or] at hc hz
            have := (ih ps.length).2 ⟨ps, post, h.2, rfl, hc.2, hz.2⟩
            simp only [List.length_cons] at hlen
            simp [this, hlen]

theorem getD_append_length (l : List Nat) (a : Nat) (r : List Nat) :
    (l ++ a :: r).getD l.length 0 = a := by
  induction l with
  | nil => rfl
  | cons b bs ih => simpa using ih

theorem stripCR_take (line rest : List Nat) :
    (line ++ 10 :: rest).take
        (if 0 < line.length ∧ (line ++ 10 :: rest).getD (line.length - 1) 0 = 13
          then line.length - 1 else line.length)
      = stripCR line := by
  rcases List.eq_nil_or_concat line with rfl | ⟨init, a, rfl⟩
  · simp [stripCR]
  · rw [List.concat_eq_append]
    have hlen : (init ++ [a]).length - 1 = init.length := by simp
    have hget : (init ++ [a] ++ 10 :: rest).getD ((init ++ [a]).length - 1) 0 = a := by
      rw [hlen, List.append_assoc]
      exact getD_append_length init a _
    rw [hget, hlen]
    by_cases ha : a = 13
    · subst ha
      simp [stripCR, List.take_append_of_le_length]
    · simp only [ha, and_false, if_false, stripCR]
      have : (init ++ [a]).getLast? ≠ some 13 := by simp [ha]
      simp only [this, if_false]
      rw [List.take_append_of_le_length (le_refl _), List.take_length]

theorem Ns_ConnReadLine_ok_iff {ω : Type} (s : Sys ω) (ds : List Nat) :
    (Ns_ConnReadLine s ds).1 = NS_OK
      ↔ s.conn.sockPtr = true
          ∧ ∃ k, strchr s.conn.reqPtr.mem 10 = some k ∧ (k : Int) ≤ s.conn.maxline := by
  simp only [Ns_ConnReadLine]
  cases hsock : s.conn.sockPtr with
  | false => simp [NS_OK, NS_ERROR]
  | true =>
    cases hk : strchr s.conn.reqPtr.mem 10 with
    | none => simp [NS_OK, NS_ERROR]
    | some k =>
      by_cases hmax : (k : Int) > s.conn.maxline
      · simp only [Bool.true_eq_false, if_false, if_pos hmax, true_and]
        constructor
        · intro h; simp [NS_OK, NS_ERROR] at h
        · rintro ⟨j, hj, hle⟩
          simp only [Option.some.injEq] at hj
          subst hj
          omega
      · simp only [Bool.true_eq_false, if_false, if_neg hmax, true_and]
        exact ⟨fun _ => ⟨k, rfl, by omega⟩, fun _ => trivial⟩

theorem Ns_ConnReadLine_error {ω : Type} (s : Sys ω) (ds : List Nat)
    (h : (Ns_ConnReadLine s ds).1 ≠ NS_OK) :
    Ns_ConnReadLine s ds = (NS_ERROR, ds, none, s) := by
  simp only [Ns_ConnReadLine] at h ⊢
  split
  · rfl
  · split
    · rfl
    · split
      · rfl
      · rename_i h1 _ _ h2 h3
        simp [h1, h2, h3] at h

theorem Ns_ConnReadLine_line {ω : Type} (s : Sys ω) (ds line rest : List Nat)
    (hsock : s.conn.sockPtr = true)
    (hmem : s.conn.reqPtr.mem = line ++ 10 :: rest)
    (hnl : 10 ∉ line) (hnul : 0 ∉ line)
    (hmax : (line.length : Int) ≤ s.conn.maxline) :
    Ns_ConnReadLine s ds
      = (NS_OK, ds ++ stripCR line, some ((line.length : Int) + 1),
          s.setReq (s.conn.reqPtr.advance ((line.length : Int) + 1))) := by
  have hk : strchr s.conn.reqPtr.mem 10 = some line.length :=
    (strchr_eq_some_iff 10 _ _).2 ⟨line, rest, hmem, rfl, hnl, hnul⟩
  have hmax' : ¬ ((line.length : Int) > s.conn.maxline) := by omega
  simp only [Ns_ConnReadLine, hsock, hk, Bool.true_eq_false, if_false, if_neg hmax']
  rw [hmem, stripCR_take]

/-- C12 (counterexample). On the buffered input `A`, NUL, `B`, LF, whose
first LF is at offset 3, with `maxline = 100` and a transport,
`Ns_ConnReadLine` returns `NS_ERROR` and consumes nothing: the scan ends at
the NUL. -/
theorem C12_counterexample :
    Ns_ConnReadLine (inputSys false [65, 0, 66, 10] 4 100 1000 ()) []
        = (NS_ERROR, [], none, inputSys false [65, 0, 66, 10] 4 100 1000 ())
      ∧ ([65, 0, 66, 10] : List Nat).indexOf 10 = 3
      ∧ (3 : Int) ≤ (inputSys false [65, 0, 66, 10] 4 100 1000 ()).conn.maxline :=
  ⟨rfl, by decide, by decide⟩

/-- C12 (amended). On a connection with a transport, for every input at the
cursor whose first LF is at offset `k ≤ maxline` with no NUL byte before it,
`Ns_ConnReadLine` returns `NS_OK`, appends to the output string exactly the
`k` bytes before the LF minus one final CR if the byte just before the LF is
a CR, reports `k + 1` bytes read, advances `next` by `k + 1` and reduces
`avail` by `k + 1`.  On `GET / HTTP/1.1\r\nHost: x\r\n\r\n` with
`maxline = 100` it yields `GET / HTTP/1.1` and advances by 16. -/
theorem C12_read_line_strips_cr_and_advances {ω : Type} (s : Sys ω) (ds line rest : List Nat)
    (hsock : s.conn.sockPtr = true)
    (hmem : s.conn.reqPtr.mem = line ++ 10 :: rest)
    (hnl : 10 ∉ line) (hnul : 0 ∉ line)
    (hmax : (line.length : Int) ≤ s.conn.maxline) :
    (Ns_ConnReadLine s ds).1 = NS_OK
      ∧ (Ns_ConnReadLine s ds).2.1 = ds ++ stripCR line
      ∧ (Ns_ConnReadLine s ds).2.2.1 = some ((line.length : Int) + 1)
      ∧ (Ns_ConnReadLine s ds).2.2.2.conn.reqPtr.next
          = s.conn.reqPtr.next + ((line.length : Int) + 1)
      ∧ (Ns_ConnReadLine s ds).2.2.2.conn.reqPtr.avail
          = s.conn.reqPtr.avail - ((line.length : Int) + 1)
      ∧ (Ns_ConnReadLine s ds).2.2.2
          = s.setReq (s.conn.reqPtr.advance ((line.length : Int) + 1))
      ∧ Ns_ConnReadLine (inputSys false sampleRequest 27 100 1000 ()) []
          = (NS_OK, sampleRequestLine, some 16,
              (inputSys false sampleRequest 27 100 1000 ()).setReq
                { content := sampleRequest, next := 16, avail := 11 }) := by
  rw [Ns_ConnReadLine_line s ds line rest hsock hmem hnl hnul hmax]
  exact ⟨rfl, rfl, rfl, rfl, rfl, rfl, rfl⟩

/-- When the buffer is terminated where the buffered span ends, the scan of
`Ns_ConnReadLine` finds an LF exactly when the span holds one with no NUL
before it. -/
theorem strchr_span_iff (r : Request) (hterm : spanTerminated r) (k : Nat) :
    strchr r.mem 10 = some k
      ↔ ∃ line rest, r.span = line ++ 10 :: rest ∧ line.length = k ∧ 10 ∉ line ∧ 0 ∉ line := by
  rw [strchr_eq_some_iff]
  constructor
  · rintro ⟨pre, post, hmem, hlen, hnl, hnul⟩
    have hlt : k < r.avail.toNat := by
      by_contra hge
      have hge' : r.avail.toNat ≤ pre.length := by omega
      unfold spanTerminated at hterm
      rw [hmem] at hterm
      rcases Nat.lt_or_eq_of_le hge' with hlt | heq
      · rw [List.getD_append _ _ _ _ hlt, List.getD_eq_getElem _ _ hlt] at hterm
        exact hnul (hterm ▸ List.getElem_mem hlt)
      · rw [heq, getD_append_length] at hterm
        cases hterm
    refine ⟨pre, post.take (r.avail.toNat - pre.length - 1), ?_, hlen, hnl, hnul⟩
    unfold Request.span
    rw [hmem, List.take_append_eq_append_take, List.take_of_length_le (by omega)]
    have h1 : r.avail.toNat - pre.length = (r.avail.toNat - pre.length - 1) + 1 := by omega
    rw [h1, List.take_succ_cons]
    simp
  · rintro ⟨line, rest, hspan, hlen, hnl, hnul⟩
    refine ⟨line, rest ++ r.mem.drop r.avail.toNat, ?_, hlen, hnl, hnul⟩
    have := List.take_append_drop r.avail.toNat r.mem
    unfold Request.span at hspan
    rw [hspan] at this
    exact this.symm.trans (by simp)

/-- C13 (counterexample). (a) The buffered span `A`, NUL, `B`, LF holds an
LF at offset 3, within `maxline = 100`, and the connection has a transport,
but `Ns_ConnReadLine` returns `NS_ERROR`.  (b) The buffered span `A`, `B`
(`avail = 2`) holds no LF, but since an LF follows it in the buffer
`Ns_ConnReadLine` returns `NS_OK`, consumes 3 bytes and leaves `avail` at
`-1`. -/
theorem C13_counterexample :
    ((Ns_ConnReadLine (inputSys false [65, 0, 66, 10] 4 100 1000 ()) []).1 = NS_ERROR
        ∧ 10 ∈ (inputSys false [65, 0, 66, 10] 4 100 1000 ()).conn.reqPtr.span)
      ∧ (Ns_ConnReadLine (inputSys false [65, 66, 10] 2 100 1000 ()) []
            = (NS_OK, [65, 66], some 3,
                (inputSys false [65, 66, 10] 2 100 1000 ()).setReq
                  { content := [65, 66, 10], next := 3, avail := -1 })
          ∧ (inputSys false [65, 66, 10] 2 100 1000 ()).conn.reqPtr.span = [65, 66]) :=
  ⟨⟨rfl, by decide⟩, rfl, rfl⟩

/-- C13 (amended). When the buffer is terminated where the buffered span
ends (the byte after the span is a NUL), `Ns_ConnReadLine` returns `NS_OK` if
and only if the connection has a transport, the buffered span contains an LF
with no NUL byte before it, and the number of bytes before the first LF (a
preceding CR included) is at most `maxline`; in every other case it returns
`NS_ERROR` and leaves the cursor (`next` and `avail`), the output string and
the caller's read count unchanged. -/
theorem C13_read_line_ok_iff {ω : Type} (s : Sys ω) (ds : List Nat)
    (hterm : spanTerminated s.conn.reqPtr) :
    ((Ns_ConnReadLine s ds).1 = NS_OK
        ↔ s.conn.sockPtr = true
            ∧ ∃ line rest, s.conn.reqPtr.span = line ++ 10 :: rest ∧ 10 ∉ line ∧ 0 ∉ line
                ∧ (line.length : Int) ≤ s.conn.maxline)
      ∧ ((Ns_ConnReadLine s ds).1 ≠ NS_OK →
          Ns_ConnReadLine s ds = (NS_ERROR, ds, none, s)) := by
  refine ⟨?_, Ns_ConnReadLine_error s ds⟩
  rw [Ns_ConnReadLine_ok_iff]
  constructor
  · rintro ⟨hsock, k, hk, hmax⟩
    obtain ⟨line, rest, h1, h2, h3, h4⟩ :=
      (strchr_span_iff s.conn.reqPtr hterm k).1 hk
    exact ⟨hsock, line, rest, h1, h3, h4, by rw [h2]; exact hmax⟩
  · rintro ⟨hsock, line, rest, h1, h3, h4, hmax⟩
    exact ⟨hsock, line.length,
      (strchr_span_iff s.conn.reqPtr hterm line.length).2 ⟨line, rest, h1, rfl, h3, h4⟩,
      hmax⟩

/-! ## `Ns_ConnReadHeaders` -/

theorem Request.advance_zero (r : Request) : r.advance 0 = r := by
  simp [Request.advance]

theorem Request.advance_advance (r : Request) (a b : Int) :
    (r.advance a).advance b = r.advance (a + b) := by
  simp only [Request.advance, Request.mk.injEq, true_and]
  constructor <;> omega

/-- What `Ns_ConnReadLine` does to the state: it moves the cursor by the
count it reports (by nothing when it fails) and changes nothing else; a
successful call reports at least one byte. -/
theorem Ns_ConnReadLine_state {ω : Type} (s : Sys ω) (ds : List Nat) :
    (Ns_ConnReadLine s ds).2.2.2
        = s.setReq (s.conn.reqPtr.advance ((Ns_ConnReadLine s ds).2.2.1.getD 0))
      ∧ ((Ns_ConnReadLine s ds).1 = NS_OK → 1 ≤ (Ns_ConnReadLine s ds).2.2.1.getD 0)
      ∧ ((Ns_ConnReadLine s ds).1 ≠ NS_OK → (Ns_ConnReadLine s ds).2.2.1.getD 0 = 0) := by
  simp only [Ns_ConnReadLine]
  have hid : s = s.setReq (s.conn.reqPtr.advance 0) := by
    rw [Request.advance_zero]
    rfl
  split
  · exact ⟨hid, by simp [NS_OK, NS_ERROR], fun _ => rfl⟩
  · split
    · exact ⟨hid, by simp [NS_OK, NS_ERROR], fun _ => rfl⟩
    · split
      · exact ⟨hid, by simp [NS_OK, NS_ERROR], fun _ => rfl⟩
      · refine ⟨rfl, fun _ => ?_, fun h => absurd rfl h⟩
        simp only [Option.getD_some]
        omega

theorem readHeadersLoop_stop {ω : Type} (E : Ext ω) (fuel : Nat) (s : Sys ω)
    (status nread : Int) (h : ¬ (nread < s.conn.maxheaders ∧ status = NS_OK)) :
    readHeadersLoop E fuel s status nread = some (status, nread, s) := by
  cases fuel <;> simp only [readHeadersLoop, if_neg h]

/-- The read count of the header loop is the distance the cursor moved, and
the loop changes nothing of the connection but the cursor. -/
theorem readHeadersLoop_cursor {ω : Type} (E : Ext ω) : ∀ (fuel : Nat) (s s1 : Sys ω)
    (status nread st n : Int), readHeadersLoop E fuel s status nread = some (st, n, s1) →
    s1.conn = { s.conn with reqPtr := s.conn.reqPtr.advance (n - nread) } := by
  intro fuel
  induction fuel with
  | zero =>
    intro s s1 status nread st n h
    simp only [readHeadersLoop] at h
    split at h
    · cases h
    · cases h
      simp [Request.advance_zero]
  | succ fuel ih =>
    intro s s1 status nread st n h
    simp only [readHeadersLoop] at h
    obtain ⟨hstate, _, _⟩ := Ns_ConnReadLine_state s []
    split at h
    · split at h
      · split at h
        · have := ih _ _ _ _ _ _ h
          rw [this, hstate]
          simp only [Sys.setReq, Request.advance_advance]
          congr 2
          omega
        · split at h
          · cases h
            rw [hstate]
            simp only [Sys.setReq]
            congr 2
            omega
          · have := ih _ _ _ _ _ _ h
            rw [this, hstate]
            simp only [Sys.setReq, Request.advance_advance]
            congr 2
            omega
      · rename_i hfail
        have h0 := (Ns_ConnReadLine_state s []).2.2 hfail
        have := ih _ _ _ _ _ _ h
        rw [this, hstate, h0]
        simp only [Sys.setReq, Request.advance_advance]
        congr 2
        omega
    · cases h
      simp [Request.advance_zero]

/-- The header loop ends within `maxheaders - nread` iterations. -/
theorem readHeadersLoop_terminates {ω : Type} (E : Ext ω) : ∀ (fuel : Nat) (s : Sys ω)
    (status nread : Int), (s.conn.maxheaders - nread).toNat ≤ fuel →
    ∃ st n s1, readHeadersLoop E fuel s status nread = some (st, n, s1) := by
  intro fuel
  induction fuel with
  | zero =>
    intro s status nread hfuel
    exact ⟨_, _, _, readHeadersLoop_stop E 0 s status nread (by omega)⟩
  | succ fuel ih =>
    intro s status nread hfuel
    by_cases hc : nread < s.conn.maxheaders ∧ status = NS_OK
    · simp only [readHeadersLoop, if_pos hc]
      obtain ⟨hstate, hok, _⟩ := Ns_ConnReadLine_state s []
      have hmax : (Ns_ConnReadLine s []).2.2.2.conn.maxheaders = s.conn.maxheaders := by
        rw [hstate]; rfl
      by_cases hr : (Ns_ConnReadLine s []).1 = NS_OK
      · rw [if_pos hr]
        have h1 := hok hr
        split
        · exact ih _ _ _ (by rw [hmax]; omega)
        · split
          · exact ⟨_, _, _, rfl⟩
          · exact ih _ _ _ (by simp only; rw [hmax]; omega)
      · rw [if_neg hr]
        exact ⟨_, _, _, readHeadersLoop_stop E fuel _ _ _ (by simp [hr])⟩
    · exact ⟨_, _, _, readHeadersLoop_stop E _ s status nread hc⟩

/-- When the loop starts within the limit, it ends within the limit or with
`NS_ERROR`. -/
theorem readHeadersLoop_limit {ω : Type} (E : Ext ω) : ∀ (fuel : Nat) (s s1 : Sys ω)
    (status nread st n : Int), readHeadersLoop E fuel s status nread = some (st, n, s1) →
    (nread ≤ s.conn.maxheaders ∨ status = NS_ERROR) →
    (n ≤ s.conn.maxheaders ∨ st = NS_ERROR) := by
  intro fuel
  induction fuel with
  | zero =>
    intro s s1 status nread st n h hinv
    simp only [readHeadersLoop] at h
    split at h
    · cases h
    · cases h
      exact hinv
  | succ fuel ih =>
    intro s s1 status nread st n h hinv
    simp only [readHeadersLoop] at h
    obtain ⟨hstate, _, _⟩ := Ns_ConnReadLine_state s []
    have hmax : (Ns_ConnReadLine s []).2.2.2.conn.maxheaders = s.conn.maxheaders := by
      rw [hstate]; rfl
    split at h
    · rename_i hc
      split at h
      · split at h
        · have := ih _ _ _ _ _ _ h (Or.inr rfl)
          rwa [hmax] at this
        · rename_i hle
          split at h
          · cases h
            exact Or.inl (by omega)
          · have := ih _ _ _ _ _ _ h (Or.inl (by simp only; rw [hmax]; omega))
            simpa [hmax] using this
      · have := ih _ _ _ _ _ _ h (Or.inl (by rw [hmax]; omega))
        rwa [hmax] at this
    · cases h
      exact hinv

/-- C14 (failing input). On the header block `A: b\r\n\r\n` of 8 bytes with
`maxheaders = 6` and a parser that accepts the line, `Ns_ConnReadHeaders`
returns `NS_OK` with a read count of 6: it has read the header line only, the
cursor stands before the empty line, and the limit is smaller than the
block. -/
theorem C14_ok_without_empty_line :
    Ns_ConnReadHeaders acceptAll 8 (inputSys false sampleHeaders 8 100 6 ())
        = some (NS_OK, 6,
            { conn := { inputConn false sampleHeaders 8 100 6 with
                          reqPtr := { content := sampleHeaders, next := 6, avail := 2 } },
              world := (),
              trace := [Event.parseHeader [65, 58, 32, 98] NS_OK] })
      ∧ (6 : Int) < sampleHeaders.length :=
  ⟨rfl, by decide⟩

/-- The same defect with `maxheaders = 0`: the loop is not entered and
`Ns_ConnReadHeaders` returns `NS_OK` without reading anything. -/
theorem Ns_ConnReadHeaders_zero_limit_ok :
    Ns_ConnReadHeaders acceptAll 0 (inputSys false sampleHeaders 8 100 0 ())
      = some (NS_OK, 0, inputSys false sampleHeaders 8 100 0 ()) :=
  rfl

/-- C15. For every input, limit and parser, `Ns_ConnReadHeaders` returns for
every fuel of at least `maxheaders`, and whenever it returns, with `NS_OK` or
with `NS_ERROR`, the read count it reports is the number of bytes by which
it advanced `next` and reduced `avail`; nothing else of the connection
changes. -/
theorem C15_read_count_is_cursor_advance {ω : Type} (E : Ext ω) (s : Sys ω) :
    (∀ (fuel : Nat) (st n : Int) (s1 : Sys ω),
        Ns_ConnReadHeaders E fuel s = some (st, n, s1) →
        s1.conn.reqPtr.next = s.conn.reqPtr.next + n
          ∧ s1.conn.reqPtr.avail = s.conn.reqPtr.avail - n
          ∧ s1.conn = { s.conn with reqPtr := s.conn.reqPtr.advance n })
      ∧ (∀ (fuel : Nat), s.conn.maxheaders.toNat ≤ fuel →
          ∃ st n s1, Ns_ConnReadHeaders E fuel s = some (st, n, s1)) := by
  constructor
  · intro fuel st n s1 h
    have := readHeadersLoop_cursor E fuel s s1 NS_OK 0 st n h
    simp only [sub_zero] at this
    rw [this]
    exact ⟨rfl, rfl, rfl⟩
  · intro fuel hfuel
    exact readHeadersLoop_terminates E fuel s NS_OK 0 (by simpa using hfuel)

/-- C15 at a concrete input: the header block `A: b\r\n\r\n` read to its
end. -/
theorem C15_witness :
    ∃ s1, Ns_ConnReadHeaders acceptAll 100 (inputSys false sampleHeaders 8 100 100 ())
        = some (NS_OK, 8, s1)
      ∧ s1.conn.reqPtr.next = 8 ∧ s1.conn.reqPtr.avail = 0 := by
  have h := (C15_read_count_is_cursor_advance acceptAll
    (inputSys false sampleHeaders 8 100 100 ())).1 100 NS_OK 8 _ rfl
  exact ⟨_, rfl, h.1, h.2.1⟩

/-- C16 (counterexample). On the header block `A: b\r\n\r\n` with
`maxheaders = 5`, `Ns_ConnReadHeaders` fails because the first line brings the
count to 6, and the cursor has advanced by these 6 bytes. -/
theorem C16_counterexample :
    ∃ s1, Ns_ConnReadHeaders acceptAll 8 (inputSys false sampleHeaders 8 100 5 ())
        = some (NS_ERROR, 6, s1)
      ∧ s1.conn.reqPtr.next = 6 ∧ s1.conn.reqPtr.avail = 2
      ∧ s1.conn.reqPtr ≠ (inputSys false sampleHeaders 8 100 5 ()).conn.reqPtr :=
  ⟨_, rfl, rfl, rfl, by decide⟩

/-- C16 (amended). When `Ns_ConnReadHeaders` ends with a read count above
`maxheaders` (the limit being non-negative), it returns `NS_ERROR` and the
lines read, the one that crossed the limit included, have been consumed: the
cursor has advanced by the reported read count, which is positive. -/
theorem C16_limit_exceeded_consumes_lines {ω : Type} (E : Ext ω) (fuel : Nat) (s s1 : Sys ω)
    (st n : Int) (hlimit : 0 ≤ s.conn.maxheaders)
    (h : Ns_ConnReadHeaders E fuel s = some (st, n, s1))
    (hexceed : s.conn.maxheaders < n) :
    st = NS_ERROR
      ∧ s1.conn.reqPtr.next = s.conn.reqPtr.next + n
      ∧ s1.conn.reqPtr.avail = s.conn.reqPtr.avail - n
      ∧ 0 < n := by
  have hcur := readHeadersLoop_cursor E fuel s s1 NS_OK 0 st n h
  simp only [sub_zero] at hcur
  have hlim := readHeadersLoop_limit E fuel s s1 NS_OK 0 st n h (Or.inl hlimit)
  refine ⟨?_, by rw [hcur]; rfl, by rw [hcur]; rfl, by omega⟩
  rcases hlim with hle | hst
  · omega
  · exact hst

/-- C16 at a concrete input: the header block `A: b\r\n\r\n` with
`maxheaders = 7`, crossed by the empty line. -/
theorem C16_witness :
    ∃ s1, Ns_ConnReadHeaders acceptAll 8 (inputSys false sampleHeaders 8 100 7 ())
        = some (NS_ERROR, 8, s1)
      ∧ s1.conn.reqPtr.next = 8 := by
  have h := C16_limit_exceeded_consumes_lines acceptAll 8
    (inputSys false sampleHeaders 8 100 7 ()) _ NS_ERROR 8 (by decide) rfl (by decide)
  exact ⟨_, rfl, h.2.1⟩

/-! ## `Ns_ConnRead` -/

/-- C17. For every connection with a transport and every requested count
`r ≥ 0`, `Ns_ConnRead` returns `min r avail`, copies the first `min r avail`
bytes at the cursor (exactly that many when the buffer holds `avail ≥ 0`
bytes), advances `next` and reduces `avail` by that amount and changes
nothing else; with `avail = 0` it returns 0, not an error. -/
theorem C17_read_copies_min {ω : Type} (s : Sys ω) (r : Int)
    (hsock : s.conn.sockPtr = true) (hr : 0 ≤ r) :
    (Ns_ConnRead s r).1 = min r s.conn.reqPtr.avail
      ∧ (Ns_ConnRead s r).2.1 = s.conn.reqPtr.mem.take (min r s.conn.reqPtr.avail).toNat
      ∧ (0 ≤ s.conn.reqPtr.avail → s.conn.reqPtr.avail ≤ (s.conn.reqPtr.mem.length : Int) →
          (((Ns_ConnRead s r).2.1.length : Nat) : Int) = min r s.conn.reqPtr.avail)
      ∧ (Ns_ConnRead s r).2.2.conn.reqPtr.next
          = s.conn.reqPtr.next + min r s.conn.reqPtr.avail
      ∧ (Ns_ConnRead s r).2.2.conn.reqPtr.avail
          = s.conn.reqPtr.avail - min r s.conn.reqPtr.avail
      ∧ (Ns_ConnRead s r).2.2
          = s.setReq (s.conn.reqPtr.advance (min r s.conn.reqPtr.avail))
      ∧ (s.conn.reqPtr.avail = 0 → (Ns_ConnRead s r).1 = 0) := by
  have hmin : (if r > s.conn.reqPtr.avail then s.conn.reqPtr.avail else r)
      = min r s.conn.reqPtr.avail := by
    split <;> omega
  have heq : Ns_ConnRead s r
      = (min r s.conn.reqPtr.avail,
          s.conn.reqPtr.mem.take (min r s.conn.reqPtr.avail).toNat,
          s.setReq (s.conn.reqPtr.advance (min r s.conn.reqPtr.avail))) := by
    simp only [Ns_ConnRead, hsock, Bool.true_eq_false, if_false, hmin]
  rw [heq]
  refine ⟨rfl, rfl, ?_, rfl, rfl, rfl, ?_⟩
  · intro h0 hlen
    simp only [List.length_take]
    omega
  · intro h0
    simp only
    omega

/-- C17 at a concrete input: 4 bytes asked of 3 available. -/
theorem C17_witness :
    Ns_ConnRead (inputSys false [1, 2, 3] 3 100 100 ()) 4
      = (3, [1, 2, 3], (inputSys false [1, 2, 3] 3 100 100 ()).setReq
          { content := [1, 2, 3], next := 3, avail := 0 }) := by
  have h := C17_read_copies_min (inputSys false [1, 2, 3] 3 100 100 ()) 4 rfl (by decide)
  exact Prod.ext h.1 (Prod.ext h.2.1 h.2.2.2.2.2.1)

/-! ## `ConnCopy` and `Ns_ConnCopyToDString` -/

theorem intOfSize_small (n : Nat) (h : n < 2147483648) : intOfSize n = (n : Int) := by
  unfold intOfSize
  omega

/-- For a count that fits an `int` and exceeds `avail`, the copy functions
return `NS_ERROR`, write nothing and leave the cursor where it is. -/
theorem copy_short_of_data {ω : Type} (E : Ext ω) (fuel : Nat) (s : Sys ω) (tocopy : Nat)
    (chan fp : Bool) (ds : List Nat) (hint : tocopy < 2147483648)
    (h : s.conn.reqPtr.avail < (tocopy : Int)) :
    ConnCopy E fuel s tocopy chan fp = some (NS_ERROR, s)
      ∧ Ns_ConnCopyToDString s tocopy ds = (NS_ERROR, ds, s) := by
  simp [ConnCopy, Ns_ConnCopyToDString, intOfSize_small tocopy hint, h]

/-- C18 (failing input). With 5 bytes available and a transport, a copy of
`2 ^ 31` bytes, more than `avail`, is not refused: the cast `(int) tocopy`
gives `-2 ^ 31`, the test `avail < ncopy` is false, and `ConnCopy` returns
`NS_OK` without writing; `Ns_ConnCopyToDString` returns `NS_OK` as well. -/
theorem C18_huge_count_reported_ok :
    ConnCopy acceptAll 0 (inputSys false [1, 2, 3, 4, 5] 5 100 100 ()) 2147483648 false false
        = some (NS_OK, inputSys false [1, 2, 3, 4, 5] 5 100 100 ())
      ∧ (Ns_ConnCopyToDString (inputSys false [1, 2, 3, 4, 5] 5 100 100 ()) 2147483648 []).1
          = NS_OK
      ∧ intOfSize 2147483648 = -2147483648
      ∧ (inputSys false [1, 2, 3, 4, 5] 5 100 100 ()).conn.reqPtr.avail < (2147483648 : Nat) :=
  ⟨rfl, rfl, by decide, by decide⟩

theorem sunk_append (a b : List Event) : sunk (a ++ b) = sunk a ++ sunk b := by
  induction a with
  | nil => rfl
  | cons e es ih => cases e <;> simp [sunk, ih]

theorem sunkCount_append (a b : List Event) :
    sunkCount (a ++ b) = sunkCount a + sunkCount b := by
  induction a with
  | nil => simp [sunkCount]
  | cons e es ih => cases e <;> simp [sunkCount, ih, add_assoc]

theorem Request.mem_advance (r : Request) (k : Int) (hnext : 0 ≤ r.next) (hk : 0 ≤ k) :
    (r.advance k).mem = r.mem.drop k.toNat := by
  simp only [Request.mem, Request.advance, List.drop_drop]
  congr 1
  omega

/-- Every run of the copy loop that ends appends to the trace a list of
successful writes, followed by at most one failed write; the cursor has
moved by the byte count of the successful writes, and the result is
`NS_ERROR` exactly when a write failed. -/
theorem connCopyLoop_some {ω : Type} (E : Ext ω) (chan fp : Bool) : ∀ (fuel : Nat)
    (s s1 : Sys ω) (ncopy r : Int), connCopyLoop E chan fp fuel s ncopy = some (r, s1) →
    ∃ oks errs, s1.trace = s.trace ++ (oks ++ errs)
      ∧ (∀ e ∈ oks, e.isSinkError = false)
      ∧ s1.conn = { s.conn with reqPtr := s.conn.reqPtr.advance (sunkCount oks) }
      ∧ ((errs = [] ∧ r = NS_OK)
          ∨ (∃ d e, errs = [Event.sinkWrite d e] ∧ e < 0 ∧ r = NS_ERROR)) := by
  intro fuel
  induction fuel with
  | zero =>
    intro s s1 ncopy r h
    simp only [connCopyLoop] at h
    split at h
    · cases h
    · cases h
      exact ⟨[], [], by simp, by simp, by simp [sunkCount, Request.advance_zero],
        Or.inl ⟨rfl, rfl⟩⟩
  | succ fuel ih =>
    intro s s1 ncopy r h
    simp only [connCopyLoop] at h
    split at h
    · split at h
      · rename_i hneg
        cases h
        exact ⟨[], [Event.sinkWrite (s.conn.reqPtr.mem.take ncopy.toNat)
            (sinkWrite E s.world chan fp (s.conn.reqPtr.mem.take ncopy.toNat)).1],
          by simp, by simp, by simp [sunkCount, Request.advance_zero],
          Or.inr ⟨_, _, rfl, hneg, rfl⟩⟩
      · rename_i hnn
        obtain ⟨oks, errs, h1, h2, h3, h4⟩ := ih _ _ _ _ h
        refine ⟨Event.sinkWrite (s.conn.reqPtr.mem.take ncopy.toNat)
            (sinkWrite E s.world chan fp (s.conn.reqPtr.mem.take ncopy.toNat)).1 :: oks, errs,
          by simp [h1, Sys.setReq], ?_, ?_, h4⟩
        · intro e he
          rcases List.mem_cons.1 he with rfl | he
          · simpa [Event.isSinkError] using hnn
          · exact h2 e he
        · rw [h3]
          simp only [Sys.setReq, sunkCount, Request.advance_advance]
          rw [if_pos (by omega)]
    · cases h
      exact ⟨[], [], by simp, by simp, by simp [sunkCount, Request.advance_zero],
        Or.inl ⟨rfl, rfl⟩⟩

/-- With a sink that takes at least one and at most all of the bytes
offered, the copy loop ends within `ncopy` iterations with `NS_OK`, and the
sink has taken the first `ncopy` bytes at the cursor. -/
theorem connCopyLoop_progress {ω : Type} (E : Ext ω) (chan fp : Bool)
    (hsink : ∀ w data, data ≠ [] →
      1 ≤ (sinkWrite E w chan fp data).1
        ∧ (sinkWrite E w chan fp data).1 ≤ (data.length : Int)) :
    ∀ (fuel : Nat) (s : Sys ω) (ncopy : Int), 0 ≤ s.conn.reqPtr.next →
      ncopy ≤ (s.conn.reqPtr.mem.length : Int) → ncopy.toNat ≤ fuel →
      ∃ s1 evs, connCopyLoop E chan fp fuel s ncopy = some (NS_OK, s1)
        ∧ s1.trace = s.trace ++ evs
        ∧ (∀ e ∈ evs, e.isSinkError = false)
        ∧ sunk evs = s.conn.reqPtr.mem.take ncopy.toNat
        ∧ sunkCount evs = max ncopy 0
        ∧ s1.conn = { s.conn with reqPtr := s.conn.reqPtr.advance (max ncopy 0) } := by
  intro fuel
  induction fuel with
  | zero =>
    intro s ncopy _ _ hfuel
    have h0 : ¬ 0 < ncopy := by omega
    refine ⟨s, [], by simp [connCopyLoop, h0], by simp, by simp, ?_, ?_, ?_⟩
    · have : ncopy.toNat = 0 := by omega
      simp [sunk, this]
    · simp only [sunkCount]; omega
    · have : max ncopy 0 = 0 := by omega
      simp [this, Request.advance_zero]
  | succ fuel ih =>
    intro s ncopy hnext hmem hfuel
    by_cases hpos : 0 < ncopy
    · have hdlen : (s.conn.reqPtr.mem.take ncopy.toNat).length = ncopy.toNat := by
        rw [List.length_take]
        omega
      have hdne : s.conn.reqPtr.mem.take ncopy.toNat ≠ [] := by
        intro hnil
        rw [hnil] at hdlen
        simp at hdlen
        omega
      obtain ⟨hge, hle⟩ := hsink s.world _ hdne
      rw [hdlen] at hle
      have hnn : ¬ (sinkWrite E s.world chan fp (s.conn.reqPtr.mem.take ncopy.toNat)).1 < 0 := by
        omega
      have hmem' := Request.mem_advance s.conn.reqPtr
        (sinkWrite E s.world chan fp (s.conn.reqPtr.mem.take ncopy.toNat)).1 hnext (by omega)
      obtain ⟨s1, evs, h1, h2, h3, h4, h5, h6⟩ := ih
        (({ s with world := (sinkWrite E s.world chan fp
                (s.conn.reqPtr.mem.take ncopy.toNat)).2,
                   trace := s.trace ++ [Event.sinkWrite (s.conn.reqPtr.mem.take ncopy.toNat)
                     (sinkWrite E s.world chan fp (s.conn.reqPtr.mem.take ncopy.toNat)).1] }
            : Sys ω).setReq
          (s.conn.reqPtr.advance
            (sinkWrite E s.world chan fp (s.conn.reqPtr.mem.take ncopy.toNat)).1))
        (ncopy - (sinkWrite E s.world chan fp (s.conn.reqPtr.mem.take ncopy.toNat)).1)
        (by simp only [Sys.setReq, Request.advance]; omega)
        (by
          simp only [Sys.setReq]
          rw [hmem', List.length_drop]
          omega)
        (by omega)
      simp only [Sys.setReq] at h2 h4 h6
      rw [hmem'] at h4
      refine ⟨s1, Event.sinkWrite (s.conn.reqPtr.mem.take ncopy.toNat)
          (sinkWrite E s.world chan fp (s.conn.reqPtr.mem.take ncopy.toNat)).1 :: evs,
        ?_, by simp [h2], ?_, ?_, ?_, ?_⟩
      · simp only [connCopyLoop, if_pos hpos, if_neg hnn]
        exact h1
      · intro e he
        rcases List.mem_cons.1 he with rfl | he
        · simpa [Event.isSinkError] using hnn
        · exact h3 e he
      · simp only [sunk, h4]
        rw [List.take_drop]
        have hsum : (sinkWrite E s.world chan fp (s.conn.reqPtr.mem.take ncopy.toNat)).1.toNat
            + (ncopy - (sinkWrite E s.world chan fp
                (s.conn.reqPtr.mem.take ncopy.toNat)).1).toNat = ncopy.toNat := by
          omega
        rw [hsum]
        exact List.take_append_drop _ _
      · simp only [sunkCount, h5]
        rw [if_pos (by omega)]
        omega
      · rw [h6]
        simp only [Request.advance_advance]
        congr 2
        omega
    · have h0 : ncopy.toNat = 0 := by omega
      refine ⟨s, [], by simp [connCopyLoop, hpos], by simp, by simp, ?_, ?_, ?_⟩
      · simp [sunk, h0]
      · simp only [sunkCount]; omega
      · have : max ncopy 0 = 0 := by omega
        simp [this, Request.advance_zero]

/-- C19. On a connection with a transport whose cursor holds at least the
requested `n ≤ avail` bytes: (1) with a sink whose writes take at least one
and at most all of the bytes offered, `ConnCopy` returns `NS_OK` for every
fuel of at least `n`, the sink has received exactly the first `n` bytes at
the cursor, in order, and the cursor has advanced by exactly `n`; (2) if a
write to the sink reports an error, `ConnCopy` returns `NS_ERROR` and the
cursor has advanced by exactly the number of bytes the sink reported as
written before the error. -/
theorem C19_copy_delivers_first_bytes {ω : Type} (E : Ext ω) (s : Sys ω) (n : Nat)
    (chan fp : Bool) (hsock : s.conn.sockPtr = true)
    (hn : (n : Int) ≤ s.conn.reqPtr.avail) (hint : s.conn.reqPtr.avail < 2147483648)
    (hnext : 0 ≤ s.conn.reqPtr.next) (hmem : n ≤ s.conn.reqPtr.mem.length) :
    ((∀ w data, data ≠ [] →
          1 ≤ (sinkWrite E w chan fp data).1
            ∧ (sinkWrite E w chan fp data).1 ≤ (data.length : Int)) →
        ∀ (fuel : Nat), n ≤ fuel →
        ∃ s1 evs, ConnCopy E fuel s n chan fp = some (NS_OK, s1)
          ∧ s1.trace = s.trace ++ evs
          ∧ sunk evs = s.conn.reqPtr.mem.take n
          ∧ s1.conn.reqPtr.next = s.conn.reqPtr.next + (n : Int)
          ∧ s1.conn.reqPtr.avail = s.conn.reqPtr.avail - (n : Int)
          ∧ s1.conn = { s.conn with reqPtr := s.conn.reqPtr.advance (n : Int) })
      ∧ (∀ (fuel : Nat) (r : Int) (s1 : Sys ω) (evs : List Event),
          ConnCopy E fuel s n chan fp = some (r, s1) → s1.trace = s.trace ++ evs →
          (∃ e ∈ evs, e.isSinkError = true) →
          r = NS_ERROR
            ∧ s1.conn.reqPtr.next = s.conn.reqPtr.next + sunkCount evs
            ∧ s1.conn.reqPtr.avail = s.conn.reqPtr.avail - sunkCount evs) := by
  have hcast : intOfSize n = (n : Int) := intOfSize_small n (by omega)
  have hguard : ¬ (s.conn.sockPtr = false ∨ s.conn.reqPtr.avail < intOfSize n) := by
    rw [hcast, hsock]
    simp only [Bool.true_eq_false, false_or]
    omega
  constructor
  · intro hsink fuel hfuel
    obtain ⟨s1, evs, h1, h2, _, h4, _, h6⟩ := connCopyLoop_progress E chan fp hsink fuel s
      (n : Int) hnext (by omega) (by omega)
    have hmax : max (n : Int) 0 = (n : Int) := by omega
    rw [hmax] at h6
    refine ⟨s1, evs, ?_, h2, by simpa using h4, by rw [h6]; rfl, by rw [h6]; rfl, h6⟩
    rw [ConnCopy, if_neg hguard, hcast]
    exact h1
  · intro fuel r s1 evs h htr herr
    simp only [ConnCopy, if_neg hguard] at h
    obtain ⟨oks, errs, h1, h2, h3, h4⟩ := connCopyLoop_some E chan fp fuel s s1 _ r h
    have hevs : evs = oks ++ errs := by
      rw [htr] at h1
      exact List.append_cancel_left h1
    obtain ⟨e, he, hbad⟩ := herr
    rw [hevs] at he
    rcases h4 with ⟨hnil, _⟩ | ⟨d, x, herrs, hx, hr⟩
    · rw [hnil, List.append_nil] at he
      rw [h2 e he] at hbad
      cases hbad
    · have hcount : sunkCount evs = sunkCount oks := by
        rw [hevs, sunkCount_append, herrs]
        have : ¬ 0 ≤ x := by omega
        simp [sunkCount, this]
      rw [hcount, h3]
      exact ⟨hr, rfl, rfl⟩

/-- C19 at concrete inputs: three of five bytes copied to a sink that takes
one byte per write, and a copy of four bytes to a sink that takes two bytes
and then fails. -/
theorem C19_witness :
    (∃ s1 evs, ConnCopy slowSink 3 (inputSys false [1, 2, 3, 4, 5] 5 100 100 ()) 3 false false
          = some (NS_OK, s1)
        ∧ s1.trace = evs ∧ sunk evs = [1, 2, 3] ∧ s1.conn.reqPtr.next = 3
        ∧ s1.conn.reqPtr.avail = 2)
      ∧ (∃ s1, ConnCopy scriptedSink 5 (inputSys false [1, 2, 3, 4, 5] 5 100 100 [2]) 4
            false false = some (NS_ERROR, s1)
          ∧ s1.conn.reqPtr.next = 2 ∧ s1.conn.reqPtr.avail = 3) := by
  constructor
  · obtain ⟨s1, evs, h1, h2, h3, h4, h5, _⟩ := (C19_copy_delivers_first_bytes slowSink
      (inputSys false [1, 2, 3, 4, 5] 5 100 100 ()) 3 false false rfl (by decide) (by decide)
      (by decide) (by decide)).1
      (by
        intro w data hd
        simp only [sinkWrite, slowSink, Bool.false_eq_true, if_false, if_neg hd]
        have := List.length_pos.2 hd
        omega) 3 (le_refl _)
    exact ⟨s1, evs, h1, h2, h3, h4, h5⟩
  · have h := (C19_copy_delivers_first_bytes scriptedSink
      (inputSys false [1, 2, 3, 4, 5] 5 100 100 [2]) 4 false false rfl (by decide) (by decide)
      (by decide) (by decide)).2 5 NS_ERROR _ _ rfl rfl
      ⟨Event.sinkWrite [3, 4] (-1), by decide, by decide⟩
    exact ⟨_, rfl, h.2.1, h.2.2⟩

/-! ## `ConnSend` -/

theorem connSendLoop_stop {ω : Type} (E : Ext ω) (wfuel : Nat) (chan fp : Bool) (fuel : Nat)
    (s : Sys ω) (status nsend : Int) (h : ¬ (status = NS_OK ∧ 0 < nsend)) :
    connSendLoop E wfuel chan fp fuel s status nsend = some (status, s) := by
  cases fuel <;> simp only [connSendLoop, if_neg h]

theorem fileSource_acceptsAll : AcceptsAll fileSource := fun _ _ => rfl

theorem fileSource_readsFrom : ReadsFrom fileSource true false id := by
  refine ⟨fun w k hk => ⟨w.take (min k 3), rfl, ?_, ?_, ?_⟩, fun _ _ => rfl⟩
  · rw [List.length_take]
    omega
  · exact (List.take_append_drop _ _).symm
  · intro h
    rcases List.take_eq_nil_iff.mp h with h | h
    · omega
    · exact h

/-- C11 at a concrete input: a connection with an attached interpreter is
closed twice; the hook runs at the end of each call. -/
theorem C11_witness :
    ∃ s1 evs, Ns_ConnClose acceptAll 1 (inputSys true [] 0 0 0 ()) = some (NS_OK, s1)
      ∧ s1.trace = evs ++ [Event.runAtClose]
      ∧ (∀ e ∈ evs, e.isRunAtClose = false)
      ∧ Ns_ConnClose acceptAll 1 s1
          = some (NS_OK, { conn := s1.conn, world := (),
                           trace := evs ++ [Event.runAtClose, Event.runAtClose] }) := by
  obtain ⟨evs, h1, h2, h3, _⟩ := C11_each_close_runs_the_hook acceptAll 1 1
    (inputSys true [] 0 0 0 ()) _ NS_OK rfl
    (rfl : Ns_ConnClose acceptAll 1 (inputSys true [] 0 0 0 ())
      = some (NS_OK, { conn := { inputConn true [] 0 0 0 with
                                   sockPtr := false, flags := NS_CONN_CLOSED },
                       world := (), trace := [Event.sockClose 0, Event.runAtClose] }))
  exact ⟨_, evs, rfl, h1, h2, h3⟩

/-- C12 at a concrete input: the request line of
`GET / HTTP/1.1\r\nHost: x\r\n\r\n` with `maxline = 100`. -/
theorem C12_witness :
    (10 ∉ sampleRequestLine ++ [13]) ∧ (0 ∉ sampleRequestLine ++ [13])
      ∧ (Ns_ConnReadLine (inputSys false sampleRequest 27 100 1000 ()) [1]).1 = NS_OK
      ∧ (Ns_ConnReadLine (inputSys false sampleRequest 27 100 1000 ()) [1]).2.1
          = 1 :: sampleRequestLine
      ∧ (Ns_ConnReadLine (inputSys false sampleRequest 27 100 1000 ()) [1]).2.2.1 = some 16
      ∧ (Ns_ConnReadLine (inputSys false sampleRequest 27 100 1000 ()) [1]).2.2.2.conn.reqPtr.next
          = 16
      ∧ (Ns_ConnReadLine (inputSys false sampleRequest 27 100 1000 ()) [1]).2.2.2.conn.reqPtr.avail
          = 11 := by
  have h := C12_read_line_strips_cr_and_advances (inputSys false sampleRequest 27 100 1000 ())
    [1] (sampleRequestLine ++ [13]) [72, 111, 115, 116, 58, 32, 120, 13, 10, 13, 10]
    rfl rfl (by decide) (by decide) (by decide)
  exact ⟨by decide, by decide, h.1, h.2.1, h.2.2.1, h.2.2.2.1, h.2.2.2.2.1⟩

/-- C13 at concrete inputs: the buffer `GET /\n` followed by its NUL, with
`maxline = 100` (a line is read) and with `maxline = 3` (the line is too
long and nothing changes). -/
theorem C13_witness :
    spanTerminated (inputSys false [71, 69, 84, 32, 47, 10, 0] 6 100 1000 ()).conn.reqPtr
      ∧ (Ns_ConnReadLine (inputSys false [71, 69, 84, 32, 47, 10, 0] 6 100 1000 ()) []).1 = NS_OK
      ∧ spanTerminated (inputSys false [71, 69, 84, 32, 47, 10, 0] 6 3 1000 ()).conn.reqPtr
      ∧ Ns_ConnReadLine (inputSys false [71, 69, 84, 32, 47, 10, 0] 6 3 1000 ()) []
          = (NS_ERROR, [], none, inputSys false [71, 69, 84, 32, 47, 10, 0] 6 3 1000 ()) :=
  ⟨by rfl,
    (C13_read_line_ok_iff (inputSys false [71, 69, 84, 32, 47, 10, 0] 6 100 1000 ()) []
      (by rfl)).1.2 ⟨rfl, [71, 69, 84, 32, 47], [], rfl, by decide, by decide, by decide⟩,
    by rfl,
    (C13_read_line_ok_iff (inputSys false [71, 69, 84, 32, 47, 10, 0] 6 3 1000 ()) []
      (by rfl)).2 (by decide)⟩

/-! ## A connection without a transport -/

/-- C25. When the connection has no transport, `Ns_ConnSend`, `Ns_ConnRead`
and `Ns_ConnFlushContent` return -1 and `Ns_ConnReadLine`,
`Ns_ConnCopyToDString` and `ConnCopy` return `NS_ERROR`, for every argument
and every fuel; each returns the state it was given, so the output queue,
`nContentSent`, the flags and the request cursor are unchanged and the trace
holds no new call of the transport or of a sink; nothing is copied to the
caller's buffer or appended to the caller's string. -/
theorem C25_no_transport_fails_at_once {ω : Type} (E : Ext ω) (fuel : Nat) (s : Sys ω)
    (hsock : s.conn.sockPtr = false) :
    (∀ bufs, Ns_ConnSend E fuel s bufs = some (-1, s))
      ∧ (∀ toread, Ns_ConnRead s toread = (-1, [], s))
      ∧ Ns_ConnFlushContent s = (-1, s)
      ∧ (∀ ds, Ns_ConnReadLine s ds = (NS_ERROR, ds, none, s))
      ∧ (∀ tocopy ds, Ns_ConnCopyToDString s tocopy ds = (NS_ERROR, ds, s))
      ∧ (∀ tocopy chan fp, ConnCopy E fuel s tocopy chan fp = some (NS_ERROR, s)) := by
  refine ⟨fun bufs => Ns_ConnSend_nosock E fuel s bufs hsock, ?_, ?_, ?_, ?_, ?_⟩
  · intro toread
    simp [Ns_ConnRead, hsock]
  · simp [Ns_ConnFlushContent, hsock]
  · intro ds
    simp [Ns_ConnReadLine, hsock]
  · intro tocopy ds
    simp [Ns_ConnCopyToDString, hsock]
  · intro tocopy chan fp
    simp [ConnCopy, hsock]

/-- C25 at a concrete input: a connection without a transport, one byte
queued and three bytes buffered. -/
theorem C25_witness :
    Ns_ConnSend acceptAll 5 (closedSys 0 [7] ()) [IoVec.mk (some [1, 2]) 2]
        = some (-1, closedSys 0 [7] ())
      ∧ Ns_ConnRead (closedSys 0 [7] ()) 2 = (-1, [], closedSys 0 [7] ())
      ∧ Ns_ConnFlushContent (closedSys 0 [7] ()) = (-1, closedSys 0 [7] ())
      ∧ Ns_ConnReadLine (closedSys 0 [7] ()) [] = (NS_ERROR, [], none, closedSys 0 [7] ())
      ∧ Ns_ConnCopyToDString (closedSys 0 [7] ()) 2 [] = (NS_ERROR, [], closedSys 0 [7] ())
      ∧ ConnCopy acceptAll 5 (closedSys 0 [7] ()) 2 true false
          = some (NS_ERROR, closedSys 0 [7] ()) := by
  have h := C25_no_transport_fails_at_once acceptAll 5 (closedSys 0 [7] ()) rfl
  exact ⟨h.1 _, h.2.1 _, h.2.2.1, h.2.2.2.1 _, h.2.2.2.2.1 _ _, h.2.2.2.2.2 _ _ _⟩

/-- C26 (counterexample). On a connection without a transport and in chunked
mode, the zero-length `Ns_ConnWrite` fails with -1 and `Ns_WriteConn` with
`NS_ERROR`, but the flags are not the same as before: the call has set
`NS_CONN_SENT_LAST_CHUNK`. -/
theorem C26_counterexample :
    ∃ s1, Ns_WriteConn acceptAll 1 (closedSys NS_CONN_WRITE_CHUNKED [] ()) none 0
        = some (NS_ERROR, s1)
      ∧ Ns_ConnWrite acceptAll 1 (closedSys NS_CONN_WRITE_CHUNKED [] ()) none 0 = some (-1, s1)
      ∧ (closedSys NS_CONN_WRITE_CHUNKED [] ()).conn.flags = NS_CONN_WRITE_CHUNKED
      ∧ s1.conn.flags = NS_CONN_WRITE_CHUNKED ||| NS_CONN_SENT_LAST_CHUNK
      ∧ s1.conn.flags ≠ (closedSys NS_CONN_WRITE_CHUNKED [] ()).conn.flags :=
  ⟨_, rfl, rfl, rfl, rfl, by decide⟩

/-- C26 (amended). On a connection without a transport, for every payload,
every length and in chunked as well as non-chunked mode, `Ns_ConnWrite`
returns -1 and `Ns_WriteConn` returns `NS_ERROR` without calling the
transport; the output queue and `nContentSent` are as before, and so are the
flags except that a zero-length write in chunked mode sets
`NS_CONN_SENT_LAST_CHUNK`. -/
theorem C26_write_without_transport {ω : Type} (E : Ext ω) (fuel : Nat) (s : Sys ω)
    (vbuf : Option (List Nat)) (len : Nat) (hsock : s.conn.sockPtr = false) :
    Ns_ConnWrite E fuel s vbuf len
        = some (-1, { s with conn := { s.conn with
                        flags := flagsAfterWrite s.conn.flags len } })
      ∧ Ns_WriteConn E fuel s vbuf len
        = some (NS_ERROR, { s with conn := { s.conn with
                        flags := flagsAfterWrite s.conn.flags len } })
      ∧ (len ≠ 0 ∨ flagSet s.conn.flags NS_CONN_WRITE_CHUNKED = false →
          flagsAfterWrite s.conn.flags len = s.conn.flags)
      ∧ (len = 0 ∧ flagSet s.conn.flags NS_CONN_WRITE_CHUNKED = true →
          flagsAfterWrite s.conn.flags len = s.conn.flags ||| NS_CONN_SENT_LAST_CHUNK) := by
  have hw : Ns_ConnWrite E fuel s vbuf len
      = some (-1, { s with conn := { s.conn with
                      flags := flagsAfterWrite s.conn.flags len } }) := by
    cases hc : flagSet s.conn.flags NS_CONN_WRITE_CHUNKED with
    | false =>
      simp [Ns_ConnWrite, hc, Ns_ConnSend_nosock E fuel s _ hsock, flagsAfterWrite]
    | true =>
      have hne : ¬ ((-1 : Int) = (((sprintf_x len ++ CRLF).length + len + 2 : Nat) : Int)) := by
        omega
      simp only [Ns_ConnWrite, hc, Ns_ConnSend_nosock E fuel s _ hsock, Bool.true_eq_false,
        if_false, if_neg hne, flagsAfterWrite, and_true]
      split <;> rfl
  refine ⟨hw, ?_, ?_, ?_⟩
  · have hne : (-1 : Int) ≠ (len : Int) := by omega
    simp [Ns_WriteConn, hw, hne, NS_ERROR]
  · intro h
    unfold flagsAfterWrite
    rcases h with h | h
    · simp [h]
    · simp [h]
  · intro h
    simp [flagsAfterWrite, h.1, h.2]

/-- C26 at concrete inputs: a three-byte write in chunked mode and a
zero-length write outside chunked mode, both without a transport. -/
theorem C26_witness :
    Ns_WriteConn acceptAll 1 (closedSys NS_CONN_WRITE_CHUNKED [7] ()) (some [1, 2, 3]) 3
        = some (NS_ERROR, closedSys NS_CONN_WRITE_CHUNKED [7] ())
      ∧ Ns_ConnWrite acceptAll 1 (closedSys 0 [7] ()) none 0 = some (-1, closedSys 0 [7] ()) :=
  ⟨(C26_write_without_transport acceptAll 1 (closedSys NS_CONN_WRITE_CHUNKED [7] ())
      (some [1, 2, 3]) 3 rfl).2.1,
    (C26_write_without_transport acceptAll 1 (closedSys 0 [7] ()) none 0 rfl).1⟩

/-! ## The terminating chunk -/

/-- C27 (counterexample). In chunked mode, with an empty queue and a
transport that takes everything, the zero-length `Ns_ConnWrite` delivers the
five bytes `0`, CR, LF, CR, LF, not the three bytes `0`, CR, LF. -/
theorem C27_counterexample :
    ∃ s1, Ns_ConnWrite acceptAll 1 (sampleSys NS_CONN_WRITE_CHUNKED [] ()) none 0 = some (0, s1)
      ∧ accepted s1.trace = [48, 13, 10, 13, 10]
      ∧ accepted s1.trace ≠ [48, 13, 10] :=
  ⟨_, rfl, rfl, by decide⟩

/-- C27 (amended). The terminating write of a chunked stream (`Ns_ConnWrite`
with length zero in chunked mode, a transport that takes everything and an
empty queue) returns 0 and delivers in one transport call exactly the five
bytes `0`, CR, LF, CR, LF: the zero-size chunk header and the final CR LF are
both emitted; it sets `NS_CONN_SENT_LAST_CHUNK` and counts the five bytes in
`nContentSent`. -/
theorem C27_terminating_chunk {ω : Type} (E : Ext ω) (hall : AcceptsAll E) (fuel : Nat)
    (s : Sys ω) (vbuf : Option (List Nat)) (hsock : s.conn.sockPtr = true)
    (hchunk : flagSet s.conn.flags NS_CONN_WRITE_CHUNKED = true) (hq : s.conn.queued = []) :
    ∃ s1 v, Ns_ConnWrite E (fuel + 1) s vbuf 0 = some (0, s1)
      ∧ s1.trace = s.trace ++ [Event.sockSend v 5]
      ∧ gather v = [48, 13, 10, 13, 10]
      ∧ accepted [Event.sockSend v 5] = [48, 13, 10, 13, 10]
      ∧ flagSet s1.conn.flags NS_CONN_SENT_LAST_CHUNK = true
      ∧ s1.conn.nContentSent = s.conn.nContentSent + 5
      ∧ s1.conn.queued = [] := by
  have hvec : sendVector s.conn.queued
      [IoVec.mk (some (sprintf_x 0 ++ CRLF)) (sprintf_x 0 ++ CRLF).length, IoVec.mk vbuf 0,
        IoVec.mk (some CRLF) 2]
      = [IoVec.mk (some [48, 13, 10]) 3, IoVec.mk (some [13, 10]) 2] := by
    rw [hq]
    rfl
  have hsend := Ns_ConnSend_all_pos E hall fuel s
    [IoVec.mk (some (sprintf_x 0 ++ CRLF)) (sprintf_x 0 ++ CRLF).length, IoVec.mk vbuf 0,
      IoVec.mk (some CRLF) 2] hsock (by rw [hvec]; decide) (by rw [hvec, hq]; decide)
  rw [hvec, hq] at hsend
  have htot : iovTotal [IoVec.mk (some [48, 13, 10]) 3, IoVec.mk (some [13, 10]) 2] = 5 := by
    decide
  rw [htot] at hsend
  have hw : Ns_ConnWrite E (fuel + 1) s vbuf 0
      = some (0,
          { conn := { s.conn with
              queued := [], nContentSent := s.conn.nContentSent + 5,
              flags := s.conn.flags ||| NS_CONN_SENT_LAST_CHUNK },
            world := (E.NsSockSend s.world
              [IoVec.mk (some [48, 13, 10]) 3, IoVec.mk (some [13, 10]) 2]).2,
            trace := s.trace ++ [Event.sockSend
              [IoVec.mk (some [48, 13, 10]) 3, IoVec.mk (some [13, 10]) 2] 5] }) := by
    simp only [Ns_ConnWrite, hchunk, Bool.true_eq_false, if_false]
    rw [hsend]
    have h5 : ((5 : Int) - ((([] : List Nat).length : Nat) : Int))
        = ((((sprintf_x 0 ++ CRLF).length + 0 + 2 : Nat)) : Int) := by decide
    simp only [h5, if_true, hchunk, and_self, Nat.cast_zero]
  exact ⟨_, [IoVec.mk (some [48, 13, 10]) 3, IoVec.mk (some [13, 10]) 2], hw, rfl, rfl, rfl,
    flagSet_sent_sent _, rfl, rfl⟩

/-- C27 at a concrete input: the terminating write with a NULL buffer. -/
theorem C27_witness :
    ∃ s1, Ns_ConnWrite acceptAll 1 (sampleSys NS_CONN_WRITE_CHUNKED [] ()) none 0 = some (0, s1)
      ∧ s1.trace = [Event.sockSend
          [IoVec.mk (some [48, 13, 10]) 3, IoVec.mk (some [13, 10]) 2] 5]
      ∧ flagSet s1.conn.flags NS_CONN_SENT_LAST_CHUNK = true := by
  obtain ⟨s1, v, h1, _, _, _, h5, _⟩ := C27_terminating_chunk acceptAll acceptAll_acceptsAll 0
    (sampleSys NS_CONN_WRITE_CHUNKED [] ()) none rfl (by decide) rfl
  have h2 : Ns_ConnWrite acceptAll 1 (sampleSys NS_CONN_WRITE_CHUNKED [] ()) none 0
      = some (0, (Ns_ConnWrite acceptAll 1 (sampleSys NS_CONN_WRITE_CHUNKED [] ()) none 0).get
          rfl |>.2) := rfl
  rw [h2] at h1
  cases h1
  exact ⟨_, h2, rfl, h5⟩

/-! ## `ConnSend` with a count of zero -/

/-- A write of length zero does not look at its buffer. -/
theorem Ns_WriteConn_zero_buf {ω : Type} (E : Ext ω) (fuel : Nat) (s : Sys ω)
    (vbuf : Option (List Nat)) :
    Ns_WriteConn E fuel s vbuf 0 = Ns_WriteConn E fuel s (some []) 0 := by
  simp [Ns_WriteConn, Ns_ConnWrite, Ns_ConnSend, sendInit, sendVector, mergeBufs]

/-- C22. On a connection with a transport that takes everything, `ConnSend`
with a count of zero returns `NS_OK` whatever the writer queue answers (with
fuel for one send); before it offers the request to the writer queue it makes
the zero-length write, whose sends deliver the output queue (followed in
chunked mode by the zero-length chunk), so that the offer is the last event of
the call and the output queue is empty when the call returns; the source is
not read. -/
theorem C22_zero_count_flushes_first {ω : Type} (E : Ext ω) (hall : AcceptsAll E)
    (fuel : Nat) (s : Sys ω) (chan fp : Bool) (hsock : s.conn.sockPtr = true) :
    ∃ s1 evs st, ConnSend E (fuel + 1) s 0 chan fp = some (NS_OK, s1)
      ∧ s1.trace = s.trace ++ evs ++ [Event.queueWriter 0 st]
      ∧ (∀ e ∈ evs, e.isSend = true ∧ e.isSendError = false)
      ∧ accepted evs = s.conn.queued ++ frame s.conn.flags []
      ∧ s1.conn.queued = [] := by
  obtain ⟨s1, evs, hw, htr, hsends, hacc, hconn⟩ := Ns_WriteConn_all E hall fuel s [] hsock
  have hflush : Ns_WriteConn E (fuel + 1) s none 0 = some (NS_OK, s1) := by
    rw [Ns_WriteConn_zero_buf]
    exact hw
  refine ⟨{ s1 with world := (E.NsQueueWriter s1.world 0).2,
                    trace := s1.trace ++ [Event.queueWriter 0 (E.NsQueueWriter s1.world 0).1] },
    evs, (E.NsQueueWriter s1.world 0).1, ?_, ?_, hsends, hacc, ?_⟩
  · simp only [ConnSend, if_true, hflush]
    split
    · rfl
    · exact connSendLoop_stop E _ chan fp _ _ NS_OK 0 (fun h => by omega)
  · simp only [htr]
  · simp only [hconn]

/-- C22 at a concrete input: one byte queued, the writer queue declines. -/
theorem C22_witness :
    ∃ s1, ConnSend acceptAll 1 (sampleSys 0 [7] ()) 0 false false = some (NS_OK, s1)
      ∧ s1.trace = [Event.sockSend [IoVec.mk (some [7]) 1] 1, Event.queueWriter 0 NS_ERROR]
      ∧ s1.conn.queued = [] := by
  obtain ⟨s1, evs, st, h1, _, _, _, h5⟩ := C22_zero_count_flushes_first acceptAll
    acceptAll_acceptsAll 0 (sampleSys 0 [7] ()) false false rfl
  have h2 : ConnSend acceptAll 1 (sampleSys 0 [7] ()) 0 false false
      = some (NS_OK, (ConnSend acceptAll 1 (sampleSys 0 [7] ()) 0 false false).get rfl |>.2) :=
    rfl
  exact ⟨_, h2, rfl, rfl⟩

/-! ## The byte count `nContentSent` -/

theorem countsSent_refl {ω : Type} (s : Sys ω) : countsSent s s :=
  ⟨[], by simp, by simp [sentCount]⟩

theorem countsSent_trans {ω : Type} {s s1 s2 : Sys ω} (h1 : countsSent s s1)
    (h2 : countsSent s1 s2) : countsSent s s2 := by
  obtain ⟨e1, ht1, hc1⟩ := h1
  obtain ⟨e2, ht2, hc2⟩ := h2
  refine ⟨e1 ++ e2, ?_, ?_⟩
  · rw [ht2, ht1, List.append_assoc]
  · rw [hc2, hc1, sentCount_append, add_assoc]

/-- A call of a collaborator other than the transport does not count. -/
theorem countsSent_event {ω : Type} (s s1 : Sys ω) (e : Event)
    (ht : s1.trace = s.trace ++ [e]) (hc : s1.conn.nContentSent = s.conn.nContentSent)
    (he : e.isSend = false) : countsSent s s1 := by
  refine ⟨[e], ht, ?_⟩
  rw [hc]
  cases e <;> simp_all [sentCount, Event.isSend]

theorem countsSent_same {ω : Type} (s s1 : Sys ω) (ht : s1.trace = s.trace)
    (hc : s1.conn.nContentSent = s.conn.nContentSent) : countsSent s s1 :=
  ⟨[], by simp [ht], by simp [hc, sentCount]⟩

/-- Every returning call of `Ns_ConnSend` appends transport calls only and
adds the byte counts they reported to `nContentSent`. -/
theorem Ns_ConnSend_counts {ω : Type} (E : Ext ω) (fuel : Nat) (s s1 : Sys ω)
    (bufs : List IoVec) (r : Int) (h : Ns_ConnSend E fuel s bufs = some (r, s1)) :
    ∃ evs, s1.trace = s.trace ++ evs ∧ (∀ e ∈ evs, e.isSend = true)
      ∧ s1.conn.nContentSent = s.conn.nContentSent + sentCount evs := by
  cases hsock : s.conn.sockPtr with
  | false =>
    rw [Ns_ConnSend_nosock E fuel s bufs hsock] at h
    simp only [Option.some.injEq, Prod.mk.injEq] at h
    rw [← h.2]
    exact ⟨[], by simp, by simp, by simp [sentCount]⟩
  | true =>
    obtain ⟨oks, errs, htr, hoks, herrs, hcnt, hpos, hzero⟩ :=
      Ns_ConnSend_run E fuel s s1 bufs r h hsock
    refine ⟨oks ++ errs, htr, ?_, ?_⟩
    · intro e he
      rcases List.mem_append.mp he with he | he
      · exact (hoks e he).1
      · rcases herrs with herrs | ⟨v, n, herrs, _⟩
        · rw [herrs] at he
          cases he
        · rw [herrs] at he
          rcases List.mem_singleton.mp he with rfl
          rfl
    · rw [hcnt]
      by_cases hp : 0 < sentCount oks
      · rw [(hpos hp).1]
      · have h0 : sentCount oks = 0 := le_antisymm (by omega) (sentCount_nonneg oks)
        rw [(hzero (by omega)).1, h0, add_zero]

theorem Ns_ConnSend_countsSent {ω : Type} (E : Ext ω) (fuel : Nat) (s s1 : Sys ω)
    (bufs : List IoVec) (r : Int) (h : Ns_ConnSend E fuel s bufs = some (r, s1)) :
    countsSent s s1 := by
  obtain ⟨evs, h1, _, h3⟩ := Ns_ConnSend_counts E fuel s s1 bufs r h
  exact ⟨evs, h1, h3⟩

theorem Ns_ConnWrite_countsSent {ω : Type} (E : Ext ω) (fuel : Nat) (s s1 : Sys ω)
    (vbuf : Option (List Nat)) (towrite : Nat) (r : Int)
    (h : Ns_ConnWrite E fuel s vbuf towrite = some (r, s1)) : countsSent s s1 := by
  unfold Ns_ConnWrite at h
  split at h
  · exact Ns_ConnSend_countsSent E fuel s s1 _ r h
  · dsimp only at h
    split at h
    · cases h
    · rename_i nsend s2 hsend
      have h2 := Ns_ConnSend_countsSent E fuel s s2 _ nsend hsend
      split at h
      · simp only [Option.some.injEq, Prod.mk.injEq] at h
        rw [← h.2]
        exact countsSent_trans h2 (countsSent_same _ _ rfl rfl)
      · simp only [Option.some.injEq, Prod.mk.injEq] at h
        rw [← h.2]
        exact h2

theorem Ns_WriteConn_countsSent {ω : Type} (E : Ext ω) (fuel : Nat) (s s1 : Sys ω)
    (buf : Option (List Nat)) (len : Nat) (r : Int)
    (h : Ns_WriteConn E fuel s buf len = some (r, s1)) : countsSent s s1 := by
  obtain ⟨r1, hw, _⟩ := Ns_WriteConn_trace E fuel s s1 buf len r h
  exact Ns_ConnWrite_countsSent E fuel s s1 buf len r1 hw

theorem writeCharLoop_countsSent {ω : Type} (E : Ext ω) (wfuel : Nat) :
    ∀ (fuel : Nat) (s s1 : Sys ω) (status : Int) (utfBytes : Option (List Nat))
      (utfCount : Int) (r : Int),
    writeCharLoop E wfuel fuel s status utfBytes utfCount = some (r, s1) →
    countsSent s s1 := by
  intro fuel
  induction fuel with
  | zero =>
    intro s s1 status utfBytes utfCount r h
    simp only [writeCharLoop] at h
    split at h
    · cases h
    · cases h; exact countsSent_refl s
  | succ fuel ih =>
    intro s s1 status utfBytes utfCount r h
    simp only [writeCharLoop] at h
    split at h
    · split at h
      · cases h
        exact countsSent_event _ _ _ (by rfl) (by rfl) (by rfl)
      · split at h
        · cases h
        · rename_i st s2 hw
          have h2 := Ns_WriteConn_countsSent E wfuel _ s2 _ _ st hw
          exact countsSent_trans
            (countsSent_trans (countsSent_event s _ _ (by rfl) (by rfl) (by rfl)) h2)
            (ih _ _ _ _ _ _ h)
    · cases h; exact countsSent_refl s

theorem connSendLoop_countsSent {ω : Type} (E : Ext ω) (wfuel : Nat) (chan fp : Bool) :
    ∀ (fuel : Nat) (s s1 : Sys ω) (status nsend r : Int),
    connSendLoop E wfuel chan fp fuel s status nsend = some (r, s1) → countsSent s s1 := by
  intro fuel
  induction fuel with
  | zero =>
    intro s s1 status nsend r h
    simp only [connSendLoop] at h
    split at h
    · cases h
    · cases h; exact countsSent_refl s
  | succ fuel ih =>
    intro s s1 status nsend r h
    simp only [connSendLoop] at h
    split at h
    · have h1 : ∀ k res, countsSent s
          ({ s with world := (srcRead E s.world chan fp k).2,
                    trace := s.trace ++ [Event.srcRead k res] } : Sys ω) :=
        fun k res => countsSent_event s _ _ (by rfl) (by rfl) (by rfl)
      split at h
      · exact countsSent_trans (h1 _ _) (ih _ _ _ _ _ h)
      · split at h
        · exact countsSent_trans (h1 _ _) (ih _ _ _ _ _ h)
        · split at h
          · cases h
          · rename_i st s2 hw
            have h2 := Ns_WriteConn_countsSent E wfuel _ s2 _ _ st hw
            split at h <;>
              exact countsSent_trans (countsSent_trans (h1 _ _) h2) (ih _ _ _ _ _ h)
    · cases h; exact countsSent_refl s

theorem Ns_WriteCharConn_countsSent {ω : Type} (E : Ext ω) (fuel : Nat) (s s1 : Sys ω)
    (buf : Option (List Nat)) (len : Nat) (r : Int)
    (h : Ns_WriteCharConn E fuel s buf len = some (r, s1)) : countsSent s s1 := by
  unfold Ns_WriteCharConn at h
  split at h
  · exact Ns_WriteConn_countsSent E fuel s s1 buf len r h
  · exact writeCharLoop_countsSent E fuel fuel s s1 _ _ _ r h

theorem ConnSend_countsSent {ω : Type} (E : Ext ω) (fuel : Nat) (s s1 : Sys ω) (nsend : Int)
    (chan fp : Bool) (r : Int) (h : ConnSend E fuel s nsend chan fp = some (r, s1)) :
    countsSent s s1 := by
  simp only [ConnSend] at h
  split at h
  · cases h
  · rename_i s2 hflush
    have h2 : countsSent s s2 := by
      split at hflush
      · split at hflush
        · cases hflush
        · rename_i st s3 hw
          cases hflush
          exact Ns_WriteConn_countsSent E fuel s _ none 0 st hw
      · cases hflush; exact countsSent_refl s
    have h3 : countsSent s2
        ({ s2 with world := (E.NsQueueWriter s2.world nsend).2,
                   trace := s2.trace
                     ++ [Event.queueWriter nsend (E.NsQueueWriter s2.world nsend).1] } : Sys ω) :=
      countsSent_event _ _ _ (by rfl) (by rfl) (by rfl)
    split at h
    · cases h; exact countsSent_trans h2 h3
    · exact countsSent_trans (countsSent_trans h2 h3)
        (connSendLoop_countsSent E fuel chan fp fuel _ _ _ _ _ h)

theorem closeSock_countsSent {ω : Type} (E : Ext ω) (fuel : Nat) (s s1 : Sys ω)
    (h : closeSock E fuel s = some s1) : countsSent s s1 := by
  simp only [closeSock] at h
  split at h
  · cases h
  · rename_i keep1 s2 hw
    cases h
    have h2 : countsSent s s2 := by
      split at hw
      · split at hw
        · cases hw
        · rename_i st s3 hw3
          cases hw
          exact Ns_WriteConn_countsSent E fuel s _ none 0 st hw3
      · cases hw; exact countsSent_refl s
    exact countsSent_trans h2 (countsSent_event _ _ _ (by rfl) (by rfl) (by rfl))

theorem Ns_ConnClose_countsSent {ω : Type} (E : Ext ω) (fuel : Nat) (s s1 : Sys ω) (r : Int)
    (h : Ns_ConnClose E fuel s = some (r, s1)) : countsSent s s1 := by
  simp only [Ns_ConnClose] at h
  split at h
  · cases h
  · rename_i s2 hc
    have h2 : countsSent s s2 := by
      split at hc
      · exact closeSock_countsSent E fuel s s2 hc
      · cases hc; exact countsSent_refl s
    split at h
    · cases h
      exact countsSent_trans h2 (countsSent_event _ _ _ (by rfl) (by rfl) (by rfl))
    · cases h; exact h2

theorem Ns_ConnRead_countsSent {ω : Type} (s : Sys ω) (toread : Int) :
    countsSent s (Ns_ConnRead s toread).2.2 := by
  simp only [Ns_ConnRead]
  split
  · exact countsSent_refl s
  · exact countsSent_same _ _ rfl rfl

theorem Ns_ConnGets_loop_countsSent {ω : Type} : ∀ (bufsize : Nat) (s : Sys ω)
    (acc : List Nat), countsSent s (Ns_ConnGets_loop bufsize s acc).2 := by
  intro bufsize
  induction bufsize using Nat.strong_induction_on with
  | _ bufsize ih =>
    intro s acc
    match bufsize with
    | 0 => exact countsSent_refl s
    | 1 => exact countsSent_refl s
    | k + 2 =>
      simp only [Ns_ConnGets_loop]
      split
      · exact Ns_ConnRead_countsSent s 1
      · split
        · exact Ns_ConnRead_countsSent s 1
        · exact countsSent_trans (Ns_ConnRead_countsSent s 1) (ih (k + 1) (by omega) _ _)

theorem Ns_ConnReadLine_countsSent {ω : Type} (s : Sys ω) (ds : List Nat) :
    countsSent s (Ns_ConnReadLine s ds).2.2.2 := by
  rw [(Ns_ConnReadLine_state s ds).1]
  exact countsSent_same _ _ rfl rfl

theorem readHeadersLoop_countsSent {ω : Type} (E : Ext ω) : ∀ (fuel : Nat) (s s1 : Sys ω)
    (status nread r n : Int), readHeadersLoop E fuel s status nread = some (r, n, s1) →
    countsSent s s1 := by
  intro fuel
  induction fuel with
  | zero =>
    intro s s1 status nread r n h
    simp only [readHeadersLoop] at h
    split at h
    · cases h
    · cases h; exact countsSent_refl s
  | succ fuel ih =>
    intro s s1 status nread r n h
    simp only [readHeadersLoop] at h
    have hl := Ns_ConnReadLine_countsSent s []
    split at h
    · split at h
      · split at h
        · exact countsSent_trans hl (ih _ _ _ _ _ _ h)
        · split at h
          · cases h; exact hl
          · exact countsSent_trans
              (countsSent_trans hl (countsSent_event _ _ _ (by rfl) (by rfl) (by rfl)))
              (ih _ _ _ _ _ _ h)
      · exact countsSent_trans hl (ih _ _ _ _ _ _ h)
    · cases h; exact countsSent_refl s

theorem Ns_ConnCopyToDString_countsSent {ω : Type} (s : Sys ω) (tocopy : Nat)
    (ds : List Nat) : countsSent s (Ns_ConnCopyToDString s tocopy ds).2.2 := by
  simp only [Ns_ConnCopyToDString]
  split
  · exact countsSent_refl s
  · exact countsSent_same _ _ rfl rfl

theorem connCopyLoop_countsSent {ω : Type} (E : Ext ω) (chan fp : Bool) : ∀ (fuel : Nat)
    (s s1 : Sys ω) (ncopy r : Int), connCopyLoop E chan fp fuel s ncopy = some (r, s1) →
    countsSent s s1 := by
  intro fuel
  induction fuel with
  | zero =>
    intro s s1 ncopy r h
    simp only [connCopyLoop] at h
    split at h
    · cases h
    · cases h; exact countsSent_refl s
  | succ fuel ih =>
    intro s s1 ncopy r h
    simp only [connCopyLoop] at h
    split at h
    · split at h
      · cases h
        exact countsSent_event _ _ _ (by rfl) (by rfl) (by rfl)
      · have h2 := ih _ _ _ _ h
        exact countsSent_trans (countsSent_event s _ _ (by rfl) (by rfl) (by rfl)) h2
    · cases h; exact countsSent_refl s

theorem ConnCopy_countsSent {ω : Type} (E : Ext ω) (fuel : Nat) (s s1 : Sys ω) (tocopy : Nat)
    (chan fp : Bool) (r : Int) (h : ConnCopy E fuel s tocopy chan fp = some (r, s1)) :
    countsSent s s1 := by
  simp only [ConnCopy] at h
  split at h
  · cases h; exact countsSent_refl s
  · exact connCopyLoop_countsSent E chan fp fuel s s1 _ r h

theorem Ns_ConnFlushContent_countsSent {ω : Type} (s : Sys ω) :
    countsSent s (Ns_ConnFlushContent s).2 := by
  simp only [Ns_ConnFlushContent]
  split
  · exact countsSent_refl s
  · exact countsSent_same _ _ rfl rfl

theorem Op.exec_countsSent {ω : Type} (E : Ext ω) (fuel : Nat) (op : Op) (s s1 : Sys ω)
    (h : op.exec E fuel s = some s1) : countsSent s s1 := by
  cases op with
  | send bufs =>
    simp only [Op.exec, Option.map_eq_some', Prod.exists, exists_eq_right] at h
    obtain ⟨r, h⟩ := h
    exact Ns_ConnSend_countsSent E fuel s s1 bufs r h
  | write vbuf towrite =>
    simp only [Op.exec, Option.map_eq_some', Prod.exists, exists_eq_right] at h
    obtain ⟨r, h⟩ := h
    exact Ns_ConnWrite_countsSent E fuel s s1 vbuf towrite r h
  | writeConn buf len =>
    simp only [Op.exec, Option.map_eq_some', Prod.exists, exists_eq_right] at h
    obtain ⟨r, h⟩ := h
    exact Ns_WriteConn_countsSent E fuel s s1 buf len r h
  | puts str =>
    simp only [Op.exec, Option.map_eq_some', Prod.exists, exists_eq_right] at h
    obtain ⟨r, h⟩ := h
    exact Ns_WriteConn_countsSent E fuel s s1 _ _ r h
  | sendDString ds =>
    simp only [Op.exec, Option.map_eq_some', Prod.exists, exists_eq_right] at h
    obtain ⟨r, h⟩ := h
    exact Ns_WriteConn_countsSent E fuel s s1 _ _ r h
  | writeCharConn buf len =>
    simp only [Op.exec, Option.map_eq_some', Prod.exists, exists_eq_right] at h
    obtain ⟨r, h⟩ := h
    exact Ns_WriteCharConn_countsSent E fuel s s1 buf len r h
  | connSend nsend chan fp =>
    simp only [Op.exec, Option.map_eq_some', Prod.exists, exists_eq_right] at h
    obtain ⟨r, h⟩ := h
    exact ConnSend_countsSent E fuel s s1 nsend chan fp r h
  | close =>
    simp only [Op.exec, Option.map_eq_some', Prod.exists, exists_eq_right] at h
    obtain ⟨r, h⟩ := h
    exact Ns_ConnClose_countsSent E fuel s s1 r h
  | read toread =>
    simp only [Op.exec, Option.some.injEq] at h
    rw [← h]
    exact Ns_ConnRead_countsSent s toread
  | gets bufsize =>
    simp only [Op.exec, Option.some.injEq] at h
    rw [← h]
    exact Ns_ConnGets_loop_countsSent bufsize s []
  | readLine ds =>
    simp only [Op.exec, Option.some.injEq] at h
    rw [← h]
    exact Ns_ConnReadLine_countsSent s ds
  | readHeaders =>
    simp only [Op.exec, Option.map_eq_some', Prod.exists, exists_eq_right] at h
    obtain ⟨r, n, h⟩ := h
    exact readHeadersLoop_countsSent E fuel s s1 _ _ r n h
  | copyToDString tocopy ds =>
    simp only [Op.exec, Option.some.injEq] at h
    rw [← h]
    exact Ns_ConnCopyToDString_countsSent s tocopy ds
  | connCopy tocopy chan fp =>
    simp only [Op.exec, Option.map_eq_some', Prod.exists, exists_eq_right] at h
    obtain ⟨r, h⟩ := h
    exact ConnCopy_countsSent E fuel s s1 tocopy chan fp r h
  | flushContent =>
    simp only [Op.exec, Option.some.injEq] at h
    rw [← h]
    exact Ns_ConnFlushContent_countsSent s

theorem runOps_countsSent {ω : Type} (E : Ext ω) (fuel : Nat) : ∀ (ops : List Op)
    (s s1 : Sys ω), runOps E fuel ops s = some s1 → countsSent s s1 := by
  intro ops
  induction ops with
  | nil =>
    intro s s1 h
    simp only [runOps, Option.some.injEq] at h
    rw [← h]
    exact countsSent_refl s
  | cons op ops ih =>
    intro s s1 h
    simp only [runOps] at h
    split at h
    · cases h
    · rename_i s2 hop
      exact countsSent_trans (Op.exec_countsSent E fuel op s s2 hop) (ih s2 s1 h)

/-- C28. Every returning call of `Ns_ConnSend` appends only transport calls
to the trace and increases `nContentSent` by exactly the number of bytes the
transport reported as accepted in these calls (the sum of the non-negative
results of `NsSockSend`), whether they were queued bytes, chunk framing or
payload; that number is never negative, and `nContentSent` is unchanged when
it is zero.  Hence after every sequence of operations of the engine
`nContentSent` is its old value plus the number of bytes the transport
accepted in the meantime, and so never smaller than before. -/
theorem C28_bytes_sent_counts_accepted {ω : Type} (E : Ext ω) (fuel : Nat) (s : Sys ω) :
    (∀ bufs r s1, Ns_ConnSend E fuel s bufs = some (r, s1) →
        ∃ evs, s1.trace = s.trace ++ evs ∧ (∀ e ∈ evs, e.isSend = true)
          ∧ s1.conn.nContentSent = s.conn.nContentSent + sentCount evs
          ∧ 0 ≤ sentCount evs
          ∧ (sentCount evs = 0 → s1.conn.nContentSent = s.conn.nContentSent))
      ∧ (∀ ops s1, runOps E fuel ops s = some s1 →
        ∃ evs, s1.trace = s.trace ++ evs
          ∧ s1.conn.nContentSent = s.conn.nContentSent + sentCount evs
          ∧ s.conn.nContentSent ≤ s1.conn.nContentSent) := by
  constructor
  · intro bufs r s1 h
    obtain ⟨evs, h1, h2, h3⟩ := Ns_ConnSend_counts E fuel s s1 bufs r h
    exact ⟨evs, h1, h2, h3, sentCount_nonneg evs, fun h0 => by rw [h3, h0, add_zero]⟩
  · intro ops s1 h
    obtain ⟨evs, h1, h2⟩ := runOps_countsSent E fuel ops s s1 h
    have := sentCount_nonneg evs
    exact ⟨evs, h1, h2, by omega⟩

/-- C28 at a concrete input: on a chunked connection with one byte queued, a
write of three bytes, a read and the close put 1 + 8 + 5 bytes on the wire,
and `nContentSent` goes from 0 to 14. -/
theorem C28_witness :
    ∃ s1, runOps acceptAll 2 [Op.writeConn (some [1, 2, 3]) 3, Op.read 1, Op.close]
        (sampleSys NS_CONN_WRITE_CHUNKED [7] ()) = some s1
      ∧ s1.conn.nContentSent = 14
      ∧ sentCount s1.trace = 14
      ∧ (sampleSys NS_CONN_WRITE_CHUNKED [7] ()).conn.nContentSent ≤ s1.conn.nContentSent := by
  have h0 : runOps acceptAll 2 [Op.writeConn (some [1, 2, 3]) 3, Op.read 1, Op.close]
      (sampleSys NS_CONN_WRITE_CHUNKED [7] ())
      = some ((runOps acceptAll 2 [Op.writeConn (some [1, 2, 3]) 3, Op.read 1, Op.close]
          (sampleSys NS_CONN_WRITE_CHUNKED [7] ())).get rfl) := rfl
  obtain ⟨evs, _, _, h3⟩ := (C28_bytes_sent_counts_accepted acceptAll 2
    (sampleSys NS_CONN_WRITE_CHUNKED [7] ())).2 _ _ h0
  exact ⟨_, h0, rfl, rfl, h3⟩

/-! ## `Ns_ConnGets` -/

theorem Ns_ConnRead_one {ω : Type} (s : Sys ω) (hsock : s.conn.sockPtr = true)
    (hav : 1 ≤ s.conn.reqPtr.avail) :
    Ns_ConnRead s 1 = (1, s.conn.reqPtr.mem.take 1, s.setReq (s.conn.reqPtr.advance 1)) := by
  have h : ¬ ((1 : Int) > s.conn.reqPtr.avail) := by omega
  simp [Ns_ConnRead, hsock, h]

theorem Ns_ConnRead_empty {ω : Type} (s : Sys ω) (hsock : s.conn.sockPtr = true)
    (hav : s.conn.reqPtr.avail = 0) : Ns_ConnRead s 1 = (0, [], s) := by
  have h : s.setReq (s.conn.reqPtr.advance 0) = s := by
    rw [Request.advance_zero]
    rfl
  simp [Ns_ConnRead, hsock, hav, h]

theorem Sys.setReq_setReq {ω : Type} (s : Sys ω) (a b : Int) :
    (s.setReq (s.conn.reqPtr.advance a)).setReq
        ((s.setReq (s.conn.reqPtr.advance a)).conn.reqPtr.advance b)
      = s.setReq (s.conn.reqPtr.advance (a + b)) := by
  simp [Sys.setReq, Request.advance_advance]

/-- The loop of `Ns_ConnGets` when an LF is reached before the buffer is
full. -/
theorem Ns_ConnGets_loop_newline {ω : Type} : ∀ (pre rest : List Nat) (n : Nat) (s : Sys ω)
    (acc : List Nat), s.conn.sockPtr = true → 0 ≤ s.conn.reqPtr.next →
    s.conn.reqPtr.mem = pre ++ 10 :: rest → (pre.length : Int) + 1 ≤ s.conn.reqPtr.avail →
    10 ∉ pre → pre.length + 2 ≤ n →
    Ns_ConnGets_loop n s acc
      = (some (acc ++ pre ++ [10, 0]),
          s.setReq (s.conn.reqPtr.advance ((pre.length : Int) + 1))) := by
  intro pre
  induction pre with
  | nil =>
    intro rest n s acc hsock _ hmem hav _ hn
    obtain ⟨k, rfl⟩ : ∃ k, n = k + 2 := ⟨n - 2, by simp at hn; omega⟩
    simp only [List.length_nil, Nat.cast_zero, zero_add] at hav
    simp [Ns_ConnGets_loop, Ns_ConnRead_one s hsock hav, hmem]
  | cons b pre ih =>
    intro rest n s acc hsock hnext hmem hav hnl hn
    simp only [List.length_cons, Nat.cast_add, Nat.cast_one] at hav hn
    obtain ⟨k, rfl⟩ : ∃ k, n = k + 2 := ⟨n - 2, by omega⟩
    have hb : b ≠ 10 := fun h => hnl (by simp [h])
    have hnl2 : 10 ∉ pre := fun h => hnl (List.mem_cons_of_mem _ h)
    have hmem2 : (s.setReq (s.conn.reqPtr.advance 1)).conn.reqPtr.mem = pre ++ 10 :: rest := by
      show (s.conn.reqPtr.advance 1).mem = _
      rw [Request.mem_advance _ _ hnext (by omega), hmem]
      rfl
    have hrec := ih rest (k + 1) (s.setReq (s.conn.reqPtr.advance 1)) (acc ++ [b]) hsock
      (by show s.conn.reqPtr.next + 1 ≥ 0; omega) hmem2
      (by show (pre.length : Int) + 1 ≤ s.conn.reqPtr.avail - 1; omega) hnl2 (by omega)
    rw [Sys.setReq_setReq] at hrec
    simp only [Ns_ConnGets_loop, Ns_ConnRead_one s hsock (by omega), hmem]
    simp only [List.cons_append, List.take_succ_cons, List.take_zero, List.headD_cons, hb,
      if_false, ne_eq, not_true_eq_false]
    rw [hrec]
    simp [add_comm, add_left_comm, add_assoc]

/-- The loop of `Ns_ConnGets` when the buffer is filled before an LF is
reached. -/
theorem Ns_ConnGets_loop_full {ω : Type} : ∀ (l rest : List Nat) (s : Sys ω)
    (acc : List Nat), s.conn.sockPtr = true → 0 ≤ s.conn.reqPtr.next →
    s.conn.reqPtr.mem = l ++ rest → (l.length : Int) ≤ s.conn.reqPtr.avail → 10 ∉ l →
    Ns_ConnGets_loop (l.length + 1) s acc
      = (some (acc ++ l ++ [0]), s.setReq (s.conn.reqPtr.advance (l.length : Int))) := by
  intro l
  induction l with
  | nil =>
    intro rest s acc _ _ _ _ _
    have h : s.setReq (s.conn.reqPtr.advance 0) = s := by
      rw [Request.advance_zero]
      rfl
    simp [Ns_ConnGets_loop, h]
  | cons b l ih =>
    intro rest s acc hsock hnext hmem hav hnl
    simp only [List.length_cons, Nat.cast_add, Nat.cast_one] at hav
    have hb : b ≠ 10 := fun h => hnl (by simp [h])
    have hnl2 : 10 ∉ l := fun h => hnl (List.mem_cons_of_mem _ h)
    have hmem2 : (s.setReq (s.conn.reqPtr.advance 1)).conn.reqPtr.mem = l ++ rest := by
      show (s.conn.reqPtr.advance 1).mem = _
      rw [Request.mem_advance _ _ hnext (by omega), hmem]
      rfl
    have hrec := ih rest (s.setReq (s.conn.reqPtr.advance 1)) (acc ++ [b]) hsock
      (by show s.conn.reqPtr.next + 1 ≥ 0; omega) hmem2
      (by show (l.length : Int) ≤ s.conn.reqPtr.avail - 1; omega) hnl2
    rw [Sys.setReq_setReq] at hrec
    simp only [List.length_cons, Ns_ConnGets_loop, Ns_ConnRead_one s hsock (by omega), hmem]
    simp only [List.cons_append, List.take_succ_cons, List.take_zero, List.headD_cons, hb,
      if_false, ne_eq, not_true_eq_false]
    rw [hrec]
    simp [add_comm]

/-- The loop of `Ns_ConnGets` when the buffered bytes run out first. -/
theorem Ns_ConnGets_loop_short {ω : Type} : ∀ (l rest : List Nat) (n : Nat) (s : Sys ω)
    (acc : List Nat), s.conn.sockPtr = true → 0 ≤ s.conn.reqPtr.next →
    s.conn.reqPtr.mem = l ++ rest → s.conn.reqPtr.avail = (l.length : Int) → 10 ∉ l →
    l.length + 2 ≤ n →
    Ns_ConnGets_loop n s acc
      = (none, s.setReq (s.conn.reqPtr.advance (l.length : Int))) := by
  intro l
  induction l with
  | nil =>
    intro rest n s acc hsock _ _ hav _ hn
    obtain ⟨k, rfl⟩ : ∃ k, n = k + 2 := ⟨n - 2, by simp at hn; omega⟩
    have h : s.setReq (s.conn.reqPtr.advance 0) = s := by
      rw [Request.advance_zero]
      rfl
    simp only [List.length_nil, Nat.cast_zero] at hav
    simp [Ns_ConnGets_loop, Ns_ConnRead_empty s hsock hav, h]
  | cons b l ih =>
    intro rest n s acc hsock hnext hmem hav hnl hn
    simp only [List.length_cons, Nat.cast_add, Nat.cast_one] at hav hn
    obtain ⟨k, rfl⟩ : ∃ k, n = k + 2 := ⟨n - 2, by omega⟩
    have hb : b ≠ 10 := fun h => hnl (by simp [h])
    have hnl2 : 10 ∉ l := fun h => hnl (List.mem_cons_of_mem _ h)
    have hmem2 : (s.setReq (s.conn.reqPtr.advance 1)).conn.reqPtr.mem = l ++ rest := by
      show (s.conn.reqPtr.advance 1).mem = _
      rw [Request.mem_advance _ _ hnext (by omega), hmem]
      rfl
    have hrec := ih rest (k + 1) (s.setReq (s.conn.reqPtr.advance 1)) (acc ++ [b]) hsock
      (by show s.conn.reqPtr.next + 1 ≥ 0; omega) hmem2
      (by show s.conn.reqPtr.avail - 1 = (l.length : Int); omega) hnl2 (by omega)
    rw [Sys.setReq_setReq] at hrec
    simp only [Ns_ConnGets_loop, Ns_ConnRead_one s hsock (by omega), hmem]
    simp only [List.cons_append, List.take_succ_cons, List.take_zero, List.headD_cons, hb,
      if_false, ne_eq, not_true_eq_false]
    rw [hrec]
    simp [add_comm]

/-- C30. For a connection with a transport, a buffer of `bufsize ≥ 2` bytes
and `avail ≥ 0` buffered bytes, `Ns_ConnGets`, which reads with
`Ns_ConnRead(conn, p, 1)` one byte per round, (1) if the first LF of the
buffered span is at offset `k ≤ bufsize - 2`, returns the buffer holding the
bytes `0..k`, the LF included, followed by NUL, having consumed `k + 1`
bytes; (2) if no LF is among the first `bufsize - 1` buffered bytes and that
many are buffered, returns the buffer holding these `bufsize - 1` bytes
followed by NUL, having consumed them; (3) if fewer than `bufsize - 1` bytes
are buffered and none is an LF, returns NULL having consumed all of them
(`avail` is 0). -/
theorem C30_gets_reads_a_line {ω : Type} (s : Sys ω) (bufsize : Nat)
    (hsock : s.conn.sockPtr = true) (hbuf : 2 ≤ bufsize)
    (hnext : 0 ≤ s.conn.reqPtr.next) (havail : 0 ≤ s.conn.reqPtr.avail)
    (hmem : s.conn.reqPtr.avail.toNat ≤ s.conn.reqPtr.mem.length) :
    (∀ pre post, s.conn.reqPtr.span = pre ++ 10 :: post → 10 ∉ pre →
        pre.length + 1 ≤ bufsize - 1 →
        Ns_ConnGets bufsize s
          = (some (pre ++ [10, 0]),
              s.setReq (s.conn.reqPtr.advance ((pre.length : Int) + 1))))
      ∧ (bufsize - 1 ≤ s.conn.reqPtr.span.length →
          10 ∉ s.conn.reqPtr.span.take (bufsize - 1) →
          Ns_ConnGets bufsize s
            = (some (s.conn.reqPtr.span.take (bufsize - 1) ++ [0]),
                s.setReq (s.conn.reqPtr.advance ((bufsize - 1 : Nat) : Int))))
      ∧ (s.conn.reqPtr.span.length < bufsize - 1 → 10 ∉ s.conn.reqPtr.span →
          Ns_ConnGets bufsize s
              = (none, s.setReq (s.conn.reqPtr.advance s.conn.reqPtr.avail))
            ∧ (Ns_ConnGets bufsize s).2.conn.reqPtr.avail = 0) := by
  have hsplit : s.conn.reqPtr.mem
      = s.conn.reqPtr.span ++ s.conn.reqPtr.mem.drop s.conn.reqPtr.avail.toNat :=
    (List.take_append_drop _ _).symm
  have hlen : s.conn.reqPtr.span.length = s.conn.reqPtr.avail.toNat := by
    unfold Request.span
    rw [List.length_take]
    omega
  refine ⟨?_, ?_, ?_⟩
  · intro pre post hspan hnl hk
    have hm : s.conn.reqPtr.mem
        = pre ++ 10 :: (post ++ s.conn.reqPtr.mem.drop s.conn.reqPtr.avail.toNat) := by
      rw [← List.cons_append, ← List.append_assoc, ← hspan]
      exact hsplit
    have hl := congrArg List.length hspan
    simp only [List.length_append, List.length_cons] at hl
    have := Ns_ConnGets_loop_newline pre _ bufsize s [] hsock hnext hm (by omega) hnl
      (by omega)
    simpa [Ns_ConnGets] using this
  · intro hfull hnl
    have hl : (s.conn.reqPtr.span.take (bufsize - 1)).length = bufsize - 1 := by
      rw [List.length_take]
      omega
    have hm : s.conn.reqPtr.mem
        = s.conn.reqPtr.span.take (bufsize - 1)
          ++ (s.conn.reqPtr.span.drop (bufsize - 1)
              ++ s.conn.reqPtr.mem.drop s.conn.reqPtr.avail.toNat) := by
      rw [← List.append_assoc, List.take_append_drop]
      exact hsplit
    have := Ns_ConnGets_loop_full (s.conn.reqPtr.span.take (bufsize - 1)) _ s [] hsock hnext
      hm (by rw [hl]; omega) hnl
    rw [hl] at this
    have hb : bufsize - 1 + 1 = bufsize := by omega
    rw [hb] at this
    simpa [Ns_ConnGets] using this
  · intro hshort hnl
    have hr := Ns_ConnGets_loop_short s.conn.reqPtr.span _ bufsize s [] hsock hnext hsplit
      (by rw [hlen]; omega) hnl (by omega)
    have hav : (s.conn.reqPtr.span.length : Int) = s.conn.reqPtr.avail := by
      rw [hlen]
      omega
    rw [hav] at hr
    refine ⟨hr, ?_⟩
    rw [show Ns_ConnGets bufsize s = Ns_ConnGets_loop bufsize s [] from rfl, hr]
    simp [Sys.setReq, Request.advance]

/-- C30 at concrete inputs: the buffered bytes `AB`, LF, `C` read with a
buffer of 8 bytes (a line), with a buffer of 3 bytes (the buffer fills), and
the buffered bytes `AB` read with a buffer of 8 bytes (the data runs out). -/
theorem C30_witness :
    Ns_ConnGets 8 (inputSys false [65, 66, 10, 67] 4 100 100 ())
        = (some [65, 66, 10, 0],
            (inputSys false [65, 66, 10, 67] 4 100 100 ()).setReq
              { content := [65, 66, 10, 67], next := 3, avail := 1 })
      ∧ Ns_ConnGets 3 (inputSys false [65, 66, 10, 67] 4 100 100 ())
        = (some [65, 66, 0],
            (inputSys false [65, 66, 10, 67] 4 100 100 ()).setReq
              { content := [65, 66, 10, 67], next := 2, avail := 2 })
      ∧ Ns_ConnGets 8 (inputSys false [65, 66] 2 100 100 ())
        = (none,
            (inputSys false [65, 66] 2 100 100 ()).setReq
              { content := [65, 66], next := 2, avail := 0 }) :=
  ⟨(C30_gets_reads_a_line (inputSys false [65, 66, 10, 67] 4 100 100 ()) 8 rfl (by decide)
      (by decide) (by decide) (by decide)).1 [65, 66] [67] rfl (by decide) (by decide),
    (C30_gets_reads_a_line (inputSys false [65, 66, 10, 67] 4 100 100 ()) 3 rfl (by decide)
      (by decide) (by decide) (by decide)).2.1 (by decide) (by decide),
    ((C30_gets_reads_a_line (inputSys false [65, 66] 2 100 100 ()) 8 rfl (by decide)
      (by decide) (by decide) (by decide)).2.2 (by decide) (by decide)).1⟩

/-! ## The lines `Ns_ConnReadHeaders` hands to the parser -/

theorem stripCR_subset (l : List Nat) (x : Nat) (h : x ∈ stripCR l) : x ∈ l := by
  unfold stripCR at h
  split at h
  · exact List.mem_of_mem_dropLast h
  · exact h

theorem cstring_eq_self (l : List Nat) (h : 0 ∉ l) : cstring l = l := by
  unfold cstring
  rw [List.takeWhile_eq_self_iff]
  intro x hx
  have : x ≠ 0 := fun h0 => h (h0 ▸ hx)
  simpa using this

theorem headD_ne_zero (l : List Nat) (hne : l ≠ []) (h : 0 ∉ l) : l.headD 0 ≠ 0 := by
  cases l with
  | nil => exact absurd rfl hne
  | cons b t =>
    intro hb
    exact h (by simp only [List.headD_cons] at hb; simp [hb])

theorem parsedLines_append (a b : List Event) :
    parsedLines (a ++ b) = parsedLines a ++ parsedLines b := by
  induction a with
  | nil => rfl
  | cons e es ih => cases e <;> simp [parsedLines, ih]

/-- One round of the header loop on a header line within the limit: the line
is read, stripped and handed to the parser, whose status the loop goes on
with. -/
theorem readHeadersLoop_line {ω : Type} (E : Ext ω) (fuel : Nat) (s : Sys ω) (nread : Int)
    (l rest : List Nat) (hsock : s.conn.sockPtr = true)
    (hmem : s.conn.reqPtr.mem = l ++ 10 :: rest) (hl : IsHeaderLine s.conn.maxline l)
    (hle : nread + ((l.length : Int) + 1) ≤ s.conn.maxheaders) :
    readHeadersLoop E (fuel + 1) s NS_OK nread
      = readHeadersLoop E fuel
          { conn := { s.conn with reqPtr := s.conn.reqPtr.advance ((l.length : Int) + 1) },
            world := (E.Ns_ParseHeader s.world (stripCR l) s.conn.hdrcase).2,
            trace := s.trace ++ [Event.parseHeader (stripCR l)
              (E.Ns_ParseHeader s.world (stripCR l) s.conn.hdrcase).1] }
          (E.Ns_ParseHeader s.world (stripCR l) s.conn.hdrcase).1
          (nread + ((l.length : Int) + 1)) := by
  have hlt : nread < s.conn.maxheaders := by omega
  have hnot : ¬ (nread + ((l.length : Int) + 1) > s.conn.maxheaders) := by omega
  have hnul : 0 ∉ stripCR l := fun h => hl.2.1 (stripCR_subset l 0 h)
  have hhead : ¬ ((stripCR l).headD 0 = 0) := headD_ne_zero _ hl.2.2.1 hnul
  rw [readHeadersLoop, if_pos ⟨hlt, rfl⟩]
  simp only [Ns_ConnReadLine_line s [] l rest hsock hmem hl.1 hl.2.1 hl.2.2.2,
    List.nil_append, Option.getD_some, if_true, if_neg hnot, if_neg hhead,
    cstring_eq_self _ hnul]
  rfl

/-- The header loop on a block of header lines that the parser accepts and
that stay within the limit: the lines are handed to the parser in order,
each once, and the loop goes on after them. -/
theorem readHeadersLoop_lines {ω : Type} (E : Ext ω) (fuel : Nat) : ∀ (ls : List (List Nat))
    (s : Sys ω) (nread : Int) (tail : List Nat), s.conn.sockPtr = true →
    0 ≤ s.conn.reqPtr.next →
    s.conn.reqPtr.mem = joinLines ls ++ tail →
    (∀ l ∈ ls, IsHeaderLine s.conn.maxline l) →
    (∀ w l, l ∈ ls → (E.Ns_ParseHeader w (stripCR l) s.conn.hdrcase).1 = NS_OK) →
    nread + ((joinLines ls).length : Int) ≤ s.conn.maxheaders →
    ∃ s1 evs, readHeadersLoop E (fuel + ls.length) s NS_OK nread
        = readHeadersLoop E fuel s1 NS_OK (nread + ((joinLines ls).length : Int))
      ∧ s1.conn = { s.conn with
          reqPtr := s.conn.reqPtr.advance ((joinLines ls).length : Int) }
      ∧ s1.trace = s.trace ++ evs
      ∧ (∀ ev ∈ evs, ∃ line, ev = Event.parseHeader line NS_OK)
      ∧ parsedLines evs = ls.map stripCR := by
  intro ls
  induction ls with
  | nil =>
    intro s nread tail _ _ _ _ _ _
    refine ⟨s, [], ?_, ?_, by simp, by simp, rfl⟩
    · simp [joinLines]
    · simp [joinLines, Request.advance_zero]
  | cons l ls ih =>
    intro s nread tail hsock hnext hmem hlines hparse hle
    have hl := hlines l (List.mem_cons_self _ _)
    have hlen : ((joinLines (l :: ls)).length : Int)
        = ((l.length : Int) + 1) + ((joinLines ls).length : Int) := by
      simp only [joinLines, List.length_append, List.length_cons]
      push_cast
      omega
    rw [hlen] at hle
    have hmem1 : s.conn.reqPtr.mem = l ++ 10 :: (joinLines ls ++ tail) := by
      rw [hmem]
      simp [joinLines]
    have hstep := readHeadersLoop_line E (fuel + ls.length) s nread l _ hsock hmem1 hl
      (by omega)
    rw [hparse s.world l (List.mem_cons_self _ _)] at hstep
    have hmem2 : (s.conn.reqPtr.advance ((l.length : Int) + 1)).mem = joinLines ls ++ tail := by
      rw [Request.mem_advance _ _ hnext (by omega), hmem1]
      have : ((l.length : Int) + 1).toNat = l.length + 1 := by omega
      have h2 : l ++ 10 :: (joinLines ls ++ tail) = (l ++ [10]) ++ (joinLines ls ++ tail) := by
        simp
      rw [this, h2]
      exact List.drop_left' (by simp)
    obtain ⟨s1, evs, hloop, hconn, htr, hevs, hparsed⟩ := ih
      ({ conn := { s.conn with reqPtr := s.conn.reqPtr.advance ((l.length : Int) + 1) },
         world := (E.Ns_ParseHeader s.world (stripCR l) s.conn.hdrcase).2,
         trace := s.trace ++ [Event.parseHeader (stripCR l) NS_OK] } : Sys ω)
      (nread + ((l.length : Int) + 1)) tail hsock
      (by show 0 ≤ s.conn.reqPtr.next + ((l.length : Int) + 1); omega) hmem2
      (fun x hx => hlines x (List.mem_cons_of_mem _ hx))
      (fun w x hx => hparse w x (List.mem_cons_of_mem _ hx))
      (by show nread + ((l.length : Int) + 1) + ((joinLines ls).length : Int)
            ≤ s.conn.maxheaders; omega)
    refine ⟨s1, Event.parseHeader (stripCR l) NS_OK :: evs, ?_, ?_, ?_, ?_, ?_⟩
    · rw [List.length_cons, ← Nat.add_assoc, hstep, hloop, hlen, add_assoc]
    · rw [hconn, hlen]
      simp [Request.advance_advance]
    · rw [htr]
      simp
    · intro ev hev
      rcases List.mem_cons.mp hev with rfl | hev
      · exact ⟨_, rfl⟩
      · exact hevs ev hev
    · simp [parsedLines, hparsed]

/-- C29 (counterexample). The buffer holds the header lines `A: b` and
`C: d` and then the empty line, each ended by CR LF, and `maxheaders` is 6,
the length of the first line: `Ns_ConnReadHeaders` returns `NS_OK` having
handed to the parser the first line only, although two non-empty lines
precede the first empty line. -/
theorem C29_counterexample :
    ∃ s1, Ns_ConnReadHeaders acceptAll 8
        (inputSys false [65, 58, 32, 98, 13, 10, 67, 58, 32, 100, 13, 10, 13, 10] 14 100 6 ())
        = some (NS_OK, 6, s1)
      ∧ parsedLines s1.trace = [[65, 58, 32, 98]]
      ∧ [65, 58, 32, 98, 13, 10, 67, 58, 32, 100, 13, 10, 13, 10]
          = joinLines [[65, 58, 32, 98, 13], [67, 58, 32, 100, 13]] ++ [13, 10]
      ∧ parsedLines s1.trace ≠ [[65, 58, 32, 98, 13], [67, 58, 32, 100, 13]].map stripCR :=
  ⟨_, rfl, rfl, rfl, by decide⟩

/-- C29 (amended). On a connection with a transport whose buffer holds, at
the cursor, header lines `ls` (each without LF and NUL, non-empty once its
final CR is stripped, within `maxline`) that the parser accepts: (1) if an
empty line
follows and the block with it is within `maxheaders`, `Ns_ConnReadHeaders`
returns `NS_OK` with the byte length of the block as read count, and its
collaborator calls are exactly the calls of `Ns_ParseHeader` on the
CR-stripped lines of `ls`, in input order and each once; the empty line is
not handed over; (2) if instead a header line follows that the parser
rejects, the call returns the parser's failure status (`NS_ERROR` for a
parser that reports `NS_OK` or `NS_ERROR`), the rejected line is the last
line handed over, and the cursor stands right after it: no further line has
been read.  In both cases fuel for one round per line suffices. -/
theorem C29_headers_parsed_in_order {ω : Type} (E : Ext ω) (fuel : Nat) (s : Sys ω)
    (ls : List (List Nat)) (tail : List Nat) (hsock : s.conn.sockPtr = true)
    (hnext : 0 ≤ s.conn.reqPtr.next)
    (hmem : s.conn.reqPtr.mem = joinLines ls ++ tail)
    (hlines : ∀ l ∈ ls, IsHeaderLine s.conn.maxline l)
    (hparse : ∀ w l, l ∈ ls → (E.Ns_ParseHeader w (stripCR l) s.conn.hdrcase).1 = NS_OK) :
    (∀ e rest, tail = e ++ 10 :: rest → IsEmptyLine e → (e.length : Int) ≤ s.conn.maxline →
        (((joinLines ls).length + e.length + 1 : Nat) : Int) ≤ s.conn.maxheaders →
        ∃ s1 evs, Ns_ConnReadHeaders E (fuel + 1 + ls.length) s
            = some (NS_OK, (((joinLines ls).length + e.length + 1 : Nat) : Int), s1)
          ∧ s1.trace = s.trace ++ evs
          ∧ (∀ ev ∈ evs, ∃ line, ev = Event.parseHeader line NS_OK)
          ∧ parsedLines evs = ls.map stripCR
          ∧ s1.conn = { s.conn with reqPtr := (s.conn.reqPtr.advance
              (((joinLines ls).length + e.length + 1 : Nat) : Int)) })
      ∧ (∀ l rest st, tail = l ++ 10 :: rest → IsHeaderLine s.conn.maxline l →
        (((joinLines ls).length + l.length + 1 : Nat) : Int) ≤ s.conn.maxheaders →
        st ≠ NS_OK → (∀ w, (E.Ns_ParseHeader w (stripCR l) s.conn.hdrcase).1 = st) →
        ∃ s1 evs, Ns_ConnReadHeaders E (fuel + 1 + ls.length) s
            = some (st, (((joinLines ls).length + l.length + 1 : Nat) : Int), s1)
          ∧ s1.trace = s.trace ++ evs ++ [Event.parseHeader (stripCR l) st]
          ∧ (∀ ev ∈ evs, ∃ line, ev = Event.parseHeader line NS_OK)
          ∧ parsedLines (evs ++ [Event.parseHeader (stripCR l) st]) = (ls ++ [l]).map stripCR
          ∧ s1.conn = { s.conn with reqPtr := (s.conn.reqPtr.advance
              (((joinLines ls).length + l.length + 1 : Nat) : Int)) }) := by
  have hmemtail : (s.conn.reqPtr.advance ((joinLines ls).length : Int)).mem = tail := by
    rw [Request.mem_advance _ _ hnext (by omega), hmem]
    exact List.drop_left' (by simp)
  constructor
  · intro e rest htail he hmaxline hmax
    obtain ⟨s1, evs, hloop, hconn, htr, hevs, hparsed⟩ := readHeadersLoop_lines E (fuel + 1) ls
      s 0 tail hsock hnext hmem hlines hparse (by push_cast at hmax; omega)
    have hsock1 : s1.conn.sockPtr = true := by rw [hconn]; exact hsock
    have hmem1 : s1.conn.reqPtr.mem = e ++ 10 :: rest := by
      rw [hconn, ← htail]
      exact hmemtail
    have hnl : 10 ∉ e := by rcases he with rfl | rfl <;> decide
    have hnul : 0 ∉ e := by rcases he with rfl | rfl <;> decide
    have hstrip : stripCR e = [] := by rcases he with rfl | rfl <;> rfl
    have hml : (e.length : Int) ≤ s1.conn.maxline := by rw [hconn]; exact hmaxline
    have hlt : (0 : Int) + ((joinLines ls).length : Int) < s1.conn.maxheaders := by
      rw [hconn]
      show _ < s.conn.maxheaders
      push_cast at hmax
      omega
    have hnot : ¬ ((0 : Int) + ((joinLines ls).length : Int) + ((e.length : Int) + 1)
        > s1.conn.maxheaders) := by
      rw [hconn]
      show ¬ (_ > s.conn.maxheaders)
      push_cast at hmax
      omega
    refine ⟨s1.setReq (s1.conn.reqPtr.advance ((e.length : Int) + 1)), evs, ?_, htr, hevs,
      hparsed, ?_⟩
    · rw [Ns_ConnReadHeaders, hloop, readHeadersLoop, if_pos ⟨hlt, rfl⟩]
      simp only [Ns_ConnReadLine_line s1 [] e rest hsock1 hmem1 hnl hnul hml, hstrip,
        List.nil_append, Option.getD_some, if_true, if_neg hnot, List.headD_nil]
      congr 3
      push_cast
      omega
    · simp only [Sys.setReq, hconn, Request.advance_advance]
      congr 2
  · intro l rest st htail hl hmax hst hreject
    obtain ⟨s1, evs, hloop, hconn, htr, hevs, hparsed⟩ := readHeadersLoop_lines E (fuel + 1) ls
      s 0 tail hsock hnext hmem hlines hparse (by push_cast at hmax; omega)
    have hsock1 : s1.conn.sockPtr = true := by rw [hconn]; exact hsock
    have hmem1 : s1.conn.reqPtr.mem = l ++ 10 :: rest := by
      rw [hconn, ← htail]
      exact hmemtail
    have hl1 : IsHeaderLine s1.conn.maxline l := by rw [hconn]; exact hl
    have hstep := readHeadersLoop_line E fuel s1 ((0 : Int) + ((joinLines ls).length : Int)) l
      rest hsock1 hmem1 hl1 (by
        rw [hconn]
        show _ ≤ s.conn.maxheaders
        push_cast at hmax
        omega)
    have hcase : s1.conn.hdrcase = s.conn.hdrcase := by rw [hconn]
    rw [hcase, hreject s1.world] at hstep
    rw [readHeadersLoop_stop E fuel _ st _ (fun h => hst h.2)] at hstep
    refine ⟨{ conn := { s1.conn with
                reqPtr := s1.conn.reqPtr.advance ((l.length : Int) + 1) },
              world := (E.Ns_ParseHeader s1.world (stripCR l) s.conn.hdrcase).2,
              trace := s1.trace ++ [Event.parseHeader (stripCR l) st] }, evs, ?_, ?_, hevs,
      ?_, ?_⟩
    · rw [Ns_ConnReadHeaders, hloop, hstep]
      congr 3
      push_cast
      omega
    · simp only [htr]
    · simp [parsedLines_append, parsedLines, hparsed]
    · simp only [hconn, Request.advance_advance]
      congr 2

/-- C29 at concrete inputs: the block `A: b\r\n\r\n` with a parser that
accepts, and the block `A: b\n c\n\n` with a parser that rejects the line
that starts with a blank. -/
theorem C29_witness :
    (∃ s1 evs, Ns_ConnReadHeaders acceptAll 2 (inputSys false sampleHeaders 8 100 100 ())
          = some (NS_OK, 8, s1)
        ∧ s1.trace = evs ∧ parsedLines evs = [[65, 58, 32, 98]]
        ∧ s1.conn.reqPtr.next = 8)
      ∧ (∃ s1 evs, Ns_ConnReadHeaders strictParser 2
            (inputSys false [65, 58, 32, 98, 10, 32, 99, 10, 10] 9 100 100 ())
          = some (NS_ERROR, 8, s1)
        ∧ s1.trace = evs ++ [Event.parseHeader [32, 99] NS_ERROR]
        ∧ parsedLines evs = [[65, 58, 32, 98]]
        ∧ s1.conn.reqPtr.next = 8) := by
  constructor
  · obtain ⟨s1, evs, h1, h2, _, h4, h5⟩ :=
      (C29_headers_parsed_in_order acceptAll 0 (inputSys false sampleHeaders 8 100 100 ())
        [[65, 58, 32, 98, 13]] [13, 10] rfl (by decide) rfl
        (by
          intro l hl
          rcases List.mem_singleton.mp hl with rfl
          exact ⟨by decide, by decide, by decide, by decide⟩)
        (fun _ _ _ => rfl)).1 [13] [] rfl (Or.inr rfl) (by decide) (by decide)
    exact ⟨s1, evs, h1, by simpa using h2, h4, by rw [h5]; rfl⟩
  · obtain ⟨s1, evs, h1, h2, _, h4, h5⟩ :=
      (C29_headers_parsed_in_order strictParser 0
        (inputSys false [65, 58, 32, 98, 10, 32, 99, 10, 10] 9 100 100 ())
        [[65, 58, 32, 98]] [32, 99, 10, 10] rfl (by decide) rfl
        (by
          intro l hl
          rcases List.mem_singleton.mp hl with rfl
          exact ⟨by decide, by decide, by decide, by decide⟩)
        (by
          intro w l hl
          rcases List.mem_singleton.mp hl with rfl
          rfl)).2 [32, 99] [10] NS_ERROR rfl
        ⟨by decide, by decide, by decide, by decide⟩ (by decide) (by decide) (fun _ => rfl)
    have h6 : parsedLines evs = [[65, 58, 32, 98]] := by
      rw [parsedLines_append] at h4
      exact List.append_cancel_right h4
    exact ⟨s1, evs, h1, by simpa using h2, h6, by rw [h5]; rfl⟩

/-! ## `Ns_WriteCharConn` with a converter that makes progress -/

theorem writeCharLoop_stop {ω : Type} (E : Ext ω) (wfuel fuel : Nat) (s : Sys ω)
    (status : Int) (utfBytes : Option (List Nat)) (utfCount : Int)
    (h : ¬ (0 < utfCount ∧ status = NS_OK)) :
    writeCharLoop E wfuel fuel s status utfBytes utfCount = some (status, s) := by
  cases fuel <;> simp only [writeCharLoop, if_neg h]

theorem Ns_WriteConn_status {ω : Type} (E : Ext ω) (fuel : Nat) (s s1 : Sys ω)
    (buf : Option (List Nat)) (len : Nat) (r : Int)
    (h : Ns_WriteConn E fuel s buf len = some (r, s1)) : r = NS_OK ∨ r = NS_ERROR := by
  obtain ⟨r1, _, hr⟩ := Ns_WriteConn_trace E fuel s s1 buf len r h
  rw [hr]
  split
  · exact Or.inr rfl
  · exact Or.inl rfl

theorem toread_eq_min (m : Int) :
    (if m > (IOBUFSZ : Int) then (IOBUFSZ : Int) else m) = min m (IOBUFSZ : Int) := by
  split
  · rw [min_eq_right (by omega)]
  · rw [min_eq_left (by omega)]

/-- One round of the loop of `ConnSend`, entered with status `NS_OK` and a
positive count. -/
theorem connSendLoop_round {ω : Type} (E : Ext ω) (wfuel : Nat) (chan fp : Bool) (fuel : Nat)
    (s : Sys ω) (m : Int) (hm : 0 < m) :
    ((srcRead E s.world chan fp (min m (IOBUFSZ : Int)).toNat).1 = none →
        connSendLoop E wfuel chan fp (fuel + 1) s NS_OK m
          = some (NS_ERROR, afterRead s
              (srcRead E s.world chan fp (min m (IOBUFSZ : Int)).toNat).2
              (min m (IOBUFSZ : Int)).toNat none))
      ∧ ((srcRead E s.world chan fp (min m (IOBUFSZ : Int)).toNat).1 = some [] →
        connSendLoop E wfuel chan fp (fuel + 1) s NS_OK m
          = some (NS_OK, afterRead s
              (srcRead E s.world chan fp (min m (IOBUFSZ : Int)).toNat).2
              (min m (IOBUFSZ : Int)).toNat (some [])))
      ∧ (∀ data st s2,
        (srcRead E s.world chan fp (min m (IOBUFSZ : Int)).toNat).1 = some data →
        data ≠ [] →
        Ns_WriteConn E wfuel
            (afterRead s (srcRead E s.world chan fp (min m (IOBUFSZ : Int)).toNat).2
              (min m (IOBUFSZ : Int)).toNat (some data))
            (some data) data.length = some (st, s2) →
        (st ≠ NS_OK →
            connSendLoop E wfuel chan fp (fuel + 1) s NS_OK m = some (NS_ERROR, s2))
          ∧ (st = NS_OK →
            connSendLoop E wfuel chan fp (fuel + 1) s NS_OK m
              = connSendLoop E wfuel chan fp fuel s2 NS_OK (m - (data.length : Int)))) := by
  refine ⟨?_, ?_, ?_⟩
  · intro hr
    rw [connSendLoop, if_pos ⟨rfl, hm⟩]
    simp only [toread_eq_min, hr]
    exact connSendLoop_stop E wfuel chan fp fuel _ NS_ERROR m (fun h => by cases h.1)
  · intro hr
    rw [connSendLoop, if_pos ⟨rfl, hm⟩]
    simp only [toread_eq_min, hr, List.length_nil, if_true]
    exact connSendLoop_stop E wfuel chan fp fuel _ NS_OK 0 (fun h => by omega)
  · intro data st s2 hr hd hw
    have hd0 : data.length ≠ 0 := fun h => hd (List.length_eq_zero.mp h)
    have hw' : Ns_WriteConn E wfuel
        ({ s with world := (srcRead E s.world chan fp (min m (IOBUFSZ : Int)).toNat).2,
                  trace := s.trace
                    ++ [Event.srcRead (min m (IOBUFSZ : Int)).toNat (some data)] } : Sys ω)
        (some data) data.length = some (st, s2) := hw
    constructor
    · intro hst
      rw [connSendLoop, if_pos ⟨rfl, hm⟩]
      simp only [toread_eq_min, hr, if_neg hd0, hw', if_neg hst]
      rcases Ns_WriteConn_status E wfuel _ s2 _ _ st hw with h | h
      · exact absurd h hst
      · rw [h]
        exact connSendLoop_stop E wfuel chan fp fuel s2 NS_ERROR m (fun h => by cases h.1)
    · intro hst
      rw [connSendLoop, if_pos ⟨rfl, hm⟩]
      simp only [toread_eq_min, hr, if_neg hd0, hw', if_pos hst]
      rw [hst]

theorem endsStream_single (r : Int) (e : Event) :
    endsStream r [e]
      ↔ (e.isReadError = true → r = NS_ERROR) ∧ (e.isEmptyRead = true → r = NS_OK) :=
  Iff.rfl

theorem endsStream_cons (r : Int) (e e1 : Event) (es : List Event) :
    endsStream r (e :: e1 :: es)
      ↔ e.isReadError = false ∧ e.isEmptyRead = false ∧ endsStream r (e1 :: es) :=
  Iff.rfl

theorem endsStream_plain_append (r : Int) (a b : List Event)
    (ha : ∀ e ∈ a, e.isReadError = false ∧ e.isEmptyRead = false) (hb : endsStream r b) :
    endsStream r (a ++ b) := by
  induction a with
  | nil => exact hb
  | cons e es ih =>
    have he := ha e (List.mem_cons_self _ _)
    have hes := ih (fun x hx => ha x (List.mem_cons_of_mem _ hx))
    cases hrest : es ++ b with
    | nil =>
      rw [List.cons_append, hrest, endsStream_single, he.1, he.2]
      exact ⟨fun h => (by cases h), fun h => (by cases h)⟩
    | cons e1 rest =>
      rw [List.cons_append, hrest, endsStream_cons]
      rw [hrest] at hes
      exact ⟨he.1, he.2, hes⟩

theorem send_plain (e : Event) (h : e.isSend = true) :
    e.isReadError = false ∧ e.isEmptyRead = false := by
  cases e <;> simp_all [Event.isSend, Event.isReadError, Event.isEmptyRead]

/-- Every run of the loop of `ConnSend` that ends appends reads of the source
and sends only; a failed or an empty read is the last event, with the result
`NS_ERROR` and `NS_OK`. -/
theorem connSendLoop_shape {ω : Type} (E : Ext ω) (wfuel : Nat) (chan fp : Bool) :
    ∀ (fuel : Nat) (s s1 : Sys ω) (status nsend r : Int),
    connSendLoop E wfuel chan fp fuel s status nsend = some (r, s1) →
    ∃ post, s1.trace = s.trace ++ post
      ∧ (∀ e ∈ post, e.isSend = true ∨ e.isRead = true)
      ∧ (post = [] → r = status)
      ∧ (status = NS_OK → (r = NS_OK ∨ r = NS_ERROR) ∧ endsStream r post) := by
  intro fuel
  induction fuel with
  | zero =>
    intro s s1 status nsend r h
    simp only [connSendLoop] at h
    split at h
    · cases h
    · cases h
      exact ⟨[], by simp, by simp, fun _ => rfl, fun hs => ⟨Or.inl hs, trivial⟩⟩
  | succ fuel ih =>
    intro s s1 status nsend r h
    simp only [connSendLoop] at h
    split at h
    · rename_i hcond
      split at h
      · rename_i hread
        rw [connSendLoop_stop E wfuel chan fp fuel _ NS_ERROR nsend (fun h => by cases h.1)] at h
        cases h
        refine ⟨[Event.srcRead _ _], rfl, by simp [Event.isRead],
          by simp, fun _ => ⟨Or.inr rfl, ?_⟩⟩
        rw [endsStream_single, hread]
        exact ⟨fun _ => rfl, fun h => by cases h⟩
      · rename_i data hread
        split at h
        · rename_i hlen
          rw [connSendLoop_stop E wfuel chan fp fuel _ status 0 (fun h => by omega)] at h
          cases h
          refine ⟨[Event.srcRead _ _], rfl, by simp [Event.isRead], by simp,
            fun hs => ⟨Or.inl hs, ?_⟩⟩
          rw [endsStream_single, hread]
          exact ⟨fun h => (by cases h), fun _ => hs⟩
        · rename_i hlen
          have hplain : (Event.srcRead
              (if nsend > (IOBUFSZ : Int) then (IOBUFSZ : Int) else nsend).toNat
              (srcRead E s.world chan fp
                (if nsend > (IOBUFSZ : Int) then (IOBUFSZ : Int) else nsend).toNat).1).isReadError
                = false
              ∧ (Event.srcRead
              (if nsend > (IOBUFSZ : Int) then (IOBUFSZ : Int) else nsend).toNat
              (srcRead E s.world chan fp
                (if nsend > (IOBUFSZ : Int) then (IOBUFSZ : Int) else nsend).toNat).1).isEmptyRead
                = false := by
            rw [hread]
            cases data with
            | nil => exact absurd rfl hlen
            | cons b t => exact ⟨rfl, rfl⟩
          split at h
          · cases h
          · rename_i st s2 hw
            obtain ⟨sends, htr2, hsends⟩ := Ns_WriteConn_events E wfuel _ s2 _ _ st hw
            obtain ⟨ev, hisread, hp1, hp2, htr2'⟩ : ∃ ev : Event, ev.isRead = true
                ∧ ev.isReadError = false ∧ ev.isEmptyRead = false
                ∧ s2.trace = s.trace ++ (ev :: sends) :=
              ⟨Event.srcRead
                (if nsend > (IOBUFSZ : Int) then (IOBUFSZ : Int) else nsend).toNat
                (srcRead E s.world chan fp
                  (if nsend > (IOBUFSZ : Int) then (IOBUFSZ : Int) else nsend).toNat).1,
                rfl, hplain.1, hplain.2, by rw [htr2]; simp⟩
            have hpre : ∀ e ∈ ev :: sends,
                e.isReadError = false ∧ e.isEmptyRead = false := by
              intro e he
              rcases List.mem_cons.mp he with rfl | he
              · exact ⟨hp1, hp2⟩
              · exact send_plain e (hsends e he)
            have hkind : ∀ e ∈ ev :: sends, e.isSend = true ∨ e.isRead = true := by
              intro e he
              rcases List.mem_cons.mp he with rfl | he
              · exact Or.inr hisread
              · exact Or.inl (hsends e he)
            split at h
            · rename_i hst
              obtain ⟨post, htr, hev, _, hshape⟩ := ih _ _ _ _ _ h
              refine ⟨(ev :: sends) ++ post, ?_, ?_, by simp, fun _ => ?_⟩
              · rw [htr, htr2', List.append_assoc]
              · intro e he
                rcases List.mem_append.mp he with he | he
                · exact hkind e he
                · exact hev e he
              · exact ⟨(hshape hst).1, endsStream_plain_append r _ _ hpre (hshape hst).2⟩
            · rename_i hst
              rw [connSendLoop_stop E wfuel chan fp fuel _ st nsend (fun h => hst h.1)] at h
              cases h
              refine ⟨(ev :: sends) ++ [], ?_, ?_, by simp, fun _ => ?_⟩
              · rw [htr2', List.append_nil]
              · intro e he
                rw [List.append_nil] at he
                exact hkind e he
              · exact ⟨Ns_WriteConn_status E wfuel _ _ _ _ _ hw,
                  endsStream_plain_append _ _ _ hpre trivial⟩
    · cases h
      exact ⟨[], by simp, by simp, fun _ => rfl, fun hs => ⟨Or.inl hs, trivial⟩⟩

/-- The loop of `ConnSend` ends within `nsend` rounds when every write
returns. -/
theorem connSendLoop_terminates {ω : Type} (E : Ext ω) (wfuel : Nat) (chan fp : Bool)
    (hw : ∀ (s : Sys ω) (data : List Nat),
      ∃ r s1, Ns_WriteConn E wfuel s (some data) data.length = some (r, s1)) :
    ∀ (fuel : Nat) (s : Sys ω) (status nsend : Int), nsend.toNat ≤ fuel →
    ∃ r s1, connSendLoop E wfuel chan fp fuel s status nsend = some (r, s1) := by
  intro fuel
  induction fuel with
  | zero =>
    intro s status nsend hfuel
    exact ⟨status, s, connSendLoop_stop E wfuel chan fp 0 s status nsend (fun h => by omega)⟩
  | succ fuel ih =>
    intro s status nsend hfuel
    by_cases hcond : status = NS_OK ∧ 0 < nsend
    swap
    · exact ⟨status, s, connSendLoop_stop E wfuel chan fp _ s status nsend hcond⟩
    · obtain ⟨hs, hm⟩ := hcond
      subst hs
      have hround := connSendLoop_round E wfuel chan fp fuel s nsend hm
      cases hr : (srcRead E s.world chan fp (min nsend (IOBUFSZ : Int)).toNat).1 with
      | none => exact ⟨_, _, hround.1 hr⟩
      | some data =>
        by_cases hd : data = []
        · subst hd
          exact ⟨_, _, hround.2.1 hr⟩
        · obtain ⟨st, s2, hwr⟩ := hw
            (afterRead s (srcRead E s.world chan fp (min nsend (IOBUFSZ : Int)).toNat).2
              (min nsend (IOBUFSZ : Int)).toNat (some data)) data
          have hstep := hround.2.2 data st s2 hr hd hwr
          by_cases hst : st = NS_OK
          · rw [hstep.2 hst]
            have hpos : 0 < data.length := List.length_pos.mpr hd
            exact ih s2 NS_OK _ (by omega)
          · exact ⟨_, _, hstep.1 hst⟩

/-- C21. (1) Every returning call of `ConnSend` first makes the sends of the
zero-length write (none for a count other than 0), then offers the request to
the writer queue, then only reads the source and sends; it returns `NS_OK` or
`NS_ERROR`; if the writer queue accepts, nothing follows the offer (the
source is not read) and the result is `NS_OK`; a failed read or an empty read
of the source can only be the last event of the call, a failed read with
the result `NS_ERROR` and an empty read (a short source) with the result
`NS_OK`.  (2) In every round of the synchronous loop (status `NS_OK`, count
`m > 0`, one more round of fuel): if the read fails, the loop returns
`NS_ERROR` in the state the read left, with no write and no further read; if
the read gives no byte, it returns `NS_OK` in that state; if the read gives
bytes and their `Ns_WriteConn` does not return `NS_OK`, the loop returns
`NS_ERROR` in the state the write left, with no further read; and if the
write returns `NS_OK` the loop goes on from that state with the count reduced
by the bytes read.  (3) When every write returns, the call returns with fuel
for `n` rounds. -/
theorem C21_stream_failures {ω : Type} (E : Ext ω) (chan fp : Bool) :
    (∀ fuel s n r s1, ConnSend E fuel s n chan fp = some (r, s1) →
        ∃ pre st post, s1.trace = s.trace ++ pre ++ Event.queueWriter n st :: post
          ∧ (∀ e ∈ pre, e.isSend = true) ∧ (n ≠ 0 → pre = [])
          ∧ (∀ e ∈ post, e.isSend = true ∨ e.isRead = true)
          ∧ (r = NS_OK ∨ r = NS_ERROR)
          ∧ (st = NS_OK → post = [] ∧ r = NS_OK)
          ∧ endsStream r post)
      ∧ (∀ wfuel fuel s m, 0 < m →
        ((srcRead E s.world chan fp (min m (IOBUFSZ : Int)).toNat).1 = none →
            connSendLoop E wfuel chan fp (fuel + 1) s NS_OK m
              = some (NS_ERROR, afterRead s
                  (srcRead E s.world chan fp (min m (IOBUFSZ : Int)).toNat).2
                  (min m (IOBUFSZ : Int)).toNat none))
          ∧ ((srcRead E s.world chan fp (min m (IOBUFSZ : Int)).toNat).1 = some [] →
            connSendLoop E wfuel chan fp (fuel + 1) s NS_OK m
              = some (NS_OK, afterRead s
                  (srcRead E s.world chan fp (min m (IOBUFSZ : Int)).toNat).2
                  (min m (IOBUFSZ : Int)).toNat (some [])))
          ∧ (∀ data st s2,
            (srcRead E s.world chan fp (min m (IOBUFSZ : Int)).toNat).1 = some data →
            data ≠ [] →
            Ns_WriteConn E wfuel
                (afterRead s (srcRead E s.world chan fp (min m (IOBUFSZ : Int)).toNat).2
                  (min m (IOBUFSZ : Int)).toNat (some data))
                (some data) data.length = some (st, s2) →
            (st ≠ NS_OK →
                connSendLoop E wfuel chan fp (fuel + 1) s NS_OK m = some (NS_ERROR, s2))
              ∧ (st = NS_OK →
                connSendLoop E wfuel chan fp (fuel + 1) s NS_OK m
                  = connSendLoop E wfuel chan fp fuel s2 NS_OK (m - (data.length : Int)))))
      ∧ (∀ fuel s n,
        (∀ (s0 : Sys ω) (data : List Nat),
          ∃ r s1, Ns_WriteConn E fuel s0 (some data) data.length = some (r, s1)) →
        n.toNat ≤ fuel → ∃ r s1, ConnSend E fuel s n chan fp = some (r, s1)) := by
  refine ⟨?_, fun wfuel fuel s m hm => connSendLoop_round E wfuel chan fp fuel s m hm, ?_⟩
  · intro fuel s n r s1 h
    simp only [ConnSend] at h
    split at h
    · cases h
    · rename_i s0 hflush
      have hpre : ∃ pre, s0.trace = s.trace ++ pre ∧ (∀ e ∈ pre, e.isSend = true)
          ∧ (n ≠ 0 → pre = []) := by
        split at hflush
        · rename_i hn
          split at hflush
          · cases hflush
          · rename_i st0 s3 hw
            cases hflush
            obtain ⟨pre, h1, h2⟩ := Ns_WriteConn_events E fuel s _ none 0 st0 hw
            exact ⟨pre, h1, h2, fun h => absurd hn h⟩
        · cases hflush
          exact ⟨[], by simp, by simp, fun _ => rfl⟩
      obtain ⟨pre, hpre1, hpre2, hpre3⟩ := hpre
      split at h
      · rename_i hq
        cases h
        refine ⟨pre, (E.NsQueueWriter s0.world n).1, [], ?_, hpre2, hpre3, by simp,
          Or.inl rfl, fun _ => ⟨rfl, rfl⟩, trivial⟩
        show s0.trace ++ _ = _
        rw [hpre1]
      · rename_i hq
        obtain ⟨post, htr, hev, _, hshape⟩ :=
          connSendLoop_shape E fuel chan fp fuel _ s1 NS_OK n r h
        refine ⟨pre, (E.NsQueueWriter s0.world n).1, post, ?_, hpre2, hpre3, hev,
          (hshape rfl).1, fun hst => absurd hst hq, (hshape rfl).2⟩
        rw [htr]
        show (s0.trace ++ _) ++ post = _
        rw [hpre1]
        simp
  · intro fuel s n hw hfuel
    have hloop : ∀ s2 : Sys ω, ∃ r s1,
        connSendLoop E fuel chan fp fuel s2 NS_OK n = some (r, s1) :=
      fun s2 => connSendLoop_terminates E fuel chan fp hw fuel s2 NS_OK n hfuel
    by_cases hn : n = 0
    · obtain ⟨r0, s0, h0⟩ := hw s []
      have h0' : Ns_WriteConn E fuel s none 0 = some (r0, s0) := by
        rw [Ns_WriteConn_zero_buf]
        exact h0
      simp only [ConnSend, if_pos hn, h0']
      split
      · exact ⟨_, _, rfl⟩
      · exact hloop _
    · simp only [ConnSend, if_neg hn]
      split
      · exact ⟨_, _, rfl⟩
      · exact hloop _

/-- C21 at concrete inputs: a source whose read fails, and a source of seven
bytes with a transport whose send fails. -/
theorem C21_witness :
    ConnSend brokenSource 5 (sampleSys 0 [] ()) 5 true false
        = some (NS_ERROR,
            { sampleSys 0 [] () with
              trace := [Event.queueWriter 5 NS_ERROR, Event.srcRead 5 none] })
      ∧ ConnSend brokenPipe 5 (sampleSys 0 [] [1, 2, 3, 4, 5, 6, 7]) 5 true false
        = some (NS_ERROR,
            { sampleSys 0 [] [4, 5, 6, 7] with
              trace := [Event.queueWriter 5 NS_ERROR, Event.srcRead 5 (some [1, 2, 3]),
                Event.sockSend [IoVec.mk (some [1, 2, 3]) 3] (-1)] }) := by
  constructor
  · exact ((C21_stream_failures brokenSource true false).2.1 5 4
      { sampleSys 0 [] () with trace := [Event.queueWriter 5 NS_ERROR] } 5
      (by decide)).1 rfl
  · have h := (((C21_stream_failures brokenPipe true false).2.1 5 4
      { sampleSys 0 [] [1, 2, 3, 4, 5, 6, 7] with trace := [Event.queueWriter 5 NS_ERROR] } 5
      (by decide)).2.2 [1, 2, 3] NS_ERROR
      { sampleSys 0 [] [4, 5, 6, 7] with
        trace := [Event.queueWriter 5 NS_ERROR, Event.srcRead 5 (some [1, 2, 3]),
          Event.sockSend [IoVec.mk (some [1, 2, 3]) 3] (-1)] }
      (by rfl) (by decide) (by rfl)).1 (by decide)
    have h0 : ConnSend brokenPipe 5 (sampleSys 0 [] [1, 2, 3, 4, 5, 6, 7]) 5 true false
        = connSendLoop brokenPipe 5 true false (4 + 1)
            { sampleSys 0 [] [1, 2, 3, 4, 5, 6, 7] with
              trace := [Event.queueWriter 5 NS_ERROR] } NS_OK 5 := by
      rfl
    rw [h0, h]

/-! ## Failures in the loop of `Ns_WriteCharConn` -/

theorem endsConversion_single (r : Int) (e : Event) :
    endsConversion r [e] ↔ (e.isConvertError = true → r = NS_ERROR) :=
  Iff.rfl

theorem endsConversion_cons (r : Int) (e e1 : Event) (es : List Event) :
    endsConversion r (e :: e1 :: es)
      ↔ e.isConvertError = false ∧ endsConversion r (e1 :: es) :=
  Iff.rfl

theorem endsConversion_plain_append (r : Int) (a b : List Event)
    (ha : ∀ e ∈ a, e.isConvertError = false) (hb : endsConversion r b) :
    endsConversion r (a ++ b) := by
  induction a with
  | nil => exact hb
  | cons e es ih =>
    have he := ha e (List.mem_cons_self _ _)
    have hes := ih (fun x hx => ha x (List.mem_cons_of_mem _ hx))
    cases hrest : es ++ b with
    | nil =>
      rw [List.cons_append, hrest, endsConversion_single, he]
      exact fun h => (by cases h)
    | cons e1 rest =>
      rw [List.cons_append, hrest, endsConversion_cons]
      rw [hrest] at hes
      exact ⟨he, hes⟩

theorem send_not_convertError (e : Event) (h : e.isSend = true) :
    e.isConvertError = false := by
  cases e <;> simp_all [Event.isSend, Event.isConvertError]

/-- One round of the loop of `Ns_WriteCharConn`, entered with status `NS_OK`
and a positive count. -/
theorem writeCharLoop_round {ω : Type} (E : Ext ω) (wfuel fuel : Nat) (s : Sys ω)
    (utfBytes : Option (List Nat)) (c : Int) (hc : 0 < c) :
    (((E.Tcl_UtfToExternal s.world ((utfBytes.getD []).take c.toNat) IOBUFSZ).1.1 ≠ TCL_OK
          ∧ (E.Tcl_UtfToExternal s.world ((utfBytes.getD []).take c.toNat) IOBUFSZ).1.1
              ≠ TCL_CONVERT_NOSPACE) →
        writeCharLoop E wfuel (fuel + 1) s NS_OK utfBytes c
          = some (NS_ERROR, afterConvert s ((utfBytes.getD []).take c.toNat)
              (E.Tcl_UtfToExternal s.world ((utfBytes.getD []).take c.toNat) IOBUFSZ)))
      ∧ (∀ st s2,
        ¬ ((E.Tcl_UtfToExternal s.world ((utfBytes.getD []).take c.toNat) IOBUFSZ).1.1 ≠ TCL_OK
          ∧ (E.Tcl_UtfToExternal s.world ((utfBytes.getD []).take c.toNat) IOBUFSZ).1.1
              ≠ TCL_CONVERT_NOSPACE) →
        Ns_WriteConn E wfuel
            (afterConvert s ((utfBytes.getD []).take c.toNat)
              (E.Tcl_UtfToExternal s.world ((utfBytes.getD []).take c.toNat) IOBUFSZ))
            (some (E.Tcl_UtfToExternal s.world ((utfBytes.getD []).take c.toNat) IOBUFSZ).1.2.2)
            (E.Tcl_UtfToExternal s.world ((utfBytes.getD []).take c.toNat) IOBUFSZ).1.2.2.length
          = some (st, s2) →
        (st ≠ NS_OK →
            writeCharLoop E wfuel (fuel + 1) s NS_OK utfBytes c = some (NS_ERROR, s2))
          ∧ (st = NS_OK →
            writeCharLoop E wfuel (fuel + 1) s NS_OK utfBytes c
              = writeCharLoop E wfuel fuel s2 NS_OK
                  (utfBytes.map (fun m => m.drop
                    (E.Tcl_UtfToExternal s.world ((utfBytes.getD []).take c.toNat)
                      IOBUFSZ).1.2.1))
                  (c - ((E.Tcl_UtfToExternal s.world ((utfBytes.getD []).take c.toNat)
                      IOBUFSZ).1.2.1 : Int)))) := by
  constructor
  · intro hbad
    rw [writeCharLoop, if_pos ⟨hc, rfl⟩]
    simp only [if_pos hbad]
    rfl
  · intro st s2 hok hw
    have hw' : Ns_WriteConn E wfuel
        ({ s with
            world := (E.Tcl_UtfToExternal s.world ((utfBytes.getD []).take c.toNat) IOBUFSZ).2,
            trace := s.trace ++ [Event.utfToExternal ((utfBytes.getD []).take c.toNat)
              (E.Tcl_UtfToExternal s.world ((utfBytes.getD []).take c.toNat) IOBUFSZ).1.1
              (E.Tcl_UtfToExternal s.world ((utfBytes.getD []).take c.toNat) IOBUFSZ).1.2.1
              (E.Tcl_UtfToExternal s.world ((utfBytes.getD []).take c.toNat) IOBUFSZ).1.2.2] }
          : Sys ω)
        (some (E.Tcl_UtfToExternal s.world ((utfBytes.getD []).take c.toNat) IOBUFSZ).1.2.2)
        (E.Tcl_UtfToExternal s.world ((utfBytes.getD []).take c.toNat) IOBUFSZ).1.2.2.length
        = some (st, s2) := hw
    constructor
    · intro hst
      rw [writeCharLoop, if_pos ⟨hc, rfl⟩]
      simp only [if_neg hok, hw']
      rcases Ns_WriteConn_status E wfuel _ s2 _ _ st hw with h | h
      · exact absurd h hst
      · rw [h]
        exact writeCharLoop_stop E wfuel fuel s2 NS_ERROR _ _ (fun h => by cases h.2)
    · intro hst
      rw [writeCharLoop, if_pos ⟨hc, rfl⟩]
      simp only [if_neg hok, hw']
      rw [hst]

/-- Every run of the loop of `Ns_WriteCharConn` that ends appends converter
calls and sends only; a converter call that failed hard is the last event,
with the result `NS_ERROR`. -/
theorem writeCharLoop_shape {ω : Type} (E : Ext ω) (wfuel : Nat) :
    ∀ (fuel : Nat) (s s1 : Sys ω) (status : Int) (utfBytes : Option (List Nat))
      (utfCount r : Int),
    writeCharLoop E wfuel fuel s status utfBytes utfCount = some (r, s1) →
    ∃ post, s1.trace = s.trace ++ post
      ∧ (∀ e ∈ post, e.isSend = true ∨ e.isConvert = true)
      ∧ (post = [] → r = status)
      ∧ (status = NS_OK → (r = NS_OK ∨ r = NS_ERROR) ∧ endsConversion r post) := by
  intro fuel
  induction fuel with
  | zero =>
    intro s s1 status utfBytes utfCount r h
    simp only [writeCharLoop] at h
    split at h
    · cases h
    · cases h
      exact ⟨[], by simp, by simp, fun _ => rfl, fun hs => ⟨Or.inl hs, trivial⟩⟩
  | succ fuel ih =>
    intro s s1 status utfBytes utfCount r h
    by_cases hcond : 0 < utfCount ∧ status = NS_OK
    swap
    · rw [writeCharLoop_stop E wfuel _ s status _ _ hcond] at h
      cases h
      exact ⟨[], by simp, by simp, fun _ => rfl, fun hs => ⟨Or.inl hs, trivial⟩⟩
    · obtain ⟨hc, hs⟩ := hcond
      subst hs
      have hround := writeCharLoop_round E wfuel fuel s utfBytes utfCount hc
      by_cases hbad : (E.Tcl_UtfToExternal s.world
            ((utfBytes.getD []).take utfCount.toNat) IOBUFSZ).1.1 ≠ TCL_OK
          ∧ (E.Tcl_UtfToExternal s.world
            ((utfBytes.getD []).take utfCount.toNat) IOBUFSZ).1.1 ≠ TCL_CONVERT_NOSPACE
      · rw [hround.1 hbad] at h
        cases h
        refine ⟨[Event.utfToExternal _ _ _ _], rfl, by simp [Event.isConvert], by simp,
          fun _ => ⟨Or.inr rfl, ?_⟩⟩
        rw [endsConversion_single]
        exact fun _ => rfl
      · have hgood : (Event.utfToExternal ((utfBytes.getD []).take utfCount.toNat)
            (E.Tcl_UtfToExternal s.world
              ((utfBytes.getD []).take utfCount.toNat) IOBUFSZ).1.1
            (E.Tcl_UtfToExternal s.world
              ((utfBytes.getD []).take utfCount.toNat) IOBUFSZ).1.2.1
            (E.Tcl_UtfToExternal s.world
              ((utfBytes.getD []).take utfCount.toNat) IOBUFSZ).1.2.2).isConvertError
            = false := by
          simp only [Event.isConvertError, decide_eq_false_iff_not]
          exact hbad
        cases hwr : Ns_WriteConn E wfuel
            (afterConvert s ((utfBytes.getD []).take utfCount.toNat)
              (E.Tcl_UtfToExternal s.world ((utfBytes.getD []).take utfCount.toNat) IOBUFSZ))
            (some (E.Tcl_UtfToExternal s.world
              ((utfBytes.getD []).take utfCount.toNat) IOBUFSZ).1.2.2)
            (E.Tcl_UtfToExternal s.world
              ((utfBytes.getD []).take utfCount.toNat) IOBUFSZ).1.2.2.length with
        | none =>
          rw [writeCharLoop, if_pos ⟨hc, rfl⟩] at h
          simp only [if_neg hbad] at h
          have hwr' := hwr
          unfold afterConvert at hwr'
          rw [hwr'] at h
          cases h
        | some res =>
          obtain ⟨st, s2⟩ := res
          obtain ⟨sends, htr2, hsends⟩ := Ns_WriteConn_events E wfuel _ s2 _ _ st hwr
          obtain ⟨ev, hisconv, hp, htr2'⟩ : ∃ ev : Event, ev.isConvert = true
              ∧ ev.isConvertError = false ∧ s2.trace = s.trace ++ (ev :: sends) :=
            ⟨Event.utfToExternal ((utfBytes.getD []).take utfCount.toNat)
                (E.Tcl_UtfToExternal s.world
                  ((utfBytes.getD []).take utfCount.toNat) IOBUFSZ).1.1
                (E.Tcl_UtfToExternal s.world
                  ((utfBytes.getD []).take utfCount.toNat) IOBUFSZ).1.2.1
                (E.Tcl_UtfToExternal s.world
                  ((utfBytes.getD []).take utfCount.toNat) IOBUFSZ).1.2.2,
              rfl, hgood, by rw [htr2]; simp [afterConvert]⟩
          have hpre : ∀ e ∈ ev :: sends, e.isConvertError = false := by
            intro e he
            rcases List.mem_cons.mp he with rfl | he
            · exact hp
            · exact send_not_convertError e (hsends e he)
          have hkind : ∀ e ∈ ev :: sends, e.isSend = true ∨ e.isConvert = true := by
            intro e he
            rcases List.mem_cons.mp he with rfl | he
            · exact Or.inr hisconv
            · exact Or.inl (hsends e he)
          have hstep := hround.2 st s2 hbad hwr
          by_cases hst : st = NS_OK
          · rw [hstep.2 hst] at h
            obtain ⟨post, htr, hev, _, hshape⟩ := ih _ _ _ _ _ _ h
            refine ⟨(ev :: sends) ++ post, ?_, ?_, by simp, fun _ => ?_⟩
            · rw [htr, htr2', List.append_assoc]
            · intro e he
              rcases List.mem_append.mp he with he | he
              · exact hkind e he
              · exact hev e he
            · exact ⟨(hshape rfl).1, endsConversion_plain_append r _ _ hpre (hshape rfl).2⟩
          · rw [hstep.1 hst] at h
            cases h
            refine ⟨(ev :: sends) ++ [], ?_, ?_, by simp, fun _ => ?_⟩
            · rw [htr2', List.append_nil]
            · intro e he
              rw [List.append_nil] at he
              exact hkind e he
            · exact ⟨Or.inr rfl, endsConversion_plain_append _ _ _ hpre trivial⟩

/-- The loop of `Ns_WriteCharConn` ends within `utfCount` rounds when every
write returns and every converter call fails hard or consumes a byte. -/
theorem writeCharLoop_terminates {ω : Type} (E : Ext ω) (wfuel : Nat)
    (hw : ∀ (s : Sys ω) (data : List Nat),
      ∃ r s1, Ns_WriteConn E wfuel s (some data) data.length = some (r, s1))
    (hconv : ∀ w src,
      ((E.Tcl_UtfToExternal w src IOBUFSZ).1.1 ≠ TCL_OK
          ∧ (E.Tcl_UtfToExternal w src IOBUFSZ).1.1 ≠ TCL_CONVERT_NOSPACE)
        ∨ 1 ≤ (E.Tcl_UtfToExternal w src IOBUFSZ).1.2.1) :
    ∀ (fuel : Nat) (s : Sys ω) (status : Int) (utfBytes : Option (List Nat))
      (utfCount : Int), utfCount.toNat ≤ fuel →
    ∃ r s1, writeCharLoop E wfuel fuel s status utfBytes utfCount = some (r, s1) := by
  intro fuel
  induction fuel with
  | zero =>
    intro s status utfBytes utfCount hfuel
    exact ⟨status, s, writeCharLoop_stop E wfuel 0 s status _ _ (fun h => by omega)⟩
  | succ fuel ih =>
    intro s status utfBytes utfCount hfuel
    by_cases hcond : 0 < utfCount ∧ status = NS_OK
    swap
    · exact ⟨status, s, writeCharLoop_stop E wfuel _ s status _ _ hcond⟩
    · obtain ⟨hc, hs⟩ := hcond
      subst hs
      have hround := writeCharLoop_round E wfuel fuel s utfBytes utfCount hc
      by_cases hbad : (E.Tcl_UtfToExternal s.world
            ((utfBytes.getD []).take utfCount.toNat) IOBUFSZ).1.1 ≠ TCL_OK
          ∧ (E.Tcl_UtfToExternal s.world
            ((utfBytes.getD []).take utfCount.toNat) IOBUFSZ).1.1 ≠ TCL_CONVERT_NOSPACE
      · exact ⟨_, _, hround.1 hbad⟩
      · obtain ⟨st, s2, hwr⟩ := hw
          (afterConvert s ((utfBytes.getD []).take utfCount.toNat)
            (E.Tcl_UtfToExternal s.world ((utfBytes.getD []).take utfCount.toNat) IOBUFSZ))
          (E.Tcl_UtfToExternal s.world ((utfBytes.getD []).take utfCount.toNat) IOBUFSZ).1.2.2
        have hstep := hround.2 st s2 hbad hwr
        by_cases hst : st = NS_OK
        · rw [hstep.2 hst]
          have h1 : 1 ≤ (E.Tcl_UtfToExternal s.world
              ((utfBytes.getD []).take utfCount.toNat) IOBUFSZ).1.2.1 := by
            rcases hconv s.world ((utfBytes.getD []).take utfCount.toNat) with h | h
            · exact absurd h hbad
            · exact h
          exact ih s2 NS_OK _ _ (by omega)
        · exact ⟨_, _, hstep.1 hst⟩

/-- C24. (1) Every returning call of `Ns_WriteCharConn` on a connection with
a configured encoding makes converter calls and sends only and returns
`NS_OK` or `NS_ERROR`; a converter call that reported a status other than
`TCL_OK` and `TCL_CONVERT_NOSPACE` can only be the last event of the call
(nothing it produced is written, no converter call follows), and the result
is then `NS_ERROR`.  (2) In every round of the loop (status `NS_OK`, count
`c > 0`, one more round of fuel): if the converter reports such a status,
the loop returns `NS_ERROR` in the state the converter call left; if it
reports `TCL_OK` or `TCL_CONVERT_NOSPACE` and the `Ns_WriteConn` of the
bytes it produced does not return `NS_OK`, the loop returns `NS_ERROR` in
the state the write left, with no further converter call; and if the write
returns `NS_OK` the loop goes on from that state behind the consumed source
bytes.  (3) When every write returns and every converter call fails hard or
consumes a byte, the call returns with fuel for `len` rounds. -/
theorem C24_transcoding_failures {ω : Type} (E : Ext ω) :
    (∀ fuel s buf len r s1, s.conn.encoding = true →
        Ns_WriteCharConn E fuel s buf len = some (r, s1) →
        ∃ post, s1.trace = s.trace ++ post
          ∧ (∀ e ∈ post, e.isSend = true ∨ e.isConvert = true)
          ∧ (r = NS_OK ∨ r = NS_ERROR)
          ∧ endsConversion r post)
      ∧ (∀ wfuel fuel s utfBytes c, 0 < c →
        (((E.Tcl_UtfToExternal s.world ((utfBytes.getD []).take c.toNat) IOBUFSZ).1.1 ≠ TCL_OK
              ∧ (E.Tcl_UtfToExternal s.world ((utfBytes.getD []).take c.toNat) IOBUFSZ).1.1
                  ≠ TCL_CONVERT_NOSPACE) →
            writeCharLoop E wfuel (fuel + 1) s NS_OK utfBytes c
              = some (NS_ERROR, afterConvert s ((utfBytes.getD []).take c.toNat)
                  (E.Tcl_UtfToExternal s.world ((utfBytes.getD []).take c.toNat) IOBUFSZ)))
          ∧ (∀ st s2,
            ¬ ((E.Tcl_UtfToExternal s.world ((utfBytes.getD []).take c.toNat) IOBUFSZ).1.1
                  ≠ TCL_OK
              ∧ (E.Tcl_UtfToExternal s.world ((utfBytes.getD []).take c.toNat) IOBUFSZ).1.1
                  ≠ TCL_CONVERT_NOSPACE) →
            Ns_WriteConn E wfuel
                (afterConvert s ((utfBytes.getD []).take c.toNat)
                  (E.Tcl_UtfToExternal s.world ((utfBytes.getD []).take c.toNat) IOBUFSZ))
                (some (E.Tcl_UtfToExternal s.world
                  ((utfBytes.getD []).take c.toNat) IOBUFSZ).1.2.2)
                (E.Tcl_UtfToExternal s.world
                  ((utfBytes.getD []).take c.toNat) IOBUFSZ).1.2.2.length
              = some (st, s2) →
            (st ≠ NS_OK →
                writeCharLoop E wfuel (fuel + 1) s NS_OK utfBytes c = some (NS_ERROR, s2))
              ∧ (st = NS_OK →
                writeCharLoop E wfuel (fuel + 1) s NS_OK utfBytes c
                  = writeCharLoop E wfuel fuel s2 NS_OK
                      (utfBytes.map (fun m => m.drop
                        (E.Tcl_UtfToExternal s.world ((utfBytes.getD []).take c.toNat)
                          IOBUFSZ).1.2.1))
                      (c - ((E.Tcl_UtfToExternal s.world ((utfBytes.getD []).take c.toNat)
                          IOBUFSZ).1.2.1 : Int)))))
      ∧ (∀ fuel s buf len, s.conn.encoding = true →
        (∀ (s0 : Sys ω) (data : List Nat),
          ∃ r s1, Ns_WriteConn E fuel s0 (some data) data.length = some (r, s1)) →
        (∀ w src,
          ((E.Tcl_UtfToExternal w src IOBUFSZ).1.1 ≠ TCL_OK
              ∧ (E.Tcl_UtfToExternal w src IOBUFSZ).1.1 ≠ TCL_CONVERT_NOSPACE)
            ∨ 1 ≤ (E.Tcl_UtfToExternal w src IOBUFSZ).1.2.1) →
        len ≤ fuel → ∃ r s1, Ns_WriteCharConn E fuel s buf len = some (r, s1)) := by
  refine ⟨?_, fun wfuel fuel s utfBytes c hc => writeCharLoop_round E wfuel fuel s utfBytes c hc,
    ?_⟩
  · intro fuel s buf len r s1 henc h
    have henc' : ¬ (s.conn.encoding = false) := by simp [henc]
    simp only [Ns_WriteCharConn, if_neg henc'] at h
    obtain ⟨post, h1, h2, _, h4⟩ := writeCharLoop_shape E fuel fuel s s1 NS_OK buf _ r h
    exact ⟨post, h1, h2, (h4 rfl).1, (h4 rfl).2⟩
  · intro fuel s buf len henc hw hconv hfuel
    have henc' : ¬ (s.conn.encoding = false) := by simp [henc]
    simp only [Ns_WriteCharConn, if_neg henc']
    exact writeCharLoop_terminates E fuel hw hconv fuel s NS_OK buf _ (by omega)

/-- C24 at a concrete input: the converter copies the first byte and fails
hard on the second; only the first byte reaches the transport. -/
theorem C24_witness :
    ∃ s1 post, Ns_WriteCharConn pickyConverter 3 (encodingSys 0 [] ()) (some [1, 255, 3]) 3
        = some (NS_ERROR, s1)
      ∧ s1.trace = post
      ∧ post = [Event.utfToExternal [1, 255, 3] TCL_CONVERT_NOSPACE 1 [1],
          Event.sockSend [IoVec.mk (some [1]) 1] 1, Event.utfToExternal [255, 3] (-2) 0 [9, 9]]
      ∧ accepted post = [1]
      ∧ endsConversion NS_ERROR post := by
  have h0 : Ns_WriteCharConn pickyConverter 3 (encodingSys 0 [] ()) (some [1, 255, 3]) 3
      = some (NS_ERROR,
          (Ns_WriteCharConn pickyConverter 3 (encodingSys 0 [] ()) (some [1, 255, 3]) 3).get rfl
            |>.2) := rfl
  obtain ⟨post, h1, _, _, h4⟩ := (C24_transcoding_failures pickyConverter).1 3
    (encodingSys 0 [] ()) (some [1, 255, 3]) 3 NS_ERROR _ rfl h0
  have hpost : post = [Event.utfToExternal [1, 255, 3] TCL_CONVERT_NOSPACE 1 [1],
      Event.sockSend [IoVec.mk (some [1]) 1] 1,
      Event.utfToExternal [255, 3] (-2) 0 [9, 9]] := by
    have h5 : ([] : List Event) ++ post = [] ++ [Event.utfToExternal [1, 255, 3]
        TCL_CONVERT_NOSPACE 1 [1], Event.sockSend [IoVec.mk (some [1]) 1] 1,
        Event.utfToExternal [255, 3] (-2) 0 [9, 9]] := h1.symm.trans rfl
    simpa using h5
  subst hpost
  exact ⟨_, _, h0, rfl, rfl, rfl, h4⟩

/-! ## The sorting functions of `lisp.c` -/

theorem Ns_ListNconc_eq {β : Type} (l1 l2 : List β) : Ns_ListNconc l1 l2 = l1 ++ l2 := by
  cases l1 <;> rfl

theorem weightSplit_eq {α W : Type} [LinearOrder W] (axis : W) (l : List (Ns_List α W)) :
    weightSplit axis l
      = (l.filter (fun c => decide (c.weight ≥ axis)),
          l.filter (fun c => !decide (c.weight ≥ axis))) := by
  induction l with
  | nil => rfl
  | cons cur rest ih =>
    simp only [weightSplit, ih]
    by_cases h : cur.weight ≥ axis <;> simp [h]

theorem sortSplit_eq {α W : Type} (sortProc : α → α → Int) (axis : α)
    (l : List (Ns_List α W)) :
    sortSplit sortProc axis l
      = (l.filter (fun c => decide (sortProc c.first axis ≤ 0)),
          l.filter (fun c => !decide (sortProc c.first axis ≤ 0))) := by
  induction l with
  | nil => rfl
  | cons cur rest ih =>
    simp only [sortSplit, ih]
    by_cases h : sortProc cur.first axis ≤ 0 <;> simp [h]

theorem filter_split_perm {β : Type} (p : β → Bool) (l : List β) :
    (l.filter p ++ l.filter (fun c => !p c)).Perm l := by
  induction l with
  | nil => simp
  | cons x t ih =>
    cases hp : p x
    · simp only [List.filter_cons, hp, Bool.false_eq_true, if_false, Bool.not_false, if_true]
      exact (List.perm_middle).trans (ih.cons x)
    · simp only [List.filter_cons, hp, if_true, Bool.not_true, Bool.false_eq_true, if_false,
        List.cons_append]
      exact ih.cons x

/-- The sorted parts of a quicksort round, put together around the pivot. -/
theorem quick_round {β : Type} (R : β → β → Prop) (p : β → Bool) (w : β) (t sm sn : List β)
    (hm : sm.Perm (t.filter p)) (hn : sn.Perm (t.filter (fun c => !p c)))
    (hsm : sm.Pairwise R) (hsn : sn.Pairwise R)
    (hmw : ∀ a ∈ t, p a = true → R a w) (hwn : ∀ b ∈ t, p b = false → R w b)
    (hmn : ∀ a ∈ t, ∀ b ∈ t, p a = true → p b = false → R a b) :
    (sm ++ ([w] ++ sn)).Perm (w :: t) ∧ (sm ++ ([w] ++ sn)).Pairwise R := by
  have hmem_m : ∀ a ∈ sm, a ∈ t ∧ p a = true := fun a ha => by
    have := (hm.mem_iff).1 ha
    simpa [List.mem_filter] using this
  have hmem_n : ∀ b ∈ sn, b ∈ t ∧ p b = false := fun b hb => by
    have := (hn.mem_iff).1 hb
    simpa [List.mem_filter] using this
  constructor
  · have h1 : (sm ++ ([w] ++ sn)).Perm (w :: (sm ++ sn)) := List.perm_middle
    exact h1.trans (((hm.append hn).trans (filter_split_perm p t)).cons w)
  · rw [List.pairwise_append]
    refine ⟨hsm, ?_, ?_⟩
    · rw [List.singleton_append, List.pairwise_cons]
      exact ⟨fun b hb => hwn b (hmem_n b hb).1 (hmem_n b hb).2, hsn⟩
    · intro a ha b hb
      rw [List.singleton_append, List.mem_cons] at hb
      rcases hb with rfl | hb
      · exact hmw a (hmem_m a ha).1 (hmem_m a ha).2
      · exact hmn a (hmem_m a ha).1 b (hmem_n b hb).1 (hmem_m a ha).2 (hmem_n b hb).2

/-- With fuel for the length of the list, `Ns_ListWeightSort` returns a
permutation of the list ordered by non-increasing weight. -/
theorem Ns_ListWeightSort_spec {α W : Type} [LinearOrder W] : ∀ (fuel : Nat)
    (l : List (Ns_List α W)), l.length ≤ fuel →
    ∃ r, Ns_ListWeightSort fuel l = some r ∧ r.Perm l
      ∧ r.Pairwise (fun x y => x.weight ≥ y.weight) := by
  intro fuel
  induction fuel with
  | zero =>
    intro l hl
    have : l = [] := List.length_eq_zero.mp (by omega)
    subst this
    exact ⟨[], rfl, List.Perm.refl _, List.Pairwise.nil⟩
  | succ fuel ih =>
    intro l hl
    match l, hl with
    | [], _ => exact ⟨[], rfl, List.Perm.refl _, List.Pairwise.nil⟩
    | [w], _ => exact ⟨[w], rfl, List.Perm.refl _, List.pairwise_singleton _ _⟩
    | w :: c :: rest, hl =>
      simp only [List.length_cons] at hl
      obtain ⟨sn, hsn, hpn, hon⟩ := ih (weightSplit w.weight (c :: rest)).2 (by
        rw [weightSplit_eq]
        exact le_trans (List.length_filter_le _ _) (by simp only [List.length_cons]; omega))
      obtain ⟨sm, hsm, hpm, hom⟩ := ih (weightSplit w.weight (c :: rest)).1 (by
        rw [weightSplit_eq]
        exact le_trans (List.length_filter_le _ _) (by simp only [List.length_cons]; omega))
      rw [weightSplit_eq] at hpn hpm
      have hround := quick_round (fun x y : Ns_List α W => x.weight ≥ y.weight)
        (fun c => decide (c.weight ≥ w.weight)) w (c :: rest) sm sn hpm hpn hom hon
        (fun a _ ha => by simpa using ha)
        (fun b _ hb => by
          have : ¬ (b.weight ≥ w.weight) := by simpa using hb
          exact le_of_lt (not_le.mp this))
        (fun a _ b _ ha hb => by
          have h1 : a.weight ≥ w.weight := by simpa using ha
          have h2 : ¬ (b.weight ≥ w.weight) := by simpa using hb
          exact le_trans (le_of_lt (not_le.mp h2)) h1)
      refine ⟨sm ++ ([w] ++ sn), ?_, hround.1, hround.2⟩
      rw [Ns_ListWeightSort, hsn, hsm]
      simp only [Ns_ListNconc_eq]

/-- With fuel for the length of the list and a callback that is a total
preorder, `Ns_ListSort` returns a permutation of the list in ascending order
by the callback. -/
theorem Ns_ListSort_spec {α W : Type} (sortProc : α → α → Int)
    (htot : ∀ x y, sortProc x y ≤ 0 ∨ sortProc y x ≤ 0)
    (htrans : ∀ x y z, sortProc x y ≤ 0 → sortProc y z ≤ 0 → sortProc x z ≤ 0) :
    ∀ (fuel : Nat) (l : List (Ns_List α W)), l.length ≤ fuel →
    ∃ r, Ns_ListSort sortProc fuel l = some r ∧ r.Perm l
      ∧ r.Pairwise (fun x y => sortProc x.first y.first ≤ 0) := by
  intro fuel
  induction fuel with
  | zero =>
    intro l hl
    have : l = [] := List.length_eq_zero.mp (by omega)
    subst this
    exact ⟨[], rfl, List.Perm.refl _, List.Pairwise.nil⟩
  | succ fuel ih =>
    intro l hl
    match l, hl with
    | [], _ => exact ⟨[], rfl, List.Perm.refl _, List.Pairwise.nil⟩
    | [w], _ => exact ⟨[w], rfl, List.Perm.refl _, List.pairwise_singleton _ _⟩
    | w :: c :: rest, hl =>
      simp only [List.length_cons] at hl
      obtain ⟨sn, hsn, hpn, hon⟩ := ih (sortSplit sortProc w.first (c :: rest)).2 (by
        rw [sortSplit_eq]
        exact le_trans (List.length_filter_le _ _) (by simp only [List.length_cons]; omega))
      obtain ⟨sm, hsm, hpm, hom⟩ := ih (sortSplit sortProc w.first (c :: rest)).1 (by
        rw [sortSplit_eq]
        exact le_trans (List.length_filter_le _ _) (by simp only [List.length_cons]; omega))
      rw [sortSplit_eq] at hpn hpm
      have hround := quick_round (fun x y : Ns_List α W => sortProc x.first y.first ≤ 0)
        (fun c => decide (sortProc c.first w.first ≤ 0)) w (c :: rest) sm sn hpm hpn hom hon
        (fun a _ ha => by simpa using ha)
        (fun b _ hb => by
          have : ¬ (sortProc b.first w.first ≤ 0) := by simpa using hb
          rcases htot w.first b.first with h | h
          · exact h
          · exact absurd h this)
        (fun a _ b _ ha hb => by
          have h1 : sortProc a.first w.first ≤ 0 := by simpa using ha
          have h2 : ¬ (sortProc b.first w.first ≤ 0) := by simpa using hb
          rcases htot w.first b.first with h | h
          · exact htrans _ _ _ h1 h
          · exact absurd h h2)
      refine ⟨sm ++ ([w] ++ sn), ?_, hround.1, hround.2⟩
      rw [Ns_ListSort, hsn, hsm]
      simp only [Ns_ListNconc_eq]

/-- C31. For every list and every comparison callback that is a total
preorder (any two elements are comparable, and the comparison is
transitive), `Ns_ListSort` returns, with fuel for the length of the list, a
permutation of the input nodes in which every node `x` placed before a node
`y` satisfies `sortProc(x, y) <= 0`. -/
theorem C31_sort_is_ordered_permutation {α W : Type} (sortProc : α → α → Int)
    (l : List (Ns_List α W)) (fuel : Nat)
    (htot : ∀ x y, sortProc x y ≤ 0 ∨ sortProc y x ≤ 0)
    (htrans : ∀ x y z, sortProc x y ≤ 0 → sortProc y z ≤ 0 → sortProc x z ≤ 0)
    (hfuel : l.length ≤ fuel) :
    ∃ r, Ns_ListSort sortProc fuel l = some r ∧ r.Perm l
      ∧ r.Pairwise (fun x y => sortProc x.first y.first ≤ 0) :=
  Ns_ListSort_spec sortProc htot htrans fuel l hfuel

theorem compareInt_le (x y : Int) : compareInt x y ≤ 0 ↔ x ≤ y := by
  unfold compareInt
  split_ifs <;> omega

/-- C31 at a concrete input: the integers 3, 1, 2, 1 sorted by the sign of
the difference. -/
theorem C31_witness :
    ∃ r, Ns_ListSort compareInt 4 [weighted 3, weighted 1, weighted 2, weighted 1] = some r
      ∧ r = [weighted 1, weighted 1, weighted 2, weighted 3]
      ∧ r.Perm [weighted 3, weighted 1, weighted 2, weighted 1]
      ∧ r.Pairwise (fun x y => compareInt x.first y.first ≤ 0) := by
  obtain ⟨r, h1, h2, h3⟩ := C31_sort_is_ordered_permutation compareInt
    [weighted 3, weighted 1, weighted 2, weighted 1] 4
    (fun x y => by simp only [compareInt_le]; omega)
    (fun x y z => by simp only [compareInt_le]; omega) (by decide)
  have h0 : Ns_ListSort compareInt 4 [weighted 3, weighted 1, weighted 2, weighted 1]
      = some [weighted 1, weighted 1, weighted 2, weighted 3] := by decide
  rw [h0] at h1
  cases h1
  exact ⟨_, h0, rfl, h2, h3⟩

/-- C32: on the list of the weights 1, 2 the pivot is 1 and
`Ns_ListWeightSort` puts the larger element 2 before it and nothing after
it: the result is 2, 1, which is not ordered by non-decreasing weight,
although the comments of the function call the list that goes before the
pivot the smaller elements and the list that goes after it the larger
ones. -/
theorem C32_larger_weight_sorted_first :
    Ns_ListWeightSort 2 [weighted 1, weighted 2] = some [weighted 2, weighted 1]
      ∧ weightSplit (weighted 1).weight [weighted 2] = ([weighted 2], [])
      ∧ ¬ List.Pairwise (fun x y : Ns_List Int Int => x.weight ≤ y.weight)
          [weighted 2, weighted 1] :=
  ⟨by decide, by decide, by decide⟩

/-- The function `Ns_ListWeightSort` puts the elements whose weight is not
smaller than that of the pivot (the first node) before the pivot and the
elements of smaller weight after it: with fuel for the length of the list
the result is a sorted arrangement of the former, the pivot, and a sorted
arrangement of the latter, so the result is ordered by non-increasing
weight. -/
theorem Ns_ListWeightSort_pivot {α W : Type} [LinearOrder W]
    (w : Ns_List α W) (rest : List (Ns_List α W)) (fuel : Nat)
    (hfuel : (w :: rest).length ≤ fuel) :
    ∃ before after, Ns_ListWeightSort fuel (w :: rest) = some (before ++ w :: after)
      ∧ before.Perm (rest.filter (fun c => decide (c.weight ≥ w.weight)))
      ∧ after.Perm (rest.filter (fun c => decide (c.weight < w.weight)))
      ∧ (∀ b ∈ before, b.weight ≥ w.weight) ∧ (∀ a ∈ after, a.weight < w.weight)
      ∧ before.Pairwise (fun x y => x.weight ≥ y.weight)
      ∧ after.Pairwise (fun x y => x.weight ≥ y.weight)
      ∧ (before ++ w :: after).Pairwise (fun x y => x.weight ≥ y.weight) := by
  have hnot : (fun c : Ns_List α W => !decide (c.weight ≥ w.weight))
      = (fun c => decide (c.weight < w.weight)) := by
    funext c
    by_cases h : c.weight ≥ w.weight
    · simp [h]
    · simp only [h, decide_False, Bool.not_false]
      exact (decide_eq_true (not_le.mp h)).symm
  obtain ⟨r, hr, _, hsorted⟩ := Ns_ListWeightSort_spec fuel (w :: rest) hfuel
  match rest, fuel, hfuel, hr with
  | [], _, _, hr =>
    refine ⟨[], [], ?_, by simp, by simp, by simp, by simp, List.Pairwise.nil,
      List.Pairwise.nil, by simp⟩
    cases ‹Nat› <;> rfl
  | c :: rest, 0, hfuel, _ => simp at hfuel
  | c :: rest, fuel + 1, hfuel, hr =>
    simp only [List.length_cons] at hfuel
    obtain ⟨sn, hsn, hpn, hon⟩ := Ns_ListWeightSort_spec fuel
      (weightSplit w.weight (c :: rest)).2 (by
        rw [weightSplit_eq]
        exact le_trans (List.length_filter_le _ _) (by simp only [List.length_cons]; omega))
    obtain ⟨sm, hsm, hpm, hom⟩ := Ns_ListWeightSort_spec fuel
      (weightSplit w.weight (c :: rest)).1 (by
        rw [weightSplit_eq]
        exact le_trans (List.length_filter_le _ _) (by simp only [List.length_cons]; omega))
    have heq : Ns_ListWeightSort (fuel + 1) (w :: c :: rest) = some (sm ++ w :: sn) := by
      rw [Ns_ListWeightSort, hsn, hsm]
      simp only [Ns_ListNconc_eq, List.singleton_append]
    simp only [weightSplit_eq] at hpn hpm
    rw [hnot] at hpn
    rw [heq] at hr
    cases hr
    refine ⟨sm, sn, heq, hpm, hpn, ?_, ?_, hom, hon, hsorted⟩
    · intro b hb
      have h1 := (List.mem_filter.1 ((hpm.mem_iff).1 hb)).2
      simpa using h1
    · intro a ha
      have h1 := (List.mem_filter.1 ((hpn.mem_iff).1 ha)).2
      simpa using h1

/-- C33. For every list whose weights are totally ordered (no NaN),
`Ns_ListWeightSort` returns, with fuel for the length of the list, a
permutation of the input nodes whose weights are in non-increasing order
from head to tail. -/
theorem C33_weight_sort_descending {α W : Type} [LinearOrder W] (l : List (Ns_List α W))
    (fuel : Nat) (hfuel : l.length ≤ fuel) :
    ∃ r, Ns_ListWeightSort fuel l = some r ∧ r.Perm l
      ∧ r.Pairwise (fun x y => x.weight ≥ y.weight)
      ∧ (r.map (fun x => x.weight)).Sorted (fun a b => a ≥ b) := by
  obtain ⟨r, h1, h2, h3⟩ := Ns_ListWeightSort_spec fuel l hfuel
  exact ⟨r, h1, h2, h3, List.pairwise_map.mpr h3⟩

/-- C33 at a concrete input: the weights 2, 3, 1, 2. -/
theorem C33_witness :
    ∃ r, Ns_ListWeightSort 4 [weighted 2, weighted 3, weighted 1, weighted 2] = some r
      ∧ r = [weighted 3, weighted 2, weighted 2, weighted 1]
      ∧ r.Perm [weighted 2, weighted 3, weighted 1, weighted 2]
      ∧ r.Pairwise (fun x y => x.weight ≥ y.weight) := by
  obtain ⟨r, h1, h2, h3, _⟩ := C33_weight_sort_descending
    [weighted 2, weighted 3, weighted 1, weighted 2] 4 (by decide)
  have h0 : Ns_ListWeightSort 4 [weighted 2, weighted 3, weighted 1, weighted 2]
      = some [weighted 3, weighted 2, weighted 2, weighted 1] := by decide
  rw [h0] at h1
  cases h1
  exact ⟨_, h0, rfl, h2, h3⟩

/-! ## `Ns_ListDeleteDuplicates` -/

theorem Ns_ListDeleteWithTest_eq {α W : Type} (elem : α) (equalProc : α → α → Bool)
    (l : List (Ns_List α W)) :
    Ns_ListDeleteWithTest elem equalProc l = l.filter (fun m => !equalProc elem m.first) := by
  induction l with
  | nil => rfl
  | cons m rest ih =>
    simp only [Ns_ListDeleteWithTest, ih, List.filter_cons]
    cases equalProc elem m.first <;> simp

/-- C34. For every list and every equality callback, `Ns_ListDeleteDuplicates`
returns, with fuel for the length of the list, a subsequence of the input
(the relative order is kept) with the same first node, in which no node `x`
placed before a node `y` satisfies `equalProc(x, y)`; and for every node `y`
of the input that is not in the result there is a node `x` in the result
that stands before `y` in the input with `equalProc(x, y)` true (the nodes of
a list being distinct). -/
theorem C34_delete_duplicates {α W : Type} (equalProc : α → α → Bool) :
    ∀ (fuel : Nat) (l : List (Ns_List α W)), l.length ≤ fuel →
    ∃ r, Ns_ListDeleteDuplicates equalProc fuel l = some r
      ∧ r.Sublist l
      ∧ r.head? = l.head?
      ∧ r.Pairwise (fun x y => equalProc x.first y.first = false)
      ∧ (∀ y ∈ l, y ∉ r →
          ∃ x ∈ r, equalProc x.first y.first = true ∧ Before x y l) := by
  intro fuel
  induction fuel with
  | zero =>
    intro l hl
    have : l = [] := List.length_eq_zero.mp (by omega)
    subst this
    exact ⟨[], rfl, List.Sublist.refl _, rfl, List.Pairwise.nil, fun y hy => by cases hy⟩
  | succ fuel ih =>
    intro l hl
    match l, hl with
    | [], _ =>
      exact ⟨[], rfl, List.Sublist.refl _, rfl, List.Pairwise.nil, fun y hy => by cases hy⟩
    | x :: t, hl =>
      simp only [List.length_cons] at hl
      have hdel := Ns_ListDeleteWithTest_eq (W := W) x.first equalProc t
      have hsub : (Ns_ListDeleteWithTest x.first equalProc t).Sublist t := by
        rw [hdel]
        exact List.filter_sublist _
      obtain ⟨r, hr, hrsub, _, hpair, hremoved⟩ :=
        ih (Ns_ListDeleteWithTest x.first equalProc t)
          (le_trans hsub.length_le (by omega))
      refine ⟨x :: r, ?_, ?_, rfl, ?_, ?_⟩
      · rw [Ns_ListDeleteDuplicates, hr]
      · exact (hrsub.trans hsub).cons₂ x
      · rw [List.pairwise_cons]
        refine ⟨?_, hpair⟩
        intro y hy
        have hy' := hrsub.subset hy
        rw [hdel, List.mem_filter] at hy'
        simpa using hy'.2
      · intro y hy hnot
        have hyx : y ≠ x := fun h => hnot (h ▸ List.mem_cons_self _ _)
        have hyt : y ∈ t := by
          rcases List.mem_cons.mp hy with h | h
          · exact absurd h hyx
          · exact h
        have hnr : y ∉ r := fun h => hnot (List.mem_cons_of_mem _ h)
        cases heq : equalProc x.first y.first with
        | true =>
          refine ⟨x, List.mem_cons_self _ _, heq, ?_⟩
          exact (List.singleton_sublist.mpr hyt).cons₂ x
        | false =>
          have hyd : y ∈ Ns_ListDeleteWithTest x.first equalProc t := by
            rw [hdel, List.mem_filter]
            exact ⟨hyt, by simp [heq]⟩
          obtain ⟨x1, hx1, he1, hb1⟩ := hremoved y hyd hnr
          exact ⟨x1, List.mem_cons_of_mem _ hx1, he1,
            (List.Sublist.trans hb1 hsub).cons x⟩

/-- C34 at a concrete input: the elements 1, 2, 1, 3, 2 with equality as the
test, the nodes told apart by their weights. -/
theorem C34_witness :
    ∃ r, Ns_ListDeleteDuplicates (fun x y : Int => decide (x = y)) 5
        [Ns_List.mk 1 (10 : Int), Ns_List.mk 2 11, Ns_List.mk 1 12, Ns_List.mk 3 13,
          Ns_List.mk 2 14] = some r
      ∧ r = [Ns_List.mk 1 (10 : Int), Ns_List.mk 2 11, Ns_List.mk 3 13]
      ∧ r.Pairwise (fun x y => decide (x.first = y.first) = false) := by
  obtain ⟨r, h1, _, _, h4, _⟩ := C34_delete_duplicates (fun x y : Int => decide (x = y)) 5
    [Ns_List.mk 1 (10 : Int), Ns_List.mk 2 11, Ns_List.mk 1 12, Ns_List.mk 3 13,
      Ns_List.mk 2 14] (by decide)
  have h0 : Ns_ListDeleteDuplicates (fun x y : Int => decide (x = y)) 5
      [Ns_List.mk 1 (10 : Int), Ns_List.mk 2 11, Ns_List.mk 1 12, Ns_List.mk 3 13,
        Ns_List.mk 2 14]
      = some [Ns_List.mk 1 (10 : Int), Ns_List.mk 2 11, Ns_List.mk 3 13] := by decide
  rw [h0] at h1
  cases h1
  exact ⟨_, h0, rfl, h4⟩


/-! ## The mask functions -/

/-- The bits of the number whose top `n` of `w` bits are one: bit `i`, counted
from the least significant one, is set exactly when `w - n ≤ i < w`. -/
theorem topBits_testBit (w n i : Nat) :
    (topBits w n).testBit i = (decide (w - n ≤ i) && decide (i < w)) := by
  unfold topBits
  have h : w - n ≤ w := Nat.sub_le w n
  have h1 : 2 ^ w - 2 ^ (w - n) = 2 ^ (w - n) * (2 ^ (w - (w - n)) - 1) := by
    rw [Nat.mul_sub, ← pow_add, Nat.add_sub_cancel' h, mul_one]
  rw [h1, Nat.testBit_mul_pow_two, Nat.testBit_two_pow_sub_one]
  by_cases hk : w - n ≤ i
  · simp [hk]; omega
  · simp [hk]

/-- The IPv4 branch of `Ns_SockaddrMaskBits` with no bits shifts a 32-bit
number by 32 positions. -/
theorem Ns_SockaddrMaskBits_inet_zero (le : Bool) (mask : Sockaddr)
    (hfam : mask.sa_family = AF_INET) : Ns_SockaddrMaskBits le mask 0 = none := by
  have hne : ¬ mask.sa_family = AF_INET6 := by rw [hfam]; decide
  unfold Ns_SockaddrMaskBits
  rw [if_neg hne, if_pos hfam]
  rfl

/-- The IPv4 branch of `Ns_SockaddrMaskBits` for a positive number of bits:
the address, read in network order, has its top `min nrBits 32` bits set and
the other fields are unchanged. -/
theorem Ns_SockaddrMaskBits_inet (le : Bool) (mask : Sockaddr) (nrBits : Nat)
    (hfam : mask.sa_family = AF_INET) (hpos : 0 < nrBits) :
    ∃ v, Ns_SockaddrMaskBits le mask nrBits = some { mask with s_addr := v } ∧
      v < 2 ^ 32 ∧ ntohl le v = topBits 32 (min nrBits 32) := by
  have hne : ¬ mask.sa_family = AF_INET6 := by rw [hfam]; decide
  obtain ⟨m, hm, hm1, hm2⟩ :
      ∃ m, m = (if nrBits > 32 then 32 else nrBits) ∧ 0 < m ∧ m ≤ 32 := by
    refine ⟨_, rfl, ?_, ?_⟩ <;> split_ifs <;> omega
  have hmin : min nrBits 32 = m := by rw [hm]; split_ifs <;> omega
  unfold Ns_SockaddrMaskBits
  rw [if_neg hne, if_pos hfam]
  simp only []
  rw [← hm, hmin]
  clear hm hmin
  cases le <;> interval_cases m <;> exact ⟨_, rfl, by decide, by decide⟩

/-- C35: for an AF_INET mask and nrBits = 0 the function `Ns_SockaddrMaskBits`
evaluates `(~0u) << (32 - 0)`, a shift of a 32-bit number by 32 positions,
whose behaviour is undefined: on a little-endian as on a big-endian host the
call has no defined result, and so does not give the all-zero mask. -/
theorem C35_zero_bits_shift_undefined :
    Ns_SockaddrMaskBits true (inet 0 0) 0 = none ∧
    Ns_SockaddrMaskBits false (inet 0 0) 0 = none ∧
    shl32 4294967295 (32 - 0) = none :=
  ⟨rfl, rfl, rfl⟩

set_option maxHeartbeats 8000000 in
/-- The IPv6 branch of `Ns_SockaddrMaskBits` for at most 128 bits. -/
theorem Ns_SockaddrMaskBits_inet6_small (le : Bool) (mask : Sockaddr) (m : Nat)
    (hfam : mask.sa_family = AF_INET6) (hm : m ≤ 128) :
    ∃ a, Ns_SockaddrMaskBits le mask m = some { mask with sin6_addr := a } ∧
      (a.w0 < 2 ^ 32 ∧ a.w1 < 2 ^ 32 ∧ a.w2 < 2 ^ 32 ∧ a.w3 < 2 ^ 32) ∧
      be128 le a = topBits 128 m := by
  cases le <;> interval_cases m <;>
    simp [Ns_SockaddrMaskBits, hfam, maskOnesLoop, maskClearLoop, In6Addr.set, shl32, htonl,
      ntohl, be128, bswap32, topBits, Nat.shiftLeft_eq]

/-- The function `Ns_SockaddrMaskBits` takes a number of bits above 128 for
128 on an IPv6 address. -/
theorem Ns_SockaddrMaskBits_inet6_clamp (le : Bool) (mask : Sockaddr) (nrBits : Nat)
    (hfam : mask.sa_family = AF_INET6) :
    Ns_SockaddrMaskBits le mask nrBits = Ns_SockaddrMaskBits le mask (min nrBits 128) := by
  by_cases h : nrBits > 128
  · have hmin : min nrBits 128 = 128 := by omega
    rw [hmin]
    unfold Ns_SockaddrMaskBits
    rw [if_pos hfam, if_pos hfam]
    simp only [if_pos h]
    rfl
  · have hmin : min nrBits 128 = nrBits := by omega
    rw [hmin]

/-- C36: for an AF_INET6 mask and every nrBits, on a little-endian as on a
big-endian host, `Ns_SockaddrMaskBits` returns, changes nothing but the
address, and sets the four address words so that the 128-bit number they
denote in network (big-endian) order is the one whose top
`min nrBits 128` bits are one and whose other bits are zero: bit `i`,
counted from the least significant one, is set exactly when
`128 - min nrBits 128 ≤ i < 128`. -/
theorem C36_inet6_mask_has_top_bits (le : Bool) (mask : Sockaddr) (nrBits : Nat)
    (hfam : mask.sa_family = AF_INET6) :
    ∃ a, Ns_SockaddrMaskBits le mask nrBits = some { mask with sin6_addr := a } ∧
      (a.w0 < 2 ^ 32 ∧ a.w1 < 2 ^ 32 ∧ a.w2 < 2 ^ 32 ∧ a.w3 < 2 ^ 32) ∧
      be128 le a = topBits 128 (min nrBits 128) ∧
      ∀ i, (be128 le a).testBit i =
        (decide (128 - min nrBits 128 ≤ i) && decide (i < 128)) := by
  obtain ⟨a, h1, h2, h3⟩ :=
    Ns_SockaddrMaskBits_inet6_small le mask (min nrBits 128) hfam (Nat.min_le_right _ _)
  refine ⟨a, ?_, h2, h3, ?_⟩
  · rw [Ns_SockaddrMaskBits_inet6_clamp le mask nrBits hfam, h1]
  · intro i
    rw [h3, topBits_testBit]

/-- C36 at a /37 mask on a little-endian host: the first word is all ones,
the second has its top five bits set in network order, the rest is zero. -/
theorem C36_witness :
    (inet6 0 1 2 3 4).sa_family = AF_INET6 ∧
    ∃ a, Ns_SockaddrMaskBits true (inet6 0 1 2 3 4) 37
        = some { inet6 0 1 2 3 4 with sin6_addr := a } ∧
      (a.w0 < 2 ^ 32 ∧ a.w1 < 2 ^ 32 ∧ a.w2 < 2 ^ 32 ∧ a.w3 < 2 ^ 32) ∧
      be128 true a = topBits 128 (min 37 128) ∧
      ∀ i, (be128 true a).testBit i = (decide (128 - min 37 128 ≤ i) && decide (i < 128)) :=
  ⟨rfl, C36_inet6_mask_has_top_bits true (inet6 0 1 2 3 4) 37 rfl⟩

theorem SockMem.store_same (mem : SockMem) (p : Nat) (v : Sockaddr) :
    mem.store p v p = v := by
  simp [SockMem.store]

/-- Moving the cursor by at most the buffered bytes keeps the end of the
span and the terminator behind it. -/
theorem Request.advance_terminated (r : Request) (k : Int) (h : r.terminated)
    (h0 : 0 ≤ k) (hk : k ≤ r.avail) :
    (r.advance k).terminated ∧ keepsSpan r (r.advance k) := by
  obtain ⟨hn, ha, ht⟩ := h
  refine ⟨⟨?_, ?_, ?_⟩, ?_, ?_⟩
  · simp only [Request.advance]; omega
  · simp only [Request.advance]; omega
  · unfold spanTerminated at ht ⊢
    rw [Request.mem_advance r k hn h0]
    have e : (r.advance k).avail.toNat + k.toNat = r.avail.toNat := by
      simp only [Request.advance]; omega
    rw [List.getD_eq_getElem?_getD, List.getElem?_drop, Nat.add_comm, e,
      ← List.getD_eq_getElem?_getD]
    exact ht
  · simp only [Request.advance]; omega
  · simp only [Request.advance]; omega

/-- On a terminated buffer `Ns_ConnReadLine` reports a count between zero
and the number of buffered bytes. -/
theorem Ns_ConnReadLine_within {ω : Type} (s : Sys ω) (ds : List Nat)
    (h : s.conn.reqPtr.terminated) :
    0 ≤ (Ns_ConnReadLine s ds).2.2.1.getD 0
      ∧ (Ns_ConnReadLine s ds).2.2.1.getD 0 ≤ s.conn.reqPtr.avail := by
  obtain ⟨hn, ha, ht⟩ := h
  simp only [Ns_ConnReadLine]
  split
  · exact ⟨le_refl _, ha⟩
  · split
    · exact ⟨le_refl _, ha⟩
    · rename_i eol heol
      split
      · exact ⟨le_refl _, ha⟩
      · simp only [Option.getD_some]
        obtain ⟨line, rest, hspan, hlen, _, _⟩ := (strchr_span_iff _ ht eol).1 heol
        have h1 : s.conn.reqPtr.span.length ≤ s.conn.reqPtr.avail.toNat := by
          unfold Request.span
          exact List.length_take_le _ _
        rw [hspan, List.length_append, List.length_cons, hlen] at h1
        omega

/-- On a terminated buffer `Ns_ConnReadLine` keeps the end of the span and
leaves a terminated buffer. -/
theorem Ns_ConnReadLine_terminated {ω : Type} (s : Sys ω) (ds : List Nat)
    (h : s.conn.reqPtr.terminated) :
    (Ns_ConnReadLine s ds).2.2.2.conn.reqPtr.terminated
      ∧ keepsSpan s.conn.reqPtr (Ns_ConnReadLine s ds).2.2.2.conn.reqPtr := by
  obtain ⟨h0, hk⟩ := Ns_ConnReadLine_within s ds h
  rw [(Ns_ConnReadLine_state s ds).1]
  exact Request.advance_terminated _ _ h h0 hk

/-- The relation `keepsSpan` is transitive. -/
theorem keepsSpan_trans {r r1 r2 : Request} (h1 : keepsSpan r r1) (h2 : keepsSpan r1 r2) :
    keepsSpan r r2 :=
  ⟨h2.1.trans h1.1, h2.2⟩

/-- On a terminated buffer the header loop keeps the end of the span. -/
theorem readHeadersLoop_keepsSpan {ω : Type} (E : Ext ω) : ∀ (fuel : Nat) (s s1 : Sys ω)
    (status nread st n : Int), s.conn.reqPtr.terminated →
    readHeadersLoop E fuel s status nread = some (st, n, s1) →
    keepsSpan s.conn.reqPtr s1.conn.reqPtr := by
  intro fuel
  induction fuel with
  | zero =>
    intro s s1 status nread st n hv h
    simp only [readHeadersLoop] at h
    split at h
    · cases h
    · cases h
      exact ⟨rfl, hv.2.1⟩
  | succ fuel ih =>
    intro s s1 status nread st n hv h
    simp only [readHeadersLoop] at h
    obtain ⟨hv1, hk1⟩ := Ns_ConnReadLine_terminated s [] hv
    split at h
    · split at h
      · split at h
        · exact keepsSpan_trans hk1 (ih _ _ _ _ _ _ hv1 h)
        · split at h
          · cases h
            exact hk1
          · have h2 := fun hv2 => ih _ _ _ _ _ _ hv2 h
            exact keepsSpan_trans hk1 (h2 hv1)
      · exact keepsSpan_trans hk1 (ih _ _ _ _ _ _ hv1 h)
    · cases h
      exact ⟨rfl, hv.2.1⟩

/-- With a sink that accepts at most the bytes offered the copy loop keeps
the end of the span. -/
theorem connCopyLoop_keepsSpan {ω : Type} (E : Ext ω) (chan fp : Bool)
    (hsink : ∀ w data, (sinkWrite E w chan fp data).1 ≤ (data.length : Int)) :
    ∀ (fuel : Nat) (s s1 : Sys ω) (ncopy r : Int), 0 ≤ s.conn.reqPtr.avail →
      ncopy ≤ s.conn.reqPtr.avail → connCopyLoop E chan fp fuel s ncopy = some (r, s1) →
      keepsSpan s.conn.reqPtr s1.conn.reqPtr := by
  intro fuel
  induction fuel with
  | zero =>
    intro s s1 ncopy r ha hn h
    simp only [connCopyLoop] at h
    split at h
    · cases h
    · cases h
      exact ⟨rfl, ha⟩
  | succ fuel ih =>
    intro s s1 ncopy r ha hn h
    simp only [connCopyLoop] at h
    split at h
    · rename_i hpos
      split at h
      · cases h
        exact ⟨rfl, ha⟩
      · rename_i hok
        have hle := hsink s.world (s.conn.reqPtr.mem.take ncopy.toNat)
        have hlen : ((s.conn.reqPtr.mem.take ncopy.toNat).length : Int) ≤ ncopy := by
          have := List.length_take_le ncopy.toNat s.conn.reqPtr.mem
          omega
        have h2 := ih _ _ _ _
          (by simp only [Sys.setReq, Request.advance]; omega)
          (by simp only [Sys.setReq, Request.advance]; omega) h
        refine keepsSpan_trans ⟨?_, ?_⟩ h2
        · simp only [Sys.setReq, Request.advance]; omega
        · simp only [Sys.setReq, Request.advance]; omega
    · cases h
      exact ⟨rfl, ha⟩

/-- C38, the code against the claim: on a buffer that holds `AB` and a
newline behind the two buffered bytes, `Ns_ConnReadLine` and
`Ns_ConnReadHeaders` start from `avail = 2` and leave `avail = -1`; and
`Ns_ConnCopyToDString` with the count `2 ^ 31` starts from `avail = 5` and
leaves `avail = -2147483643`, with `next + avail` no longer 5. -/
theorem C38_counterexample :
    (0 : Int) ≤ (inputSys false [65, 66, 10] 2 100 1000 ()).conn.reqPtr.avail
      ∧ (Ns_ConnReadLine (inputSys false [65, 66, 10] 2 100 1000 ()) []).2.2.2.conn.reqPtr.avail
          = -1
      ∧ ((Ns_ConnReadHeaders acceptAll 2 (inputSys false [65, 66, 10] 2 100 3 ())).map
          (fun r => (r.1, r.2.2.conn.reqPtr.avail))) = some (NS_OK, -1)
      ∧ (Ns_ConnCopyToDString (inputSys false [1, 2, 3, 4, 5] 5 100 100 ())
          2147483648 []).2.2.conn.reqPtr = { content := [1, 2, 3, 4, 5], next := -2147483648,
                                             avail := -2147483643 } := by
  refine ⟨by decide, by decide, by decide, by decide⟩

/-- C38, amended: starting from `0 ≤ avail`, each inbound operation leaves
`next + avail` unchanged and `avail ≥ 0`: `Ns_ConnRead` with a non-negative
count, `ConnCopy` with a sink that accepts at most the bytes offered
(whenever it returns) and `Ns_ConnFlushContent` on every buffer;
`Ns_ConnCopyToDString` with a count below `2 ^ 31` (`avail` being an `int`);
`Ns_ConnReadLine` and `Ns_ConnReadHeaders` (which returns, given
`maxheaders` rounds) on a buffer with `next ≥ 0` that is terminated by a NUL
where the buffered span ends. -/
theorem C38_inbound_operations_keep_span {ω : Type} (E : Ext ω) (s : Sys ω)
    (havail : 0 ≤ s.conn.reqPtr.avail) :
    (∀ toread, 0 ≤ toread → keepsSpan s.conn.reqPtr (Ns_ConnRead s toread).2.2.conn.reqPtr)
    ∧ (0 ≤ s.conn.reqPtr.next → spanTerminated s.conn.reqPtr →
        ∀ ds, keepsSpan s.conn.reqPtr (Ns_ConnReadLine s ds).2.2.2.conn.reqPtr)
    ∧ (0 ≤ s.conn.reqPtr.next → spanTerminated s.conn.reqPtr →
        ∀ fuel, s.conn.maxheaders.toNat ≤ fuel →
          ∃ st n s1, Ns_ConnReadHeaders E fuel s = some (st, n, s1)
            ∧ keepsSpan s.conn.reqPtr s1.conn.reqPtr)
    ∧ (s.conn.reqPtr.avail < 2147483648 → ∀ tocopy ds, tocopy < 2147483648 →
        keepsSpan s.conn.reqPtr (Ns_ConnCopyToDString s tocopy ds).2.2.conn.reqPtr)
    ∧ (∀ chan fp, (∀ w data, (sinkWrite E w chan fp data).1 ≤ (data.length : Int)) →
        ∀ fuel tocopy st s1, ConnCopy E fuel s tocopy chan fp = some (st, s1) →
          keepsSpan s.conn.reqPtr s1.conn.reqPtr)
    ∧ keepsSpan s.conn.reqPtr (Ns_ConnFlushContent s).2.conn.reqPtr := by
  refine ⟨?_, ?_, ?_, ?_, ?_, ?_⟩
  · intro toread h0
    simp only [Ns_ConnRead]
    split
    · exact ⟨rfl, havail⟩
    · constructor
      · simp only [Sys.setReq, Request.advance]; omega
      · simp only [Sys.setReq, Request.advance]; split_ifs <;> omega
  · intro hn ht ds
    exact (Ns_ConnReadLine_terminated s ds ⟨hn, havail, ht⟩).2
  · intro hn ht fuel hfuel
    obtain ⟨st, n, s1, h⟩ := readHeadersLoop_terminates E fuel s NS_OK 0 (by simpa using hfuel)
    exact ⟨st, n, s1, h, readHeadersLoop_keepsSpan E fuel s s1 NS_OK 0 st n ⟨hn, havail, ht⟩ h⟩
  · intro hint tocopy ds htc
    simp only [Ns_ConnCopyToDString, intOfSize_small tocopy htc]
    split
    · exact ⟨rfl, havail⟩
    · rename_i hc
      have hw : wrapInt (s.conn.reqPtr.avail - (tocopy : Int))
          = s.conn.reqPtr.avail - (tocopy : Int) := by
        unfold wrapInt
        omega
      constructor
      · simp only [Sys.setReq, hw]; omega
      · simp only [Sys.setReq, hw]; omega
  · intro chan fp hsink fuel tocopy st s1 h
    simp only [ConnCopy] at h
    split at h
    · cases h
      exact ⟨rfl, havail⟩
    · rename_i hc
      exact connCopyLoop_keepsSpan E chan fp hsink fuel s s1 _ st havail (by omega) h
  · simp only [Ns_ConnFlushContent]
    split
    · exact ⟨rfl, havail⟩
    · constructor
      · simp only [Sys.setReq]; omega
      · simp only [Sys.setReq]; omega

/-- C38 on the buffered header block `A: b\r\n\r\n`, followed by a NUL: a
read of three bytes, a line read, the header read, the two copies of five
bytes and the flush each keep `next + avail = 8` and `avail ≥ 0`. -/
theorem C38_witness :
    (0 : Int) ≤ (inputSys false (sampleHeaders ++ [0]) 8 100 1000 ()).conn.reqPtr.avail
    ∧ keepsSpan (inputSys false (sampleHeaders ++ [0]) 8 100 1000 ()).conn.reqPtr
        (Ns_ConnRead (inputSys false (sampleHeaders ++ [0]) 8 100 1000 ()) 3).2.2.conn.reqPtr
    ∧ keepsSpan (inputSys false (sampleHeaders ++ [0]) 8 100 1000 ()).conn.reqPtr
        (Ns_ConnReadLine (inputSys false (sampleHeaders ++ [0]) 8 100 1000 ()) []).2.2.2.conn.reqPtr
    ∧ (∃ st n s1,
        Ns_ConnReadHeaders strictParser 1000 (inputSys false (sampleHeaders ++ [0]) 8 100 1000 ())
            = some (st, n, s1)
          ∧ keepsSpan (inputSys false (sampleHeaders ++ [0]) 8 100 1000 ()).conn.reqPtr
              s1.conn.reqPtr)
    ∧ keepsSpan (inputSys false (sampleHeaders ++ [0]) 8 100 1000 ()).conn.reqPtr
        (Ns_ConnCopyToDString (inputSys false (sampleHeaders ++ [0]) 8 100 1000 ()) 5
          []).2.2.conn.reqPtr
    ∧ (∃ st s1,
        ConnCopy strictParser 5 (inputSys false (sampleHeaders ++ [0]) 8 100 1000 ()) 5
            false false = some (st, s1)
          ∧ keepsSpan (inputSys false (sampleHeaders ++ [0]) 8 100 1000 ()).conn.reqPtr
              s1.conn.reqPtr)
    ∧ keepsSpan (inputSys false (sampleHeaders ++ [0]) 8 100 1000 ()).conn.reqPtr
        (Ns_ConnFlushContent (inputSys false (sampleHeaders ++ [0]) 8 100 1000 ())).2.conn.reqPtr := by
  have h := C38_inbound_operations_keep_span strictParser
    (inputSys false (sampleHeaders ++ [0]) 8 100 1000 ()) (by decide)
  have hs : (ConnCopy strictParser 5 (inputSys false (sampleHeaders ++ [0]) 8 100 1000 ()) 5
      false false).isSome = true := by decide
  obtain ⟨⟨st, s1⟩, he⟩ := Option.isSome_iff_exists.1 hs
  exact ⟨by decide, h.1 3 (by decide), h.2.1 (by decide) (by rfl) [],
    h.2.2.1 (by decide) (by rfl) 1000 (by decide), h.2.2.2.1 (by decide) 5 [] (by decide),
    ⟨st, s1, he, h.2.2.2.2.1 false false (fun _ data => le_refl (data.length : Int)) 5 5
      st s1 he⟩,
    h.2.2.2.2.2⟩

/-! ## Transcoded writes in chunked mode -/

theorem writtenPieces_append (a b : List Event) :
    writtenPieces (a ++ b) = writtenPieces a ++ writtenPieces b := by
  induction a with
  | nil => rfl
  | cons e a ih =>
    cases e
    all_goals first
      | exact ih
      | (simp only [List.cons_append, writtenPieces]; split <;> simp [ih])

theorem writtenPieces_sends (a : List Event) (ha : ∀ e ∈ a, e.isSend = true) :
    writtenPieces a = [] := by
  induction a with
  | nil => rfl
  | cons e a ih =>
    have he := ha e (List.mem_cons_self _ _)
    have := ih (fun e h => ha e (List.mem_cons_of_mem _ h))
    cases e <;> simp_all [Event.isSend, writtenPieces]

/-- With a converter that produces at least one byte per call, the loop of
`Ns_WriteCharConn` on a count of readable bytes writes no empty payload and
leaves the flags as they are. -/
theorem writeCharLoop_keeps_flags {ω : Type} (E : Ext ω) (hprod : ConverterProduces E)
    (wfuel : Nat) : ∀ (fuel : Nat) (s s1 : Sys ω) (status : Int)
    (utfBytes : Option (List Nat)) (utfCount : Int) (r : Int),
    utfCount ≤ ((utfBytes.getD []).length : Int) →
    writeCharLoop E wfuel fuel s status utfBytes utfCount = some (r, s1) →
    s1.conn.flags = s.conn.flags
      ∧ ∃ evs, s1.trace = s.trace ++ evs ∧ [] ∉ writtenPieces evs := by
  intro fuel
  induction fuel with
  | zero =>
    intro s s1 status utfBytes utfCount r _ h
    simp only [writeCharLoop] at h
    split at h
    · cases h
    · cases h
      exact ⟨rfl, [], by simp, by simp [writtenPieces]⟩
  | succ fuel ih =>
    intro s s1 status utfBytes utfCount r hbuf h
    simp only [writeCharLoop] at h
    split at h
    · rename_i hcond
      split at h
      · rename_i hbad
        cases h
        refine ⟨rfl, [Event.utfToExternal _ _ _ _], rfl, ?_⟩
        have hno : ¬ ((E.Tcl_UtfToExternal s.world
              ((utfBytes.getD []).take utfCount.toNat) IOBUFSZ).1.1 = TCL_OK
            ∨ (E.Tcl_UtfToExternal s.world
              ((utfBytes.getD []).take utfCount.toNat) IOBUFSZ).1.1 = TCL_CONVERT_NOSPACE) :=
          fun hor => hor.elim hbad.1 hbad.2
        simp only [writtenPieces, if_neg hno]
        simp
      · rename_i hok
        split at h
        · cases h
        · rename_i st s2 hw
          have hstat : (E.Tcl_UtfToExternal s.world
                ((utfBytes.getD []).take utfCount.toNat) IOBUFSZ).1.1 = TCL_OK
              ∨ (E.Tcl_UtfToExternal s.world
                ((utfBytes.getD []).take utfCount.toNat) IOBUFSZ).1.1
                  = TCL_CONVERT_NOSPACE := by
            by_contra hno
            exact hok ⟨fun h1 => hno (Or.inl h1), fun h2 => hno (Or.inr h2)⟩
          have hsrc : (utfBytes.getD []).take utfCount.toNat ≠ [] := by
            intro h0
            have h1 := congrArg List.length h0
            rw [List.length_take, List.length_nil] at h1
            omega
          have hne := hprod s.world ((utfBytes.getD []).take utfCount.toNat) hsrc hstat
          have hlen : (E.Tcl_UtfToExternal s.world
              ((utfBytes.getD []).take utfCount.toNat) IOBUFSZ).1.2.2.length ≠ 0 :=
            fun h0 => hne (List.length_eq_zero.1 h0)
          have hconn := Ns_WriteConn_conn E wfuel _ s2 _ _ st hw
          obtain ⟨sends, htr, hsends⟩ := Ns_WriteConn_events E wfuel _ s2 _ _ st hw
          have hbuf2 : utfCount - ((E.Tcl_UtfToExternal s.world
                ((utfBytes.getD []).take utfCount.toNat) IOBUFSZ).1.2.1 : Int)
              ≤ (((utfBytes.map (fun m => m.drop (E.Tcl_UtfToExternal s.world
                ((utfBytes.getD []).take utfCount.toNat) IOBUFSZ).1.2.1)).getD []).length
                  : Int) := by
            cases utfBytes with
            | none => simp only [Option.map_none', Option.getD_none, List.length_nil] at hbuf ⊢; omega
            | some m =>
              simp only [Option.map_some', Option.getD_some, List.length_drop] at hbuf ⊢
              omega
          obtain ⟨hfl, evs, hevs, hpieces⟩ := ih _ _ _ _ _ _ hbuf2 h
          have key : ∃ ev : Event, s2.trace = s.trace ++ [ev] ++ sends
              ∧ [] ∉ writtenPieces [ev] := by
            refine ⟨_, htr, ?_⟩
            simp only [writtenPieces, if_pos hstat, List.mem_singleton]
            exact fun h0 => hne h0.symm
          obtain ⟨ev, htr2, hev⟩ := key
          refine ⟨?_, [ev] ++ sends ++ evs, ?_, ?_⟩
          · rw [hfl, hconn]
            simp only [flagsAfterWrite]
            rw [if_neg (fun hz => hlen hz.1)]
          · rw [hevs, htr2]
            simp only [List.append_assoc]
          · rw [writtenPieces_append, writtenPieces_append, writtenPieces_sends sends hsends]
            simp only [List.append_nil, List.mem_append, not_or]
            exact ⟨hev, hpieces⟩
    · cases h
      exact ⟨rfl, [], by simp, by simp [writtenPieces]⟩

/-- C39, the code against the claim: in chunked mode, with a converter that
produces nothing for a blank, `Ns_WriteCharConn` on the three bytes `A B`
with a blank between them writes the zero-length terminating chunk after the
chunk of `A` and before the chunk of `B`, and sets
`NS_CONN_SENT_LAST_CHUNK`. -/
theorem C39_counterexample :
    ((Ns_WriteCharConn blankDropper 3 (encodingSys NS_CONN_WRITE_CHUNKED [] ())
        (some [65, 32, 66]) 3).map
      (fun r => (r.1, flagSet r.2.conn.flags NS_CONN_SENT_LAST_CHUNK, accepted r.2.trace,
        writtenPieces r.2.trace)))
      = some (NS_OK, true,
          [49, 13, 10, 65, 13, 10, 48, 13, 10, 13, 10, 49, 13, 10, 66, 13, 10],
          [[65], [], [66]])
    ∧ flagSet (encodingSys NS_CONN_WRITE_CHUNKED [] ()).conn.flags NS_CONN_SENT_LAST_CHUNK
        = false := by
  refine ⟨by decide, by decide⟩

/-- C39, amended: on a connection in chunked mode with a configured
encoding, with a converter that produces at least one byte on every call
that does not fail hard, every call of `Ns_WriteCharConn` on `len` readable
bytes that returns leaves the flags as they were, so it does not set
`NS_CONN_SENT_LAST_CHUNK`, and hands no empty payload to `Ns_WriteConn`, so
it emits no zero-length chunk; a converter call that produces nothing makes
the function write the terminating chunk. -/
theorem C39_produced_bytes_keep_stream_open {ω : Type} (E : Ext ω) (fuel : Nat)
    (s s1 : Sys ω) (mem : List Nat) (len : Nat) (r : Int)
    (henc : s.conn.encoding = true)
    (hchunk : flagSet s.conn.flags NS_CONN_WRITE_CHUNKED = true)
    (hbuf : len ≤ mem.length) (hprod : ConverterProduces E)
    (h : Ns_WriteCharConn E fuel s (some mem) len = some (r, s1)) :
    s1.conn.flags = s.conn.flags
      ∧ flagSet s1.conn.flags NS_CONN_WRITE_CHUNKED = true
      ∧ flagSet s1.conn.flags NS_CONN_SENT_LAST_CHUNK
          = flagSet s.conn.flags NS_CONN_SENT_LAST_CHUNK
      ∧ ∃ evs, s1.trace = s.trace ++ evs ∧ [] ∉ writtenPieces evs := by
  have henc' : ¬ (s.conn.encoding = false) := by simp [henc]
  unfold Ns_WriteCharConn at h
  rw [if_neg henc'] at h
  obtain ⟨hfl, hev⟩ := writeCharLoop_keeps_flags E hprod fuel fuel s s1 NS_OK (some mem) _ r
    (by simp only [Option.getD_some]; omega) h
  exact ⟨hfl, by rw [hfl]; exact hchunk, by rw [hfl], hev⟩

/-- The converter of `doubling` produces two bytes for each source byte. -/
theorem doubling_produces : ConverterProduces doubling := by
  intro w src hsrc _
  cases src with
  | nil => exact absurd rfl hsrc
  | cons a t => cases t <;> simp [doubling]

/-- C39 on the text `AB` in chunked mode with the converter of `doubling`:
the call returns `NS_OK`, the flags are still `NS_CONN_WRITE_CHUNKED` alone
and the one payload written is not empty. -/
theorem C39_witness :
    ∃ s1, Ns_WriteCharConn doubling 3 (encodingSys NS_CONN_WRITE_CHUNKED [] ()) (some [65, 66]) 2
        = some (NS_OK, s1)
      ∧ s1.conn.flags = NS_CONN_WRITE_CHUNKED
      ∧ flagSet s1.conn.flags NS_CONN_WRITE_CHUNKED = true
      ∧ flagSet s1.conn.flags NS_CONN_SENT_LAST_CHUNK = false
      ∧ ∃ evs, s1.trace = [] ++ evs ∧ [] ∉ writtenPieces evs := by
  have hs : (Ns_WriteCharConn doubling 3 (encodingSys NS_CONN_WRITE_CHUNKED [] ())
      (some [65, 66]) 2).map (fun r => r.1) = some NS_OK := by decide
  obtain ⟨⟨r, s1⟩, he, hr⟩ := Option.map_eq_some'.1 hs
  have hr' : r = NS_OK := hr
  subst hr'
  have h := C39_produced_bytes_keep_stream_open doubling 3
    (encodingSys NS_CONN_WRITE_CHUNKED [] ()) s1 [65, 66] 2 NS_OK rfl (by decide) (by decide)
    doubling_produces he
  exact ⟨s1, he, h.1, h.2.1, h.2.2.1.trans (by decide), h.2.2.2⟩


/-! ## Termination of `Ns_ConnSend` -/

/-- On a transport that never takes a byte and never fails the send loop
does not end while something is left to write. -/
theorem sendLoop_stalled : ∀ (fuel : Nat) (st : SendState Unit), 0 < st.towrite →
    sendLoop stalled fuel st = none := by
  intro fuel
  induction fuel with
  | zero =>
    intro st h
    simp only [sendLoop, if_pos h]
  | succ fuel ih =>
    intro st h
    have h0 : (stalled.NsSockSend st.world st.bufs).1 = 0 := rfl
    simp only [sendLoop, if_pos h, h0, lt_irrefl, if_false, sub_zero]
    exact ih _ h

/-- If no `NsSockSend` call on a non-empty vector returns 0, the send loop
ends after at most `towrite` transport calls. -/
theorem sendLoop_bounded {ω : Type} (E : Ext ω)
    (hprog : ∀ w v, 0 < iovTotal v → (E.NsSockSend w v).1 ≠ 0) :
    ∀ (fuel : Nat) (st : SendState ω), st.towrite = iovTotal st.bufs →
      st.towrite.toNat ≤ fuel →
      ∃ st1 evs, sendLoop E fuel st = some st1 ∧ st1.trace = st.trace ++ evs
        ∧ evs.length ≤ st.towrite.toNat := by
  intro fuel
  induction fuel with
  | zero =>
    intro st _ hfuel
    exact ⟨st, [], sendLoop_done E 0 st (by omega), by simp, by simp⟩
  | succ fuel ih =>
    intro st htw hfuel
    by_cases hpos : 0 < st.towrite
    · have hne := hprog st.world st.bufs (by omega)
      simp only [sendLoop, if_pos hpos]
      by_cases hneg : (E.NsSockSend st.world st.bufs).1 < 0
      · rw [if_pos hneg]
        exact ⟨_, [Event.sockSend st.bufs (E.NsSockSend st.world st.bufs).1], rfl, rfl,
          by simp only [List.length_singleton]; omega⟩
      · rw [if_neg hneg]
        by_cases hmore : 0 < st.towrite - (E.NsSockSend st.world st.bufs).1
        · rw [if_pos hmore]
          obtain ⟨st1, evs, h1, h2, h3⟩ := ih
            { world := (E.NsSockSend st.world st.bufs).2,
              trace := st.trace ++ [Event.sockSend st.bufs (E.NsSockSend st.world st.bufs).1],
              bufs := (advanceBufs st.bufs (E.NsSockSend st.world st.bufs).1).1,
              towrite := st.towrite - (E.NsSockSend st.world st.bufs).1,
              nwrote := st.nwrote + (E.NsSockSend st.world st.bufs).1,
              n := (advanceBufs st.bufs (E.NsSockSend st.world st.bufs).1).2 }
            (by
              simp only
              rw [iovTotal_advanceBufs st.bufs _ (by omega) (by omega), htw])
            (by simp only; omega)
          refine ⟨st1, Event.sockSend st.bufs (E.NsSockSend st.world st.bufs).1 :: evs, h1, ?_,
            ?_⟩
          · rw [h2]
            simp
          · simp only [List.length_cons]
            simp only at h3
            omega
        · rw [if_neg hmore]
          exact ⟨_, [Event.sockSend st.bufs (E.NsSockSend st.world st.bufs).1], rfl, rfl,
            by simp only [List.length_singleton]; omega⟩
    · exact ⟨st, [], sendLoop_done E _ st (by omega), by simp, by simp⟩

theorem sendFinish_trace {ω : Type} (s : Sys ω) (st : SendState ω) :
    (sendFinish s st).2.trace = st.trace := by
  simp only [sendFinish]
  split_ifs <;> rfl

/-- C40, the code against the claim: a transport that accepts 0 bytes on
every call accepts between 0 and all of the bytes offered, and on it
`Ns_ConnSend` with one byte to send does not return, whatever the number of
rounds given to its loop. -/
theorem C40_counterexample :
    (∀ fuel, Ns_ConnSend stalled fuel (sampleSys 0 [] ()) [IoVec.mk (some [65]) 1] = none)
      ∧ (∀ w v, 0 ≤ (stalled.NsSockSend w v).1 ∧ (stalled.NsSockSend w v).1 ≤ iovTotal v) := by
  constructor
  · intro fuel
    have h := sendLoop_stalled fuel
      (sendInit (sampleSys 0 [] ()) [IoVec.mk (some [65]) 1]) (by decide)
    have hs : ¬ ((sampleSys 0 [] ()).conn.sockPtr = false) := by decide
    simp only [Ns_ConnSend, if_neg hs, h]
  · intro w v
    exact ⟨le_refl _, iovTotal_nonneg v⟩

/-- C40, amended: for every transport whose send calls on a non-empty vector
either report an error or accept at least one byte, `Ns_ConnSend` returns:
given as many rounds as bytes are offered (the queued bytes and the bytes of
the caller's buffers) it produces its result after at most that many
transport calls, and the trace grows by these calls only. -/
theorem C40_send_returns_within_bytes_offered {ω : Type} (E : Ext ω) (fuel : Nat) (s : Sys ω)
    (bufs : List IoVec)
    (hprog : ∀ w v, 0 < iovTotal v → (E.NsSockSend w v).1 ≠ 0)
    (hfuel : (s.conn.queued.length : Int) + iovTotal bufs ≤ (fuel : Int)) :
    ∃ r s1 evs, Ns_ConnSend E fuel s bufs = some (r, s1)
      ∧ s1.trace = s.trace ++ evs
      ∧ (∀ e ∈ evs, e.isSend = true)
      ∧ (evs.length : Int) ≤ (s.conn.queued.length : Int) + iovTotal bufs := by
  cases hsock : s.conn.sockPtr with
  | false =>
    refine ⟨_, _, [], Ns_ConnSend_nosock E fuel s bufs hsock, by simp, by simp, ?_⟩
    have := iovTotal_nonneg bufs
    simp only [List.length_nil]
    omega
  | true =>
    have hle := iovTotal_sendVector_le s.conn.queued bufs
    have hnn := iovTotal_nonneg (sendVector s.conn.queued bufs)
    obtain ⟨st1, evs, h, htr, hlen⟩ := sendLoop_bounded E hprog fuel (sendInit s bufs) rfl
      (by simp only [sendInit]; omega)
    have hcall : Ns_ConnSend E fuel s bufs = some (sendFinish s st1) := by
      simp [Ns_ConnSend, hsock, h]
    have htr2 : (sendFinish s st1).2.trace = s.trace ++ evs := by
      rw [sendFinish_trace, htr]
      rfl
    obtain ⟨evs1, he1, hsend⟩ := Ns_ConnSend_events E fuel s _ bufs _ hcall
    have heq : evs1 = evs := List.append_cancel_left (he1.symm.trans htr2)
    refine ⟨_, _, evs, hcall, htr2, by rw [← heq]; exact hsend, ?_⟩
    simp only [sendInit] at hlen
    omega

/-- C40 on the transport that takes one byte per call, with one queued byte
and a buffer of two bytes: the call returns after at most three transport
calls. -/
theorem C40_witness :
    (∀ (w : Unit) (v : List IoVec), 0 < iovTotal v → (oneByte.NsSockSend w v).1 ≠ 0)
      ∧ ((sampleSys 0 [1] ()).conn.queued.length : Int) + iovTotal [IoVec.mk (some [2, 3]) 2]
          ≤ ((3 : Nat) : Int)
      ∧ ∃ r s1 evs, Ns_ConnSend oneByte 3 (sampleSys 0 [1] ()) [IoVec.mk (some [2, 3]) 2]
            = some (r, s1)
          ∧ s1.trace = (sampleSys 0 [1] ()).trace ++ evs
          ∧ (∀ e ∈ evs, e.isSend = true)
          ∧ (evs.length : Int)
              ≤ ((sampleSys 0 [1] ()).conn.queued.length : Int)
                + iovTotal [IoVec.mk (some [2, 3]) 2] :=
  ⟨fun w v h => by have := (oneByte_progress w v h).1; omega, by decide,
    C40_send_returns_within_bytes_offered oneByte 3 (sampleSys 0 [1] ())
      [IoVec.mk (some [2, 3]) 2]
      (fun w v h => by have := (oneByte_progress w v h).1; omega) (by decide)⟩

end NaviServer
